import Mathlib

/-!
# VirtFS 9P client: codec, PDU framing and request management

A shallow embedding of `fs/virtfs/9pclient.cc` and `include/osv/9pclient.hh`.

Conventions of the embedding.

* Fixed-width C integers are represented by their unsigned bit pattern as a
  `Nat`; every place where the C code narrows or wraps carries an explicit
  `% 2 ^ w`.  Signed quantities that are compared with zero (`errcode`, the
  value returned by `p9_idpool_get`) are `Int`.
* A `char *` is `Option (List Nat)`: `none` is `NULL`, `some bs` is the C string
  whose bytes before the terminating NUL are `bs`.
* The `sdata` buffer of a PDU is a `List Nat` of bytes; `memcpy` into it is
  `poke`, `memcpy` out of it is `List.drop`/`List.take`.
* `va_list` arguments are a `List Val`; consuming an argument of the wrong
  kind is undefined behaviour in C and yields `none`.
* `malloc` is assumed to succeed.
-/

namespace P9

/-! ## Constants -/

def EFAULT : Int := 14
def ENOMEM : Int := 12
def USHRT_MAX : Nat := 65535

def p9_proto_legacy : Nat := 0
def p9_proto_2000u : Nat := 1
def p9_proto_2000L : Nat := 2

/-! ## Data model (`include/osv/9pclient.hh`) -/

/-- A `char *`: `none` is `NULL`. -/
abbrev CStr := Option (List Nat)

structure p9_qid where
  type : Nat
  version : Nat
  path : Nat
deriving DecidableEq, Repr

structure p9_wstat where
  size : Nat
  type : Nat
  dev : Nat
  qid : p9_qid
  mode : Nat
  atime : Nat
  mtime : Nat
  length : Nat
  name : CStr
  uid : CStr
  gid : CStr
  muid : CStr
  extension : CStr
  n_uid : Nat
  n_gid : Nat
  n_muid : Nat
deriving DecidableEq, Repr

structure p9_stat_dotl where
  st_result_mask : Nat
  qid : p9_qid
  st_mode : Nat
  st_uid : Nat
  st_gid : Nat
  st_nlink : Nat
  st_rdev : Nat
  st_size : Nat
  st_blksize : Nat
  st_blocks : Nat
  st_atime_sec : Nat
  st_atime_nsec : Nat
  st_mtime_sec : Nat
  st_mtime_nsec : Nat
  st_ctime_sec : Nat
  st_ctime_nsec : Nat
  st_btime_sec : Nat
  st_btime_nsec : Nat
  st_gen : Nat
  st_data_version : Nat
deriving DecidableEq, Repr

structure p9_iattr_dotl where
  valid : Nat
  mode : Nat
  uid : Nat
  gid : Nat
  size : Nat
  atime_sec : Nat
  atime_nsec : Nat
  mtime_sec : Nat
  mtime_nsec : Nat
deriving DecidableEq, Repr

/-- The packet structure `struct p9_fcall`: `size` is `uint32_t`, `id` is
`uint8_t`, `tag` is `uint16_t`, `offset` and `capacity` are `size_t`. -/
structure p9_fcall where
  size : Nat
  id : Nat
  tag : Nat
  offset : Nat
  capacity : Nat
  sdata : List Nat
deriving DecidableEq, Repr

/-- One variadic argument of `p9pdu_writef`, or one group of values stored
through the pointer arguments of `p9pdu_readf` by a directive.  For `D` the
`data` pointer is kept as its index into `sdata`. -/
inductive Val where
  | b (v : Nat)
  | w (v : Nat)
  | d (v : Nat)
  | q (v : Nat)
  | s (p : CStr)
  | u (v : Nat)
  | g (v : Nat)
  | Q (qid : p9_qid)
  | S (st : p9_wstat)
  | D (count : Nat) (data : Nat)
  | U (count : Nat) (src : List Nat)
  | T (nwname : Nat) (wnames : Option (List CStr))
  | R (nwqid : Nat) (wqids : Option (List p9_qid))
  | A (st : p9_stat_dotl)
  | I (attr : p9_iattr_dotl)
deriving DecidableEq, Repr

/-! ## Byte-level helpers -/

/-- The `n` bytes of an `n`-byte integer object holding `v`, as laid out in
memory on the little-endian host (`cpu_to_le16/32/64` expand to nothing). -/
def le_bytes : Nat → Nat → List Nat
  | 0, _ => []
  | n + 1, v => (v % 256) :: le_bytes n (v / 256)

/-- The integer held by an object whose bytes in memory are `bs`
(`le16/32/64_to_cpu` expand to nothing). -/
def le_val : List Nat → Nat
  | [] => 0
  | b :: bs => b + 256 * le_val bs

/-- The effect of `memcpy(&mem[pos], bytes, bytes.length)`. -/
def poke (mem : List Nat) (pos : Nat) (bytes : List Nat) : List Nat :=
  mem.take pos ++ bytes ++ mem.drop (pos + bytes.length)

/-- The C string that starts at the first byte of a NUL-terminated buffer. -/
def cstr (buf : List Nat) : List Nat :=
  buf.takeWhile (fun b => b ≠ 0)

/-! ## `p9pdu_read` / `p9pdu_write` -/

/-- Embedding of `p9pdu_read`: returns the number of bytes that could not be
read, the updated PDU and the bytes copied out. -/
def p9pdu_read (pdu : p9_fcall) (size : Nat) : Nat × p9_fcall × List Nat :=
  let len := min ((pdu.size + 2 ^ 64 - pdu.offset) % 2 ^ 64) size
  (size - len,
   { pdu with offset := (pdu.offset + len) % 2 ^ 64 },
   (pdu.sdata.drop pdu.offset).take len)

/-- Embedding of `p9pdu_write`: returns the number of bytes that could not be
written and the updated PDU. -/
def p9pdu_write (pdu : p9_fcall) (data : List Nat) (size : Nat) : Nat × p9_fcall :=
  let len := min ((pdu.capacity + 2 ^ 64 - pdu.size) % 2 ^ 64) size
  (size - len,
   { pdu with size := (pdu.size + len) % 2 ^ 32,
              sdata := poke pdu.sdata pdu.size (data.take len) })

/-- Modelled from the spec: `uiomove` (declared in `osv/uio.h`, which is not
part of the sources) is taken to move `min n resid` bytes out of the user
vector and to report the number of bytes it moved. -/
def uiomove (n : Nat) (src : List Nat) : Nat × List Nat :=
  (min n src.length, src.take n)

/-- Embedding of `p9pdu_write_u`. -/
def p9pdu_write_u (pdu : p9_fcall) (src : List Nat) (size : Nat) : Nat × p9_fcall :=
  let len0 := min ((pdu.capacity + 2 ^ 64 - pdu.size) % 2 ^ 64) size
  let mv := uiomove len0 src
  (size - mv.1,
   { pdu with size := (pdu.size + mv.1) % 2 ^ 32,
              sdata := poke pdu.sdata pdu.size mv.2 })

/-! ## The format-string codec (`p9pdu_vwritef`, `p9pdu_vreadf`) -/

/-- The format that the `S` directive expands to. -/
def fmt_S : List Char := "wwdQdddqssss?sugu".toList

/-- The format that the `A` directive expands to. -/
def fmt_A : List Char := "qQdugqqqqqqqqqqqqqqq".toList

/-- The format that the `I` directive expands to. -/
def fmt_I : List Char := "ddugqqqqq".toList

/-- The result of a nested `p9pdu_writef` call. -/
abbrev WRes := Option (Int × p9_fcall)

/-- The result of a nested `p9pdu_readf` call: error code, PDU, values stored. -/
abbrev RRes := Option (Int × p9_fcall × List Val)

/-- A scalar directive of the encoder: `if (p9pdu_write(...)) errcode = -EFAULT`. -/
def write_scalar (pdu : p9_fcall) (n : Nat) (v : Nat) : Int × p9_fcall :=
  let r := p9pdu_write pdu (le_bytes n (v % 2 ^ (8 * n))) n
  (if r.1 ≠ 0 then -EFAULT else 0, r.2)

/-- The `for (i = 0; i < n; i++)` loops of the `T` and `R` cases of the
encoder: one nested call per element, stopping at the first error. -/
def vwritef_each (f : p9_fcall → Val → WRes) : List Val → p9_fcall → WRes
  | [], pdu => some (0, pdu)
  | x :: xs, pdu =>
    match f pdu x with
    | none => none
    | some (err, pdu1) => if err ≠ 0 then some (err, pdu1) else vwritef_each f xs pdu1

/-- One `case` of the `switch` in `p9pdu_vwritef`; `nested` is `p9pdu_writef`
with the same protocol version.  Returns the error code, the PDU and the
arguments not yet consumed. -/
def vwritef_case (nested : List Char → p9_fcall → List Val → WRes)
    (c : Char) (pdu : p9_fcall) (args : List Val) : Option (Int × p9_fcall × List Val) :=
  if c = 'b' then
    match args with
    | Val.b v :: rest => let r := write_scalar pdu 1 v; some (r.1, r.2, rest)
    | _ => none
  else if c = 'w' then
    match args with
    | Val.w v :: rest => let r := write_scalar pdu 2 v; some (r.1, r.2, rest)
    | _ => none
  else if c = 'd' then
    match args with
    | Val.d v :: rest => let r := write_scalar pdu 4 v; some (r.1, r.2, rest)
    | _ => none
  else if c = 'q' then
    match args with
    | Val.q v :: rest => let r := write_scalar pdu 8 v; some (r.1, r.2, rest)
    | _ => none
  else if c = 's' then
    match args with
    | Val.s sptr :: rest =>
      let len := match sptr with
        | none => 0
        | some bs => min bs.length USHRT_MAX
      match nested ['w'] pdu [Val.w len] with
      | none => none
      | some (err, pdu1) =>
        if err ≠ 0 then some (err, pdu1, rest)
        else
          let r := p9pdu_write pdu1 (sptr.getD []) len
          some (if r.1 ≠ 0 then -EFAULT else 0, r.2, rest)
    | _ => none
  else if c = 'u' then
    match args with
    | Val.u v :: rest => let r := write_scalar pdu 4 v; some (r.1, r.2, rest)
    | _ => none
  else if c = 'g' then
    match args with
    | Val.g v :: rest => let r := write_scalar pdu 4 v; some (r.1, r.2, rest)
    | _ => none
  else if c = 'Q' then
    match args with
    | Val.Q qid :: rest =>
      match nested ['b', 'd', 'q'] pdu [Val.b qid.type, Val.d qid.version, Val.q qid.path] with
      | none => none
      | some (err, pdu1) => some (err, pdu1, rest)
    | _ => none
  else if c = 'S' then
    match args with
    | Val.S st :: rest =>
      match nested fmt_S pdu
          [Val.w st.size, Val.w st.type, Val.d st.dev, Val.Q st.qid,
           Val.d st.mode, Val.d st.atime, Val.d st.mtime, Val.q st.length,
           Val.s st.name, Val.s st.uid, Val.s st.gid, Val.s st.muid,
           Val.s st.extension, Val.u st.n_uid, Val.g st.n_gid, Val.u st.n_muid] with
      | none => none
      | some (err, pdu1) => some (err, pdu1, rest)
    | _ => none
  else if c = 'U' then
    match args with
    | Val.U count src :: rest =>
      match nested ['d'] pdu [Val.d count] with
      | none => none
      | some (err, pdu1) =>
        if err ≠ 0 then some (err, pdu1, rest)
        else
          let r := p9pdu_write_u pdu1 src (count % 2 ^ 32)
          some (if r.1 ≠ 0 then -EFAULT else 0, r.2, rest)
    | _ => none
  else if c = 'T' then
    match args with
    | Val.T nwname wnames :: rest =>
      let n := nwname % 2 ^ 16
      match nested ['w'] pdu [Val.w n] with
      | none => none
      | some (err, pdu1) =>
        if err ≠ 0 then some (err, pdu1, rest)
        else if (wnames.getD []).length < n then none
        else
          match vwritef_each (fun p x => nested ['s'] p [x])
              (((wnames.getD []).take n).map Val.s) pdu1 with
          | none => none
          | some (err2, pdu2) => some (err2, pdu2, rest)
    | _ => none
  else if c = 'R' then
    match args with
    | Val.R nwqid wqids :: rest =>
      let n := nwqid % 2 ^ 16
      match nested ['w'] pdu [Val.w n] with
      | none => none
      | some (err, pdu1) =>
        if err ≠ 0 then some (err, pdu1, rest)
        else if (wqids.getD []).length < n then none
        else
          match vwritef_each (fun p x => nested ['Q'] p [x])
              (((wqids.getD []).take n).map Val.Q) pdu1 with
          | none => none
          | some (err2, pdu2) => some (err2, pdu2, rest)
    | _ => none
  else if c = 'I' then
    match args with
    | Val.I a :: rest =>
      match nested fmt_I pdu
          [Val.d a.valid, Val.d a.mode, Val.u a.uid, Val.g a.gid, Val.q a.size,
           Val.q a.atime_sec, Val.q a.atime_nsec, Val.q a.mtime_sec, Val.q a.mtime_nsec] with
      | none => none
      | some (err, pdu1) => some (err, pdu1, rest)
    | _ => none
  else
    -- `default: BUG(); break;` where `BUG()` only prints
    some (0, pdu, args)

/-- The `for (ptr = fmt; *ptr; ptr++)` loop of `p9pdu_vwritef`, including the
`?` case, which returns 0 from the whole function unless the protocol is
9P2000.u or 9P2000.L. -/
def vwritef_loop (proto_version : Nat)
    (step : Char → p9_fcall → List Val → Option (Int × p9_fcall × List Val)) :
    List Char → p9_fcall → List Val → WRes
  | [], pdu, _ => some (0, pdu)
  | c :: rest, pdu, args =>
    if c = '?' then
      if proto_version ≠ p9_proto_2000u ∧ proto_version ≠ p9_proto_2000L then some (0, pdu)
      else vwritef_loop proto_version step rest pdu args
    else
      match step c pdu args with
      | none => none
      | some (err, pdu1, args1) =>
        if err ≠ 0 then some (err, pdu1)
        else vwritef_loop proto_version step rest pdu1 args1

/-- Embedding of `p9pdu_vwritef`.  The first argument bounds the depth of
nested `p9pdu_writef` calls; the deepest chain in the source is
`S → s → w`, so depth 3 always suffices. -/
def p9pdu_vwritef : Nat → Nat → List Char → p9_fcall → List Val → WRes
  | 0, _, _, _, _ => none
  | depth + 1, proto_version, fmt, pdu, args =>
    vwritef_loop proto_version (vwritef_case (p9pdu_vwritef depth proto_version)) fmt pdu args

/-- Embedding of `p9pdu_writef` (the variadic wrapper of `p9pdu_vwritef`). -/
def p9pdu_writef (pdu : p9_fcall) (proto_version : Nat) (fmt : List Char)
    (args : List Val) : WRes :=
  p9pdu_vwritef 3 proto_version fmt pdu args

/-- A scalar directive of the decoder: `if (p9pdu_read(...)) errcode = -EFAULT`,
otherwise the value is stored through the pointer argument. -/
def read_scalar (pdu : p9_fcall) (n : Nat) (mk : Nat → Val) : Int × p9_fcall × List Val :=
  let r := p9pdu_read pdu n
  if r.1 ≠ 0 then (-EFAULT, r.2.1, []) else (0, r.2.1, [mk (le_val r.2.2)])

/-- The `for (i = 0; i < n; i++)` loops of the `T` and `R` cases of the
decoder: one nested call per element, stopping at the first error. -/
def vreadf_each (f : p9_fcall → RRes) : Nat → p9_fcall → RRes
  | 0, pdu => some (0, pdu, [])
  | n + 1, pdu =>
    match f pdu with
    | none => none
    | some (err, pdu1, vs) =>
      if err ≠ 0 then some (err, pdu1, [])
      else
        match vreadf_each f n pdu1 with
        | none => none
        | some (err2, pdu2, ws) => some (err2, pdu2, vs ++ ws)

/-- The strings stored into the `wnames` array by the `T` loop. -/
def strs_of : List Val → List CStr
  | [] => []
  | Val.s p :: vs => p :: strs_of vs
  | _ :: vs => strs_of vs

/-- The qids stored into the `wqids` array by the `R` loop. -/
def qids_of : List Val → List p9_qid
  | [] => []
  | Val.Q x :: vs => x :: qids_of vs
  | _ :: vs => qids_of vs

/-- The stat buffer after `memset(stbuf, 0, ...)` and the three `~0` stores
at the head of the `S` case of the decoder. -/
def wstat_init : p9_wstat :=
  { size := 0, type := 0, dev := 0, qid := ⟨0, 0, 0⟩, mode := 0, atime := 0,
    mtime := 0, length := 0, name := none, uid := none, gid := none,
    muid := none, extension := none,
    n_uid := 2 ^ 32 - 1, n_gid := 2 ^ 32 - 1, n_muid := 2 ^ 32 - 1 }

/-- The stat buffer after the nested `p9pdu_readf(..., "wwdQdddqssss?sugu", ...)`
has stored its values through the sixteen field pointers, in order; a legacy
session stores only the first twelve. -/
def wstat_store (st : p9_wstat) : List Val → Option p9_wstat
  | [Val.w size, Val.w type, Val.d dev, Val.Q qid, Val.d mode, Val.d atime,
     Val.d mtime, Val.q length, Val.s name, Val.s uid, Val.s gid, Val.s muid] =>
    some { st with size := size, type := type, dev := dev, qid := qid, mode := mode,
                   atime := atime, mtime := mtime, length := length, name := name,
                   uid := uid, gid := gid, muid := muid }
  | [Val.w size, Val.w type, Val.d dev, Val.Q qid, Val.d mode, Val.d atime,
     Val.d mtime, Val.q length, Val.s name, Val.s uid, Val.s gid, Val.s muid,
     Val.s extension, Val.u n_uid, Val.g n_gid, Val.u n_muid] =>
    some { size := size, type := type, dev := dev, qid := qid, mode := mode,
           atime := atime, mtime := mtime, length := length, name := name,
           uid := uid, gid := gid, muid := muid, extension := extension,
           n_uid := n_uid, n_gid := n_gid, n_muid := n_muid }
  | _ => none

/-- The `p9_stat_dotl` buffer after the nested
`p9pdu_readf(..., "qQdugqqqqqqqqqqqqqqq", ...)` has stored its twenty values. -/
def stat_dotl_store : List Val → Option p9_stat_dotl
  | [Val.q a0, Val.Q a1, Val.d a2, Val.u a3, Val.g a4, Val.q a5, Val.q a6,
     Val.q a7, Val.q a8, Val.q a9, Val.q a10, Val.q a11, Val.q a12, Val.q a13,
     Val.q a14, Val.q a15, Val.q a16, Val.q a17, Val.q a18, Val.q a19] =>
    some ⟨a0, a1, a2, a3, a4, a5, a6, a7, a8, a9, a10, a11, a12, a13, a14, a15,
          a16, a17, a18, a19⟩
  | _ => none

/-- One `case` of the `switch` in `p9pdu_vreadf`; `nested` is `p9pdu_readf`
with the same protocol version.  Returns the error code, the PDU and the
values stored through the pointer arguments of this directive (none when the
directive fails before storing anything). -/
def vreadf_case (nested : List Char → p9_fcall → RRes) (c : Char) (pdu : p9_fcall) : RRes :=
  if c = 'b' then some (read_scalar pdu 1 Val.b)
  else if c = 'w' then some (read_scalar pdu 2 Val.w)
  else if c = 'd' then some (read_scalar pdu 4 Val.d)
  else if c = 'q' then some (read_scalar pdu 8 Val.q)
  else if c = 's' then
    match nested ['w'] pdu with
    | some (err, pdu1, vs) =>
      if err ≠ 0 then some (err, pdu1, [])
      else
        match vs with
        | [Val.w len] =>
          let r := p9pdu_read pdu1 len
          if r.1 ≠ 0 then some (-EFAULT, r.2.1, [Val.s none])
          else some (0, r.2.1, [Val.s (some (cstr r.2.2))])
        | _ => none
    | none => none
  else if c = 'u' then some (read_scalar pdu 4 Val.u)
  else if c = 'g' then some (read_scalar pdu 4 Val.g)
  else if c = 'Q' then
    match nested ['b', 'd', 'q'] pdu with
    | some (err, pdu1, vs) =>
      if err ≠ 0 then some (err, pdu1, [])
      else
        match vs with
        | [Val.b t, Val.d v, Val.q p] => some (0, pdu1, [Val.Q ⟨t, v, p⟩])
        | _ => none
    | none => none
  else if c = 'S' then
    match nested fmt_S pdu with
    | some (err, pdu1, vs) =>
      if err ≠ 0 then some (err, pdu1, [])
      else
        match wstat_store wstat_init vs with
        | some st => some (0, pdu1, [Val.S st])
        | none => none
    | none => none
  else if c = 'D' then
    match nested ['d'] pdu with
    | some (err, pdu1, vs) =>
      if err ≠ 0 then some (err, pdu1, [])
      else
        match vs with
        | [Val.d count] =>
          some (0, pdu1,
            [Val.D (min count (((pdu1.size + 2 ^ 64 - pdu1.offset) % 2 ^ 64) % 2 ^ 32))
                   pdu1.offset])
        | _ => none
    | none => none
  else if c = 'T' then
    match nested ['w'] pdu with
    | some (err, pdu1, vs) =>
      if err ≠ 0 then some (err, pdu1, [])
      else
        match vs with
        | [Val.w nwname] =>
          match vreadf_each (nested ['s']) nwname pdu1 with
          | some (err2, pdu2, ws) =>
            if err2 ≠ 0 then some (err2, pdu2, [Val.T nwname none])
            else some (0, pdu2, [Val.T nwname (some (strs_of ws))])
          | none => none
        | _ => none
    | none => none
  else if c = 'R' then
    match nested ['w'] pdu with
    | some (err, pdu1, vs) =>
      if err ≠ 0 then some (err, pdu1, [])
      else
        match vs with
        | [Val.w nwqid] =>
          match vreadf_each (nested ['Q']) nwqid pdu1 with
          | some (err2, pdu2, ws) =>
            if err2 ≠ 0 then some (err2, pdu2, [Val.R nwqid none])
            else some (0, pdu2, [Val.R nwqid (some (qids_of ws))])
          | none => none
        | _ => none
    | none => none
  else if c = 'A' then
    match nested fmt_A pdu with
    | some (err, pdu1, vs) =>
      if err ≠ 0 then some (err, pdu1, [])
      else
        match stat_dotl_store vs with
        | some st => some (0, pdu1, [Val.A st])
        | none => none
    | none => none
  else
    -- `default: BUG(); break;` where `BUG()` only prints
    some (0, pdu, [])

/-- The `for (ptr = fmt; *ptr; ptr++)` loop of `p9pdu_vreadf`, including the
`?` case. -/
def vreadf_loop (proto_version : Nat) (step : Char → p9_fcall → RRes) :
    List Char → p9_fcall → RRes
  | [], pdu => some (0, pdu, [])
  | c :: rest, pdu =>
    if c = '?' then
      if proto_version ≠ p9_proto_2000u ∧ proto_version ≠ p9_proto_2000L then some (0, pdu, [])
      else vreadf_loop proto_version step rest pdu
    else
      match step c pdu with
      | none => none
      | some (err, pdu1, vs) =>
        if err ≠ 0 then some (err, pdu1, vs)
        else
          match vreadf_loop proto_version step rest pdu1 with
          | none => none
          | some (err2, pdu2, ws) => some (err2, pdu2, vs ++ ws)

/-- Embedding of `p9pdu_vreadf`; the first argument bounds the depth of
nested `p9pdu_readf` calls, as in `p9pdu_vwritef`. -/
def p9pdu_vreadf : Nat → Nat → List Char → p9_fcall → RRes
  | 0, _, _, _ => none
  | depth + 1, proto_version, fmt, pdu =>
    vreadf_loop proto_version (vreadf_case (p9pdu_vreadf depth proto_version)) fmt pdu

/-- Embedding of `p9pdu_readf` (the variadic wrapper of `p9pdu_vreadf`). -/
def p9pdu_readf (pdu : p9_fcall) (proto_version : Nat) (fmt : List Char) : RRes :=
  p9pdu_vreadf 3 proto_version fmt pdu

/-! ## PDU framing -/

/-- Embedding of `p9pdu_prepare`: `tag` is `int16_t`, `type` is `int8_t`;
`pdu->id` is `uint8_t`. -/
def p9pdu_prepare (pdu : p9_fcall) (tag : Nat) (type : Nat) : WRes :=
  p9pdu_writef { pdu with id := type % 2 ^ 8 } 0 ['d', 'b', 'w']
    [Val.d 0, Val.b type, Val.w tag]

/-- Embedding of `p9pdu_finalize`: `int size = pdu->size; pdu->size = 0;
err = p9pdu_writef(pdu, 0, "d", size); pdu->size = size;`. -/
def p9pdu_finalize (pdu : p9_fcall) : WRes :=
  (p9pdu_writef { pdu with size := 0 } 0 ['d'] [Val.d pdu.size]).map fun r =>
    (r.1, { r.2 with size := pdu.size % 2 ^ 32 })

/-- Embedding of `p9pdu_reset`. -/
def p9pdu_reset (pdu : p9_fcall) : p9_fcall :=
  { pdu with offset := 0, size := 0 }

/-- Embedding of `p9_parse_header`.  `int offset = pdu->offset` keeps the low
32 bits of the cursor as a signed `int`, and `pdu->offset = offset` converts it
back to `size_t`.  The three output pointers may be null in the source; the
values they would receive are returned in the last component (`r_size`,
`r_type`, `r_tag`), which is `none` on the error path. -/
def p9_parse_header (pdu : p9_fcall) (rewind : Bool) :
    Option (Int × p9_fcall × Option (Nat × Nat × Nat)) :=
  let o32 := pdu.offset % 2 ^ 32
  let offset := if o32 < 2 ^ 31 then o32 else o32 + (2 ^ 64 - 2 ^ 32)
  let rewind_and_exit := fun (p : p9_fcall) => if rewind then { p with offset := offset } else p
  (p9pdu_readf { pdu with offset := 0, size := if pdu.size = 0 then 7 else pdu.size } 0
      ['d', 'b', 'w']).bind fun r =>
    if r.1 ≠ 0 then some (r.1, rewind_and_exit r.2.1, none)
    else
      match r.2.2 with
      | [Val.d r_size, Val.b r_type, Val.w r_tag] =>
        some (0, rewind_and_exit { r.2.1 with size := r_size, id := r_type, tag := r_tag },
              some (r_size, r_type, r_tag))
      | _ => none

/-! ## Session model (`p9_idpool`, request table, `p9_client`) -/

def EIO : Int := 5
def EINVAL : Int := 22
def ENOENT : Int := 2
def ERESTART : Int := 85
def EREMOTEIO : Int := 121

def P9_NOTAG : Nat := 65535
def P9_ROW_MAXTAG : Nat := 255
def P9_IOHDRSZ : Nat := 24
def P9_ID_MAX : Int := 2147483646

def P9_RLERROR : Nat := 7
def P9_TSTATFS : Nat := 8
def P9_TLOPEN : Nat := 12
def P9_TLCREATE : Nat := 14
def P9_TMKDIR : Nat := 72
def P9_TUNLINKAT : Nat := 76
def P9_TVERSION : Nat := 100
def P9_RERROR : Nat := 107
def P9_TFLUSH : Nat := 108
def P9_TWALK : Nat := 110
def P9_TOPEN : Nat := 112
def P9_TREAD : Nat := 116
def P9_TCLUNK : Nat := 120
def P9_TWSTAT : Nat := 126

def REQ_STATUS_IDLE : Nat := 0
def REQ_STATUS_ALLOC : Nat := 1
def REQ_STATUS_UNSENT : Nat := 2
def REQ_STATUS_SENT : Nat := 3
def REQ_STATUS_RCVD : Nat := 4
def REQ_STATUS_FLSHD : Nat := 5
def REQ_STATUS_ERROR : Nat := 6

inductive p9_trans_status where
  | Connected
  | BeginDisconnect
  | Disconnected
  | Hung
deriving DecidableEq, Repr

/-- The class `p9_idpool`: the `unordered_set<int>` of ids in use and the
last id handed out. -/
structure p9_idpool where
  _pool : Finset Int
  _last_id : Int
deriving DecidableEq

/-- The `do { ... } while (id != last)` loop of `p9_idpool_get`; `none` when
the loop has not ended after the given number of iterations. -/
def idpool_loop (pool : Finset Int) (last : Int) : Nat → Int → Option Int
  | 0, _ => none
  | fuel + 1, id =>
    let id1 := if id + 1 > P9_ID_MAX then 0 else id + 1
    if id1 ∉ pool then some id1
    else if id1 ≠ last then idpool_loop pool last fuel id1
    else some (-1)

/-- Embedding of `p9_idpool::p9_idpool_get`: the id returned (or -1) and the
pool afterwards.  The loop visits at most `P9_ID_MAX + 1` ids before `id`
comes back to `last`, so `2 ^ 31` iterations are enough whenever the C loop
ends; `none` stands for a loop that never ends. -/
def p9_idpool_get (p : p9_idpool) : Option (Int × p9_idpool) :=
  (idpool_loop p._pool p._last_id (2 ^ 31) p._last_id).map fun id =>
    if id < 0 then (id, p) else (id, { _pool := insert id p._pool, _last_id := id })

/-- Embedding of `p9_idpool::p9_idpool_put`. -/
def p9_idpool_put (p : p9_idpool) (id : Int) : p9_idpool :=
  { p with _pool := p._pool.erase id }

/-- Embedding of `p9_idpool::p9_idpool_check`. -/
def p9_idpool_check (p : p9_idpool) (id : Int) : Bool :=
  decide (id ∈ p._pool)

/-- The request slot `struct p9_req_t`; `tc` and `rc` are pointers (`none`
is null). -/
structure p9_req_t where
  status : Nat
  t_err : Int
  tc : Option p9_fcall
  rc : Option p9_fcall
deriving DecidableEq, Repr

/-- The handle `struct p9_fid` (without the back pointer and the readdir
buffer). -/
structure p9_fid where
  fid : Nat
  mode : Int
  qid : p9_qid
  iounit : Nat
  uid : Nat
deriving DecidableEq, Repr

/-- The class `p9_client`.  `_reqs` maps a row index to the row it points to
(`none` for a row pointer that was never set); the bound of 255 row pointers
of the C array is checked where a row is indexed.  `_fidlist` holds, for every
`p9_fid *` of the list, the id of the FID it points to. -/
structure p9_client where
  _msize : Nat
  _proto_version : Nat
  _status : p9_trans_status
  _fidpool : p9_idpool
  _fidlist : List Nat
  _tagpool : p9_idpool
  _reqs : Nat → Option (List p9_req_t)
  _max_tag : Int

/-- A request: the address of its slot, as (row, column). -/
abbrev Slot := Nat × Nat

/-- Embedding of `p9_fcall_alloc`; the bytes and header fields of the fresh
block are indeterminate in C and taken to be zero. -/
def p9_fcall_alloc (alloc_msize : Nat) : p9_fcall :=
  ⟨0, 0, 0, 0, alloc_msize, List.replicate alloc_msize 0⟩

/-- A row as returned by `calloc(P9_ROW_MAXTAG, sizeof(struct p9_req_t))`. -/
def idle_row : List p9_req_t :=
  List.replicate P9_ROW_MAXTAG ⟨REQ_STATUS_IDLE, 0, none, none⟩

/-- The `while (tag >= _max_tag)` loop of `p9_alloc_req`. -/
def grow_reqs (tag : Nat) :
    Nat → (Nat → Option (List p9_req_t)) × Int → (Nat → Option (List p9_req_t)) × Int
  | 0, s => s
  | fuel + 1, (reqs, max_tag) =>
    if (tag : Int) ≥ max_tag then
      grow_reqs tag fuel
        (fun i => if i = tag / P9_ROW_MAXTAG then some idle_row else reqs i,
         max_tag + P9_ROW_MAXTAG)
    else (reqs, max_tag)

/-- The slot a request handle points to. -/
def get_req (c : p9_client) (slot : Slot) : Option p9_req_t :=
  (c._reqs slot.1).bind fun row => row.get? slot.2

/-- A store through a request handle. -/
def set_req (c : p9_client) (slot : Slot) (r : p9_req_t) : p9_client :=
  { c with _reqs := fun i =>
      if i = slot.1 then (c._reqs i).map fun row => row.set slot.2 r else c._reqs i }

/-- Embedding of `p9_client::p9_alloc_req`; `tag` is the `u16` parameter.
`none` when the row index lies outside `_reqs[P9_ROW_MAXTAG]` or when the row
pointer that is dereferenced was never set. -/
def p9_alloc_req (c : p9_client) (tag : Nat) (max_size : Nat) : Option (p9_client × Slot) :=
  let alloc_msize := min c._msize max_size
  let tag1 : Nat := (tag + 1) % 2 ^ 16
  if tag1 / P9_ROW_MAXTAG ≥ P9_ROW_MAXTAG then none
  else
    let g := if (tag1 : Int) ≥ c._max_tag then grow_reqs tag1 65536 (c._reqs, c._max_tag)
             else (c._reqs, c._max_tag)
    let c1 : p9_client := { c with _reqs := g.1, _max_tag := g.2 }
    let slot : Slot := (tag1 / P9_ROW_MAXTAG, tag1 % P9_ROW_MAXTAG)
    (get_req c1 slot).map fun req =>
      (set_req c1 slot
        { req with
          tc := some { p9pdu_reset (req.tc.getD (p9_fcall_alloc alloc_msize)) with
                       tag := (tag1 + 65535) % 2 ^ 16 },
          rc := some (p9pdu_reset (req.rc.getD (p9_fcall_alloc alloc_msize))),
          status := REQ_STATUS_ALLOC },
       slot)

/-- Embedding of `p9_client::p9_lookup_req` (`none` is `NULL`).  The address
is computed without a bound check on the row. -/
def p9_lookup_req (c : p9_client) (tag : Nat) : Option Slot :=
  let tag1 : Nat := (tag + 1) % 2 ^ 16
  if (tag1 : Int) ≥ c._max_tag then none
  else some (tag1 / P9_ROW_MAXTAG, tag1 % P9_ROW_MAXTAG)

/-- Embedding of `p9_client::p9_free_req`; `none` when `r` or `r->tc` cannot
be dereferenced. -/
def p9_free_req (c : p9_client) (r : Slot) : Option p9_client :=
  (get_req c r).bind fun req => req.tc.map fun tc =>
    let c1 := set_req c r { req with status := REQ_STATUS_IDLE }
    if tc.tag ≠ P9_NOTAG ∧ p9_idpool_check c1._tagpool (tc.tag : Int) = true then
      { c1 with _tagpool := p9_idpool_put c1._tagpool (tc.tag : Int) }
    else c1

/-- The part of `p9_client_prepare_req` after the request has been allocated:
`p9pdu_prepare`, `p9pdu_vwritef` and, when marshalling succeeds,
`p9pdu_finalize` (the return values of the first and the last are ignored by
the source). -/
def prepare_marshal (c : p9_client) (slot : Slot) (tag type : Nat) (fmt : List Char)
    (args : List Val) : Option (p9_client × Option Slot) :=
  (get_req c slot).bind fun req => req.tc.bind fun tc =>
    (p9pdu_prepare tc (tag % 2 ^ 16) type).bind fun p1 =>
      (p9pdu_vwritef 3 c._proto_version fmt p1.2 args).bind fun p2 =>
        if p2.1 ≠ 0 then
          (p9_free_req (set_req c slot { req with tc := some p2.2 }) slot).map fun c1 => (c1, none)
        else
          (p9pdu_finalize p2.2).map fun p3 =>
            (set_req c slot { req with tc := some p3.2 }, some slot)

/-- The part of `p9_client_prepare_req` after the two status checks: take a
tag (`P9_NOTAG` for `Tversion`, an id of the tag pool otherwise), allocate
the slot and marshal. -/
def prepare_admitted (c : p9_client) (type : Nat) (req_size : Nat) (fmt : List Char)
    (args : List Val) : Option (p9_client × Option Slot) :=
  (if type ≠ P9_TVERSION then p9_idpool_get c._tagpool
   else some ((P9_NOTAG : Int), c._tagpool)).bind fun g =>
    if g.1 < 0 then some ({ c with _tagpool := g.2 }, none)
    else
      (p9_alloc_req { c with _tagpool := g.2 } (g.1.toNat % 2 ^ 16) req_size).bind fun a =>
        prepare_marshal a.1 a.2 g.1.toNat type fmt args

/-- Embedding of `p9_client::p9_client_prepare_req`: the session afterwards
and the request (`none` is `nullptr`).  The outer `none` stands for undefined
behaviour or a loop that does not end. -/
def p9_client_prepare_req (c : p9_client) (type : Nat) (req_size : Nat) (fmt : List Char)
    (args : List Val) : Option (p9_client × Option Slot) :=
  if c._status = p9_trans_status.Disconnected then some (c, none)
  else if c._status = p9_trans_status.BeginDisconnect ∧ type ≠ P9_TCLUNK then some (c, none)
  else prepare_admitted c type req_size fmt args

/-- The error dictionary `errmap`, in source order, with the numeric values
of the `errno` constants. -/
def errmap : List (String × Int) := [
    ("Operation not permitted", 1),
    ("wstat prohibited", 1),
    ("No such file or directory", 2),
    ("directory entry not found", 2),
    ("file not found", 2),
    ("Interrupted system call", 4),
    ("Input/output error", 5),
    ("No such device or address", 6),
    ("Argument list too long", 7),
    ("Bad file descriptor", 9),
    ("Resource temporarily unavailable", 11),
    ("Cannot allocate memory", 12),
    ("Permission denied", 13),
    ("Bad address", 14),
    ("Block device required", 15),
    ("Device or resource busy", 16),
    ("File exists", 17),
    ("Invalid cross-device link", 18),
    ("No such device", 19),
    ("Not a directory", 20),
    ("Is a directory", 21),
    ("Invalid argument", 22),
    ("Too many open files in system", 23),
    ("Too many open files", 24),
    ("Text file busy", 26),
    ("File too large", 27),
    ("No space left on device", 28),
    ("Illegal seek", 29),
    ("Read-only file system", 30),
    ("Too many links", 31),
    ("Broken pipe", 32),
    ("Numerical argument out of domain", 33),
    ("Numerical result out of range", 34),
    ("Resource deadlock avoided", 35),
    ("File name too long", 36),
    ("No locks available", 37),
    ("Function not implemented", 38),
    ("Directory not empty", 39),
    ("Too many levels of symbolic links", 40),
    ("No message of desired type", 42),
    ("Identifier removed", 43),
    ("No data available", 61),
    ("Machine is not on the network", 64),
    ("Package not installed", 65),
    ("Object is remote", 66),
    ("Link has been severed", 67),
    ("Communication error on send", 70),
    ("Protocol error", 71),
    ("Bad message", 74),
    ("File descriptor in bad state", 77),
    ("Streams pipe error", 86),
    ("Too many users", 87),
    ("Socket operation on non-socket", 88),
    ("Message too long", 90),
    ("Protocol not available", 92),
    ("Protocol not supported", 93),
    ("Socket type not supported", 94),
    ("Operation not supported", 95),
    ("Protocol family not supported", 96),
    ("Network is down", 100),
    ("Network is unreachable", 101),
    ("Network dropped connection on reset", 102),
    ("Software caused connection abort", 103),
    ("Connection reset by peer", 104),
    ("No buffer space available", 105),
    ("Transport endpoint is already connected", 106),
    ("Transport endpoint is not connected", 107),
    ("Cannot send after transport endpoint shutdown", 108),
    ("Connection timed out", 110),
    ("Connection refused", 111),
    ("Host is down", 112),
    ("No route to host", 113),
    ("Operation already in progress", 114),
    ("Operation now in progress", 115),
    ("Is a named type file", 120),
    ("Remote I/O error", 121),
    ("Disk quota exceeded", 122),
    ("fid unknown or out of range", 9),
    ("permission denied", 13),
    ("file does not exist", 2),
    ("authentication failed", 111),
    ("bad offset in directory read", 29),
    ("bad use of fid", 9),
    ("wstat can't convert between files and directories", 1),
    ("directory is not empty", 39),
    ("file exists", 17),
    ("file already exists", 17),
    ("file or directory already exists", 17),
    ("fid already in use", 9),
    ("file in use", 26),
    ("i/o error", 5),
    ("file already open for I/O", 26),
    ("illegal mode", 22),
    ("illegal name", 36),
    ("not a directory", 20),
    ("not a member of proposed group", 1),
    ("not owner", 13),
    ("only owner can change group in wstat", 13),
    ("read only file system", 30),
    ("no access to special file", 1),
    ("i/o count too large", 5),
    ("unknown group", 22),
    ("unknown user", 22),
    ("bogus wstat buffer", 71),
    ("exclusive use file already open", 11),
    ("corrupted directory entry", 5),
    ("corrupted file entry", 5),
    ("corrupted block label", 5),
    ("corrupted meta data", 5),
    ("illegal offset", 22),
    ("illegal path element", 2),
    ("root of file system is corrupted", 5),
    ("corrupted super block", 5),
    ("protocol botch", 71),
    ("file system is full", 28),
    ("file is in use", 11),
    ("directory entry is not allocated", 2),
    ("file is read only", 30),
    ("file has been removed", 43),
    ("only support truncation to zero length", 1),
    ("cannot remove root", 1),
    ("file too big", 27),
    ("venti i/o error", 5),
    ("u9fs rhostsauth: no authentication required", 0),
    ("u9fs authnone: no authentication required", 0)
  ]

/-- A `char *` seen as an address: the key literal of the `i`-th entry of
`errmap`, or a buffer obtained from `malloc` (holding the given bytes). -/
inductive str_ptr where
  | literal (i : Nat)
  | heap (bytes : List Nat)
deriving DecidableEq, Repr

/-- Embedding of `p9_errstr2errno`: `errmap` is an
`unordered_map<const char *, int>`, so `errmap.find(errstr)` compares the
pointer `errstr` with the addresses of the key literals. -/
def p9_errstr2errno (errstr : str_ptr) : Int :=
  match errstr with
  | str_ptr.literal i => -((errmap.get? i).map Prod.snd).getD 0
  | str_ptr.heap _ => -0

/-- The value of an `int` whose bits are `v`. -/
def to_int32 (v : Nat) : Int :=
  if v % 2 ^ 32 < 2 ^ 31 then (v % 2 ^ 32 : Nat) else ((v % 2 ^ 32 : Nat) : Int) - 2 ^ 32

/-- The error branch of `p9_check_errors` taken when `p9_is_proto_dotl()`
holds: decode `"s?d"` and map the string. -/
def check_errors_dotl (c : p9_client) (slot : Slot) (req : p9_req_t) (rc : p9_fcall) :
    Option (Int × p9_client) :=
  (p9pdu_readf rc c._proto_version ['s', '?', 'd']).bind fun r =>
    let c2 := set_req c slot { req with rc := some r.2.1 }
    if r.1 ≠ 0 then some (r.1, c2)
    else
      match r.2.2 with
      | [Val.s (some ename), Val.d ecode] =>
        let err : Int :=
          if c._proto_version = p9_proto_2000u ∧ to_int32 ecode < 512 then -(to_int32 ecode)
          else 0
        if err = 0 then some (p9_errstr2errno (str_ptr.heap ename), c2) else some (err, c2)
      | _ => none

/-- The error branch of `p9_check_errors` taken otherwise: decode `"d"` and
return `-ecode` (`ecode` is indeterminate when decoding fails). -/
def check_errors_other (c : p9_client) (slot : Slot) (req : p9_req_t) (rc : p9_fcall) :
    Option (Int × p9_client) :=
  (p9pdu_readf rc c._proto_version ['d']).bind fun r =>
    let c2 := set_req c slot { req with rc := some r.2.1 }
    match r.2.2 with
    | [Val.d ecode] => some (-(to_int32 ecode), c2)
    | _ => none

/-- Embedding of `p9_client::p9_check_errors`. -/
def p9_check_errors (c : p9_client) (slot : Slot) : Option (Int × p9_client) :=
  (get_req c slot).bind fun req => req.rc.bind fun rc =>
    (p9_parse_header rc false).bind fun h =>
      let req1 := { req with rc := some h.2.1 }
      let c1 := set_req c slot req1
      if h.1 ≠ 0 then some (h.1, c1)
      else
        match h.2.2 with
        | none => none
        | some hdr =>
          if hdr.2.1 ≠ P9_RERROR ∧ hdr.2.1 ≠ P9_RLERROR then some (0, c1)
          else if c._proto_version = p9_proto_2000L then check_errors_dotl c1 slot req1 h.2.1
          else check_errors_other c1 slot req1 h.2.1

/-- What the caller observes of one `_trans_mod->request` call: its return
value, and the request as it finds it afterwards (status and `t_err` set by
the transport, reply bytes placed in `rc->sdata` by the device).
`old_status` is, for a `Tflush`, the status of the flushed request found
after the flush round trip, when it has changed. -/
structure trans_reply where
  err : Int
  status : Nat
  t_err : Int
  rc_data : List Nat
  old_status : Option Nat
deriving DecidableEq, Repr

/-- A session together with the log of the `tc` PDUs handed to
`_trans_mod->request`, oldest first. -/
structure session where
  clnt : p9_client
  sent : List p9_fcall

/-- The call `_trans_mod->request(this, req)`; the `k`-th call is answered
by `env k`. -/
def trans_request (env : Nat → trans_reply) (s : session) (slot : Slot) :
    Option (Int × session) :=
  (get_req s.clnt slot).bind fun req => req.tc.bind fun tc => req.rc.map fun rc =>
    let rep := env s.sent.length
    (rep.err,
     { clnt := set_req s.clnt slot
         { req with status := rep.status, t_err := rep.t_err,
                    rc := some { rc with sdata := rep.rc_data } },
       sent := s.sent ++ [tc] })

/-- The label `reterr` of `p9_client_rpc`: free the request, return null. -/
def rpc_reterr (s : session) (slot : Slot) : Option (session × Option Slot) :=
  (p9_free_req s.clnt slot).map fun c => ({ s with clnt := c }, none)

/-- Embedding of `p9_client::p9_client_flush`, given `p9_client_rpc`; the
value it returns is ignored by its only caller and is not kept. -/
def p9_client_flush
    (rpc : session → Nat → List Char → List Val → Option (session × Option Slot))
    (env : Nat → trans_reply) (s : session) (oldreq : Slot) : Option session :=
  (get_req s.clnt oldreq).bind fun req => req.tc.bind fun tc =>
    (p9_parse_header tc true).bind fun h =>
      let s1 : session := { s with clnt := set_req s.clnt oldreq { req with tc := some h.2.1 } }
      if h.1 ≠ 0 then some s1
      else
        match h.2.2 with
        | none => none
        | some hdr =>
          (rpc s1 P9_TFLUSH ['w'] [Val.w hdr.2.2]).bind fun r =>
            match r.2 with
            | none => some r.1
            | some fl =>
              let k := s1.sent.length
              let c2 :=
                match (env k).old_status, get_req r.1.clnt oldreq with
                | some st, some old => set_req r.1.clnt oldreq { old with status := st }
                | _, _ => r.1.clnt
              (p9_free_req c2 fl).map fun c3 => { r.1 with clnt := c3 }

/-- The part of `p9_client_rpc` after the transport has taken the request. -/
def rpc_after
    (rpc : session → Nat → List Char → List Val → Option (session × Option Slot))
    (env : Nat → trans_reply) (err : Int) (s : session) (slot : Slot) :
    Option (session × Option Slot) :=
  if err < 0 then
    rpc_reterr
      (if err ≠ -ERESTART ∧ err ≠ -EFAULT then
        { s with clnt := { s.clnt with _status := p9_trans_status.Disconnected } }
       else s) slot
  else
    (get_req s.clnt slot).bind fun req =>
      let err1 := if req.status = REQ_STATUS_ERROR then req.t_err else err
      (if err1 = -ERESTART ∧ s.clnt._status = p9_trans_status.Connected then
        (p9_client_flush rpc env s slot).bind fun s2 =>
          (get_req s2.clnt slot).map fun req2 =>
            (if req2.status = REQ_STATUS_RCVD then (0 : Int) else err1, s2)
       else some (err1, s)).bind fun f =>
        if f.1 < 0 then rpc_reterr f.2 slot
        else
          (p9_check_errors f.2.clnt slot).bind fun e =>
            if e.1 = 0 then some ({ f.2 with clnt := e.2 }, some slot)
            else rpc_reterr { f.2 with clnt := e.2 } slot

/-- Embedding of `p9_client::p9_client_rpc`.  The first argument bounds the
depth of the recursion through `p9_client_flush`; the environment `env`
answers the transport calls.  Returns the session afterwards and the request
(`none` is `nullptr`). -/
def p9_client_rpc : Nat → (Nat → trans_reply) → session → Nat → List Char → List Val →
    Option (session × Option Slot)
  | 0, _, _, _, _, _ => none
  | depth + 1, env, s, type, fmt, args =>
    (p9_client_prepare_req s.clnt type s.clnt._msize fmt args).bind fun p =>
      match p.2 with
      | none => some ({ s with clnt := p.1 }, none)
      | some slot =>
        (trans_request env { s with clnt := p.1 } slot).bind fun t =>
          rpc_after (p9_client_rpc depth env) env t.1 t.2 slot

/-! ## FIDs and the wrappers of the FS layer -/

/-- The bits of an `int` converted to `unsigned`, as when it is passed to a
32-bit directive of the encoder. -/
def int_bits (v : Int) : Nat := (v % 2 ^ 32).toNat

/-- The bytes of a string literal. -/
def str_bytes (s : String) : List Nat := s.toList.map Char.toNat

/-- Embedding of `p9_client::p9_fid_create` (`malloc` is taken to succeed).
The field `iounit` is left indeterminate by the source and is taken to be
zero. -/
def p9_fid_create (c : p9_client) : Option (p9_client × Option p9_fid) :=
  (p9_idpool_get c._fidpool).map fun g =>
    if g.1 < 0 then ({ c with _fidpool := g.2 }, none)
    else
      ({ c with _fidpool := g.2, _fidlist := c._fidlist ++ [g.1.toNat] },
       some { fid := g.1.toNat, mode := -1, qid := ⟨0, 0, 0⟩, iounit := 0,
              uid := 2 ^ 32 - 1 })

/-- Embedding of `p9_client::p9_fid_destroy`: `_fidlist.remove(fid)` drops
every pointer to the FID. -/
def p9_fid_destroy (c : p9_client) (fid : p9_fid) : p9_client :=
  { c with _fidpool := p9_idpool_put c._fidpool (to_int32 fid.fid),
           _fidlist := c._fidlist.filter fun i => i ≠ fid.fid }

/-- The call `p9pdu_readf(req->rc, clnt->_proto_version, fmt, ...)` made by a
wrapper on the request that `p9_client_rpc` returned: the error code, the
session with the cursor of `rc` advanced, and the values stored. -/
def req_readf (c : p9_client) (req : Slot) (fmt : List Char) :
    Option (Int × p9_client × List Val) :=
  (get_req c req).bind fun rq => rq.rc.bind fun rc =>
    (p9pdu_readf rc c._proto_version fmt).map fun d =>
      (d.1, set_req c req { rq with rc := some d.2.1 }, d.2.2)

/-- The `n` bytes that start at index `ptr` of the reply buffer of a request
(the memory a `D` directive points into). -/
def req_data (c : p9_client) (req : Slot) (ptr n : Nat) : List Nat :=
  ((((get_req c req).bind fun rq => rq.rc).map fun rc => rc.sdata).getD []).drop ptr |>.take n

/-- One pass through the body of `p9_client_clunk` between the label `again`
and the label `error`: the value of `err` and the session afterwards. -/
def clunk_try (depth : Nat) (env : Nat → trans_reply) (s : session) (fid : p9_fid) :
    Option (Int × session) :=
  (p9_client_rpc depth env s P9_TCLUNK ['d'] [Val.d fid.fid]).bind fun r =>
    match r.2 with
    | none => some (-1, r.1)
    | some req => (p9_free_req r.1.clnt req).map fun c => (0, { r.1 with clnt := c })

/-- Embedding of `p9_client::p9_client_clunk`; `none` for the FID is the null
pointer.  `if (retries++ == 0) goto again;` is taken on the first pass and not
on the second. -/
def p9_client_clunk (depth : Nat) (env : Nat → trans_reply) (s : session)
    (fid : Option p9_fid) : Option (Int × session) :=
  match fid with
  | none => some (0, s)
  | some f =>
    (clunk_try depth env s f).bind fun r1 =>
      (clunk_try depth env r1.2 f).map fun r2 =>
        (r2.1, { r2.2 with clnt := p9_fid_destroy r2.2.clnt f })

/-- Embedding of `p9_client::p9_client_statfs`: the return value, the session
and the values stored into `*sb`. -/
def p9_client_statfs (depth : Nat) (env : Nat → trans_reply) (s : session) (fid : p9_fid) :
    Option (Int × session × List Val) :=
  (p9_client_rpc depth env s P9_TSTATFS ['d'] [Val.d fid.fid]).bind fun r =>
    match r.2 with
    | none => some (-1, r.1, [])
    | some req =>
      (req_readf r.1.clnt req ['d', 'd', 'q', 'q', 'q', 'q', 'q', 'q', 'd']).bind fun d =>
        (p9_free_req d.2.1 req).map fun c => (d.1, { r.1 with clnt := c }, d.2.2)

/-- The tail of `p9_client_walk` once `Rwalk` has been decoded without error
and the request freed: compare the counts, then either store the qid and
return the FID or go to `clunk_fid`. -/
def walk_finish (depth : Nat) (env : Nat → trans_reply) (s : session) (oldfid fid : p9_fid)
    (nwname : Nat) (vals : List Val) : Option (session × Option p9_fid) :=
  match vals with
  | [Val.R nwqids (some wqids)] =>
    if nwqids ≠ nwname then
      (p9_client_clunk depth env s (some fid)).map fun k => (k.2, none)
    else if nwname ≠ 0 then
      (wqids.get? (nwqids - 1)).map fun q => (s, some { fid with qid := q })
    else some (s, some { fid with qid := oldfid.qid })
  | _ => none

/-- The head of `p9_client_walk`: the FID that the walk is made on, a fresh
one with the `uid` of `oldfid` when `clone` is set (`none` when none can be
created) and `oldfid` otherwise. -/
def walk_target (c : p9_client) (oldfid : p9_fid) (clone : Bool) :
    Option (p9_client × Option p9_fid) :=
  if clone then
    (p9_fid_create c).map fun g => (g.1, g.2.map fun f => { f with uid := oldfid.uid })
  else some (c, some oldfid)

/-- Embedding of `p9_client::p9_client_walk`; `nwname` is the `uint16_t`
parameter.  Returns the session and the FID returned (`none` is `nullptr`);
without `clone` the FID returned is `oldfid` with its new contents. -/
def p9_client_walk (depth : Nat) (env : Nat → trans_reply) (s : session) (oldfid : p9_fid)
    (nwname : Nat) (wnames : Option (List CStr)) (clone : Bool) :
    Option (session × Option p9_fid) :=
  (walk_target s.clnt oldfid clone).bind fun g =>
    match g.2 with
    | none => some ({ s with clnt := g.1 }, none)
    | some fid =>
      (p9_client_rpc depth env { s with clnt := g.1 } P9_TWALK ['d', 'd', 'T']
          [Val.d oldfid.fid, Val.d fid.fid, Val.T nwname wnames]).bind fun r =>
        match r.2 with
        | none =>
          some (if clone then { r.1 with clnt := p9_fid_destroy r.1.clnt fid } else r.1, none)
        | some req =>
          (req_readf r.1.clnt req ['R']).bind fun d =>
            (p9_free_req d.2.1 req).bind fun c1 =>
              if d.1 ≠ 0 then
                (p9_client_clunk depth env { r.1 with clnt := c1 } (some fid)).map fun k =>
                  (k.2, none)
              else walk_finish depth env { r.1 with clnt := c1 } oldfid fid (nwname % 2 ^ 16) d.2.2

/-- The tail shared by `p9_client_open` and `p9_client_fcreate_dotl`: decode
`"Qd"`, store `mode` and `iounit` into the FID when that succeeds, free the
request. -/
def open_finish (r : session × Option Slot) (fid : p9_fid) (mode : Int) :
    Option (Int × session × p9_fid × List Val) :=
  match r.2 with
  | none => some (-1, r.1, fid, [])
  | some req =>
    (req_readf r.1.clnt req ['Q', 'd']).bind fun d =>
      (p9_free_req d.2.1 req).bind fun c =>
        if d.1 ≠ 0 then some (d.1, { r.1 with clnt := c }, fid, d.2.2)
        else
          match d.2.2 with
          | [Val.Q qid, Val.d iounit] =>
            some (0, { r.1 with clnt := c }, { fid with mode := mode, iounit := iounit },
                  [Val.Q qid, Val.d iounit])
          | _ => none

/-- Embedding of `p9_client::p9_client_open`: the return value, the session,
the FID afterwards and the values decoded from the reply. -/
def p9_client_open (depth : Nat) (env : Nat → trans_reply) (s : session) (fid : p9_fid)
    (mode : Int) : Option (Int × session × p9_fid × List Val) :=
  if fid.mode ≠ -1 then some (-EINVAL, s, fid, [])
  else
    (if s.clnt._proto_version = p9_proto_2000L then
       p9_client_rpc depth env s P9_TLOPEN ['d', 'd'] [Val.d fid.fid, Val.d (int_bits mode)]
     else
       p9_client_rpc depth env s P9_TOPEN ['d', 'b'] [Val.d fid.fid, Val.b (int_bits mode)]).bind
      fun r => open_finish r fid mode

/-- Embedding of `p9_client::p9_client_fcreate_dotl`; `mode` is `u32` and is
stored into the `int` field `ofid->mode`. -/
def p9_client_fcreate_dotl (depth : Nat) (env : Nat → trans_reply) (s : session)
    (ofid : p9_fid) (name : CStr) (flags mode gid : Nat) :
    Option (Int × session × p9_fid × List Val) :=
  if ofid.mode ≠ -1 then some (-EINVAL, s, ofid, [])
  else
    (p9_client_rpc depth env s P9_TLCREATE ['d', 's', 'd', 'd', 'g']
        [Val.d ofid.fid, Val.s name, Val.d flags, Val.d mode, Val.g gid]).bind
      fun r => open_finish r ofid (to_int32 mode)

/-- Embedding of `p9_client::p9_client_mkdir_dotl`: the return value, the
session and the values stored into `*qid`. -/
def p9_client_mkdir_dotl (depth : Nat) (env : Nat → trans_reply) (s : session)
    (fid : p9_fid) (name : CStr) (mode : Int) (gid : Nat) : Option (Int × session × List Val) :=
  (p9_client_rpc depth env s P9_TMKDIR ['d', 's', 'd', 'g']
      [Val.d fid.fid, Val.s name, Val.d (int_bits mode), Val.g gid]).bind fun r =>
    match r.2 with
    | none => some (-1, r.1, [])
    | some req =>
      (req_readf r.1.clnt req ['Q']).bind fun d =>
        (p9_free_req d.2.1 req).map fun c => (d.1, { r.1 with clnt := c }, d.2.2)

/-- Embedding of `p9_client::p9_client_unlinkat_dotl`.  The test is
`if (req) return -1;`, so the request is given up without being freed when
the round trip succeeds, and `p9_free_req(req)` is reached with the null
request, which it dereferences, when the RPC fails (`none`). -/
def p9_client_unlinkat_dotl (depth : Nat) (env : Nat → trans_reply) (s : session)
    (dfid : p9_fid) (name : CStr) (flags : Int) : Option (Int × session) :=
  (p9_client_rpc depth env s P9_TUNLINKAT ['d', 's', 'd']
      [Val.d dfid.fid, Val.s name, Val.d (int_bits flags)]).bind fun r =>
    match r.2 with
    | some _ => some (-1, r.1)
    | none => none

/-- The three statements of `p9_client_read` that choose `rsize`, given
`fid->iounit`, `_msize` and `count`: `rsize` is `int`, the comparison with
`_msize - P9_IOHDRSZ` is unsigned. -/
def read_rsize (iounit msize : Nat) (count : Int) : Int :=
  let m := (msize + 2 ^ 32 - P9_IOHDRSZ) % 2 ^ 32
  let r1 := if to_int32 iounit = 0 ∨ iounit % 2 ^ 32 > m then to_int32 m else to_int32 iounit
  if count < r1 then count else r1

/-- The clamp `if (rsize < count) count = rsize;` of `p9_client_read`, on the
count stored by the `D` directive. -/
def read_count (rsize : Int) (cnt : Nat) : Int :=
  if rsize < to_int32 cnt then rsize else to_int32 cnt

/-- Modelled from the spec: `uiomove(dataptr, count, to)` (declared in
`osv/uio.h`, which is not part of the sources) is taken to move
`min count resid` bytes into the user vector and to report the number of
bytes it moved.  The user vector is its residual count and the bytes it has
received. -/
def uiomove_to (data : List Nat) (count : Nat) (uv : Nat × List Nat) : Nat × (Nat × List Nat) :=
  (min count uv.1, (uv.1 - min count uv.1, uv.2 ++ data.take (min count uv.1)))

/-- The `while (len)` loop of `p9_client_read`, given `p9_client_rpc`.  The
state is `len`, `total`, `offset`, `*err` and the user vector; the first
argument bounds the number of iterations.  A negative `count` handed to
`uiomove` is outside the model (`none`). -/
def read_loop
    (rpc : session → Nat → List Char → List Val → Option (session × Option Slot))
    (fid : p9_fid) :
    Nat → session → Nat → Int → Nat → Int → Nat × List Nat →
      Option (Int × Int × session × (Nat × List Nat))
  | 0, _, _, _, _, _, _ => none
  | fuel + 1, s, len, total, offset, err, uv =>
    if len = 0 then some (total, err, s, uv)
    else
      let rsize := read_rsize fid.iounit s.clnt._msize (to_int32 len)
      (rpc s P9_TREAD ['d', 'q', 'd']
          [Val.d fid.fid, Val.q offset, Val.d (int_bits rsize)]).bind fun r =>
        match r.2 with
        | none => some (total, -1, r.1, uv)
        | some req =>
          (req_readf r.1.clnt req ['D']).bind fun d =>
            (p9_free_req d.2.1 req).bind fun c =>
              if d.1 ≠ 0 then some (total, d.1, { r.1 with clnt := c }, uv)
              else
                match d.2.2 with
                | [Val.D cnt dataptr] =>
                  let count := read_count rsize cnt
                  if count = 0 then some (total, 0, { r.1 with clnt := c }, uv)
                  else if count < 0 then none
                  else
                    let mv := uiomove_to (req_data d.2.1 req dataptr count.toNat) count.toNat uv
                    if (mv.1 : Int) ≠ count then
                      some (total + mv.1, -EFAULT, { r.1 with clnt := c }, mv.2)
                    else
                      read_loop rpc fid fuel { r.1 with clnt := c }
                        ((len + 2 ^ 64 - mv.1) % 2 ^ 64) (total + mv.1)
                        ((offset + mv.1) % 2 ^ 64) 0 mv.2
                | _ => none

/-- Embedding of `p9_client::p9_client_read`: the value returned, `*err`, the
session and the user vector afterwards; `uv` is the vector `to` and `offset`
is `to->uio_offset`. -/
def p9_client_read (depth : Nat) (env : Nat → trans_reply) (fuel : Nat) (s : session)
    (fid : p9_fid) (uv : Nat × List Nat) (offset : Nat) (len : Nat) :
    Option (Int × Int × session × (Nat × List Nat)) :=
  read_loop (p9_client_rpc depth env) fid fuel s len 0 offset 0 uv

/-- The test `!strncmp(a, b, n)` on two C strings (neither holds a NUL). -/
def strncmp_eq (a b : List Nat) (n : Nat) : Bool :=
  decide ((a ++ [0]).take n = (b ++ [0]).take n)

/-- The version string that `p9_client_version` offers for each protocol
version (`none` is the `default:` case of its `switch`). -/
def version_name (proto_version : Nat) : Option (List Nat) :=
  if proto_version = p9_proto_2000L then some (str_bytes "9P2000.L")
  else if proto_version = p9_proto_2000u then some (str_bytes "9P2000.u")
  else if proto_version = p9_proto_legacy then some (str_bytes "9P2000")
  else none

/-- The part of `p9_client_version` after `Rversion` has been decoded
without error: choose the protocol version from the echoed string and lower
`_msize`, or leave both and yield `-EREMOTEIO`. -/
def version_adopt (c : p9_client) (msize : Nat) (version : List Nat) : Int × p9_client :=
  let proto : Option Nat :=
    if strncmp_eq version (str_bytes "9P2000.L") 8 then some p9_proto_2000L
    else if strncmp_eq version (str_bytes "9P2000.u") 8 then some p9_proto_2000u
    else if strncmp_eq version (str_bytes "9P2000") 6 then some p9_proto_legacy
    else none
  match proto with
  | none => (- EREMOTEIO, c)
  | some p =>
    (0, { c with _proto_version := p,
                 _msize := if msize % 2 ^ 32 < c._msize then msize % 2 ^ 32 else c._msize })

/-- Embedding of `p9_client::p9_client_version`.  At the label `error` the
source calls `free(version)`; `version` is set by the `s` directive only, so
the result is `none` when decoding stops before that directive has stored
it. -/
def p9_client_version (depth : Nat) (env : Nat → trans_reply) (s : session) :
    Option (Int × session) :=
  match version_name s.clnt._proto_version with
  | none => some (-EINVAL, s)
  | some name =>
    (p9_client_rpc depth env s P9_TVERSION ['d', 's']
        [Val.d s.clnt._msize, Val.s (some name)]).bind fun r =>
      match r.2 with
      | none => some (-1, r.1)
      | some req =>
        (req_readf r.1.clnt req ['d', 's']).bind fun d =>
          match d.2.2 with
          | [Val.d msize, Val.s version] =>
            if d.1 ≠ 0 then
              (p9_free_req d.2.1 req).map fun c => (d.1, { r.1 with clnt := c })
            else
              let a := version_adopt d.2.1 msize (version.getD [])
              (p9_free_req a.2 req).map fun c => (a.1, { r.1 with clnt := c })
          | _ => none

/-- Embedding of `p9_get_protocol_version`: the three `strcmp` tests on the
C string `s`, `-EINVAL` when none of them succeeds. -/
def p9_get_protocol_version (s : List Nat) : Int :=
  if s = str_bytes "9p2000" then (p9_proto_legacy : Int)
  else if s = str_bytes "9p2000.u" then (p9_proto_2000u : Int)
  else if s = str_bytes "9p2000.L" then (p9_proto_2000L : Int)
  else -EINVAL

/-- Embedding of `match_strdup` (`malloc` is taken to succeed); `sfrom` and
`sto` are the addresses held in `s->from` and `s->to`.  The source calls
`strlcpy(p, (char *) s, sz)` with `sz = s->to - s->from + 1`: the bytes
copied are those of the object `*s`, which are the eight bytes of the pointer
`from` followed by the eight bytes of the pointer `to`, up to `sz - 1` of them
and stopping at the first zero byte.  `none` when the copy runs past these
sixteen bytes. -/
def match_strdup (sfrom sto : Nat) : Option (List Nat) :=
  let obj := le_bytes 8 sfrom ++ le_bytes 8 sto
  if sto - sfrom ≤ 16 ∨ 0 ∈ obj then some (cstr (obj.take (sto - sfrom))) else none

/-- A token of the mount-option string as `match_token` classifies it, with
the value that `match_int` extracts from it.  For `version=%s` the token
carries the text of the value and the address `sfrom` at which that text
starts in the copy of the option string, so that `args[0]` runs from `sfrom`
to `sfrom + value.length`. -/
inductive mount_opt where
  | msize (option : Int)
  | msize_bad (r : Int)
  | trans
  | legacy
  | version (value : List Nat) (sfrom : Nat)
  | other
deriving DecidableEq, Repr

/-- The `while ((p = strsep(&options, ",")) != NULL)` loop of
`p9_parse_options` over the classified tokens; the state is `ret`,
`_proto_version` and `_msize`. -/
def parse_options_loop : List mount_opt → Int × Nat × Nat → Option (Int × Nat × Nat)
  | [], st => some st
  | mount_opt.msize option :: rest, (ret, proto, _) =>
    parse_options_loop rest (ret, proto, int_bits option)
  | mount_opt.msize_bad r :: rest, (_, proto, msize) => parse_options_loop rest (r, proto, msize)
  | mount_opt.trans :: rest, st => parse_options_loop rest st
  | mount_opt.legacy :: rest, (ret, _, msize) =>
    parse_options_loop rest (ret, p9_proto_legacy, msize)
  | mount_opt.version value sfrom :: rest, (_, proto, msize) =>
    match match_strdup sfrom (sfrom + value.length) with
    | none => none
    | some s =>
      if p9_get_protocol_version s = -EINVAL then some (-EINVAL, proto, msize)
      else
        parse_options_loop rest
          (p9_get_protocol_version s, (p9_get_protocol_version s % 2 ^ 8).toNat, msize)
  | mount_opt.other :: rest, st => parse_options_loop rest st

/-- Embedding of `p9_client::p9_parse_options` (`strdup` is taken to
succeed): its return value and the values it leaves in `_proto_version` and
`_msize`.  The argument `none` is a null option string; the result `none`
is that of `match_strdup`. -/
def p9_parse_options (opts : Option (List mount_opt)) : Option (Int × Nat × Nat) :=
  match opts with
  | none => some (0, p9_proto_2000L, 8192)
  | some l => parse_options_loop l (0, p9_proto_2000L, 8192)

/-- Embedding of the constructor `p9_client::p9_client`.  `create_ret` is the
value returned by `_trans_mod->create`, which on success has called
`p9_client_connect`, and `maxsize` is `_trans_mod->maxsize`.  The inner `none`
stands for a thrown exception. -/
def p9_client_new (depth : Nat) (env : Nat → trans_reply) (opts : Option (List mount_opt))
    (create_ret : Int) (maxsize : Nat) : Option (Option session) :=
  (p9_idpool_get ⟨∅, -1⟩).bind fun t =>
    if t.1 < 0 then some none
    else
      (p9_parse_options opts).bind fun po =>
        if po.1 < 0 then some none
        else if create_ret ≠ 0 then some none
        else
          let c : p9_client :=
            { _msize := maxsize % 2 ^ 32, _proto_version := po.2.1,
              _status := p9_trans_status.Connected, _fidpool := ⟨∅, -1⟩, _fidlist := [],
              _tagpool := t.2, _reqs := fun _ => none, _max_tag := 0 }
          (p9_client_version depth env ⟨c, []⟩).map fun v =>
            if v.1 ≠ 0 then none else some v.2

/-- Embedding of `p9_client::p9_client_connect` (the pointer `_trans` is not
kept). -/
def p9_client_connect (c : p9_client) : p9_client :=
  { c with _status := p9_trans_status.Connected }

/-- Embedding of `p9_client::p9_client_begin_disconnect`. -/
def p9_client_begin_disconnect (c : p9_client) : p9_client :=
  { c with _status := p9_trans_status.BeginDisconnect }

/-- Embedding of `p9_client::p9_client_disconnect`. -/
def p9_client_disconnect (c : p9_client) : p9_client :=
  { c with _status := p9_trans_status.Disconnected }

/-- Embedding of `p9_statsize`; `strlen` of a null pointer is not taken. -/
def p9_statsize (wst : p9_wstat) (proto_version : Nat) : Int :=
  let ret : Int := 2 + 4 + 13 + 4 + 4 + 4 + 8 + 2 + 2 + 2 + 2
  let ret := match wst.name with
    | some bs => ret + bs.length
    | none => ret
  let ret := match wst.uid with
    | some bs => ret + bs.length
    | none => ret
  let ret := match wst.gid with
    | some bs => ret + bs.length
    | none => ret
  let ret := match wst.muid with
    | some bs => ret + bs.length
    | none => ret
  if proto_version = p9_proto_2000u ∨ proto_version = p9_proto_2000L then
    match wst.extension with
    | some bs => ret + (2 + 4 + 4 + 4) + bs.length
    | none => ret + (2 + 4 + 4 + 4)
  else ret

/-- The store `wst->size = p9_statsize(wst, clnt->_proto_version);` of
`p9_client_setattr`: the field `size` is `uint16_t`, so it keeps the low 16
bits of the `int`. -/
def setattr_store (wst : p9_wstat) (proto_version : Nat) : p9_wstat :=
  { wst with size := (p9_statsize wst proto_version % 2 ^ 16).toNat }

/-- Embedding of `p9_client::p9_client_setattr`: the return value, the session
and `*wst` afterwards.  The second argument of `"dwS"` is the `int`
`wst->size + 2`. -/
def p9_client_setattr (depth : Nat) (env : Nat → trans_reply) (s : session) (fid : p9_fid)
    (wst : p9_wstat) : Option (Int × session × p9_wstat) :=
  (p9_client_rpc depth env s P9_TWSTAT ['d', 'w', 'S']
      [Val.d fid.fid, Val.w ((setattr_store wst s.clnt._proto_version).size + 2),
       Val.S (setattr_store wst s.clnt._proto_version)]).bind fun r =>
    match r.2 with
    | none => some (-1, r.1, setattr_store wst s.clnt._proto_version)
    | some req =>
      (p9_free_req r.1.clnt req).map fun c =>
        (0, { r.1 with clnt := c }, setattr_store wst s.clnt._proto_version)

/-! ## The registry of devices (`drivers/virtio-9p.cc`) -/

def EBUSY : Int := 16

/-- The driver instance `vt9p`, as far as `bind_client` looks at it: the
mount tag read from the device configuration (`_config.tag`, a buffer of
`_config.tag_len` bytes without a terminating NUL) and the owner `_client`
(`none` is `nullptr`; a client is named by a number). -/
structure vt9p where
  tag : List Nat
  _client : Option Nat
deriving DecidableEq, Repr

/-- The test `!strncmp(a, b, n)` on the bytes stored at `a` and at `b`:
compare position by position, stop after `n` positions or at a position where
both hold NUL.  A position outside the bytes given is not read when `a` is NUL
terminated and `b` holds `n` bytes. -/
def strncmp_zero : List Nat → List Nat → Nat → Bool
  | _, _, 0 => true
  | x :: xs, y :: ys, n + 1 =>
    if x ≠ y then false else if x = 0 then true else strncmp_zero xs ys n
  | _, _, _ + 1 => false

/-- The `for` loop of `vt9p::bind_client` over `_vt9p_drivers`: the registry
after the `break`, or `none` when the loop runs to the end. -/
def bind_loop (who : Nat) (devname : List Nat) : List vt9p → Option (List vt9p)
  | [] => none
  | d :: ds =>
    if strncmp_zero (devname ++ [0]) d.tag d.tag.length = true ∧
        devname.length = d.tag.length then
      if d._client = none then some ({ d with _client := some who } :: ds)
      else (bind_loop who devname ds).map fun l => d :: l
    else (bind_loop who devname ds).map fun l => d :: l

/-- Embedding of `vt9p::bind_client`: the value returned, the registry and
the client afterwards.  `who` names the client and `devname` is the C string
(without its NUL). -/
def bind_client (drivers : List vt9p) (client : p9_client) (who : Nat)
    (devname : List Nat) : Int × List vt9p × p9_client :=
  match bind_loop who devname drivers with
  | some l => (0, l, p9_client_connect client)
  | none => (-EBUSY, drivers, client)

/-! ## Observations used in examples -/

/-- The session fields that no request operation writes. -/
def cfg (c : p9_client) : Nat × Nat × p9_idpool × List Nat :=
  (c._msize, c._proto_version, c._fidpool, c._fidlist)

/-- The two session fields that version negotiation sets. -/
def msize_proto (c : p9_client) : Nat × Nat := (c._msize, c._proto_version)

/-- What a wrapper learns from a round trip: the error code and the values
that `p9pdu_readf(req->rc, ...)` decodes from the reply of the request that
`p9_client_rpc` returned (`none` when no request is returned). -/
def decoded (x : Option (session × Option Slot)) (fmt : List Char) : Option (Int × List Val) :=
  x.bind fun r => r.2.bind fun req =>
    (req_readf r.1.clnt req fmt).map fun d => (d.1, d.2.2)

/-- A FID used in examples: id 1, not open. -/
def demo_fid : p9_fid := ⟨1, -1, ⟨0, 0, 0⟩, 0, 0⟩

/-- A small session used in examples: `msize` 64, tag 0 reserved, no request
row allocated, no FID. -/
def demo_client (st : p9_trans_status) (proto : Nat) : p9_client :=
  { _msize := 64, _proto_version := proto, _status := st,
    _fidpool := ⟨∅, -1⟩, _fidlist := [], _tagpool := ⟨{0}, 0⟩, _reqs := fun _ => none,
    _max_tag := 0 }

/-- A session used in examples: connected, 9P2000.L, the FID 1 live, nothing
handed to the transport yet. -/
def demo_session : session :=
  ⟨{ demo_client p9_trans_status.Connected p9_proto_2000L with
      _fidpool := ⟨{1}, 1⟩, _fidlist := [1] }, []⟩

/-- A FID used in examples: id 1, open with mode 0, `iounit` 0. -/
def demo_open_fid : p9_fid := ⟨1, 0, ⟨0, 1, 200⟩, 0, 0⟩

/-- An environment in which every transport call is answered alike. -/
def const_env (r : trans_reply) : Nat → trans_reply := fun _ => r

/-- A reply buffer of 64 bytes that starts with the given bytes. -/
def reply_buf (bytes : List Nat) : List Nat :=
  bytes ++ List.replicate (64 - bytes.length) 0

/-- A transport answer: the request was received and `rc` holds the bytes. -/
def rcvd (bytes : List Nat) : trans_reply :=
  ⟨0, REQ_STATUS_RCVD, 0, reply_buf bytes, none⟩

/-- A session used in the read examples: `demo_session` with `msize` 128. -/
def demo_read_session : session :=
  ⟨{ demo_session.clnt with _msize := 128 }, []⟩

/-- The transport of the read examples: the first request is answered by an
`Rread` carrying 64 bytes, every later one by an `Rread` carrying none. -/
def demo_read_env : Nat → trans_reply := fun k =>
  if k = 0 then rcvd ([75, 0, 0, 0, 117, 1, 0, 64, 0, 0, 0] ++ List.replicate 64 7)
  else rcvd [11, 0, 0, 0, 117, 2, 0, 0, 0, 0, 0]

/-- Type invariants of a PDU that is being encoded into: the bytes written so
far fit the buffer, the capacity is a 32-bit quantity and the buffer really
has `capacity` bytes. -/
def WWF (pdu : p9_fcall) : Prop :=
  pdu.size ≤ pdu.capacity ∧ pdu.capacity < 2 ^ 32 ∧ pdu.capacity ≤ pdu.sdata.length

instance (pdu : p9_fcall) : Decidable (WWF pdu) := by unfold WWF; infer_instance

/-- Type invariants of a PDU that is being decoded: the cursor is inside the
message, and the message is inside the buffer. -/
def RWF (pdu : p9_fcall) : Prop :=
  pdu.offset ≤ pdu.size ∧ pdu.size < 2 ^ 32 ∧ pdu.size ≤ pdu.sdata.length

instance (pdu : p9_fcall) : Decidable (RWF pdu) := by unfold RWF; infer_instance

/-- The PDU after `bs` has been appended at `size`. -/
def p9_fcall.append (pdu : p9_fcall) (bs : List Nat) : p9_fcall :=
  { pdu with size := pdu.size + bs.length, sdata := poke pdu.sdata pdu.size bs }

/-- The PDU after the cursor has moved over `k` bytes. -/
def p9_fcall.adv (pdu : p9_fcall) (k : Nat) : p9_fcall :=
  { pdu with offset := pdu.offset + k }

/-- The bytes between the cursor and the end of the message. -/
def p9_fcall.window (pdu : p9_fcall) : List Nat :=
  (pdu.sdata.drop pdu.offset).take (pdu.size - pdu.offset)

/-- Outcome of emitting the bytes `bs`: all of them when they fit between
`size` and `capacity`, otherwise `-EFAULT` with the buffer filled up. -/
def wr (pdu : p9_fcall) (bs : List Nat) : Int × p9_fcall :=
  if pdu.size + bs.length ≤ pdu.capacity then (0, pdu.append bs)
  else (-EFAULT, pdu.append (bs.take (pdu.capacity - pdu.size)))

/-- Wire bytes of a string argument: `u16` length, then the bytes. -/
def enc_str (p : CStr) : List Nat :=
  le_bytes 2 ((min (p.getD []).length USHRT_MAX) % 2 ^ 16) ++
    (p.getD []).take (min (p.getD []).length USHRT_MAX)

/-- Wire bytes of a qid: `bdq`. -/
def enc_qid (x : p9_qid) : List Nat :=
  le_bytes 1 (x.type % 2 ^ 8) ++ (le_bytes 4 (x.version % 2 ^ 32) ++
    le_bytes 8 (x.path % 2 ^ 64))

/-- Wire bytes of a stat: `wwdQdddqssss`, and `sugu` after it unless the
session is legacy. -/
def enc_stat (proto_version : Nat) (st : p9_wstat) : List Nat :=
  le_bytes 2 (st.size % 2 ^ 16) ++ (le_bytes 2 (st.type % 2 ^ 16) ++
  (le_bytes 4 (st.dev % 2 ^ 32) ++ (enc_qid st.qid ++
  (le_bytes 4 (st.mode % 2 ^ 32) ++ (le_bytes 4 (st.atime % 2 ^ 32) ++
  (le_bytes 4 (st.mtime % 2 ^ 32) ++ (le_bytes 8 (st.length % 2 ^ 64) ++
  (enc_str st.name ++ (enc_str st.uid ++ (enc_str st.gid ++ (enc_str st.muid ++
  (if proto_version = p9_proto_2000u ∨ proto_version = p9_proto_2000L then
    enc_str st.extension ++ (le_bytes 4 (st.n_uid % 2 ^ 32) ++
    (le_bytes 4 (st.n_gid % 2 ^ 32) ++ le_bytes 4 (st.n_muid % 2 ^ 32)))
   else []))))))))))))

/-- Wire bytes of one argument. -/
def enc_val (proto_version : Nat) : Val → List Nat
  | Val.b v => le_bytes 1 (v % 2 ^ 8)
  | Val.w v => le_bytes 2 (v % 2 ^ 16)
  | Val.d v => le_bytes 4 (v % 2 ^ 32)
  | Val.q v => le_bytes 8 (v % 2 ^ 64)
  | Val.s p => enc_str p
  | Val.u v => le_bytes 4 (v % 2 ^ 32)
  | Val.g v => le_bytes 4 (v % 2 ^ 32)
  | Val.Q x => enc_qid x
  | Val.S st => enc_stat proto_version st
  | Val.T n ws =>
    le_bytes 2 ((n % 2 ^ 16) % 2 ^ 16) ++ (((ws.getD []).take (n % 2 ^ 16)).map enc_str).flatten
  | Val.R n qs =>
    le_bytes 2 ((n % 2 ^ 16) % 2 ^ 16) ++ (((qs.getD []).take (n % 2 ^ 16)).map enc_qid).flatten
  | _ => []

/-- Wire bytes of an argument list. -/
def enc_vals (proto_version : Nat) (vs : List Val) : List Nat :=
  (vs.map (enc_val proto_version)).flatten

/-- Nesting level of a directive and agreement of the argument with it:
level 1 are the scalars, level 2 adds `s` and `Q`, level 3 adds `S`, `T`
and `R` (whose arrays must hold at least the announced number of elements). -/
def arg_ok (lvl : Nat) (c : Char) (v : Val) : Bool :=
  match v with
  | Val.b _ => c = 'b'
  | Val.w _ => c = 'w'
  | Val.d _ => c = 'd'
  | Val.q _ => c = 'q'
  | Val.u _ => c = 'u'
  | Val.g _ => c = 'g'
  | Val.s _ => c = 's' ∧ 2 ≤ lvl
  | Val.Q _ => c = 'Q' ∧ 2 ≤ lvl
  | Val.S _ => c = 'S' ∧ 3 ≤ lvl
  | Val.T n ws => c = 'T' ∧ 3 ≤ lvl ∧ n % 2 ^ 16 ≤ (ws.getD []).length
  | Val.R n qs => c = 'R' ∧ 3 ≤ lvl ∧ n % 2 ^ 16 ≤ (qs.getD []).length
  | _ => false

/-- The arguments agree with the format, directive by directive. -/
def args_ok (lvl : Nat) : List Char → List Val → Bool
  | [], [] => true
  | c :: cs, v :: vs => arg_ok lvl c v && args_ok lvl cs vs
  | _, _ => false

/-- What the encoder's `switch` is expected to do on well-typed arguments of
nesting level at most `lvl`: emit the wire bytes of the argument. -/
def WStepSpec (proto_version lvl : Nat)
    (step : Char → p9_fcall → List Val → Option (Int × p9_fcall × List Val)) : Prop :=
  ∀ c v pdu rest, arg_ok lvl c v = true → WWF pdu →
    step c pdu (v :: rest)
      = some ((wr pdu (enc_val proto_version v)).1, (wr pdu (enc_val proto_version v)).2, rest)

/-- What a (nested) `p9pdu_writef` is expected to do on well-typed arguments
of nesting level at most `lvl`. -/
def WNestedSpec (proto_version lvl : Nat)
    (nested : List Char → p9_fcall → List Val → WRes) : Prop :=
  ∀ fmt args extra pdu, args_ok lvl fmt args = true → WWF pdu →
    nested fmt pdu (args ++ extra) = some (wr pdu (enc_vals proto_version args))

/-- A non-null C string of at most 65535 bytes (each a non-NUL `char`). -/
def str_wf (p : CStr) : Bool :=
  match p with
  | none => false
  | some bs => bs.length ≤ USHRT_MAX && bs.all (fun b => 0 < b && b < 256)

/-- A qid whose fields are in the range of their C types. -/
def qid_wf (x : p9_qid) : Bool :=
  x.type < 2 ^ 8 && x.version < 2 ^ 32 && x.path < 2 ^ 64

/-- A stat whose fields are in the range of their C types and whose strings
are non-null and at most 65535 bytes long. -/
def wstat_wf (st : p9_wstat) : Bool :=
  st.size < 2 ^ 16 && st.type < 2 ^ 16 && st.dev < 2 ^ 32 && qid_wf st.qid &&
  st.mode < 2 ^ 32 && st.atime < 2 ^ 32 && st.mtime < 2 ^ 32 && st.length < 2 ^ 64 &&
  str_wf st.name && str_wf st.uid && str_wf st.gid && str_wf st.muid &&
  str_wf st.extension && st.n_uid < 2 ^ 32 && st.n_gid < 2 ^ 32 && st.n_muid < 2 ^ 32

/-- An argument that is a value of the C type its directive stands for:
integers in range, strings non-null and at most 65535 bytes long, arrays of
exactly the announced length. -/
def val_wf : Val → Bool
  | Val.b v => v < 2 ^ 8
  | Val.w v => v < 2 ^ 16
  | Val.d v => v < 2 ^ 32
  | Val.q v => v < 2 ^ 64
  | Val.u v => v < 2 ^ 32
  | Val.g v => v < 2 ^ 32
  | Val.s p => str_wf p
  | Val.Q x => qid_wf x
  | Val.S st => wstat_wf st
  | Val.T n ws =>
    match ws with
    | none => false
    | some l => n < 2 ^ 16 && l.length = n && l.all str_wf
  | Val.R n qs =>
    match qs with
    | none => false
    | some l => n < 2 ^ 16 && l.length = n && l.all qid_wf
  | _ => false

/-- What a legacy session keeps of a stat: the fields before the `?`, with
`extension` null and the three numeric ids `0xFFFFFFFF`. -/
def legacy_stat (st : p9_wstat) : p9_wstat :=
  { st with extension := none, n_uid := 2 ^ 32 - 1, n_gid := 2 ^ 32 - 1, n_muid := 2 ^ 32 - 1 }

/-- The value expected back from decoding the encoding of `v`. -/
def back (proto_version : Nat) : Val → Val
  | Val.S st =>
    if proto_version = p9_proto_2000u ∨ proto_version = p9_proto_2000L then Val.S st
    else Val.S (legacy_stat st)
  | v => v

/-- What the decoder's `switch` is expected to do when the bytes at the
cursor are the encoding of a well-formed value. -/
def RStepSpec (proto_version lvl : Nat) (step : Char → p9_fcall → RRes) : Prop :=
  ∀ c v r tail, arg_ok lvl c v = true → val_wf v = true → RWF r →
    r.window = enc_val proto_version v ++ tail →
    step c r = some (0, r.adv (enc_val proto_version v).length, [back proto_version v])

/-- What a (nested) `p9pdu_readf` is expected to do when the bytes at the
cursor are the encoding of well-formed values. -/
def RNestedSpec (proto_version lvl : Nat) (nested : List Char → p9_fcall → RRes) : Prop :=
  ∀ fmt args r tail, args_ok lvl fmt args = true → args.all val_wf = true → RWF r →
    r.window = enc_vals proto_version args ++ tail →
    nested fmt r
      = some (0, r.adv (enc_vals proto_version args).length, args.map (back proto_version))

/-- Wire size of one field at the head of `bytes` (spec section 4.1): `b` is
1 byte, `w` 2, `d`, `u` and `g` 4, `q` 8, `Q` 13 (`bdq`), and `s` a `u16`
length followed by that many bytes; `none` when `bytes` does not cover the
field. -/
def field_size (c : Char) (bytes : List Nat) : Option Nat :=
  if c = 's' then
    if 2 ≤ bytes.length ∧ 2 + le_val (bytes.take 2) ≤ bytes.length then
      some (2 + le_val (bytes.take 2))
    else none
  else
    let n := if c = 'b' then 1 else if c = 'w' then 2 else if c = 'q' then 8
             else if c = 'Q' then 13 else 4
    if n ≤ bytes.length then some n else none

/-- Wire size of the fields of a format at the head of `bytes`, `none` when
`bytes` does not cover the whole encoding. -/
def wire_size : List Char → List Nat → Option Nat
  | [], _ => some 0
  | c :: cs, bytes =>
    match field_size c bytes with
    | none => none
    | some k =>
      match wire_size cs (bytes.drop k) with
      | none => none
      | some m => some (k + m)

/-- Outcome expected of a decoding step on the field `c`: success exactly
when the window covers the field, and then the cursor moves over it and one
value of the directive's kind is stored. -/
def RTotal (step : Char → p9_fcall → RRes) (c : Char) : Prop :=
  ∀ r, RWF r → ∃ e r1 vs, step c r = some (e, r1, vs) ∧
    (e = 0 → ∃ k v, field_size c r.window = some k ∧ r1 = r.adv k ∧ r.offset + k ≤ r.size ∧
      vs = [v] ∧ arg_ok 2 c v = true) ∧
    (e ≠ 0 → field_size c r.window = none)

/-- The cursor invariant of a PDU: `offset <= size <= capacity`. -/
def cursor_inv (pdu : p9_fcall) : Prop :=
  pdu.offset ≤ pdu.size ∧ pdu.size ≤ pdu.capacity

instance (pdu : p9_fcall) : Decidable (cursor_inv pdu) := by unfold cursor_inv; infer_instance

/-- What encoding into `p` may leave behind in `q`: the same capacity and
cursor, a size that has not shrunk and is within the capacity, and the same
bytes at and beyond the capacity. -/
def write_keeps (p q : p9_fcall) : Prop :=
  q.capacity = p.capacity ∧ q.offset = p.offset ∧ p.size ≤ q.size ∧ q.size ≤ q.capacity ∧
    q.sdata.drop p.capacity = p.sdata.drop p.capacity

/-- What decoding from `p` may leave behind in `q`: the same bytes, size and
capacity, and a cursor that has not moved back and is within the size. -/
def read_keeps (p q : p9_fcall) : Prop :=
  q.sdata = p.sdata ∧ q.size = p.size ∧ q.capacity = p.capacity ∧ p.offset ≤ q.offset ∧
    q.offset ≤ q.size

/-- The states of a `p9_idpool` that its constructor, `p9_idpool_get` and
`p9_idpool_put` produce: `_last_id` is -1 or an id of `[0, P9_ID_MAX]`, and it
is -1 only as long as no id has been handed out. -/
def idpool_inv (p : p9_idpool) : Prop :=
  -1 ≤ p._last_id ∧ p._last_id ≤ P9_ID_MAX ∧ (p._last_id = -1 → p._pool = ∅)

/-- The answer to the `Tread` that the loop of `p9_client_read` issues in the
state `s`, `len`, `offset`, as the loop finds it when the request comes back
and `D` decodes without error: `count` after the clamp and the session after
`p9_free_req`. -/
def read_round
    (rpc : session → Nat → List Char → List Val → Option (session × Option Slot))
    (fid : p9_fid) (s : session) (len offset : Nat) : Option (Int × session) :=
  (rpc s P9_TREAD ['d', 'q', 'd']
      [Val.d fid.fid, Val.q offset,
       Val.d (int_bits (read_rsize fid.iounit s.clnt._msize (to_int32 len)))]).bind fun r =>
    match r.2 with
    | none => none
    | some req =>
      (req_readf r.1.clnt req ['D']).bind fun d =>
        (p9_free_req d.2.1 req).bind fun c =>
          if d.1 ≠ 0 then none
          else
            match d.2.2 with
            | [Val.D cnt _] =>
              some (read_count (read_rsize fid.iounit s.clnt._msize (to_int32 len)) cnt,
                    { r.1 with clnt := c })
            | _ => none

/-- The replies to the successive `Tread`s of one `p9_client_read` carry the
counts `counts`, each of them positive and within what the user vector still
takes, and after them either nothing is left to read or the next reply
carries the count 0.  Each `Tread` is the one issued at the offset advanced
by the counts before it. -/
def read_replies
    (rpc : session → Nat → List Char → List Val → Option (session × Option Slot))
    (fid : p9_fid) : List Nat → session → Nat → Nat → Nat → Bool
  | [], s, len, offset, _ =>
    decide (len = 0) ||
      (match read_round rpc fid s len offset with
       | some (k, _) => decide (k = 0)
       | none => false)
  | k :: ks, s, len, offset, resid =>
    decide (len ≠ 0) &&
      (match read_round rpc fid s len offset with
       | some (k1, s1) =>
         decide (k1 = (k : Int) ∧ 0 < k ∧ k ≤ resid) &&
           read_replies rpc fid ks s1 ((len + 2 ^ 64 - k) % 2 ^ 64) ((offset + k) % 2 ^ 64)
             (resid - k)
       | none => false)

/-! # Theorems -/

/-! ## Little-endian bytes -/

theorem le_bytes_length (n v : Nat) : (le_bytes n v).length = n := by
  induction n generalizing v with
  | zero => rfl
  | succ n ih => simp [le_bytes, ih]

theorem le_val_le_bytes (n v : Nat) : le_val (le_bytes n v) = v % 256 ^ n := by
  induction n generalizing v with
  | zero => simp [le_bytes, le_val, Nat.mod_one]
  | succ n ih =>
    simp only [le_bytes, le_val, ih]
    rw [pow_succ, Nat.mul_comm (256 ^ n) 256, Nat.mod_mul]

/-! ## `p9pdu_write` -/

theorem poke_length (mem bs : List Nat) (pos : Nat) (h : pos + bs.length ≤ mem.length) :
    (poke mem pos bs).length = mem.length := by
  simp [poke, List.length_append, List.length_take, List.length_drop]
  omega

theorem wr_WWF (pdu : p9_fcall) (bs : List Nat) (h : WWF pdu) : WWF (wr pdu bs).2 := by
  obtain ⟨h1, h2, h3⟩ := h
  unfold wr
  split
  · refine ⟨?_, h2, ?_⟩
    · simpa [p9_fcall.append] using ‹_›
    · simp only [p9_fcall.append]
      rw [poke_length]; exact h3; omega
  · refine ⟨?_, h2, ?_⟩
    · simp [p9_fcall.append, List.length_take]; omega
    · simp only [p9_fcall.append]
      rw [poke_length]; exact h3
      simp [List.length_take]; omega

theorem p9pdu_write_eq (pdu : p9_fcall) (data : List Nat) (n : Nat) (h : WWF pdu)
    (hn : n ≤ data.length) :
    ((if (p9pdu_write pdu data n).1 ≠ 0 then -EFAULT else 0 : Int), (p9pdu_write pdu data n).2)
      = wr pdu (data.take n) := by
  obtain ⟨h1, h2, h3⟩ := h
  have e1 : (pdu.capacity + 2 ^ 64 - pdu.size) % 2 ^ 64 = pdu.capacity - pdu.size := by
    have : pdu.capacity + 2 ^ 64 - pdu.size = (pdu.capacity - pdu.size) + 2 ^ 64 := by omega
    rw [this, Nat.add_mod_right, Nat.mod_eq_of_lt]; omega
  simp only [p9pdu_write, e1, wr, List.length_take, Nat.min_eq_left hn]
  by_cases hfit : pdu.size + n ≤ pdu.capacity
  · have hmin : min (pdu.capacity - pdu.size) n = n := by omega
    have hmod : (pdu.size + n) % 2 ^ 32 = pdu.size + n := Nat.mod_eq_of_lt (by omega)
    simp [hfit, hmin, hmod, p9_fcall.append, List.length_take, Nat.min_eq_left hn]
    omega
  · have hmin : min (pdu.capacity - pdu.size) n = pdu.capacity - pdu.size := by omega
    have hmod : (pdu.size + (pdu.capacity - pdu.size)) % 2 ^ 32 = pdu.capacity := by
      rw [Nat.add_sub_cancel' h1]; exact Nat.mod_eq_of_lt h2
    have hne : n - (pdu.capacity - pdu.size) ≠ 0 := by omega
    have hlen : pdu.size + min (pdu.capacity - pdu.size) (min n data.length) = pdu.capacity := by
      omega
    simp [hfit, hmin, hmod, hne, p9_fcall.append, List.length_take, List.take_take, hlen]
    omega

theorem poke_poke (mem bs cs : List Nat) (pos : Nat) (h : pos ≤ mem.length) :
    poke (poke mem pos bs) (pos + bs.length) cs = poke mem pos (bs ++ cs) := by
  have hl : (List.take pos mem).length = pos := by simp [List.length_take, h]
  have e1 : List.take (pos + bs.length) (List.take pos mem ++ bs ++ List.drop (pos + bs.length) mem)
      = List.take pos mem ++ bs := by
    rw [List.take_append_eq_append_take]
    simp [hl, List.length_append]
  have e2 : List.drop (pos + bs.length + cs.length)
      (List.take pos mem ++ bs ++ List.drop (pos + bs.length) mem)
      = List.drop (pos + bs.length + cs.length) mem := by
    rw [List.drop_append_eq_append_drop]
    simp [hl, List.length_append, List.drop_drop]
  unfold poke
  rw [e1, e2]
  simp [Nat.add_assoc]

theorem wr_nil (pdu : p9_fcall) (h : WWF pdu) : wr pdu [] = (0, pdu) := by
  obtain ⟨h1, h2, h3⟩ := h
  have : poke pdu.sdata pdu.size [] = pdu.sdata := by simp [poke]
  simp [wr, h1, p9_fcall.append, this]

theorem wr_append (pdu : p9_fcall) (bs cs : List Nat) (h : WWF pdu) :
    wr pdu (bs ++ cs) = if (wr pdu bs).1 = 0 then wr (wr pdu bs).2 cs else wr pdu bs := by
  obtain ⟨h1, h2, h3⟩ := h
  have hEF : (-EFAULT : Int) ≠ 0 := by decide
  by_cases hb : pdu.size + bs.length ≤ pdu.capacity
  · have e : wr pdu bs = (0, pdu.append bs) := by simp [wr, hb]
    rw [e]
    simp only [if_true]
    by_cases hc : pdu.size + (bs.length + cs.length) ≤ pdu.capacity
    · have hc2 : pdu.size + bs.length + cs.length ≤ pdu.capacity := by omega
      simp only [wr, List.length_append, hc, if_true, p9_fcall.append, hc2]
      rw [poke_poke _ _ _ _ (by omega)]
      simp [Nat.add_assoc]
    · have hc2 : ¬ pdu.size + bs.length + cs.length ≤ pdu.capacity := by omega
      simp only [wr, List.length_append, hc, if_false, p9_fcall.append, hc2]
      rw [poke_poke _ _ _ _ (by omega)]
      have e3 : List.take (pdu.capacity - pdu.size) (bs ++ cs)
          = bs ++ List.take (pdu.capacity - (pdu.size + bs.length)) cs := by
        rw [List.take_append_eq_append_take]
        rw [List.take_of_length_le (by omega)]
        congr 2
        omega
      rw [e3]
      simp [Nat.add_assoc]
  · have e : wr pdu bs = (-EFAULT, pdu.append (bs.take (pdu.capacity - pdu.size))) := by
      simp [wr, hb]
    rw [e]
    simp only [hEF, if_false]
    have hc : ¬ pdu.size + (bs.length + cs.length) ≤ pdu.capacity := by omega
    simp only [wr, List.length_append, hc, if_false]
    rw [List.take_append_eq_append_take]
    have : pdu.capacity - pdu.size - bs.length = 0 := by omega
    simp [this]

theorem write_scalar_eq (pdu : p9_fcall) (n v : Nat) (h : WWF pdu) :
    write_scalar pdu n v = wr pdu (le_bytes n (v % 2 ^ (8 * n))) := by
  have := p9pdu_write_eq pdu (le_bytes n (v % 2 ^ (8 * n))) n h (by simp [le_bytes_length])
  rw [List.take_of_length_le (by simp [le_bytes_length])] at this
  simpa [write_scalar] using this

/-! ## The encoder emits the wire bytes -/

theorem enc_vals_cons (proto : Nat) (v : Val) (vs : List Val) :
    enc_vals proto (v :: vs) = enc_val proto v ++ enc_vals proto vs := by
  simp [enc_vals]

theorem vwritef_loop_spec (proto lvl : Nat)
    (step : Char → p9_fcall → List Val → Option (Int × p9_fcall × List Val))
    (hs : WStepSpec proto lvl step) : WNestedSpec proto lvl (vwritef_loop proto step) := by
  intro fmt
  induction fmt with
  | nil =>
    intro args extra pdu ha hw
    cases args with
    | nil => simp [vwritef_loop, enc_vals, wr_nil pdu hw]
    | cons v vs => simp [args_ok] at ha
  | cons c cs ih =>
    intro args extra pdu ha hw
    cases args with
    | nil => simp [args_ok] at ha
    | cons v vs =>
      simp only [args_ok, Bool.and_eq_true] at ha
      obtain ⟨hv, hvs⟩ := ha
      have hq : c ≠ '?' := by
        intro hc; subst hc
        cases v <;> simp [arg_ok] at hv
      simp only [vwritef_loop, hq, if_false, List.cons_append, hs c v pdu _ hv hw]
      rw [enc_vals_cons, wr_append pdu _ _ hw]
      by_cases he : (wr pdu (enc_val proto v)).1 = 0
      · simp only [he, ne_eq, not_true_eq_false, if_false, if_true]
        exact ih vs extra _ hvs (wr_WWF pdu _ hw)
      · simp [he]

theorem vwritef_case_spec1 (proto : Nat) (nested : List Char → p9_fcall → List Val → WRes) :
    WStepSpec proto 1 (vwritef_case nested) := by
  intro c v pdu rest hv hw
  cases v <;> simp [arg_ok] at hv <;> subst hv <;>
    simp [vwritef_case, enc_val, write_scalar_eq _ _ _ hw]

theorem p9pdu_vwritef_spec1 (proto n : Nat) :
    WNestedSpec proto 1 (p9pdu_vwritef (n + 1) proto) := by
  intro fmt args extra pdu ha hw
  simp only [p9pdu_vwritef]
  exact vwritef_loop_spec proto 1 _ (vwritef_case_spec1 proto _) fmt args extra pdu ha hw

theorem enc_vals_one (proto : Nat) (v : Val) : enc_vals proto [v] = enc_val proto v := by
  simp [enc_vals]

theorem nested_one (proto lvl : Nat) (nested : List Char → p9_fcall → List Val → WRes)
    (hn : WNestedSpec proto lvl nested) (c : Char) (v : Val) (pdu : p9_fcall)
    (hv : arg_ok lvl c v = true) (hw : WWF pdu) :
    nested [c] pdu [v] = some (wr pdu (enc_val proto v)) := by
  have := hn [c] [v] [] pdu (by simp [args_ok, hv]) hw
  simpa [enc_vals_one] using this

theorem str_len_eq (p : CStr) :
    (match p with
      | none => 0
      | some bs => min bs.length USHRT_MAX) = min (p.getD []).length USHRT_MAX := by
  cases p <;> simp

theorem vwritef_case_s (proto : Nat) (nested : List Char → p9_fcall → List Val → WRes)
    (hn : WNestedSpec proto 1 nested) (p : CStr) (pdu : p9_fcall) (rest : List Val)
    (hw : WWF pdu) :
    vwritef_case nested 's' pdu (Val.s p :: rest)
      = some ((wr pdu (enc_str p)).1, (wr pdu (enc_str p)).2, rest) := by
  have h1 := nested_one proto 1 nested hn 'w' (Val.w (min (p.getD []).length USHRT_MAX)) pdu
    (by simp [arg_ok]) hw
  simp only [enc_val] at h1
  have h2 := p9pdu_write_eq (wr pdu (le_bytes 2 (min (p.getD []).length USHRT_MAX % 2 ^ 16))).2
    (p.getD []) (min (p.getD []).length USHRT_MAX) (wr_WWF _ _ hw) (Nat.min_le_left _ _)
  have h3 := wr_append pdu (le_bytes 2 (min (p.getD []).length USHRT_MAX % 2 ^ 16))
    ((p.getD []).take (min (p.getD []).length USHRT_MAX)) hw
  simp only [vwritef_case, str_len_eq, h1]
  simp only [enc_str, h3]
  by_cases he : (wr pdu (le_bytes 2 (min (p.getD []).length USHRT_MAX % 2 ^ 16))).1 = 0
  · simp only [he, ← h2]
    simp
  · have he2 : ¬ (wr pdu (le_bytes 2 (min (p.getD []).length USHRT_MAX % 65536))).1 = 0 := he
    simp [he2]

theorem vwritef_case_Q (proto : Nat) (nested : List Char → p9_fcall → List Val → WRes)
    (hn : WNestedSpec proto 1 nested) (x : p9_qid) (pdu : p9_fcall) (rest : List Val)
    (hw : WWF pdu) :
    vwritef_case nested 'Q' pdu (Val.Q x :: rest)
      = some ((wr pdu (enc_qid x)).1, (wr pdu (enc_qid x)).2, rest) := by
  have h1 := hn ['b', 'd', 'q'] [Val.b x.type, Val.d x.version, Val.q x.path] [] pdu
    (by simp [args_ok, arg_ok]) hw
  simp only [List.append_nil] at h1
  simp [vwritef_case, h1, enc_vals, enc_val, enc_qid]

theorem vwritef_case_spec2 (proto : Nat) (nested : List Char → p9_fcall → List Val → WRes)
    (hn : WNestedSpec proto 1 nested) : WStepSpec proto 2 (vwritef_case nested) := by
  intro c v pdu rest hv hw
  cases v <;> simp [arg_ok] at hv <;> subst hv
  case s p => simpa [enc_val] using vwritef_case_s proto nested hn p pdu rest hw
  case Q x => simpa [enc_val] using vwritef_case_Q proto nested hn x pdu rest hw
  all_goals simp [vwritef_case, enc_val, write_scalar_eq _ _ _ hw]

theorem p9pdu_vwritef_spec2 (proto n : Nat) :
    WNestedSpec proto 2 (p9pdu_vwritef (n + 2) proto) := by
  intro fmt args extra pdu ha hw
  simp only [p9pdu_vwritef]
  exact vwritef_loop_spec proto 2 _
    (vwritef_case_spec2 proto _ (p9pdu_vwritef_spec1 proto n)) fmt args extra pdu ha hw

/-! ## The `?` directive -/

theorem vwritef_loop_opt (proto : Nat)
    (step : Char → p9_fcall → List Val → Option (Int × p9_fcall × List Val))
    (f1 f2 : List Char) (pdu : p9_fcall) (args : List Val) :
    vwritef_loop proto step (f1 ++ '?' :: f2) pdu args
      = vwritef_loop proto step
          (if proto = p9_proto_2000u ∨ proto = p9_proto_2000L then f1 ++ f2 else f1) pdu args := by
  induction f1 generalizing pdu args with
  | nil =>
    by_cases hp : proto = p9_proto_2000u ∨ proto = p9_proto_2000L
    · have hp2 : ¬ (proto ≠ p9_proto_2000u ∧ proto ≠ p9_proto_2000L) := by tauto
      simp [vwritef_loop, hp, hp2]
    · have hp2 : proto ≠ p9_proto_2000u ∧ proto ≠ p9_proto_2000L := by tauto
      simp [vwritef_loop, hp, hp2]
  | cons c cs ih =>
    by_cases hp : proto = p9_proto_2000u ∨ proto = p9_proto_2000L
    · have hp2 : ¬ (proto ≠ p9_proto_2000u ∧ proto ≠ p9_proto_2000L) := by tauto
      simp only [hp, if_true] at ih ⊢
      by_cases hc : c = '?'
      · simp only [List.cons_append, vwritef_loop, hc, if_true, hp2, if_false]
        exact ih pdu args
      · simp only [List.cons_append, vwritef_loop, hc, if_false]
        cases hst : step c pdu args with
        | none => rfl
        | some r =>
          obtain ⟨err, pdu1, args1⟩ := r
          by_cases he : err ≠ 0
          · simp [he]
          · simp only [he, if_false]
            exact ih pdu1 args1
    · have hp2 : proto ≠ p9_proto_2000u ∧ proto ≠ p9_proto_2000L := by tauto
      simp only [hp, if_false] at ih ⊢
      by_cases hc : c = '?'
      · simp [List.cons_append, vwritef_loop, hc, hp2]
      · simp only [List.cons_append, vwritef_loop, hc, if_false]
        cases hst : step c pdu args with
        | none => rfl
        | some r =>
          obtain ⟨err, pdu1, args1⟩ := r
          by_cases he : err ≠ 0
          · simp [he]
          · simp only [he, if_false]
            exact ih pdu1 args1

theorem vreadf_loop_opt (proto : Nat) (step : Char → p9_fcall → RRes)
    (f1 f2 : List Char) (pdu : p9_fcall) :
    vreadf_loop proto step (f1 ++ '?' :: f2) pdu
      = vreadf_loop proto step
          (if proto = p9_proto_2000u ∨ proto = p9_proto_2000L then f1 ++ f2 else f1) pdu := by
  induction f1 generalizing pdu with
  | nil =>
    by_cases hp : proto = p9_proto_2000u ∨ proto = p9_proto_2000L
    · have hp2 : ¬ (proto ≠ p9_proto_2000u ∧ proto ≠ p9_proto_2000L) := by tauto
      simp [vreadf_loop, hp, hp2]
    · have hp2 : proto ≠ p9_proto_2000u ∧ proto ≠ p9_proto_2000L := by tauto
      simp [vreadf_loop, hp, hp2]
  | cons c cs ih =>
    by_cases hp : proto = p9_proto_2000u ∨ proto = p9_proto_2000L
    · have hp2 : ¬ (proto ≠ p9_proto_2000u ∧ proto ≠ p9_proto_2000L) := by tauto
      simp only [hp, if_true] at ih ⊢
      by_cases hc : c = '?'
      · simp only [List.cons_append, vreadf_loop, hc, if_true, hp2, if_false]
        exact ih pdu
      · simp only [List.cons_append, vreadf_loop, hc, if_false]
        cases hst : step c pdu with
        | none => rfl
        | some r =>
          obtain ⟨err, pdu1, vs⟩ := r
          by_cases he : err ≠ 0
          · simp [he]
          · simp only [he, if_false]
            have e := ih pdu1
            simp only [List.append_eq] at e ⊢
            rw [e]
    · have hp2 : proto ≠ p9_proto_2000u ∧ proto ≠ p9_proto_2000L := by tauto
      simp only [hp, if_false] at ih ⊢
      by_cases hc : c = '?'
      · simp [List.cons_append, vreadf_loop, hc, hp2]
      · simp only [List.cons_append, vreadf_loop, hc, if_false]
        cases hst : step c pdu with
        | none => rfl
        | some r =>
          obtain ⟨err, pdu1, vs⟩ := r
          by_cases he : err ≠ 0
          · simp [he]
          · simp only [he, if_false]
            have e := ih pdu1
            simp only [List.append_eq] at e ⊢
            rw [e]

theorem p9pdu_vwritef_opt (depth proto : Nat) (f1 f2 : List Char) (pdu : p9_fcall)
    (args : List Val) :
    p9pdu_vwritef depth proto (f1 ++ '?' :: f2) pdu args
      = p9pdu_vwritef depth proto
          (if proto = p9_proto_2000u ∨ proto = p9_proto_2000L then f1 ++ f2 else f1) pdu args := by
  cases depth with
  | zero => simp [p9pdu_vwritef]
  | succ d => simp only [p9pdu_vwritef]; exact vwritef_loop_opt proto _ f1 f2 pdu args

theorem p9pdu_vreadf_opt (depth proto : Nat) (f1 f2 : List Char) (pdu : p9_fcall) :
    p9pdu_vreadf depth proto (f1 ++ '?' :: f2) pdu
      = p9pdu_vreadf depth proto
          (if proto = p9_proto_2000u ∨ proto = p9_proto_2000L then f1 ++ f2 else f1) pdu := by
  cases depth with
  | zero => simp [p9pdu_vreadf]
  | succ d => simp only [p9pdu_vreadf]; exact vreadf_loop_opt proto _ f1 f2 pdu

/-! ## Arrays and stat in the encoder -/

theorem vwritef_each_spec {α : Type} (f : p9_fcall → Val → WRes) (mk : α → Val)
    (e : α → List Nat)
    (hf : ∀ p x, WWF p → f p (mk x) = some (wr p (e x)))
    (xs : List α) (pdu : p9_fcall) (hw : WWF pdu) :
    vwritef_each f (xs.map mk) pdu = some (wr pdu (xs.map e).flatten) := by
  induction xs generalizing pdu with
  | nil => simp [vwritef_each, wr_nil pdu hw]
  | cons x xs ih =>
    simp only [List.map_cons, vwritef_each, hf pdu x hw, List.flatten_cons]
    rw [wr_append pdu _ _ hw]
    by_cases he : (wr pdu (e x)).1 = 0
    · simp only [he, ne_eq, not_true_eq_false, if_false, if_true]
      exact ih _ (wr_WWF pdu _ hw)
    · simp [he]

theorem vwritef_case_T (proto : Nat) (nested : List Char → p9_fcall → List Val → WRes)
    (hn : WNestedSpec proto 2 nested) (nw : Nat) (ws : Option (List CStr)) (pdu : p9_fcall)
    (rest : List Val) (hlen : nw % 2 ^ 16 ≤ (ws.getD []).length) (hw : WWF pdu) :
    vwritef_case nested 'T' pdu (Val.T nw ws :: rest)
      = some ((wr pdu (enc_val proto (Val.T nw ws))).1,
              (wr pdu (enc_val proto (Val.T nw ws))).2, rest) := by
  have h1 := nested_one proto 2 nested hn 'w' (Val.w (nw % 2 ^ 16)) pdu (by simp [arg_ok]) hw
  simp only [enc_val] at h1
  have h2 := vwritef_each_spec (fun p x => nested ['s'] p [x]) Val.s enc_str
    (fun p x hp => by
      simpa [enc_val] using nested_one proto 2 nested hn 's' (Val.s x) p (by simp [arg_ok]) hp)
    ((ws.getD []).take (nw % 2 ^ 16))
    (wr pdu (le_bytes 2 ((nw % 2 ^ 16) % 2 ^ 16))).2 (wr_WWF _ _ hw)
  have hl : ¬ (ws.getD []).length < nw % 2 ^ 16 := by omega
  simp only [vwritef_case, h1, enc_val]
  rw [wr_append pdu _ _ hw]
  by_cases he : (wr pdu (le_bytes 2 ((nw % 2 ^ 16) % 2 ^ 16))).1 = 0
  · simp only [he, hl, h2]
    simp
  · have he2 : ¬ (wr pdu (le_bytes 2 (nw % 65536))).1 = 0 := by simpa using he
    simp [he2]

theorem vwritef_case_R (proto : Nat) (nested : List Char → p9_fcall → List Val → WRes)
    (hn : WNestedSpec proto 2 nested) (nw : Nat) (qs : Option (List p9_qid)) (pdu : p9_fcall)
    (rest : List Val) (hlen : nw % 2 ^ 16 ≤ (qs.getD []).length) (hw : WWF pdu) :
    vwritef_case nested 'R' pdu (Val.R nw qs :: rest)
      = some ((wr pdu (enc_val proto (Val.R nw qs))).1,
              (wr pdu (enc_val proto (Val.R nw qs))).2, rest) := by
  have h1 := nested_one proto 2 nested hn 'w' (Val.w (nw % 2 ^ 16)) pdu (by simp [arg_ok]) hw
  simp only [enc_val] at h1
  have h2 := vwritef_each_spec (fun p x => nested ['Q'] p [x]) Val.Q enc_qid
    (fun p x hp => by
      simpa [enc_val] using nested_one proto 2 nested hn 'Q' (Val.Q x) p (by simp [arg_ok]) hp)
    ((qs.getD []).take (nw % 2 ^ 16))
    (wr pdu (le_bytes 2 ((nw % 2 ^ 16) % 2 ^ 16))).2 (wr_WWF _ _ hw)
  have hl : ¬ (qs.getD []).length < nw % 2 ^ 16 := by omega
  simp only [vwritef_case, h1, enc_val]
  rw [wr_append pdu _ _ hw]
  by_cases he : (wr pdu (le_bytes 2 ((nw % 2 ^ 16) % 2 ^ 16))).1 = 0
  · simp only [he, hl, h2]
    simp
  · have he2 : ¬ (wr pdu (le_bytes 2 (nw % 65536))).1 = 0 := by simpa using he
    simp [he2]

theorem fmt_S_split : fmt_S = "wwdQdddqssss".toList ++ '?' :: "sugu".toList := by rfl

theorem vwritef_case_S (proto n : Nat) (st : p9_wstat) (pdu : p9_fcall)
    (rest : List Val) (hw : WWF pdu) :
    vwritef_case (p9pdu_vwritef (n + 2) proto) 'S' pdu (Val.S st :: rest)
      = some ((wr pdu (enc_stat proto st)).1, (wr pdu (enc_stat proto st)).2, rest) := by
  have hn := p9pdu_vwritef_spec2 proto n
  have key : p9pdu_vwritef (n + 2) proto fmt_S pdu
      [Val.w st.size, Val.w st.type, Val.d st.dev, Val.Q st.qid,
       Val.d st.mode, Val.d st.atime, Val.d st.mtime, Val.q st.length,
       Val.s st.name, Val.s st.uid, Val.s st.gid, Val.s st.muid,
       Val.s st.extension, Val.u st.n_uid, Val.g st.n_gid, Val.u st.n_muid]
      = some (wr pdu (enc_stat proto st)) := by
    rw [fmt_S_split, p9pdu_vwritef_opt]
    by_cases hp : proto = p9_proto_2000u ∨ proto = p9_proto_2000L
    · simp only [hp, if_true]
      have := hn ("wwdQdddqssss".toList ++ "sugu".toList)
        [Val.w st.size, Val.w st.type, Val.d st.dev, Val.Q st.qid,
         Val.d st.mode, Val.d st.atime, Val.d st.mtime, Val.q st.length,
         Val.s st.name, Val.s st.uid, Val.s st.gid, Val.s st.muid,
         Val.s st.extension, Val.u st.n_uid, Val.g st.n_gid, Val.u st.n_muid] [] pdu
        (by simp [args_ok, arg_ok]) hw
      simp only [List.append_nil] at this
      rw [this]
      simp [enc_vals, enc_val, enc_stat, hp]
    · simp only [hp, if_false]
      have := hn ("wwdQdddqssss".toList)
        [Val.w st.size, Val.w st.type, Val.d st.dev, Val.Q st.qid,
         Val.d st.mode, Val.d st.atime, Val.d st.mtime, Val.q st.length,
         Val.s st.name, Val.s st.uid, Val.s st.gid, Val.s st.muid]
        [Val.s st.extension, Val.u st.n_uid, Val.g st.n_gid, Val.u st.n_muid] pdu
        (by simp [args_ok, arg_ok]) hw
      simp only [List.cons_append, List.nil_append] at this
      rw [this]
      simp [enc_vals, enc_val, enc_stat, hp]
  simp only [vwritef_case, key]
  simp

theorem vwritef_case_spec3 (proto n : Nat) :
    WStepSpec proto 3 (vwritef_case (p9pdu_vwritef (n + 2) proto)) := by
  have hn := p9pdu_vwritef_spec2 proto n
  have hn1 : WNestedSpec proto 1 (p9pdu_vwritef (n + 2) proto) := p9pdu_vwritef_spec1 proto (n + 1)
  intro c v pdu rest hv hw
  cases v <;> simp [arg_ok] at hv
  case s p => subst hv; simpa [enc_val] using vwritef_case_s proto _ hn1 p pdu rest hw
  case Q x => subst hv; simpa [enc_val] using vwritef_case_Q proto _ hn1 x pdu rest hw
  case S st => subst hv; simpa [enc_val] using vwritef_case_S proto n st pdu rest hw
  case T nw ws => obtain ⟨hc, hl⟩ := hv; subst hc; exact vwritef_case_T proto _ hn nw ws pdu rest hl hw
  case R nw qs => obtain ⟨hc, hl⟩ := hv; subst hc; exact vwritef_case_R proto _ hn nw qs pdu rest hl hw
  all_goals subst hv; simp [vwritef_case, enc_val, write_scalar_eq _ _ _ hw]

theorem p9pdu_vwritef_spec3 (proto n : Nat) :
    WNestedSpec proto 3 (p9pdu_vwritef (n + 3) proto) := by
  intro fmt args extra pdu ha hw
  simp only [p9pdu_vwritef]
  exact vwritef_loop_spec proto 3 _ (vwritef_case_spec3 proto n) fmt args extra pdu ha hw

/-! ## `p9pdu_read` -/

theorem window_length (r : p9_fcall) (h : RWF r) : r.window.length = r.size - r.offset := by
  obtain ⟨h1, h2, h3⟩ := h
  simp [p9_fcall.window, List.length_take, List.length_drop]
  omega

theorem adv_zero (r : p9_fcall) : r.adv 0 = r := by
  simp [p9_fcall.adv]

theorem adv_adv (r : p9_fcall) (a b : Nat) : (r.adv a).adv b = r.adv (a + b) := by
  simp [p9_fcall.adv, Nat.add_assoc]

theorem adv_RWF (r : p9_fcall) (k : Nat) (h : RWF r) (hk : r.offset + k ≤ r.size) :
    RWF (r.adv k) := by
  obtain ⟨h1, h2, h3⟩ := h
  exact ⟨hk, h2, h3⟩

theorem adv_window (r : p9_fcall) (k : Nat) :
    (r.adv k).window = r.window.drop k := by
  simp only [p9_fcall.window, p9_fcall.adv, List.drop_take, List.drop_drop]
  congr 1
  omega

theorem p9pdu_read_ok (r : p9_fcall) (n : Nat) (h : RWF r) (hn : r.offset + n ≤ r.size) :
    p9pdu_read r n = (0, r.adv n, r.window.take n) := by
  obtain ⟨h1, h2, h3⟩ := h
  have e1 : (r.size + 2 ^ 64 - r.offset) % 2 ^ 64 = r.size - r.offset := by
    have : r.size + 2 ^ 64 - r.offset = (r.size - r.offset) + 2 ^ 64 := by omega
    rw [this, Nat.add_mod_right, Nat.mod_eq_of_lt]; omega
  have hmin : min (r.size - r.offset) n = n := by omega
  have hmod : (r.offset + n) % 2 ^ 64 = r.offset + n := Nat.mod_eq_of_lt (by omega)
  simp only [p9pdu_read, e1, hmin, hmod, p9_fcall.adv, p9_fcall.window, List.take_take,
    Nat.sub_self]
  rw [Nat.min_comm, hmin]

theorem p9pdu_read_short (r : p9_fcall) (n : Nat) (h : RWF r) (hn : r.size < r.offset + n) :
    (p9pdu_read r n).1 ≠ 0 := by
  obtain ⟨h1, h2, h3⟩ := h
  have e1 : (r.size + 2 ^ 64 - r.offset) % 2 ^ 64 = r.size - r.offset := by
    have : r.size + 2 ^ 64 - r.offset = (r.size - r.offset) + 2 ^ 64 := by omega
    rw [this, Nat.add_mod_right, Nat.mod_eq_of_lt]; omega
  simp only [p9pdu_read, e1]
  omega

theorem window_fits (r : p9_fcall) (bs tail : List Nat) (h : RWF r)
    (hwin : r.window = bs ++ tail) : r.offset + bs.length ≤ r.size := by
  have := window_length r h
  rw [hwin, List.length_append] at this
  obtain ⟨h1, h2, h3⟩ := h
  omega

theorem read_scalar_spec (r : p9_fcall) (n v : Nat) (mk : Nat → Val) (tail : List Nat)
    (h : RWF r) (hv : v < 2 ^ (8 * n)) (hwin : r.window = le_bytes n (v % 2 ^ (8 * n)) ++ tail) :
    read_scalar r n mk = (0, r.adv n, [mk v]) := by
  have hfit := window_fits r _ tail h hwin
  rw [le_bytes_length] at hfit
  have e := p9pdu_read_ok r n h hfit
  have hpow : (256 : Nat) ^ n = 2 ^ (8 * n) := by
    rw [pow_mul]; norm_num
  have hval : le_val (r.window.take n) = v := by
    rw [hwin, List.take_append_of_le_length (by simp [le_bytes_length])]
    rw [List.take_of_length_le (by simp [le_bytes_length])]
    rw [le_val_le_bytes, hpow, Nat.mod_mod, Nat.mod_eq_of_lt hv]
  simp [read_scalar, e, hval]

/-! ## The decoder reads back the wire bytes -/

theorem vreadf_loop_spec (proto lvl : Nat) (step : Char → p9_fcall → RRes)
    (hs : RStepSpec proto lvl step) : RNestedSpec proto lvl (vreadf_loop proto step) := by
  intro fmt
  induction fmt with
  | nil =>
    intro args r tail ha _ _ _
    cases args with
    | nil => simp [vreadf_loop, enc_vals, adv_zero]
    | cons v vs => simp [args_ok] at ha
  | cons c cs ih =>
    intro args r tail ha hwf hr hwin
    cases args with
    | nil => simp [args_ok] at ha
    | cons v vs =>
      simp only [args_ok, Bool.and_eq_true] at ha
      obtain ⟨hv, hvs⟩ := ha
      simp only [List.all_cons, Bool.and_eq_true] at hwf
      obtain ⟨hwv, hwvs⟩ := hwf
      have hq : c ≠ '?' := by
        intro hc; subst hc
        cases v <;> simp [arg_ok] at hv
      rw [enc_vals_cons, List.append_assoc] at hwin
      have hfit := window_fits r _ _ hr hwin
      have h1 := hs c v r _ hv hwv hr hwin
      have hr1 := adv_RWF r _ hr hfit
      have hwin1 : (r.adv (enc_val proto v).length).window = enc_vals proto vs ++ tail := by
        rw [adv_window, hwin, List.drop_left]
      have h2 := ih vs _ tail hvs hwvs hr1 hwin1
      simp only [vreadf_loop, hq, if_false, h1, h2, adv_adv, enc_vals_cons, List.length_append]
      simp

theorem vreadf_case_spec1 (proto : Nat) (nested : List Char → p9_fcall → RRes) :
    RStepSpec proto 1 (vreadf_case nested) := by
  intro c v r tail hv hwf hr hwin
  cases v <;> simp [arg_ok] at hv <;> subst hv <;> simp only [val_wf, decide_eq_true_eq] at hwf <;>
    simp only [enc_val] at hwin ⊢
  case b v =>
    simp [vreadf_case, read_scalar_spec r 1 v Val.b tail hr (by simpa using hwf) hwin,
      le_bytes_length, back]
  case w v =>
    simp [vreadf_case, read_scalar_spec r 2 v Val.w tail hr (by simpa using hwf) hwin,
      le_bytes_length, back]
  case d v =>
    simp [vreadf_case, read_scalar_spec r 4 v Val.d tail hr (by simpa using hwf) hwin,
      le_bytes_length, back]
  case q v =>
    simp [vreadf_case, read_scalar_spec r 8 v Val.q tail hr (by simpa using hwf) hwin,
      le_bytes_length, back]
  case u v =>
    simp [vreadf_case, read_scalar_spec r 4 v Val.u tail hr (by simpa using hwf) hwin,
      le_bytes_length, back]
  case g v =>
    simp [vreadf_case, read_scalar_spec r 4 v Val.g tail hr (by simpa using hwf) hwin,
      le_bytes_length, back]

theorem p9pdu_vreadf_spec1 (proto n : Nat) :
    RNestedSpec proto 1 (p9pdu_vreadf (n + 1) proto) := by
  intro fmt args r tail ha hwf hr hwin
  simp only [p9pdu_vreadf]
  exact vreadf_loop_spec proto 1 _ (vreadf_case_spec1 proto _) fmt args r tail ha hwf hr hwin

theorem cstr_of_wf (bs : List Nat) (h : bs.all (fun b => decide (0 < b) && decide (b < 256)) = true) :
    cstr bs = bs := by
  unfold cstr
  rw [List.takeWhile_eq_self_iff]
  intro b hb
  have := (List.all_eq_true.mp h) b hb
  simp only [Bool.and_eq_true, decide_eq_true_eq] at this
  simp only [ne_eq, decide_not, Bool.not_eq_true', decide_eq_false_iff_not]
  omega

theorem enc_str_wf (bs : List Nat) (h : bs.length ≤ USHRT_MAX) :
    enc_str (some bs) = le_bytes 2 (bs.length % 2 ^ 16) ++ bs := by
  simp [enc_str, Nat.min_eq_left h]

theorem vreadf_case_s (proto : Nat) (nested : List Char → p9_fcall → RRes)
    (hn : RNestedSpec proto 1 nested) (p : CStr) (r : p9_fcall) (tail : List Nat)
    (hwf : str_wf p = true) (hr : RWF r) (hwin : r.window = enc_str p ++ tail) :
    vreadf_case nested 's' r = some (0, r.adv (enc_str p).length, [Val.s p]) := by
  cases p with
  | none => simp [str_wf] at hwf
  | some bs =>
    simp only [str_wf, Bool.and_eq_true, decide_eq_true_eq] at hwf
    obtain ⟨hlen, hall⟩ := hwf
    have hlt : bs.length < 2 ^ 16 := by simp only [USHRT_MAX] at hlen; omega
    rw [enc_str_wf bs hlen, Nat.mod_eq_of_lt hlt] at hwin ⊢
    rw [List.append_assoc] at hwin
    have h1 := hn ['w'] [Val.w bs.length] r (bs ++ tail) (by simp [args_ok, arg_ok])
      (by simp [val_wf]; exact hlt) hr
      (by
        have hlt2 : bs.length % 65536 = bs.length := Nat.mod_eq_of_lt hlt
        simpa [enc_vals, enc_val, hlt2] using hwin)
    simp only [enc_vals_one, enc_val, le_bytes_length, List.map, back] at h1
    have hfit2 := window_fits r _ _ hr hwin
    rw [le_bytes_length] at hfit2
    have hr1 := adv_RWF r 2 hr hfit2
    have hwin1 : (r.adv 2).window = bs ++ tail := by
      rw [adv_window, hwin]
      exact List.drop_left' (le_bytes_length 2 bs.length)
    have hfit3 := window_fits (r.adv 2) _ _ hr1 hwin1
    have h2 := p9pdu_read_ok (r.adv 2) bs.length hr1 hfit3
    rw [hwin1, List.take_left] at h2
    simp [vreadf_case, h1, h2, adv_adv, cstr_of_wf bs hall, le_bytes_length]

theorem vreadf_case_Q (proto : Nat) (nested : List Char → p9_fcall → RRes)
    (hn : RNestedSpec proto 1 nested) (x : p9_qid) (r : p9_fcall) (tail : List Nat)
    (hwf : qid_wf x = true) (hr : RWF r) (hwin : r.window = enc_qid x ++ tail) :
    vreadf_case nested 'Q' r = some (0, r.adv (enc_qid x).length, [Val.Q x]) := by
  simp only [qid_wf, Bool.and_eq_true, decide_eq_true_eq] at hwf
  obtain ⟨⟨h1, h2⟩, h3⟩ := hwf
  have h := hn ['b', 'd', 'q'] [Val.b x.type, Val.d x.version, Val.q x.path] r tail
    (by simp [args_ok, arg_ok])
    (by simp only [List.all_cons, List.all_nil, val_wf, decide_eq_true_eq, Bool.and_eq_true,
          Bool.and_true]; exact ⟨h1, h2, h3⟩) hr
    (by simpa [enc_vals, enc_val, enc_qid] using hwin)
  have e : enc_vals proto [Val.b x.type, Val.d x.version, Val.q x.path] = enc_qid x := by
    simp [enc_vals, enc_val, enc_qid]
  rw [e] at h
  simp [vreadf_case, h, back]

theorem vreadf_case_spec2 (proto : Nat) (nested : List Char → p9_fcall → RRes)
    (hn : RNestedSpec proto 1 nested) : RStepSpec proto 2 (vreadf_case nested) := by
  intro c v r tail hv hwf hr hwin
  cases v <;> simp [arg_ok] at hv <;> subst hv
  case s p => exact vreadf_case_s proto nested hn p r tail hwf hr hwin
  case Q x => exact vreadf_case_Q proto nested hn x r tail hwf hr hwin
  all_goals exact vreadf_case_spec1 proto nested _ _ r tail (by simp [arg_ok]) hwf hr hwin

theorem p9pdu_vreadf_spec2 (proto n : Nat) :
    RNestedSpec proto 2 (p9pdu_vreadf (n + 2) proto) := by
  intro fmt args r tail ha hwf hr hwin
  simp only [p9pdu_vreadf]
  exact vreadf_loop_spec proto 2 _
    (vreadf_case_spec2 proto _ (p9pdu_vreadf_spec1 proto n)) fmt args r tail ha hwf hr hwin

/-! ## Arrays and stat in the decoder -/

theorem vreadf_each_spec {α : Type} (f : p9_fcall → RRes) (mk : α → Val) (e : α → List Nat)
    (wf : α → Bool)
    (hf : ∀ r x tail, wf x = true → RWF r → r.window = e x ++ tail →
      f r = some (0, r.adv (e x).length, [mk x]))
    (xs : List α) (r : p9_fcall) (tail : List Nat) (hwf : xs.all wf = true) (hr : RWF r)
    (hwin : r.window = (xs.map e).flatten ++ tail) :
    vreadf_each f xs.length r = some (0, r.adv (xs.map e).flatten.length, xs.map mk) := by
  induction xs generalizing r with
  | nil => simp [vreadf_each, adv_zero]
  | cons x xs ih =>
    simp only [List.all_cons, Bool.and_eq_true] at hwf
    obtain ⟨hx, hxs⟩ := hwf
    simp only [List.map_cons, List.flatten_cons, List.append_assoc] at hwin
    have hfit := window_fits r _ _ hr hwin
    have h1 := hf r x _ hx hr hwin
    have hr1 := adv_RWF r _ hr hfit
    have hwin1 : (r.adv (e x).length).window = (xs.map e).flatten ++ tail := by
      rw [adv_window, hwin, List.drop_left]
    have h2 := ih _ hxs hr1 hwin1
    simp only [List.length_cons, vreadf_each, h1, h2, adv_adv, List.map_cons, List.flatten_cons,
      List.length_append]
    simp

theorem strs_of_map (l : List CStr) : strs_of (l.map Val.s) = l := by
  induction l with
  | nil => rfl
  | cons x xs ih => simp [strs_of, ih]

theorem qids_of_map (l : List p9_qid) : qids_of (l.map Val.Q) = l := by
  induction l with
  | nil => rfl
  | cons x xs ih => simp [qids_of, ih]

theorem vreadf_case_T (proto : Nat) (nested : List Char → p9_fcall → RRes)
    (hn : RNestedSpec proto 2 nested) (nw : Nat) (ws : Option (List CStr)) (r : p9_fcall)
    (tail : List Nat) (hwf : val_wf (Val.T nw ws) = true) (hr : RWF r)
    (hwin : r.window = enc_val proto (Val.T nw ws) ++ tail) :
    vreadf_case nested 'T' r
      = some (0, r.adv (enc_val proto (Val.T nw ws)).length, [Val.T nw ws]) := by
  cases ws with
  | none => simp [val_wf] at hwf
  | some l =>
    simp only [val_wf, Bool.and_eq_true, decide_eq_true_eq] at hwf
    obtain ⟨⟨hlt, hlen⟩, hall⟩ := hwf
    have hm : nw % 2 ^ 16 = nw := Nat.mod_eq_of_lt hlt
    have henc : enc_val proto (Val.T nw (some l))
        = le_bytes 2 (nw % 2 ^ 16) ++ (l.map enc_str).flatten := by
      simp only [enc_val, Option.getD_some, hm]
      rw [List.take_of_length_le (by omega)]
    rw [henc] at hwin ⊢
    rw [List.append_assoc] at hwin
    have h1 := hn ['w'] [Val.w nw] r _ (by simp [args_ok, arg_ok])
      (by simp only [List.all_cons, List.all_nil, val_wf, decide_eq_true_eq, Bool.and_true]
          exact hlt) hr
      (by simpa [enc_vals, enc_val] using hwin)
    simp only [enc_vals_one, enc_val, le_bytes_length, List.map, back] at h1
    have hfit2 := window_fits r _ _ hr hwin
    rw [le_bytes_length] at hfit2
    have hr1 := adv_RWF r 2 hr hfit2
    have hwin1 : (r.adv 2).window = (l.map enc_str).flatten ++ tail := by
      rw [adv_window, hwin]
      exact List.drop_left' (le_bytes_length 2 _)
    have h2 := vreadf_each_spec (nested ['s']) Val.s enc_str str_wf
      (fun r x tail hx hr hw => by
        have := hn ['s'] [Val.s x] r tail (by simp [args_ok, arg_ok])
          (by simpa [val_wf] using hx) hr (by simpa [enc_vals, enc_val] using hw)
        simpa [enc_vals, enc_val, back] using this)
      l (r.adv 2) tail hall hr1 hwin1
    rw [hlen] at h2
    simp [vreadf_case, h1, h2, adv_adv, strs_of_map, le_bytes_length]

theorem vreadf_case_R (proto : Nat) (nested : List Char → p9_fcall → RRes)
    (hn : RNestedSpec proto 2 nested) (nw : Nat) (qs : Option (List p9_qid)) (r : p9_fcall)
    (tail : List Nat) (hwf : val_wf (Val.R nw qs) = true) (hr : RWF r)
    (hwin : r.window = enc_val proto (Val.R nw qs) ++ tail) :
    vreadf_case nested 'R' r
      = some (0, r.adv (enc_val proto (Val.R nw qs)).length, [Val.R nw qs]) := by
  cases qs with
  | none => simp [val_wf] at hwf
  | some l =>
    simp only [val_wf, Bool.and_eq_true, decide_eq_true_eq] at hwf
    obtain ⟨⟨hlt, hlen⟩, hall⟩ := hwf
    have hm : nw % 2 ^ 16 = nw := Nat.mod_eq_of_lt hlt
    have henc : enc_val proto (Val.R nw (some l))
        = le_bytes 2 (nw % 2 ^ 16) ++ (l.map enc_qid).flatten := by
      simp only [enc_val, Option.getD_some, hm]
      rw [List.take_of_length_le (by omega)]
    rw [henc] at hwin ⊢
    rw [List.append_assoc] at hwin
    have h1 := hn ['w'] [Val.w nw] r _ (by simp [args_ok, arg_ok])
      (by simp only [List.all_cons, List.all_nil, val_wf, decide_eq_true_eq, Bool.and_true]
          exact hlt) hr
      (by simpa [enc_vals, enc_val] using hwin)
    simp only [enc_vals_one, enc_val, le_bytes_length, List.map, back] at h1
    have hfit2 := window_fits r _ _ hr hwin
    rw [le_bytes_length] at hfit2
    have hr1 := adv_RWF r 2 hr hfit2
    have hwin1 : (r.adv 2).window = (l.map enc_qid).flatten ++ tail := by
      rw [adv_window, hwin]
      exact List.drop_left' (le_bytes_length 2 _)
    have h2 := vreadf_each_spec (nested ['Q']) Val.Q enc_qid qid_wf
      (fun r x tail hx hr hw => by
        have := hn ['Q'] [Val.Q x] r tail (by simp [args_ok, arg_ok])
          (by simpa [val_wf] using hx) hr (by simpa [enc_vals, enc_val] using hw)
        simpa [enc_vals, enc_val, back] using this)
      l (r.adv 2) tail hall hr1 hwin1
    rw [hlen] at h2
    simp [vreadf_case, h1, h2, adv_adv, qids_of_map, le_bytes_length]

theorem vreadf_case_S (proto n : Nat) (st : p9_wstat) (r : p9_fcall) (tail : List Nat)
    (hwf : wstat_wf st = true) (hr : RWF r) (hwin : r.window = enc_stat proto st ++ tail) :
    vreadf_case (p9pdu_vreadf (n + 2) proto) 'S' r
      = some (0, r.adv (enc_stat proto st).length, [back proto (Val.S st)]) := by
  have hn := p9pdu_vreadf_spec2 proto n
  simp only [wstat_wf, Bool.and_eq_true, decide_eq_true_eq] at hwf
  obtain ⟨⟨⟨⟨⟨⟨⟨⟨⟨⟨⟨⟨⟨⟨⟨w1, w2⟩, w3⟩, w4⟩, w5⟩, w6⟩, w7⟩, w8⟩, w9⟩, w10⟩, w11⟩, w12⟩, w13⟩,
    w14⟩, w15⟩, w16⟩ := hwf
  by_cases hp : proto = p9_proto_2000u ∨ proto = p9_proto_2000L
  · have e : enc_vals proto
        [Val.w st.size, Val.w st.type, Val.d st.dev, Val.Q st.qid,
         Val.d st.mode, Val.d st.atime, Val.d st.mtime, Val.q st.length,
         Val.s st.name, Val.s st.uid, Val.s st.gid, Val.s st.muid,
         Val.s st.extension, Val.u st.n_uid, Val.g st.n_gid, Val.u st.n_muid]
        = enc_stat proto st := by
      simp [enc_vals, enc_val, enc_stat, hp]
    have key := hn ("wwdQdddqssss".toList ++ "sugu".toList)
      [Val.w st.size, Val.w st.type, Val.d st.dev, Val.Q st.qid,
       Val.d st.mode, Val.d st.atime, Val.d st.mtime, Val.q st.length,
       Val.s st.name, Val.s st.uid, Val.s st.gid, Val.s st.muid,
       Val.s st.extension, Val.u st.n_uid, Val.g st.n_gid, Val.u st.n_muid] r tail
      (by simp [args_ok, arg_ok])
      (by simp only [List.all_cons, List.all_nil, val_wf, decide_eq_true_eq, Bool.and_eq_true,
            Bool.and_true]
          exact ⟨w1, w2, w3, w4, w5, w6, w7, w8, w9, w10, w11, w12, w13, w14, w15, w16⟩)
      hr (by rw [e]; exact hwin)
    rw [e] at key
    have key2 := p9pdu_vreadf_opt (n + 2) proto "wwdQdddqssss".toList "sugu".toList r
    rw [← fmt_S_split] at key2
    simp only [hp, if_true] at key2
    rw [key] at key2
    simp only [vreadf_case, key2]
    simp [back, wstat_store, hp]
  · have e : enc_vals proto
        [Val.w st.size, Val.w st.type, Val.d st.dev, Val.Q st.qid,
         Val.d st.mode, Val.d st.atime, Val.d st.mtime, Val.q st.length,
         Val.s st.name, Val.s st.uid, Val.s st.gid, Val.s st.muid]
        = enc_stat proto st := by
      simp [enc_vals, enc_val, enc_stat, hp]
    have key := hn ("wwdQdddqssss".toList)
      [Val.w st.size, Val.w st.type, Val.d st.dev, Val.Q st.qid,
       Val.d st.mode, Val.d st.atime, Val.d st.mtime, Val.q st.length,
       Val.s st.name, Val.s st.uid, Val.s st.gid, Val.s st.muid] r tail
      (by simp [args_ok, arg_ok])
      (by simp only [List.all_cons, List.all_nil, val_wf, decide_eq_true_eq, Bool.and_eq_true,
            Bool.and_true]
          exact ⟨w1, w2, w3, w4, w5, w6, w7, w8, w9, w10, w11, w12⟩)
      hr (by rw [e]; exact hwin)
    rw [e] at key
    have key2 := p9pdu_vreadf_opt (n + 2) proto "wwdQdddqssss".toList "sugu".toList r
    rw [← fmt_S_split] at key2
    simp only [hp, if_false] at key2
    rw [key] at key2
    simp only [vreadf_case, key2]
    simp [back, wstat_store, wstat_init, legacy_stat, hp]

theorem vreadf_case_spec3 (proto n : Nat) :
    RStepSpec proto 3 (vreadf_case (p9pdu_vreadf (n + 2) proto)) := by
  have hn := p9pdu_vreadf_spec2 proto n
  have hn1 : RNestedSpec proto 1 (p9pdu_vreadf (n + 2) proto) := p9pdu_vreadf_spec1 proto (n + 1)
  intro c v r tail hv hwf hr hwin
  cases v <;> simp [arg_ok] at hv
  case s p => subst hv; exact vreadf_case_s proto _ hn1 p r tail hwf hr hwin
  case Q x => subst hv; exact vreadf_case_Q proto _ hn1 x r tail hwf hr hwin
  case S st => subst hv; exact vreadf_case_S proto n st r tail hwf hr hwin
  case T nw ws => obtain ⟨hc, _⟩ := hv; subst hc; exact vreadf_case_T proto _ hn nw ws r tail hwf hr hwin
  case R nw qs => obtain ⟨hc, _⟩ := hv; subst hc; exact vreadf_case_R proto _ hn nw qs r tail hwf hr hwin
  all_goals subst hv; exact vreadf_case_spec1 proto _ _ _ r tail (by simp [arg_ok]) hwf hr hwin

theorem p9pdu_vreadf_spec3 (proto n : Nat) :
    RNestedSpec proto 3 (p9pdu_vreadf (n + 3) proto) := by
  intro fmt args r tail ha hwf hr hwin
  simp only [p9pdu_vreadf]
  exact vreadf_loop_spec proto 3 _ (vreadf_case_spec3 proto n) fmt args r tail ha hwf hr hwin

/-! ## Round trip -/

theorem append_window (pdu : p9_fcall) (bs : List Nat) (h : pdu.size ≤ pdu.sdata.length) :
    ({ pdu.append bs with offset := pdu.size } : p9_fcall).window = bs := by
  have hl : (List.take pdu.size pdu.sdata).length = pdu.size := by
    simp [List.length_take, h]
  simp only [p9_fcall.window, p9_fcall.append, poke, List.append_assoc]
  rw [List.drop_append_eq_append_drop, hl, Nat.sub_self, List.drop_zero,
    List.drop_eq_nil_of_le (by omega), List.nil_append, Nat.add_sub_cancel_left,
    List.take_left]

theorem roundtrip_gen (proto n : Nat) (fmt : List Char) (args : List Val) (pdu : p9_fcall)
    (ha : args_ok 3 fmt args = true) (hwf : args.all val_wf = true) (hw : WWF pdu)
    (hfit : pdu.size + (enc_vals proto args).length ≤ pdu.capacity) :
    p9pdu_vwritef (n + 3) proto fmt pdu args = some (0, pdu.append (enc_vals proto args)) ∧
    p9pdu_vreadf (n + 3) proto fmt { pdu.append (enc_vals proto args) with offset := pdu.size }
      = some (0, { pdu.append (enc_vals proto args) with
                    offset := pdu.size + (enc_vals proto args).length },
              args.map (back proto)) := by
  obtain ⟨h1, h2, h3⟩ := hw
  constructor
  · have := p9pdu_vwritef_spec3 proto n fmt args [] pdu ha ⟨h1, h2, h3⟩
    simpa [wr, hfit] using this
  · have hr : RWF ({ pdu.append (enc_vals proto args) with offset := pdu.size } : p9_fcall) := by
      refine ⟨?_, ?_, ?_⟩
      · simp [p9_fcall.append]
      · simp only [p9_fcall.append]; omega
      · simp only [p9_fcall.append]
        rw [poke_length _ _ _ (by omega)]; omega
    have := p9pdu_vreadf_spec3 proto n fmt args _ [] ha hwf hr
      (by rw [append_window _ _ (by omega)]; simp)
    simpa [p9_fcall.adv] using this

theorem back_id (proto lvl : Nat) (fmt : List Char) (args : List Val)
    (ha : args_ok lvl fmt args = true) (hS : ∀ c ∈ fmt, c ≠ 'S') :
    args.map (back proto) = args := by
  induction fmt generalizing args with
  | nil =>
    cases args with
    | nil => rfl
    | cons v vs => simp [args_ok] at ha
  | cons c cs ih =>
    cases args with
    | nil => simp [args_ok] at ha
    | cons v vs =>
      simp only [args_ok, Bool.and_eq_true] at ha
      obtain ⟨hv, hvs⟩ := ha
      have hc : c ≠ 'S' := hS c (by simp)
      have hb : back proto v = v := by
        cases v <;> simp [arg_ok] at hv <;> simp [back]
        exact absurd hv.1 hc
      simp [hb, ih vs hvs (fun d hd => hS d (by simp [hd]))]

/-- C1: for every format over `b w d q s u g Q T R` and every argument list of
the matching types (integers in range, strings non-null and at most 65535
bytes, arrays of the announced length), `p9pdu_writef` into an empty PDU
whose capacity holds the encoding returns 0, and `p9pdu_readf` of the same
format from offset 0 then returns 0 with exactly the encoded values, whatever
the protocol version. -/
theorem C1_writef_readf_roundtrip (proto : Nat) (fmt : List Char) (args : List Val)
    (pdu : p9_fcall)
    (hfmt : ∀ c ∈ fmt, c ∈ ['b', 'w', 'd', 'q', 's', 'u', 'g', 'Q', 'T', 'R'])
    (ha : args_ok 3 fmt args = true) (hwf : args.all val_wf = true)
    (hsize : pdu.size = 0) (hoff : pdu.offset = 0)
    (hcap : pdu.capacity < 2 ^ 32) (hbuf : pdu.capacity ≤ pdu.sdata.length)
    (hfit : (enc_vals proto args).length ≤ pdu.capacity) :
    ∃ w, p9pdu_writef pdu proto fmt args = some (0, w) ∧
      p9pdu_readf w proto fmt = some (0, { w with offset := w.size }, args) := by
  have hw : WWF pdu := ⟨by omega, hcap, hbuf⟩
  obtain ⟨e1, e2⟩ := roundtrip_gen proto 0 fmt args pdu ha hwf hw (by omega)
  refine ⟨pdu.append (enc_vals proto args), e1, ?_⟩
  have hb := back_id proto 3 fmt args ha (fun c hc => by
    have := hfmt c hc
    intro h; subst h; simp at this)
  have e3 : ({ pdu.append (enc_vals proto args) with offset := pdu.size } : p9_fcall)
      = pdu.append (enc_vals proto args) := by
    simp [p9_fcall.append, hsize, hoff]
  rw [e3, hb] at e2
  simp only [p9pdu_readf]
  rw [e2]
  simp [p9_fcall.append, hsize]

/-- Witness for C1 at the format `bsQT`. -/
theorem C1_witness :
    ∃ w, p9pdu_writef ⟨0, 0, 0, 0, 32, List.replicate 32 0⟩ 0 ['b', 's', 'Q', 'T']
            [Val.b 7, Val.s (some [65, 66]), Val.Q ⟨1, 2, 3⟩, Val.T 1 (some [some [67]])]
          = some (0, w) ∧
      p9pdu_readf w 0 ['b', 's', 'Q', 'T']
        = some (0, { w with offset := w.size },
            [Val.b 7, Val.s (some [65, 66]), Val.Q ⟨1, 2, 3⟩, Val.T 1 (some [some [67]])]) :=
  C1_writef_readf_roundtrip 0 ['b', 's', 'Q', 'T']
    [Val.b 7, Val.s (some [65, 66]), Val.Q ⟨1, 2, 3⟩, Val.T 1 (some [some [67]])]
    ⟨0, 0, 0, 0, 32, List.replicate 32 0⟩ (by decide) (by decide) (by decide) rfl rfl
    (by decide) (by decide) (by decide)

/-- C4: for every `p9_wstat` whose strings are non-null and at most 65535
bytes long, encoding it with `S` into an empty PDU that can hold it and
decoding with `S` returns, under 9P2000.u or 9P2000.L, a stat equal in all
sixteen fields, and under legacy 9P2000 the stat with the same twelve fields
before the `?`, a null `extension` and `n_uid`, `n_gid`, `n_muid` equal to
`0xFFFFFFFF`. -/
theorem C4_stat_roundtrip (proto : Nat) (st : p9_wstat) (pdu : p9_fcall)
    (hwf : wstat_wf st = true)
    (hsize : pdu.size = 0) (hoff : pdu.offset = 0)
    (hcap : pdu.capacity < 2 ^ 32) (hbuf : pdu.capacity ≤ pdu.sdata.length)
    (hfit : (enc_stat proto st).length ≤ pdu.capacity) :
    ∃ w, p9pdu_writef pdu proto ['S'] [Val.S st] = some (0, w) ∧
      p9pdu_readf w proto ['S']
        = some (0, { w with offset := w.size },
            [Val.S (if proto = p9_proto_2000u ∨ proto = p9_proto_2000L then st
                    else { st with extension := none, n_uid := 0xFFFFFFFF,
                                   n_gid := 0xFFFFFFFF, n_muid := 0xFFFFFFFF })]) := by
  have hw : WWF pdu := ⟨by omega, hcap, hbuf⟩
  have e : enc_vals proto [Val.S st] = enc_stat proto st := by simp [enc_vals, enc_val]
  obtain ⟨e1, e2⟩ := roundtrip_gen proto 0 ['S'] [Val.S st] pdu (by simp [args_ok, arg_ok])
    (by simpa [val_wf] using hwf) hw (by rw [e]; omega)
  refine ⟨pdu.append (enc_vals proto [Val.S st]), e1, ?_⟩
  have e3 : ({ pdu.append (enc_vals proto [Val.S st]) with offset := pdu.size } : p9_fcall)
      = pdu.append (enc_vals proto [Val.S st]) := by
    simp [p9_fcall.append, hsize, hoff]
  rw [e3] at e2
  simp only [p9pdu_readf]
  rw [e2]
  by_cases hp : proto = p9_proto_2000u ∨ proto = p9_proto_2000L
  · simp [p9_fcall.append, hsize, back, hp]
  · simp [p9_fcall.append, hsize, back, hp, legacy_stat]

/-- Witness for C4 under legacy 9P2000. -/
theorem C4_witness :
    ∃ w, p9pdu_writef ⟨0, 0, 0, 0, 64, List.replicate 64 0⟩ p9_proto_legacy ['S']
          [Val.S ⟨1, 2, 3, ⟨4, 5, 6⟩, 7, 8, 9, 10, some [97], some [98], some [99], some [100],
                  some [101], 11, 12, 13⟩] = some (0, w) ∧
      p9pdu_readf w p9_proto_legacy ['S']
        = some (0, { w with offset := w.size },
            [Val.S (if p9_proto_legacy = p9_proto_2000u ∨ p9_proto_legacy = p9_proto_2000L then
                ⟨1, 2, 3, ⟨4, 5, 6⟩, 7, 8, 9, 10, some [97], some [98], some [99], some [100],
                  some [101], 11, 12, 13⟩
              else { (⟨1, 2, 3, ⟨4, 5, 6⟩, 7, 8, 9, 10, some [97], some [98], some [99],
                       some [100], some [101], 11, 12, 13⟩ : p9_wstat) with
                     extension := none, n_uid := 0xFFFFFFFF,
                     n_gid := 0xFFFFFFFF, n_muid := 0xFFFFFFFF })]) :=
  C4_stat_roundtrip p9_proto_legacy
    ⟨1, 2, 3, ⟨4, 5, 6⟩, 7, 8, 9, 10, some [97], some [98], some [99], some [100],
      some [101], 11, 12, 13⟩
    ⟨0, 0, 0, 0, 64, List.replicate 64 0⟩ (by decide) rfl rfl (by decide) (by decide)
    (by decide)

/-- C5: the `?` directive cuts the format for legacy sessions only: with
`f1 ++ "?" ++ f2`, encoding and decoding under legacy 9P2000 give exactly the
result (return code, PDU bytes and cursor, values) of `f1` alone, and under
9P2000.u or 9P2000.L exactly that of `f1 ++ f2`. -/
theorem C5_optional_suffix (f1 f2 : List Char) (pdu : p9_fcall) (args : List Val) :
    p9pdu_writef pdu p9_proto_legacy (f1 ++ '?' :: f2) args
        = p9pdu_writef pdu p9_proto_legacy f1 args ∧
    p9pdu_writef pdu p9_proto_2000u (f1 ++ '?' :: f2) args
        = p9pdu_writef pdu p9_proto_2000u (f1 ++ f2) args ∧
    p9pdu_writef pdu p9_proto_2000L (f1 ++ '?' :: f2) args
        = p9pdu_writef pdu p9_proto_2000L (f1 ++ f2) args ∧
    p9pdu_readf pdu p9_proto_legacy (f1 ++ '?' :: f2)
        = p9pdu_readf pdu p9_proto_legacy f1 ∧
    p9pdu_readf pdu p9_proto_2000u (f1 ++ '?' :: f2)
        = p9pdu_readf pdu p9_proto_2000u (f1 ++ f2) ∧
    p9pdu_readf pdu p9_proto_2000L (f1 ++ '?' :: f2)
        = p9pdu_readf pdu p9_proto_2000L (f1 ++ f2) := by
  simp only [p9pdu_writef, p9pdu_readf, p9pdu_vwritef_opt, p9pdu_vreadf_opt]
  simp [p9_proto_legacy, p9_proto_2000u, p9_proto_2000L]

/-! ## Running off the buffer -/

theorem read_scalar_total (r : p9_fcall) (n : Nat) (mk : Nat → Val) (h : RWF r) :
    read_scalar r n mk
      = if r.offset + n ≤ r.size then (0, r.adv n, [mk (le_val (r.window.take n))])
        else (-EFAULT, (p9pdu_read r n).2.1, []) := by
  by_cases hn : r.offset + n ≤ r.size
  · simp [read_scalar, p9pdu_read_ok r n h hn, hn]
  · have := p9pdu_read_short r n h (by omega)
    simp [read_scalar, this, hn]

theorem field_size_scalar (c : Char) (n : Nat) (bytes : List Nat) (hc : c ≠ 's')
    (hn : (if c = 'b' then 1 else if c = 'w' then 2 else if c = 'q' then 8
             else if c = 'Q' then 13 else 4) = n) :
    field_size c bytes = if n ≤ bytes.length then some n else none := by
  simp only [field_size, hc, if_false, hn]

theorem RTotal_scalar (step : Char → p9_fcall → RRes) (c : Char) (n : Nat) (mk : Nat → Val)
    (hc : c ≠ 's')
    (hn : (if c = 'b' then 1 else if c = 'w' then 2 else if c = 'q' then 8
             else if c = 'Q' then 13 else 4) = n)
    (hmk : ∀ v, arg_ok 2 c (mk v) = true)
    (hstep : ∀ r, step c r = some (read_scalar r n mk)) : RTotal step c := by
  intro r hr
  have hEF : (-EFAULT : Int) ≠ 0 := by decide
  rw [hstep r, read_scalar_total r n mk hr, field_size_scalar c n _ hc hn, window_length r hr]
  obtain ⟨h1, h2, h3⟩ := hr
  by_cases hfit : r.offset + n ≤ r.size
  · have : n ≤ r.size - r.offset := by omega
    exact ⟨0, r.adv n, [mk (le_val (r.window.take n))], by simp [hfit],
      fun _ => ⟨n, _, by simp [this], rfl, hfit, rfl, hmk _⟩, fun h => absurd rfl h⟩
  · have : ¬ n ≤ r.size - r.offset := by omega
    exact ⟨-EFAULT, (p9pdu_read r n).2.1, [], by simp [hfit], fun h => absurd h hEF,
      fun _ => by simp [this]⟩

theorem RTotal_level1 (nested : List Char → p9_fcall → RRes) (c : Char)
    (hc : c ∈ ['b', 'w', 'd', 'q', 'u', 'g']) : RTotal (vreadf_case nested) c := by
  simp only [List.mem_cons, List.mem_singleton, List.not_mem_nil, or_false] at hc
  rcases hc with h | h | h | h | h | h <;> subst h
  · exact RTotal_scalar _ 'b' 1 Val.b (by decide) (by decide) (fun _ => by simp [arg_ok])
      (fun r => by simp [vreadf_case])
  · exact RTotal_scalar _ 'w' 2 Val.w (by decide) (by decide) (fun _ => by simp [arg_ok])
      (fun r => by simp [vreadf_case])
  · exact RTotal_scalar _ 'd' 4 Val.d (by decide) (by decide) (fun _ => by simp [arg_ok])
      (fun r => by simp [vreadf_case])
  · exact RTotal_scalar _ 'q' 8 Val.q (by decide) (by decide) (fun _ => by simp [arg_ok])
      (fun r => by simp [vreadf_case])
  · exact RTotal_scalar _ 'u' 4 Val.u (by decide) (by decide) (fun _ => by simp [arg_ok])
      (fun r => by simp [vreadf_case])
  · exact RTotal_scalar _ 'g' 4 Val.g (by decide) (by decide) (fun _ => by simp [arg_ok])
      (fun r => by simp [vreadf_case])

theorem vreadf_loop_total (proto : Nat) (step : Char → p9_fcall → RRes) (fmt : List Char)
    (hq : '?' ∉ fmt) (hs : ∀ c ∈ fmt, RTotal step c) (r : p9_fcall) (hr : RWF r) :
    ∃ e r1 vs, vreadf_loop proto step fmt r = some (e, r1, vs) ∧
      (e = 0 → ∃ k, wire_size fmt r.window = some k ∧ r1 = r.adv k ∧ r.offset + k ≤ r.size ∧
        args_ok 2 fmt vs = true) ∧
      (e ≠ 0 → wire_size fmt r.window = none) := by
  induction fmt generalizing r with
  | nil =>
    exact ⟨0, r, [], by simp [vreadf_loop],
      fun _ => ⟨0, by simp [wire_size], (adv_zero r).symm, by have := hr.1; omega,
        by simp [args_ok]⟩,
      fun h => absurd rfl h⟩
  | cons c cs ih =>
    have hc : c ≠ '?' := fun h => hq (by simp [h])
    have hq2 : '?' ∉ cs := fun h => hq (by simp [h])
    obtain ⟨e, r1, vs, h1, hok, hbad⟩ := hs c (by simp) r hr
    by_cases he : e = 0
    · obtain ⟨k, v, hk, hr1, hfit, hvs, hv⟩ := hok he
      subst hr1 he hvs
      obtain ⟨e2, r2, ws, h2, hok2, hbad2⟩ :=
        ih hq2 (fun d hd => hs d (by simp [hd])) (r.adv k) (adv_RWF r k hr hfit)
      rw [adv_window] at hok2 hbad2
      refine ⟨e2, r2, [v] ++ ws, ?_, ?_, ?_⟩
      · simp [vreadf_loop, hc, h1, h2]
      · intro he2
        obtain ⟨m, hm, hr2, hfit2, hws⟩ := hok2 he2
        refine ⟨k + m, ?_, ?_, ?_, ?_⟩
        · simp [wire_size, hk, hm]
        · rw [hr2, adv_adv]
        · simp only [p9_fcall.adv] at hfit2; omega
        · simp [args_ok, hv, hws]
      · intro he2
        simp [wire_size, hk, hbad2 he2]
    · refine ⟨e, r1, vs, ?_, fun h => absurd h he, ?_⟩
      · simp [vreadf_loop, hc, h1, he]
      · intro _
        simp [wire_size, hbad he]

theorem p9pdu_vreadf_total1 (proto n : Nat) (fmt : List Char)
    (hfmt : ∀ c ∈ fmt, c ∈ ['b', 'w', 'd', 'q', 'u', 'g']) (r : p9_fcall) (hr : RWF r) :
    ∃ e r1 vs, p9pdu_vreadf (n + 1) proto fmt r = some (e, r1, vs) ∧
      (e = 0 → ∃ k, wire_size fmt r.window = some k ∧ r1 = r.adv k ∧ r.offset + k ≤ r.size ∧
        args_ok 2 fmt vs = true) ∧
      (e ≠ 0 → wire_size fmt r.window = none) := by
  simp only [p9pdu_vreadf]
  exact vreadf_loop_total proto _ fmt
    (fun h => by have := hfmt _ h; simp at this)
    (fun c hc => RTotal_level1 _ c (hfmt c hc)) r hr

theorem vreadf_one_scalar (proto n : Nat) (c : Char) (k : Nat) (mk : Nat → Val) (r : p9_fcall)
    (hq : c ≠ '?')
    (hstep : vreadf_case (p9pdu_vreadf n proto) c r = some (read_scalar r k mk)) :
    p9pdu_vreadf (n + 1) proto [c] r = some (read_scalar r k mk) := by
  simp only [p9pdu_vreadf, vreadf_loop, hq, if_false, hstep]
  obtain ⟨e, p, vs⟩ := read_scalar r k mk
  by_cases he : e = 0
  · simp [he]
  · simp [he]

theorem wire_size_bdq (bytes : List Nat) :
    wire_size ['b', 'd', 'q'] bytes = if 13 ≤ bytes.length then some 13 else none := by
  have e1 : field_size 'b' bytes = if 1 ≤ bytes.length then some 1 else none :=
    field_size_scalar 'b' 1 _ (by decide) (by decide)
  have e2 : field_size 'd' (bytes.drop 1) = if 4 ≤ (bytes.drop 1).length then some 4 else none :=
    field_size_scalar 'd' 4 _ (by decide) (by decide)
  have e3 : field_size 'q' ((bytes.drop 1).drop 4)
      = if 8 ≤ ((bytes.drop 1).drop 4).length then some 8 else none :=
    field_size_scalar 'q' 8 _ (by decide) (by decide)
  simp only [wire_size, e1]
  by_cases h1 : 1 ≤ bytes.length
  · simp only [h1, if_true, e2, List.length_drop]
    by_cases h5 : 4 ≤ bytes.length - 1
    · simp only [h5, if_true, e3, List.length_drop]
      by_cases h13 : 8 ≤ bytes.length - 1 - 4
      · have : 13 ≤ bytes.length := by omega
        simp [h13, this]
      · have : ¬ 13 ≤ bytes.length := by omega
        simp [h13, this]
    · have : ¬ 13 ≤ bytes.length := by omega
      simp [h5, this]
  · have : ¬ 13 ≤ bytes.length := by omega
    simp [h1, this]

theorem args_ok_bdq (vs : List Val) (h : args_ok 2 ['b', 'd', 'q'] vs = true) :
    ∃ t v p, vs = [Val.b t, Val.d v, Val.q p] := by
  match vs, h with
  | [a, b, c], h =>
    simp only [args_ok, Bool.and_eq_true, Bool.and_true] at h
    obtain ⟨ha, hb, hc⟩ := h
    cases a <;> simp [arg_ok] at ha
    cases b <;> simp [arg_ok] at hb
    cases c <;> simp [arg_ok] at hc
    exact ⟨_, _, _, rfl⟩
  | [], h => simp [args_ok] at h
  | [_], h => simp [args_ok] at h
  | [_, _], h => simp [args_ok] at h
  | _ :: _ :: _ :: _ :: _, h => simp [args_ok] at h

theorem RTotal_Q (proto n : Nat) : RTotal (vreadf_case (p9pdu_vreadf (n + 1) proto)) 'Q' := by
  intro r hr
  obtain ⟨e, r1, vs, h1, hok, hbad⟩ := p9pdu_vreadf_total1 proto n ['b', 'd', 'q']
    (by decide) r hr
  rw [wire_size_bdq] at hok hbad
  rw [field_size_scalar 'Q' 13 _ (by decide) (by decide)]
  by_cases he : e = 0
  · obtain ⟨k, hk, hr1, hfit, hvs⟩ := hok he
    obtain ⟨t, v, p, hvs2⟩ := args_ok_bdq vs hvs
    subst he hvs2
    refine ⟨0, r1, [Val.Q ⟨t, v, p⟩], by simp [vreadf_case, h1], ?_, fun h => absurd rfl h⟩
    intro _
    exact ⟨k, _, hk, hr1, hfit, rfl, by simp [arg_ok]⟩
  · exact ⟨e, r1, [], by simp [vreadf_case, h1, he], fun h => absurd h he, fun _ => hbad he⟩

theorem RTotal_s (proto n : Nat) : RTotal (vreadf_case (p9pdu_vreadf (n + 1) proto)) 's' := by
  intro r hr
  have hEF : (-EFAULT : Int) ≠ 0 := by decide
  have hw : p9pdu_vreadf (n + 1) proto ['w'] r = some (read_scalar r 2 Val.w) :=
    vreadf_one_scalar proto n 'w' 2 Val.w r (by decide) (by simp [vreadf_case])
  have hwl := window_length r hr
  have hcase : vreadf_case (p9pdu_vreadf (n + 1) proto) 's' r
      = (if (read_scalar r 2 Val.w).1 ≠ 0 then
          some ((read_scalar r 2 Val.w).1, (read_scalar r 2 Val.w).2.1, [])
        else
          match (read_scalar r 2 Val.w).2.2 with
          | [Val.w len] =>
            if (p9pdu_read (read_scalar r 2 Val.w).2.1 len).1 ≠ 0 then
              some (-EFAULT, (p9pdu_read (read_scalar r 2 Val.w).2.1 len).2.1, [Val.s none])
            else some (0, (p9pdu_read (read_scalar r 2 Val.w).2.1 len).2.1,
                [Val.s (some (cstr (p9pdu_read (read_scalar r 2 Val.w).2.1 len).2.2))])
          | _ => none) := by
    simp [vreadf_case, hw]
  rw [hcase, read_scalar_total r 2 Val.w hr]
  have hfs : field_size 's' r.window
      = if 2 ≤ r.size - r.offset ∧ 2 + le_val (r.window.take 2) ≤ r.size - r.offset then
          some (2 + le_val (r.window.take 2)) else none := by
    simp [field_size, hwl]
  rw [hfs]
  by_cases h2 : r.offset + 2 ≤ r.size
  · have hr2 := adv_RWF r 2 hr h2
    simp only [h2, if_true, ne_eq, not_true_eq_false, if_false]
    by_cases hl : (r.adv 2).offset + le_val (r.window.take 2) ≤ (r.adv 2).size
    · have e := p9pdu_read_ok (r.adv 2) _ hr2 hl
      simp only [p9_fcall.adv] at hl
      have c1 : 2 ≤ r.size - r.offset ∧ 2 + le_val (r.window.take 2) ≤ r.size - r.offset := by
        omega
      refine ⟨0, r.adv (2 + le_val (r.window.take 2)),
        [Val.s (some (cstr ((r.adv 2).window.take (le_val (r.window.take 2)))))], ?_, ?_,
        fun h => absurd rfl h⟩
      · simp only [e, ne_eq, not_true_eq_false, if_false, adv_adv]
      · intro _
        exact ⟨2 + le_val (r.window.take 2), _, by simp only [c1, and_self, if_true], rfl,
          by omega, rfl, by simp [arg_ok]⟩
    · have e := p9pdu_read_short (r.adv 2) (le_val (r.window.take 2)) hr2 (by omega)
      simp only [p9_fcall.adv] at hl
      have c1 : ¬ (2 ≤ r.size - r.offset ∧ 2 + le_val (r.window.take 2) ≤ r.size - r.offset) := by
        omega
      refine ⟨-EFAULT, (p9pdu_read (r.adv 2) (le_val (r.window.take 2))).2.1, [Val.s none], ?_,
        fun h => absurd h hEF, ?_⟩
      · simp only [e, ne_eq, not_false_eq_true, if_true]
      · intro _
        simp only [c1, if_false]
  · have c1 : ¬ (2 ≤ r.size - r.offset ∧ 2 + le_val (r.window.take 2) ≤ r.size - r.offset) := by
      omega
    refine ⟨-EFAULT, (p9pdu_read r 2).2.1, [], ?_, fun h => absurd h hEF, ?_⟩
    · simp only [h2, if_false, hEF, ne_eq, not_false_eq_true, if_true]
    · intro _
      simp only [c1, if_false]

theorem p9pdu_vreadf_total2 (proto n : Nat) (fmt : List Char)
    (hfmt : ∀ c ∈ fmt, c ∈ ['b', 'w', 'd', 'q', 'u', 'g', 's', 'Q']) (r : p9_fcall)
    (hr : RWF r) :
    ∃ e r1 vs, p9pdu_vreadf (n + 2) proto fmt r = some (e, r1, vs) ∧
      (e = 0 → ∃ k, wire_size fmt r.window = some k ∧ r1 = r.adv k ∧ r.offset + k ≤ r.size ∧
        args_ok 2 fmt vs = true) ∧
      (e ≠ 0 → wire_size fmt r.window = none) := by
  simp only [p9pdu_vreadf]
  refine vreadf_loop_total proto _ fmt
    (fun h => by have := hfmt _ h; simp at this) (fun c hc => ?_) r hr
  have := hfmt c hc
  simp only [List.mem_cons, List.mem_singleton, List.not_mem_nil, or_false] at this
  rcases this with h | h | h | h | h | h | h | h
  · exact RTotal_level1 _ c (by simp [h])
  · exact RTotal_level1 _ c (by simp [h])
  · exact RTotal_level1 _ c (by simp [h])
  · exact RTotal_level1 _ c (by simp [h])
  · exact RTotal_level1 _ c (by simp [h])
  · exact RTotal_level1 _ c (by simp [h])
  · subst h; exact RTotal_s proto n
  · subst h; exact RTotal_Q proto n

/-- C6: for every format over `b w d q u g s Q`, `p9pdu_writef` returns 0 if
and only if the bytes between the PDU's `size` and its `capacity` can hold the
whole encoding of the arguments, and `p9pdu_readf` returns 0 if and only if the
bytes between the PDU's `offset` and its `size` cover the whole wire encoding of
the fields; in the other case each returns a non-zero error code. -/
theorem C6_truncation_reported (proto : Nat) (fmt : List Char) (args : List Val)
    (pdu r : p9_fcall)
    (hfmt : ∀ c ∈ fmt, c ∈ ['b', 'w', 'd', 'q', 'u', 'g', 's', 'Q'])
    (ha : args_ok 2 fmt args = true) (hw : WWF pdu) (hr : RWF r) :
    (∃ e w, p9pdu_writef pdu proto fmt args = some (e, w) ∧
      (e = 0 ↔ pdu.size + (enc_vals proto args).length ≤ pdu.capacity)) ∧
    (∃ e r1 vs, p9pdu_readf r proto fmt = some (e, r1, vs) ∧
      (e = 0 ↔ (wire_size fmt r.window).isSome = true)) := by
  constructor
  · have h := p9pdu_vwritef_spec2 proto 1 fmt args [] pdu ha hw
    simp only [List.append_nil] at h
    refine ⟨(wr pdu (enc_vals proto args)).1, (wr pdu (enc_vals proto args)).2, h, ?_⟩
    have hEF : (-EFAULT : Int) ≠ 0 := by decide
    unfold wr
    by_cases hfit : pdu.size + (enc_vals proto args).length ≤ pdu.capacity
    · simp [hfit]
    · simp [hfit, hEF]
  · obtain ⟨e, r1, vs, h1, hok, hbad⟩ := p9pdu_vreadf_total2 proto 1 fmt hfmt r hr
    refine ⟨e, r1, vs, h1, ?_⟩
    constructor
    · intro he
      obtain ⟨k, hk, _⟩ := hok he
      simp [hk]
    · intro hs
      by_contra he
      rw [hbad he] at hs
      simp at hs

/-- Witness for C6: a two-byte room for the format `bw`. -/
theorem C6_witness :
    (∃ e w, p9pdu_writef ⟨0, 0, 0, 0, 2, [0, 0]⟩ 0 ['b', 'w'] [Val.b 1, Val.w 2] = some (e, w) ∧
      (e = 0 ↔ (⟨0, 0, 0, 0, 2, [0, 0]⟩ : p9_fcall).size
          + (enc_vals 0 [Val.b 1, Val.w 2]).length
        ≤ (⟨0, 0, 0, 0, 2, [0, 0]⟩ : p9_fcall).capacity)) ∧
    (∃ e r1 vs, p9pdu_readf ⟨2, 0, 0, 0, 2, [9, 9]⟩ 0 ['b', 'w'] = some (e, r1, vs) ∧
      (e = 0 ↔ (wire_size ['b', 'w'] (⟨2, 0, 0, 0, 2, [9, 9]⟩ : p9_fcall).window).isSome
        = true)) :=
  C6_truncation_reported 0 ['b', 'w'] [Val.b 1, Val.w 2] ⟨0, 0, 0, 0, 2, [0, 0]⟩
    ⟨2, 0, 0, 0, 2, [9, 9]⟩ (by decide) (by decide) (by decide) (by decide)

/-! ## Blobs -/

/-- C7: decoding a blob (`D`) copies nothing: when the four bytes of the count
can be read, `p9pdu_readf` returns 0, leaves the buffer as it is, returns as
`data` the position right after the count field and as `count` the minimum of
the wire count and the bytes remaining after the count field, so that `count`
bytes from `data` stay within `pdu.size`. -/
theorem C7_blob_borrow (proto : Nat) (r : p9_fcall) (hr : RWF r) (h4 : r.offset + 4 ≤ r.size) :
    p9pdu_readf r proto ['D']
      = some (0, { r with offset := r.offset + 4 },
          [Val.D (min (le_val ((r.sdata.drop r.offset).take 4)) (r.size - (r.offset + 4)))
                 (r.offset + 4)]) ∧
    (r.offset + 4) + min (le_val ((r.sdata.drop r.offset).take 4)) (r.size - (r.offset + 4))
      ≤ r.size := by
  have hd : p9pdu_vreadf 2 proto ['d'] r = some (read_scalar r 4 Val.d) :=
    vreadf_one_scalar proto 1 'd' 4 Val.d r (by decide) (by simp [vreadf_case])
  rw [read_scalar_total r 4 Val.d hr] at hd
  simp only [h4, if_true] at hd
  obtain ⟨h1, h2, h3⟩ := hr
  have e2 : r.window.take 4 = (r.sdata.drop r.offset).take 4 := by
    simp only [p9_fcall.window, List.take_take]
    congr 1
    omega
  constructor
  · simp only [p9pdu_readf, p9pdu_vreadf, vreadf_loop]
    have hd2 : p9pdu_vreadf (1 + 1) proto ['d'] r = _ := hd
    simp only [p9pdu_vreadf] at hd2
    simp [vreadf_case, hd2, p9_fcall.adv, e2]
    congr 1
    omega
  · omega

/-- Witness for C7: a count of 9 in front of two remaining bytes. -/
theorem C7_witness :
    p9pdu_readf ⟨6, 0, 0, 0, 8, [9, 0, 0, 0, 1, 2, 0, 0]⟩ 0 ['D']
      = some (0, { (⟨6, 0, 0, 0, 8, [9, 0, 0, 0, 1, 2, 0, 0]⟩ : p9_fcall) with offset := 0 + 4 },
          [Val.D (min (le_val (([9, 0, 0, 0, 1, 2, 0, 0].drop 0).take 4)) (6 - (0 + 4)))
                 (0 + 4)]) ∧
    (0 + 4) + min (le_val (([9, 0, 0, 0, 1, 2, 0, 0].drop 0).take 4)) (6 - (0 + 4)) ≤ 6 :=
  C7_blob_borrow 0 ⟨6, 0, 0, 0, 8, [9, 0, 0, 0, 1, 2, 0, 0]⟩ (by decide) (by decide)

/-! ## Header framing -/

theorem frame_bytes (s hdr4 hdr3 body sz : List Nat) (h4 : hdr4.length = 4)
    (h3 : hdr3.length = 3) (hsz : sz.length = 4) :
    poke (poke (poke s 0 (hdr4 ++ hdr3)) 7 body) 0 sz
      = sz ++ (hdr3 ++ (body ++ s.drop (7 + body.length))) := by
  have e7 : 7 = 0 + (hdr4 ++ hdr3).length := by simp [h4, h3]
  rw [e7, poke_poke s _ _ 0 (Nat.zero_le _)]
  simp only [poke, List.take_zero, List.nil_append, Nat.zero_add, List.length_append, h4, h3, hsz,
    List.append_assoc]
  congr 1
  rw [List.drop_append_eq_append_drop, h4, Nat.sub_self, List.drop_zero,
    List.drop_eq_nil_of_le (by omega), List.nil_append]
  simp only [Nat.add_assoc]

theorem write_fits (pdu : p9_fcall) (data : List Nat) (hw : WWF pdu)
    (hfit : pdu.size + data.length ≤ pdu.capacity) :
    p9pdu_write pdu data data.length = (0, pdu.append data) := by
  have h := p9pdu_write_eq pdu data data.length hw (Nat.le_refl _)
  rw [List.take_length] at h
  simp only [wr, hfit, if_true] at h
  have h1 := congrArg Prod.fst h
  have h2 := congrArg Prod.snd h
  simp only at h1 h2
  have hEF : (-EFAULT : Int) ≠ 0 := by decide
  have h0 : (p9pdu_write pdu data data.length).1 = 0 := by
    by_contra hne
    simp [hne] at h1
    exact absurd h1 (by decide)
  exact Prod.ext h0 h2

theorem frame_bytes2 (s hdr4 hdr3 body : List Nat) (h4 : hdr4.length = 4)
    (h3 : hdr3.length = 3) :
    poke (poke s 0 (hdr4 ++ hdr3)) 7 body
      = hdr4 ++ (hdr3 ++ (body ++ s.drop (7 + body.length))) := by
  have e7 : 7 = 0 + (hdr4 ++ hdr3).length := by simp [h4, h3]
  rw [e7, poke_poke s _ _ 0 (Nat.zero_le _)]
  simp only [poke, List.take_zero, List.nil_append, Nat.zero_add, List.length_append, h4, h3,
    List.append_assoc]
  have e43 : 4 + (3 + body.length) = 7 + body.length := by omega
  rw [e43]

theorem frame_steps (pdu : p9_fcall) (tag type : Nat) (body : List Nat)
    (hsize : pdu.size = 0) (hcap : pdu.capacity < 2 ^ 32) (hbuf : pdu.capacity ≤ pdu.sdata.length)
    (hfit : 7 + body.length ≤ pdu.capacity) :
    p9pdu_prepare pdu tag type = some (0, ⟨7, type % 2 ^ 8, pdu.tag, pdu.offset,
      pdu.capacity,
      poke pdu.sdata 0 (le_bytes 4 0 ++ ([type % 2 ^ 8] ++ le_bytes 2 (tag % 2 ^ 16)))⟩) ∧
    p9pdu_write ⟨7, type % 2 ^ 8, pdu.tag, pdu.offset, pdu.capacity,
          poke pdu.sdata 0 (le_bytes 4 0 ++ ([type % 2 ^ 8] ++ le_bytes 2 (tag % 2 ^ 16)))⟩
        body body.length
      = (0, ⟨7 + body.length, type % 2 ^ 8, pdu.tag, pdu.offset, pdu.capacity,
          le_bytes 4 0 ++ ([type % 2 ^ 8] ++ le_bytes 2 (tag % 2 ^ 16) ++
            (body ++ pdu.sdata.drop (7 + body.length)))⟩) ∧
    p9pdu_finalize ⟨7 + body.length, type % 2 ^ 8, pdu.tag, pdu.offset, pdu.capacity,
          le_bytes 4 0 ++ ([type % 2 ^ 8] ++ le_bytes 2 (tag % 2 ^ 16) ++
            (body ++ pdu.sdata.drop (7 + body.length)))⟩
      = some (0, ⟨7 + body.length, type % 2 ^ 8, pdu.tag, pdu.offset, pdu.capacity,
          le_bytes 4 (7 + body.length) ++
                 ([type % 2 ^ 8] ++ le_bytes 2 (tag % 2 ^ 16) ++
                   (body ++ pdu.sdata.drop (7 + body.length)))⟩) := by
  have e0 : ({ pdu with id := type % 2 ^ 8 } : p9_fcall)
      = ⟨0, type % 2 ^ 8, pdu.tag, pdu.offset, pdu.capacity, pdu.sdata⟩ := by simp [hsize]
  have hlen : (le_bytes 4 0 ++ ([type % 2 ^ 8] ++ le_bytes 2 (tag % 2 ^ 16))).length = 7 := by
    simp [le_bytes_length]
  have h_prep : p9pdu_vwritef 3 0 ['d', 'b', 'w']
      ⟨0, type % 2 ^ 8, pdu.tag, pdu.offset, pdu.capacity, pdu.sdata⟩
      [Val.d 0, Val.b type, Val.w tag]
      = some (0, ⟨7, type % 2 ^ 8, pdu.tag, pdu.offset, pdu.capacity,
          poke pdu.sdata 0 (le_bytes 4 0 ++ ([type % 2 ^ 8] ++ le_bytes 2 (tag % 2 ^ 16)))⟩) := by
    have hp := p9pdu_vwritef_spec1 0 2 ['d', 'b', 'w'] [Val.d 0, Val.b type, Val.w tag] []
      ⟨0, type % 2 ^ 8, pdu.tag, pdu.offset, pdu.capacity, pdu.sdata⟩
      (by simp [args_ok, arg_ok]) ⟨Nat.zero_le _, hcap, hbuf⟩
    have henc : enc_vals 0 [Val.d 0, Val.b type, Val.w tag]
        = le_bytes 4 0 ++ ([type % 2 ^ 8] ++ le_bytes 2 (tag % 2 ^ 16)) := by
      simp [enc_vals, enc_val, le_bytes]
    rw [henc] at hp
    simp only [List.append_nil, wr, hlen, p9_fcall.append, Nat.zero_add] at hp
    rw [if_pos (by omega)] at hp
    exact hp
  have h_body : p9pdu_write ⟨7, type % 2 ^ 8, pdu.tag, pdu.offset, pdu.capacity,
          poke pdu.sdata 0 (le_bytes 4 0 ++ ([type % 2 ^ 8] ++ le_bytes 2 (tag % 2 ^ 16)))⟩
        body body.length
      = (0, ⟨7 + body.length, type % 2 ^ 8, pdu.tag, pdu.offset, pdu.capacity,
          poke (poke pdu.sdata 0 (le_bytes 4 0 ++ ([type % 2 ^ 8] ++ le_bytes 2 (tag % 2 ^ 16))))
            7 body⟩) := by
    have hb := write_fits ⟨7, type % 2 ^ 8, pdu.tag, pdu.offset, pdu.capacity,
          poke pdu.sdata 0 (le_bytes 4 0 ++ ([type % 2 ^ 8] ++ le_bytes 2 (tag % 2 ^ 16)))⟩
        body ⟨by show 7 ≤ pdu.capacity; omega, hcap, by
          show pdu.capacity ≤ (poke pdu.sdata 0 _).length
          rw [poke_length _ _ _ (by rw [hlen]; omega)]; exact hbuf⟩
        (by show 7 + body.length ≤ pdu.capacity; exact hfit)
    simpa [p9_fcall.append] using hb
  have hmod : (7 + body.length) % 2 ^ 32 = 7 + body.length := Nat.mod_eq_of_lt (by omega)
  have h_fin : p9pdu_vwritef 3 0 ['d'] ⟨0, type % 2 ^ 8, pdu.tag, pdu.offset, pdu.capacity,
          poke (poke pdu.sdata 0 (le_bytes 4 0 ++ ([type % 2 ^ 8] ++ le_bytes 2 (tag % 2 ^ 16))))
            7 body⟩ [Val.d (7 + body.length)]
      = some (0, ⟨4, type % 2 ^ 8, pdu.tag, pdu.offset, pdu.capacity,
          poke (poke (poke pdu.sdata 0
            (le_bytes 4 0 ++ ([type % 2 ^ 8] ++ le_bytes 2 (tag % 2 ^ 16)))) 7 body) 0
            (le_bytes 4 (7 + body.length))⟩) := by
    have hf := p9pdu_vwritef_spec1 0 2 ['d'] [Val.d (7 + body.length)] []
      ⟨0, type % 2 ^ 8, pdu.tag, pdu.offset, pdu.capacity,
          poke (poke pdu.sdata 0 (le_bytes 4 0 ++ ([type % 2 ^ 8] ++ le_bytes 2 (tag % 2 ^ 16))))
            7 body⟩
      (by simp [args_ok, arg_ok]) ⟨Nat.zero_le _, hcap, by
          show pdu.capacity ≤ (poke (poke pdu.sdata 0 _) 7 body).length
          rw [poke_length _ _ _ (by rw [poke_length _ _ _ (by rw [hlen]; omega)]; omega),
            poke_length _ _ _ (by rw [hlen]; omega)]; exact hbuf⟩
    simp only [List.append_nil, enc_vals_one, enc_val, wr, le_bytes_length, p9_fcall.append,
      Nat.zero_add, hmod] at hf
    rw [if_pos (by omega)] at hf
    exact hf
  have hfb := frame_bytes pdu.sdata (le_bytes 4 0) ([type % 2 ^ 8] ++ le_bytes 2 (tag % 2 ^ 16))
    body (le_bytes 4 (7 + body.length)) (le_bytes_length _ _) (by simp [le_bytes_length])
    (le_bytes_length _ _)
  have h_prep2 : p9pdu_prepare pdu tag type = some (0, ⟨7, type % 2 ^ 8, pdu.tag, pdu.offset,
      pdu.capacity,
      poke pdu.sdata 0 (le_bytes 4 0 ++ ([type % 2 ^ 8] ++ le_bytes 2 (tag % 2 ^ 16)))⟩) := by
    unfold p9pdu_prepare p9pdu_writef
    rw [e0, h_prep]
  have h_fin2 : p9pdu_finalize ⟨7 + body.length, type % 2 ^ 8, pdu.tag, pdu.offset, pdu.capacity,
          poke (poke pdu.sdata 0 (le_bytes 4 0 ++ ([type % 2 ^ 8] ++ le_bytes 2 (tag % 2 ^ 16))))
            7 body⟩
      = some (0, ⟨7 + body.length, type % 2 ^ 8, pdu.tag, pdu.offset, pdu.capacity,
          le_bytes 4 (7 + body.length) ++
                 ([type % 2 ^ 8] ++ le_bytes 2 (tag % 2 ^ 16) ++
                   (body ++ pdu.sdata.drop (7 + body.length)))⟩) := by
    simp only [p9pdu_finalize, p9pdu_writef, h_fin, Option.map_some', hmod, hfb,
      List.append_assoc]
  have hfb2 := frame_bytes2 pdu.sdata (le_bytes 4 0)
    ([type % 2 ^ 8] ++ le_bytes 2 (tag % 2 ^ 16)) body (le_bytes_length _ _)
    (by simp [le_bytes_length])
  rw [hfb2] at h_body h_fin2
  exact ⟨h_prep2, h_body, h_fin2⟩

/-- C2: for every message type, tag and body that fits in the capacity of a
reset PDU, after `p9pdu_prepare(tag, type)`, writing the body and
`p9pdu_finalize`, the first four bytes of the buffer are the little-endian
encoding of the final PDU length `7 + body length`, which is `pdu.size`; byte 4
is the type, bytes 5 and 6 the little-endian tag; the body bytes, every byte
after the size field and `pdu.size` are as they were before finalize. -/
theorem C2_header_framing (pdu : p9_fcall) (tag type : Nat) (body : List Nat)
    (hsize : pdu.size = 0) (hcap : pdu.capacity < 2 ^ 32) (hbuf : pdu.capacity ≤ pdu.sdata.length)
    (hfit : 7 + body.length ≤ pdu.capacity) :
    ∃ p1 p2 p3, p9pdu_prepare pdu tag type = some (0, p1) ∧
      p9pdu_write p1 body body.length = (0, p2) ∧
      p9pdu_finalize p2 = some (0, p3) ∧
      p3.size = 7 + body.length ∧
      p3.sdata.take 4 = le_bytes 4 (7 + body.length) ∧
      (p3.sdata.drop 4).take 1 = [type % 2 ^ 8] ∧
      (p3.sdata.drop 5).take 2 = le_bytes 2 (tag % 2 ^ 16) ∧
      (p3.sdata.drop 7).take body.length = body ∧
      p3.size = p2.size ∧
      p3.sdata.drop 4 = p2.sdata.drop 4 := by
  obtain ⟨h1, h2, h3⟩ := frame_steps pdu tag type body hsize hcap hbuf hfit
  refine ⟨_, _, _, h1, h2, h3, rfl, ?_, ?_, ?_, ?_, rfl, ?_⟩
  · exact List.take_left' (le_bytes_length _ _)
  · simp only []
    rw [List.drop_left' (le_bytes_length _ _)]
    simp
  · simp only []
    rw [show 5 = 4 + 1 from rfl, ← List.drop_drop, List.drop_left' (le_bytes_length _ _)]
    simp only [List.append_assoc, List.singleton_append, List.drop_succ_cons, List.drop_zero]
    exact List.take_left' (le_bytes_length _ _)
  · simp only []
    rw [show 7 = 4 + 3 from rfl, ← List.drop_drop, List.drop_left' (le_bytes_length _ _)]
    rw [List.drop_left' (by simp [le_bytes_length]), List.take_left]
  · simp only []
    rw [List.drop_left' (le_bytes_length _ _), List.drop_left' (le_bytes_length _ _)]

/-- Witness for C2: a one-byte body for type 100 and tag 0xFFFF. -/
theorem C2_witness :
    ∃ p1 p2 p3, p9pdu_prepare ⟨0, 0, 0, 0, 16, List.replicate 16 0⟩ 0xFFFF 100 = some (0, p1) ∧
      p9pdu_write p1 [42] [42].length = (0, p2) ∧
      p9pdu_finalize p2 = some (0, p3) ∧
      p3.size = 7 + [42].length ∧
      p3.sdata.take 4 = le_bytes 4 (7 + [42].length) ∧
      (p3.sdata.drop 4).take 1 = [100 % 2 ^ 8] ∧
      (p3.sdata.drop 5).take 2 = le_bytes 2 (0xFFFF % 2 ^ 16) ∧
      (p3.sdata.drop 7).take [42].length = [42] ∧
      p3.size = p2.size ∧
      p3.sdata.drop 4 = p2.sdata.drop 4 :=
  C2_header_framing ⟨0, 0, 0, 0, 16, List.replicate 16 0⟩ 0xFFFF 100 [42] rfl (by decide)
    (by decide) (by decide)

theorem parse_header_built (pdu : p9_fcall) (tag type : Nat) (body : List Nat) (rewind : Bool)
    (hcap : pdu.capacity < 2 ^ 32) (hbuf : pdu.capacity ≤ pdu.sdata.length)
    (hfit : 7 + body.length ≤ pdu.capacity) :
    p9_parse_header ⟨7 + body.length, type % 2 ^ 8, pdu.tag, pdu.offset, pdu.capacity,
          le_bytes 4 (7 + body.length) ++
                 ([type % 2 ^ 8] ++ le_bytes 2 (tag % 2 ^ 16) ++
                   (body ++ pdu.sdata.drop (7 + body.length)))⟩ rewind
      = some (0, ⟨7 + body.length, type % 2 ^ 8, tag % 2 ^ 16,
                  if rewind then
                    (if pdu.offset % 2 ^ 32 < 2 ^ 31 then pdu.offset % 2 ^ 32
                     else pdu.offset % 2 ^ 32 + (2 ^ 64 - 2 ^ 32))
                  else 7,
                  pdu.capacity,
                  le_bytes 4 (7 + body.length) ++
                    ([type % 2 ^ 8] ++ le_bytes 2 (tag % 2 ^ 16) ++
                      (body ++ pdu.sdata.drop (7 + body.length)))⟩,
              some (7 + body.length, type % 2 ^ 8, tag % 2 ^ 16)) := by
  have hmod : (7 + body.length) % 2 ^ 32 = 7 + body.length := Nat.mod_eq_of_lt (by omega)
  have hlen : (le_bytes 4 (7 + body.length) ++
                 ([type % 2 ^ 8] ++ le_bytes 2 (tag % 2 ^ 16) ++
                   (body ++ pdu.sdata.drop (7 + body.length)))).length = pdu.sdata.length := by
    simp [le_bytes_length]
    omega
  have henc : enc_vals 0 [Val.d (7 + body.length), Val.b (type % 2 ^ 8), Val.w (tag % 2 ^ 16)]
      = le_bytes 4 (7 + body.length) ++ ([type % 2 ^ 8] ++ le_bytes 2 (tag % 2 ^ 16)) := by
    simp only [enc_vals, List.map, enc_val, hmod, Nat.mod_mod, List.flatten, List.append_nil]
    simp [le_bytes]
  have hr : RWF ⟨7 + body.length, type % 2 ^ 8, pdu.tag, 0, pdu.capacity,
          le_bytes 4 (7 + body.length) ++
                 ([type % 2 ^ 8] ++ le_bytes 2 (tag % 2 ^ 16) ++
                   (body ++ pdu.sdata.drop (7 + body.length)))⟩ :=
    ⟨Nat.zero_le _, by show 7 + body.length < 2 ^ 32; omega, by
      show 7 + body.length ≤ _; rw [hlen]; omega⟩
  have hread := p9pdu_vreadf_spec1 0 2 ['d', 'b', 'w']
    [Val.d (7 + body.length), Val.b (type % 2 ^ 8), Val.w (tag % 2 ^ 16)] _
    (body) (by simp [args_ok, arg_ok])
    (by
      simp only [List.all_cons, List.all_nil, val_wf, decide_eq_true_eq, Bool.and_eq_true,
        Bool.and_true]
      exact ⟨by omega, Nat.mod_lt _ (by norm_num), Nat.mod_lt _ (by norm_num)⟩)
    hr
    (by
      rw [henc]
      simp only [p9_fcall.window, List.drop_zero, Nat.sub_zero, List.append_assoc]
      have hx : le_bytes 4 (7 + body.length) ++
          ([type % 2 ^ 8] ++ (le_bytes 2 (tag % 2 ^ 16) ++ (body ++ pdu.sdata.drop (7 + body.length))))
          = (le_bytes 4 (7 + body.length) ++
              ([type % 2 ^ 8] ++ (le_bytes 2 (tag % 2 ^ 16) ++ body)))
            ++ pdu.sdata.drop (7 + body.length) := by simp
      rw [hx, List.take_left' (by simp [le_bytes_length]; omega)])
  have hl7 : (enc_vals 0 [Val.d (7 + body.length), Val.b (type % 2 ^ 8),
      Val.w (tag % 2 ^ 16)]).length = 7 := by
    rw [henc]; simp [le_bytes_length]
  rw [hl7] at hread
  have hne : ¬ (7 + body.length = 0) := by omega
  have hback : List.map (back 0)
      [Val.d (7 + body.length), Val.b (type % 2 ^ 8), Val.w (tag % 2 ^ 16)]
      = [Val.d (7 + body.length), Val.b (type % 2 ^ 8), Val.w (tag % 2 ^ 16)] := by
    simp [back]
  rw [hback] at hread
  have hread2 : p9pdu_readf ⟨7 + body.length, type % 2 ^ 8, pdu.tag, 0, pdu.capacity,
          le_bytes 4 (7 + body.length) ++
                 ([type % 2 ^ 8] ++ le_bytes 2 (tag % 2 ^ 16) ++
                   (body ++ pdu.sdata.drop (7 + body.length)))⟩ 0 ['d', 'b', 'w']
      = some (0, ⟨7 + body.length, type % 2 ^ 8, pdu.tag, 7, pdu.capacity,
          le_bytes 4 (7 + body.length) ++
                 ([type % 2 ^ 8] ++ le_bytes 2 (tag % 2 ^ 16) ++
                   (body ++ pdu.sdata.drop (7 + body.length)))⟩,
          [Val.d (7 + body.length), Val.b (type % 2 ^ 8), Val.w (tag % 2 ^ 16)]) := by
    unfold p9pdu_readf
    rw [hread]
    simp [p9_fcall.adv]
  simp only [p9_parse_header, hne, if_false, hread2, Option.some_bind]
  cases rewind <;> simp

/-- C3 fails as stated: `p9pdu_prepare` does not store the tag in the `tag`
field of the PDU (only `p9_alloc_req` does), so for a PDU whose `tag` field is
0 and which is framed with tag 5, `p9_parse_header` with `rewind` set changes
the `tag` field from 0 to 5. -/
theorem C3_counterexample :
    ∃ p1 p2 p3 q v, p9pdu_prepare ⟨0, 0, 0, 0, 16, List.replicate 16 0⟩ 5 100 = some (0, p1) ∧
      p9pdu_write p1 [] 0 = (0, p2) ∧
      p9pdu_finalize p2 = some (0, p3) ∧
      p9_parse_header p3 true = some (0, q, v) ∧ q.tag ≠ p3.tag := by
  obtain ⟨h1, h2, h3⟩ := frame_steps ⟨0, 0, 0, 0, 16, List.replicate 16 0⟩ 5 100 [] rfl
    (by decide) (by decide) (by decide)
  have h4 := parse_header_built ⟨0, 0, 0, 0, 16, List.replicate 16 0⟩ 5 100 [] true
    (by decide) (by decide) (by decide)
  exact ⟨_, _, _, _, _, h1, h2, h3, h4, by decide⟩

/-- C3 (amended): for every PDU built on a reset buffer whose `tag` field
already holds the tag (as `p9_alloc_req` leaves it) by `p9pdu_prepare(tag,
type)`, a body and `p9pdu_finalize`, `p9_parse_header` returns exactly that
type, that tag and a size equal to the total length of the PDU, and with
`rewind` set it leaves the offset, size, id, tag and bytes of the PDU
unchanged. -/
theorem C3_parse_header_roundtrip (pdu : p9_fcall) (tag type : Nat) (body : List Nat)
    (hsize : pdu.size = 0) (hoff : pdu.offset < 2 ^ 31) (htag : pdu.tag = tag % 2 ^ 16)
    (hcap : pdu.capacity < 2 ^ 32) (hbuf : pdu.capacity ≤ pdu.sdata.length)
    (hfit : 7 + body.length ≤ pdu.capacity) :
    ∃ p1 p2 p3, p9pdu_prepare pdu tag type = some (0, p1) ∧
      p9pdu_write p1 body body.length = (0, p2) ∧
      p9pdu_finalize p2 = some (0, p3) ∧
      p3.size = 7 + body.length ∧
      p9_parse_header p3 true
        = some (0, p3, some (7 + body.length, type % 2 ^ 8, tag % 2 ^ 16)) ∧
      p9_parse_header p3 false
        = some (0, { p3 with offset := 7 }, some (7 + body.length, type % 2 ^ 8, tag % 2 ^ 16))
      := by
  obtain ⟨h1, h2, h3⟩ := frame_steps pdu tag type body hsize hcap hbuf hfit
  have h4 := parse_header_built pdu tag type body true hcap hbuf hfit
  have h5 := parse_header_built pdu tag type body false hcap hbuf hfit
  have ho : pdu.offset % 2 ^ 32 = pdu.offset := Nat.mod_eq_of_lt (by omega)
  refine ⟨_, _, _, h1, h2, h3, rfl, ?_, ?_⟩
  · rw [h4]
    simp only [if_true, ho, hoff, htag]
  · rw [h5]
    simp [htag]

/-- Witness for C3 (amended): tag 5, type 100 and a one-byte body. -/
theorem C3_witness :
    ∃ p1 p2 p3, p9pdu_prepare ⟨0, 0, 5, 0, 16, List.replicate 16 0⟩ 5 100 = some (0, p1) ∧
      p9pdu_write p1 [42] [42].length = (0, p2) ∧
      p9pdu_finalize p2 = some (0, p3) ∧
      p3.size = 7 + [42].length ∧
      p9_parse_header p3 true = some (0, p3, some (7 + [42].length, 100 % 2 ^ 8, 5 % 2 ^ 16)) ∧
      p9_parse_header p3 false
        = some (0, { p3 with offset := 7 }, some (7 + [42].length, 100 % 2 ^ 8, 5 % 2 ^ 16)) :=
  C3_parse_header_roundtrip ⟨0, 0, 5, 0, 16, List.replicate 16 0⟩ 5 100 [42] rfl (by decide)
    (by decide) (by decide) (by decide) (by decide)

/-! # The session -/

/-! ## The tag pool when every id is taken -/

theorem idpool_loop_full (pool : Finset Int) (last : Int)
    (hfull : ∀ i : Int, 0 ≤ i → i ≤ P9_ID_MAX → i ∈ pool)
    (hl0 : 0 ≤ last) (hl1 : last ≤ P9_ID_MAX) :
    ∀ (fuel : Nat) (id : Int), -1 ≤ id → id ≤ P9_ID_MAX →
      (if id < last then last - id else last + (P9_ID_MAX + 1) - id) ≤ (fuel : Int) →
      idpool_loop pool last fuel id = some (-1) := by
  intro fuel
  induction fuel with
  | zero =>
    intro id h1 h2 hd
    simp only [P9_ID_MAX] at *
    split_ifs at hd <;> omega
  | succ n ih =>
    intro id h1 h2 hd
    simp only [idpool_loop]
    by_cases hw : id + 1 > P9_ID_MAX
    · simp only [hw, if_true]
      have h0 : (0 : Int) ∈ pool := hfull 0 (le_refl _) (by simp [P9_ID_MAX])
      simp only [h0, not_true_eq_false, if_false]
      by_cases hz : (0 : Int) = last
      · simp [hz]
      · simp only [ne_eq, hz, not_false_eq_true, if_true]
        apply ih 0 (by omega) (by simp [P9_ID_MAX])
        simp only [P9_ID_MAX] at *
        split_ifs at hd ⊢ <;> push_cast at hd ⊢ <;> omega
    · simp only [hw, if_false]
      have hin : id + 1 ∈ pool := hfull (id + 1) (by omega) (by omega)
      simp only [hin, not_true_eq_false, if_false]
      by_cases hz : id + 1 = last
      · simp [hz]
      · simp only [ne_eq, hz, not_false_eq_true, if_true]
        apply ih (id + 1) (by omega) (by omega)
        simp only [P9_ID_MAX] at *
        split_ifs at hd ⊢ <;> push_cast at hd ⊢ <;> omega

theorem p9_idpool_get_full (p : p9_idpool)
    (hfull : ∀ i : Int, 0 ≤ i → i ≤ P9_ID_MAX → i ∈ p._pool)
    (hl0 : 0 ≤ p._last_id) (hl1 : p._last_id ≤ P9_ID_MAX) :
    p9_idpool_get p = some (-1, p) := by
  have h := idpool_loop_full p._pool p._last_id hfull hl0 hl1 (2 ^ 31) p._last_id
    (by omega) hl1 (by simp only [P9_ID_MAX] at *; simp)
  unfold p9_idpool_get
  rw [h]
  simp

/-! ## Fields that request operations leave alone -/

theorem set_req_frame (c : p9_client) (slot : Slot) (r : p9_req_t) :
    cfg (set_req c slot r) = cfg c ∧ (set_req c slot r)._status = c._status ∧
    (set_req c slot r)._tagpool = c._tagpool := ⟨rfl, rfl, rfl⟩

theorem p9_free_req_frame (c c1 : p9_client) (r : Slot) (h : p9_free_req c r = some c1) :
    cfg c1 = cfg c ∧ c1._status = c._status := by
  simp only [p9_free_req, Option.bind_eq_some, Option.map_eq_some'] at h
  obtain ⟨req, _, tc, _, rfl⟩ := h
  split_ifs <;> exact ⟨rfl, rfl⟩

theorem p9_alloc_req_frame (c c1 : p9_client) (tag max_size : Nat) (slot : Slot)
    (h : p9_alloc_req c tag max_size = some (c1, slot)) :
    cfg c1 = cfg c ∧ c1._status = c._status ∧ c1._tagpool = c._tagpool := by
  simp only [p9_alloc_req] at h
  by_cases hb : (tag + 1) % 2 ^ 16 / P9_ROW_MAXTAG ≥ P9_ROW_MAXTAG
  · rw [if_pos hb] at h
    exact absurd h (by simp)
  rw [if_neg hb] at h
  simp only [Option.map_eq_some', Prod.mk.injEq] at h
  obtain ⟨req, _, rfl, _⟩ := h
  exact ⟨rfl, rfl, rfl⟩

theorem prepare_marshal_frame (c c1 : p9_client) (slot : Slot) (tag type : Nat)
    (fmt : List Char) (args : List Val) (r : Option Slot)
    (h : prepare_marshal c slot tag type fmt args = some (c1, r)) :
    cfg c1 = cfg c ∧ c1._status = c._status := by
  simp only [prepare_marshal, Option.bind_eq_some] at h
  obtain ⟨req, _, tc, _, p1, _, p2, _, h⟩ := h
  split_ifs at h
  · simp only [Option.map_eq_some', Prod.mk.injEq] at h
    obtain ⟨c2, h2, rfl, _⟩ := h
    have f := p9_free_req_frame (set_req c slot { req with tc := some p2.2 }) c2 slot h2
    exact f
  · simp only [Option.map_eq_some', Prod.mk.injEq] at h
    obtain ⟨p3, _, rfl, _⟩ := h
    exact ⟨rfl, rfl⟩

theorem p9_client_prepare_req_frame (c c1 : p9_client) (type req_size : Nat)
    (fmt : List Char) (args : List Val) (r : Option Slot)
    (h : p9_client_prepare_req c type req_size fmt args = some (c1, r)) :
    cfg c1 = cfg c ∧ c1._status = c._status := by
  unfold p9_client_prepare_req at h
  split_ifs at h
  · simp only [Option.some.injEq, Prod.mk.injEq] at h
    obtain ⟨rfl, _⟩ := h
    exact ⟨rfl, rfl⟩
  · simp only [Option.some.injEq, Prod.mk.injEq] at h
    obtain ⟨rfl, _⟩ := h
    exact ⟨rfl, rfl⟩
  · simp only [prepare_admitted, Option.bind_eq_some] at h
    obtain ⟨g, _, h⟩ := h
    split_ifs at h
    · simp only [Option.some.injEq, Prod.mk.injEq] at h
      obtain ⟨rfl, _⟩ := h
      exact ⟨rfl, rfl⟩
    · simp only [Option.bind_eq_some] at h
      obtain ⟨a, ha, h⟩ := h
      have f1 := p9_alloc_req_frame _ _ _ _ _ (show p9_alloc_req _ _ _ = some (a.1, a.2) from ha)
      have f2 := prepare_marshal_frame _ _ _ _ _ _ _ _ h
      exact ⟨f2.1.trans f1.1, f2.2.trans f1.2.1⟩

theorem check_errors_dotl_frame (c c1 : p9_client) (slot : Slot) (req : p9_req_t)
    (rc : p9_fcall) (e : Int) (h : check_errors_dotl c slot req rc = some (e, c1)) :
    cfg c1 = cfg c ∧ c1._status = c._status ∧ c1._tagpool = c._tagpool := by
  simp only [check_errors_dotl, Option.bind_eq_some] at h
  obtain ⟨r, _, h⟩ := h
  by_cases h1 : r.1 ≠ 0
  · rw [if_pos h1] at h
    simp only [Option.some.injEq, Prod.mk.injEq] at h
    obtain ⟨_, rfl⟩ := h
    exact ⟨rfl, rfl, rfl⟩
  · rw [if_neg h1] at h
    split at h
    · split_ifs at h <;>
      · simp only [Option.some.injEq, Prod.mk.injEq] at h
        obtain ⟨_, rfl⟩ := h
        exact ⟨rfl, rfl, rfl⟩
    · simp at h

theorem check_errors_other_frame (c c1 : p9_client) (slot : Slot) (req : p9_req_t)
    (rc : p9_fcall) (e : Int) (h : check_errors_other c slot req rc = some (e, c1)) :
    cfg c1 = cfg c ∧ c1._status = c._status ∧ c1._tagpool = c._tagpool := by
  simp only [check_errors_other, Option.bind_eq_some] at h
  obtain ⟨r, _, h⟩ := h
  split at h
  · simp only [Option.some.injEq, Prod.mk.injEq] at h
    obtain ⟨_, rfl⟩ := h
    exact ⟨rfl, rfl, rfl⟩
  · simp at h

theorem p9_check_errors_frame (c c1 : p9_client) (slot : Slot) (e : Int)
    (h : p9_check_errors c slot = some (e, c1)) :
    cfg c1 = cfg c ∧ c1._status = c._status ∧ c1._tagpool = c._tagpool := by
  simp only [p9_check_errors, Option.bind_eq_some] at h
  obtain ⟨req, _, rc, _, hd, _, h⟩ := h
  by_cases h1 : hd.1 ≠ 0
  · rw [if_pos h1] at h
    simp only [Option.some.injEq, Prod.mk.injEq] at h
    obtain ⟨_, rfl⟩ := h
    exact ⟨rfl, rfl, rfl⟩
  · rw [if_neg h1] at h
    cases hh : hd.2.2 with
    | none => simp [hh] at h
    | some hdr =>
      simp only [hh] at h
      by_cases h2 : hdr.2.1 ≠ P9_RERROR ∧ hdr.2.1 ≠ P9_RLERROR
      · rw [if_pos h2] at h
        simp only [Option.some.injEq, Prod.mk.injEq] at h
        obtain ⟨_, rfl⟩ := h
        exact ⟨rfl, rfl, rfl⟩
      · rw [if_neg h2] at h
        by_cases h3 : c._proto_version = p9_proto_2000L
        · rw [if_pos h3] at h
          exact check_errors_dotl_frame
            (set_req c slot { req with rc := some hd.2.1 }) _ _ _ _ _ h
        · rw [if_neg h3] at h
          exact check_errors_other_frame
            (set_req c slot { req with rc := some hd.2.1 }) _ _ _ _ _ h

theorem trans_request_frame (env : Nat → trans_reply) (s s1 : session) (slot : Slot) (e : Int)
    (h : trans_request env s slot = some (e, s1)) :
    cfg s1.clnt = cfg s.clnt ∧ s1.clnt._status = s.clnt._status ∧
    s1.clnt._tagpool = s.clnt._tagpool ∧ e = (env s.sent.length).err := by
  simp only [trans_request, Option.bind_eq_some, Option.map_eq_some', Prod.mk.injEq] at h
  obtain ⟨req, _, tc, _, rc, _, rfl, rfl⟩ := h
  exact ⟨rfl, rfl, rfl, rfl⟩

theorem rpc_reterr_frame (s s1 : session) (slot : Slot) (r : Option Slot)
    (h : rpc_reterr s slot = some (s1, r)) :
    cfg s1.clnt = cfg s.clnt ∧ s1.clnt._status = s.clnt._status ∧ r = none := by
  simp only [rpc_reterr, Option.map_eq_some', Prod.mk.injEq] at h
  obtain ⟨c, hc, rfl, rfl⟩ := h
  have f := p9_free_req_frame _ _ _ hc
  exact ⟨f.1, f.2, rfl⟩


theorem req_readf_frame (c c1 : p9_client) (req : Slot) (fmt : List Char) (e : Int)
    (vs : List Val) (h : req_readf c req fmt = some (e, c1, vs)) :
    cfg c1 = cfg c ∧ c1._status = c._status ∧ c1._tagpool = c._tagpool := by
  simp only [req_readf, Option.bind_eq_some, Option.map_eq_some', Prod.mk.injEq] at h
  obtain ⟨rq, _, rc, _, d, _, _, rfl, _⟩ := h
  exact ⟨rfl, rfl, rfl⟩

theorem p9_client_flush_frame
    (rpc : session → Nat → List Char → List Val → Option (session × Option Slot))
    (hrpc : ∀ s type fmt args s1 r, rpc s type fmt args = some (s1, r) →
      cfg s1.clnt = cfg s.clnt)
    (env : Nat → trans_reply) (s s1 : session) (oldreq : Slot)
    (h : p9_client_flush rpc env s oldreq = some s1) : cfg s1.clnt = cfg s.clnt := by
  simp only [p9_client_flush, Option.bind_eq_some] at h
  obtain ⟨req, _, tc, _, hd, _, h⟩ := h
  by_cases h1 : hd.1 ≠ 0
  · rw [if_pos h1] at h
    simp only [Option.some.injEq] at h
    subst h
    rfl
  · rw [if_neg h1] at h
    cases hh : hd.2.2 with
    | none => simp [hh] at h
    | some hdr =>
      simp only [hh, Option.bind_eq_some] at h
      obtain ⟨r, hr, h⟩ := h
      have f1 := hrpc _ _ _ _ r.1 r.2 hr
      cases hr2 : r.2 with
      | none =>
        simp only [hr2, Option.some.injEq] at h
        subst h
        exact f1
      | some fl =>
        simp only [hr2, Option.map_eq_some'] at h
        obtain ⟨c3, hc3, rfl⟩ := h
        have f2 := p9_free_req_frame _ _ _ hc3
        refine f2.1.trans (Eq.trans ?_ f1)
        split <;> rfl

theorem rpc_after_frame
    (rpc : session → Nat → List Char → List Val → Option (session × Option Slot))
    (hrpc : ∀ s type fmt args s1 r, rpc s type fmt args = some (s1, r) →
      cfg s1.clnt = cfg s.clnt)
    (env : Nat → trans_reply) (err : Int) (s s1 : session) (slot : Slot) (r : Option Slot)
    (h : rpc_after rpc env err s slot = some (s1, r)) : cfg s1.clnt = cfg s.clnt := by
  unfold rpc_after at h
  by_cases h0 : err < 0
  · rw [if_pos h0] at h
    have f := rpc_reterr_frame _ _ _ _ h
    refine f.1.trans ?_
    split_ifs <;> rfl
  · rw [if_neg h0] at h
    simp only [Option.bind_eq_some] at h
    obtain ⟨req, _, f, hf, h⟩ := h
    have ff : cfg f.2.clnt = cfg s.clnt := by
      by_cases hc : (if req.status = REQ_STATUS_ERROR then req.t_err else err) = -ERESTART ∧
          s.clnt._status = p9_trans_status.Connected
      · rw [if_pos hc] at hf
        simp only [Option.bind_eq_some, Option.map_eq_some'] at hf
        obtain ⟨s2, hs2, req2, _, rfl⟩ := hf
        exact p9_client_flush_frame rpc hrpc env _ _ _ hs2
      · rw [if_neg hc] at hf
        simp only [Option.some.injEq] at hf
        subst hf
        rfl
    by_cases h1 : f.1 < 0
    · rw [if_pos h1] at h
      exact (rpc_reterr_frame _ _ _ _ h).1.trans ff
    · rw [if_neg h1] at h
      simp only [Option.bind_eq_some] at h
      obtain ⟨e, he, h⟩ := h
      have fe := p9_check_errors_frame _ _ _ _ (show p9_check_errors _ _ = some (e.1, e.2) from he)
      by_cases h2 : e.1 = 0
      · rw [if_pos h2] at h
        simp only [Option.some.injEq, Prod.mk.injEq] at h
        obtain ⟨rfl, _⟩ := h
        exact fe.1.trans ff
      · rw [if_neg h2] at h
        exact (rpc_reterr_frame _ _ _ _ h).1.trans (fe.1.trans ff)

theorem p9_client_rpc_frame (depth : Nat) (env : Nat → trans_reply) :
    ∀ (s : session) (type : Nat) (fmt : List Char) (args : List Val) (s1 : session)
      (r : Option Slot),
      p9_client_rpc depth env s type fmt args = some (s1, r) → cfg s1.clnt = cfg s.clnt := by
  induction depth with
  | zero =>
    intro s type fmt args s1 r h
    simp [p9_client_rpc] at h
  | succ n ih =>
    intro s type fmt args s1 r h
    simp only [p9_client_rpc, Option.bind_eq_some] at h
    obtain ⟨p, hp, h⟩ := h
    have fp := p9_client_prepare_req_frame _ _ _ _ _ _ _
      (show p9_client_prepare_req _ _ _ _ _ = some (p.1, p.2) from hp)
    cases hp2 : p.2 with
    | none =>
      simp only [hp2, Option.some.injEq, Prod.mk.injEq] at h
      obtain ⟨rfl, _⟩ := h
      exact fp.1
    | some slot =>
      simp only [hp2, Option.bind_eq_some] at h
      obtain ⟨t, ht, h⟩ := h
      have ft := trans_request_frame _ _ _ _ _ (show trans_request _ _ _ = some (t.1, t.2) from ht)
      have fa := rpc_after_frame _ ih env _ _ _ _ _ h
      exact fa.trans (ft.1.trans fp.1)

/-! ## Admission by connection status -/

/-- C8: with the session `Disconnected`, `p9_client_rpc` returns the null
request for every opcode, and with the session in `BeginDisconnect` it does so
for every opcode other than `Tclunk`; in both cases the session, and with it
the tag pool, every request slot and the log of requests handed to the
transport, is exactly what it was.  In `BeginDisconnect` a `Tclunk` passes
both status tests and is prepared as in a connected session. -/
theorem C8_rpc_admission (depth : Nat) (env : Nat → trans_reply) (s : session) (type : Nat)
    (fmt : List Char) (args : List Val) :
    (s.clnt._status = p9_trans_status.Disconnected →
      p9_client_rpc (depth + 1) env s type fmt args = some (s, none)) ∧
    (s.clnt._status = p9_trans_status.BeginDisconnect → type ≠ P9_TCLUNK →
      p9_client_rpc (depth + 1) env s type fmt args = some (s, none)) ∧
    (s.clnt._status = p9_trans_status.BeginDisconnect →
      p9_client_prepare_req s.clnt P9_TCLUNK s.clnt._msize fmt args
        = prepare_admitted s.clnt P9_TCLUNK s.clnt._msize fmt args) := by
  refine ⟨?_, ?_, ?_⟩
  · intro h
    simp [p9_client_rpc, p9_client_prepare_req, h]
  · intro h ht
    simp [p9_client_rpc, p9_client_prepare_req, h, ht]
  · intro h
    simp [p9_client_prepare_req, h]

theorem C8_witness :
    (demo_client p9_trans_status.Disconnected p9_proto_2000L)._status
        = p9_trans_status.Disconnected ∧
      p9_client_rpc 1 (const_env (rcvd []))
        ⟨demo_client p9_trans_status.Disconnected p9_proto_2000L, []⟩
        P9_TSTATFS ['d'] [Val.d 1]
        = some (⟨demo_client p9_trans_status.Disconnected p9_proto_2000L, []⟩, none) :=
  ⟨rfl, (C8_rpc_admission 0 (const_env (rcvd []))
    ⟨demo_client p9_trans_status.Disconnected p9_proto_2000L, []⟩ P9_TSTATFS ['d']
    [Val.d 1]).1 rfl⟩

/-! ## Tag exhaustion -/

/-- C12: when every id of the tag pool is in use, `p9_client_rpc` for any
opcode other than `Tversion` returns the null request and the session (request
slots, tag pool, status, log of requests handed to the transport) is exactly
what it was. -/
theorem C12_tag_exhaustion (depth : Nat) (env : Nat → trans_reply) (s : session) (type : Nat)
    (fmt : List Char) (args : List Val)
    (hfull : ∀ i : Int, 0 ≤ i → i ≤ P9_ID_MAX → i ∈ s.clnt._tagpool._pool)
    (hl0 : 0 ≤ s.clnt._tagpool._last_id) (hl1 : s.clnt._tagpool._last_id ≤ P9_ID_MAX)
    (ht : type ≠ P9_TVERSION) :
    p9_client_rpc (depth + 1) env s type fmt args = some (s, none) := by
  have hg := p9_idpool_get_full s.clnt._tagpool hfull hl0 hl1
  simp only [p9_client_rpc, p9_client_prepare_req, prepare_admitted]
  split_ifs <;> simp [hg]

theorem C12_witness :
    p9_client_rpc 1 (const_env (rcvd []))
      ⟨{ demo_client p9_trans_status.Connected p9_proto_2000L with
          _tagpool := ⟨Finset.Icc 0 2147483646, 5⟩ }, []⟩ P9_TSTATFS ['d'] [Val.d 1]
      = some (⟨{ demo_client p9_trans_status.Connected p9_proto_2000L with
          _tagpool := ⟨Finset.Icc 0 2147483646, 5⟩ }, []⟩, none) :=
  C12_tag_exhaustion 0 (const_env (rcvd []))
    ⟨{ demo_client p9_trans_status.Connected p9_proto_2000L with
        _tagpool := ⟨Finset.Icc 0 2147483646, 5⟩ }, []⟩ P9_TSTATFS ['d'] [Val.d 1]
    (fun i h0 h1 => Finset.mem_Icc.mpr ⟨h0, h1⟩) (by decide) (by decide) (by decide)

/-! ## Tags beyond the request table -/

theorem idpool_loop_next (pool : Finset Int) (last id : Int) (fuel : Nat)
    (h1 : id + 1 ≤ P9_ID_MAX) (h2 : id + 1 ∉ pool) :
    idpool_loop pool last (fuel + 1) id = some (id + 1) := by
  have h3 : ¬ (id + 1 > P9_ID_MAX) := not_lt.mpr h1
  simp only [idpool_loop, h3, if_false, h2, not_false_eq_true, if_true]

theorem p9_idpool_get_next (p : p9_idpool) (h0 : 0 ≤ p._last_id + 1)
    (h1 : p._last_id + 1 ≤ P9_ID_MAX) (h2 : p._last_id + 1 ∉ p._pool) :
    p9_idpool_get p
      = some (p._last_id + 1, ⟨insert (p._last_id + 1) p._pool, p._last_id + 1⟩) := by
  unfold p9_idpool_get
  rw [show (2 : Nat) ^ 31 = 2147483647 + 1 from rfl, idpool_loop_next _ _ _ _ h1 h2]
  have h3 : ¬ (p._last_id + 1 < 0) := not_lt.mpr h0
  simp only [Option.map_some', h3, if_false]

theorem p9_alloc_req_row_bound (c : p9_client) (tag max_size : Nat)
    (h : (tag + 1) % 2 ^ 16 / P9_ROW_MAXTAG ≥ P9_ROW_MAXTAG) :
    p9_alloc_req c tag max_size = none := by
  simp only [p9_alloc_req]
  rw [if_pos h]

theorem prepare_admitted_row_bound (c : p9_client) (type req_size : Nat) (fmt : List Char)
    (args : List Val) (id : Int) (p : p9_idpool) (ht : type ≠ P9_TVERSION)
    (hg : p9_idpool_get c._tagpool = some (id, p)) (h0 : ¬ id < 0)
    (hrow : (id.toNat % 2 ^ 16 + 1) % 2 ^ 16 / P9_ROW_MAXTAG ≥ P9_ROW_MAXTAG) :
    prepare_admitted c type req_size fmt args = none := by
  unfold prepare_admitted
  rw [if_pos ht, hg]
  simp only [Option.some_bind]
  rw [if_neg h0, p9_alloc_req_row_bound _ _ _ hrow]
  rfl

/-- C9: in a connected session whose tag pool last handed out the id 65023
(as it has after 65023 requests, since the hint advances and ids are not
handed out again before the range wraps), a request other than `Tversion`
receives the id 65024, and `p9_alloc_req` indexes row 65025 / 255 = 255 of the
255 row pointers of `_reqs`: the call has no defined result, so the slot is
not returned to `IDLE` and the tag is not given back. -/
theorem C9_request_table_overrun (depth : Nat) (env : Nat → trans_reply) (s : session)
    (type : Nat) (fmt : List Char) (args : List Val)
    (hs : s.clnt._status = p9_trans_status.Connected)
    (hl : s.clnt._tagpool._last_id = 65023) (hf : (65024 : Int) ∉ s.clnt._tagpool._pool)
    (ht : type ≠ P9_TVERSION) :
    p9_client_rpc (depth + 1) env s type fmt args = none := by
  have hg := p9_idpool_get_next s.clnt._tagpool (by rw [hl]; decide) (by rw [hl]; decide)
    (by rw [hl]; exact hf)
  have hp : p9_client_prepare_req s.clnt type s.clnt._msize fmt args = none := by
    unfold p9_client_prepare_req
    rw [if_neg (by rw [hs]; decide), if_neg (by rw [hs]; intro h; exact absurd h.1 (by decide))]
    exact prepare_admitted_row_bound _ _ _ _ _ _ _ ht hg (by rw [hl]; decide)
      (by rw [hl]; decide)
  simp only [p9_client_rpc, hp, Option.none_bind]

theorem C9_witness :
    p9_client_rpc 1 (const_env (rcvd []))
      ⟨{ demo_client p9_trans_status.Connected p9_proto_2000L with
          _tagpool := ⟨{0}, 65023⟩ }, []⟩ P9_TSTATFS ['d'] [Val.d 1] = none :=
  C9_request_table_overrun 0 (const_env (rcvd []))
    ⟨{ demo_client p9_trans_status.Connected p9_proto_2000L with
        _tagpool := ⟨{0}, 65023⟩ }, []⟩ P9_TSTATFS ['d'] [Val.d 1] rfl rfl (by decide)
    (by decide)

/-- C10: the tag pool does not keep its ids below 0xFFFF.  Starting from the
pool of a fresh session (id 0 reserved), after `n` rounds of taking an id and
putting it back the pool has handed out `n` and hands out `n + 1` next, for
every `n` up to `P9_ID_MAX`: ids are not reused until the range wraps, so
they leave the range of 16-bit tags and of the request table. -/
theorem C10_tag_ids_not_bounded (n : Nat) (hn : (n : Int) ≤ P9_ID_MAX) :
    Nat.iterate (fun p => ((p9_idpool_get p).map fun g => p9_idpool_put g.2 g.1).getD p) n
      ⟨{0}, 0⟩ = ⟨{0}, (n : Int)⟩ := by
  induction n with
  | zero => rfl
  | succ k ih =>
    have hk : (k : Int) ≤ P9_ID_MAX := by
      have : (k : Int) ≤ ((k + 1 : Nat) : Int) := by push_cast; omega
      exact le_trans this hn
    rw [Function.iterate_succ_apply', ih hk]
    have hk1 : ((k : Int) + 1) ≤ P9_ID_MAX := by
      have : ((k + 1 : Nat) : Int) = (k : Int) + 1 := by push_cast; rfl
      rw [← this]; exact hn
    have hnot : ((k : Int) + 1) ∉ ({0} : Finset Int) := by
      simp only [Finset.mem_singleton]
      omega
    have hg := p9_idpool_get_next ⟨{0}, (k : Int)⟩ (by show (0 : Int) ≤ (k : Int) + 1; omega)
      hk1 hnot
    simp only [hg, Option.map_some', Option.getD_some, p9_idpool_put]
    have he : (insert ((k : Int) + 1) ({0} : Finset Int)).erase ((k : Int) + 1) = {0} := by
      rw [Finset.erase_insert hnot]
    simp only [he]
    push_cast
    rfl

theorem C10_witness :
    Nat.iterate (fun p => ((p9_idpool_get p).map fun g => p9_idpool_put g.2 g.1).getD p) 65535
      ⟨{0}, 0⟩ = ⟨{0}, ((65535 : Nat) : Int)⟩ :=
  C10_tag_ids_not_bounded 65535 (by decide)

/-- C11: `p9_alloc_req` has no defined result for the tag 65024, whatever the
session: it indexes row 255 of `_reqs`, which has 255 row pointers.  The tag
pool hands out that id after 65023 others, so requests prepared from then on
do not own a slot of the table. -/
theorem C11_row_out_of_range (c : p9_client) (max_size : Nat) :
    p9_alloc_req c 65024 max_size = none :=
  p9_alloc_req_row_bound c 65024 max_size (by decide)

/-! ## Error replies -/

/-- C13: in a 9P2000.L session `p9_check_errors` decodes an error reply with
the format `"s?d"` instead of reading the number: on `Rlerror` carrying
errno 2 it returns `-EFAULT` (-14), not -2.  The numeric branch is taken by
the other protocol versions, where the same reply gives -2. -/
theorem C13_rlerror_decoded_as_string :
    (p9_check_errors
        { demo_client p9_trans_status.Connected p9_proto_2000L with
          _reqs := fun _ => some [⟨REQ_STATUS_RCVD, 0, none,
            some ⟨0, 0, 0, 0, 64, reply_buf [11, 0, 0, 0, 7, 1, 0, 2, 0, 0, 0]⟩⟩] }
        (0, 0)).map Prod.fst = some (-14) ∧
    (p9_check_errors
        { demo_client p9_trans_status.Connected p9_proto_legacy with
          _reqs := fun _ => some [⟨REQ_STATUS_RCVD, 0, none,
            some ⟨0, 0, 0, 0, 64, reply_buf [11, 0, 0, 0, 7, 1, 0, 2, 0, 0, 0]⟩⟩] }
        (0, 0)).map Prod.fst = some (-2) := by
  constructor <;> decide

/-- C14: `p9_errstr2errno` returns 0 for every string that was decoded from a
reply, whatever its bytes: the map is searched for the address of the buffer,
which is the address of none of the key literals. -/
theorem C14_errstr_lookup_by_address (bytes : List Nat) :
    p9_errstr2errno (str_ptr.heap bytes) = 0 := by
  simp [p9_errstr2errno]

/-! ## What a prepared request looks like -/

theorem get_req_set_req (c : p9_client) (slot : Slot) (r req : p9_req_t)
    (h : get_req c slot = some req) : get_req (set_req c slot r) slot = some r := by
  unfold get_req at h
  unfold get_req set_req
  cases hrow : c._reqs slot.1 with
  | none => rw [hrow] at h; exact absurd h (by simp)
  | some row =>
    rw [hrow] at h
    simp only [Option.some_bind] at h
    have hlt : slot.2 < row.length := by
      rcases Nat.lt_or_ge slot.2 row.length with h1 | h1
      · exact h1
      · rw [List.get?_eq_none.mpr h1] at h; exact absurd h (by simp)
    simp only [if_true, hrow, Option.map_some', Option.some_bind]
    rw [List.get?_eq_getElem?, List.getElem?_set_self hlt]

theorem p9_free_req_some (c : p9_client) (r : Slot) (req : p9_req_t) (tc : p9_fcall)
    (h : get_req c r = some req) (htc : req.tc = some tc) :
    ∃ c1, p9_free_req c r = some c1 ∧ c1._status = c._status := by
  unfold p9_free_req
  rw [h]
  simp only [Option.some_bind, htc, Option.map_some']
  refine ⟨_, rfl, ?_⟩
  split_ifs <;> rfl

theorem p9_alloc_req_slot (c c1 : p9_client) (tag max_size : Nat) (slot : Slot)
    (h : p9_alloc_req c tag max_size = some (c1, slot)) :
    ∃ req tc rc, get_req c1 slot = some req ∧ req.tc = some tc ∧ req.rc = some rc := by
  simp only [p9_alloc_req] at h
  by_cases hb : (tag + 1) % 2 ^ 16 / P9_ROW_MAXTAG ≥ P9_ROW_MAXTAG
  · rw [if_pos hb] at h
    exact absurd h (by simp)
  rw [if_neg hb] at h
  simp only [Option.map_eq_some', Prod.mk.injEq] at h
  obtain ⟨req, hreq, rfl, rfl⟩ := h
  exact ⟨_, _, _, get_req_set_req _ _ _ _ hreq, rfl, rfl⟩

theorem prepare_marshal_slot (c c1 : p9_client) (slot slot1 : Slot) (tag type : Nat)
    (fmt : List Char) (args : List Val)
    (hrc : ∃ req tc rc, get_req c slot = some req ∧ req.tc = some tc ∧ req.rc = some rc)
    (h : prepare_marshal c slot tag type fmt args = some (c1, some slot1)) :
    ∃ req tc rc, get_req c1 slot1 = some req ∧ req.tc = some tc ∧ req.rc = some rc := by
  obtain ⟨req0, tc0, rc0, hg0, _, hrc0⟩ := hrc
  simp only [prepare_marshal, Option.bind_eq_some] at h
  obtain ⟨req, hreq, tc, _, p1, _, p2, _, h⟩ := h
  have hre : req = req0 := Option.some.inj (hreq.symm.trans hg0)
  by_cases hp : p2.1 ≠ 0
  · rw [if_pos hp] at h
    simp only [Option.map_eq_some', Prod.mk.injEq] at h
    obtain ⟨_, _, _, h3⟩ := h
    exact absurd h3 (by simp)
  · rw [if_neg hp] at h
    simp only [Option.map_eq_some', Prod.mk.injEq, Option.some.injEq] at h
    obtain ⟨p3, _, rfl, rfl⟩ := h
    refine ⟨_, p3.2, rc0, get_req_set_req _ _ _ _ hreq, rfl, ?_⟩
    rw [hre]
    exact hrc0

theorem p9_client_prepare_req_slot (c c1 : p9_client) (type req_size : Nat)
    (fmt : List Char) (args : List Val) (slot : Slot)
    (h : p9_client_prepare_req c type req_size fmt args = some (c1, some slot)) :
    ∃ req tc rc, get_req c1 slot = some req ∧ req.tc = some tc ∧ req.rc = some rc := by
  unfold p9_client_prepare_req at h
  by_cases h1 : c._status = p9_trans_status.Disconnected
  · rw [if_pos h1] at h
    simp only [Option.some.injEq, Prod.mk.injEq] at h
    exact absurd h.2 (by simp)
  rw [if_neg h1] at h
  by_cases h2 : c._status = p9_trans_status.BeginDisconnect ∧ type ≠ P9_TCLUNK
  · rw [if_pos h2] at h
    simp only [Option.some.injEq, Prod.mk.injEq] at h
    exact absurd h.2 (by simp)
  rw [if_neg h2] at h
  simp only [prepare_admitted, Option.bind_eq_some] at h
  obtain ⟨g, _, h⟩ := h
  by_cases h3 : g.1 < 0
  · rw [if_pos h3] at h
    simp only [Option.some.injEq, Prod.mk.injEq] at h
    exact absurd h.2 (by simp)
  rw [if_neg h3] at h
  simp only [Option.bind_eq_some] at h
  obtain ⟨a, ha, h⟩ := h
  exact prepare_marshal_slot _ _ _ _ _ _ _ _
    (p9_alloc_req_slot _ _ _ _ _ (show p9_alloc_req _ _ _ = some (a.1, a.2) from ha)) h

theorem prepared_of_isSome (c : p9_client) (type req_size : Nat) (fmt : List Char)
    (args : List Val)
    (hp : ((p9_client_prepare_req c type req_size fmt args).bind Prod.snd).isSome = true) :
    ∃ c1 slot, p9_client_prepare_req c type req_size fmt args = some (c1, some slot) := by
  cases h : p9_client_prepare_req c type req_size fmt args with
  | none => rw [h] at hp; exact absurd hp (by simp)
  | some x =>
    obtain ⟨c1, r⟩ := x
    cases r with
    | none => rw [h] at hp; exact absurd hp (by simp)
    | some slot => exact ⟨c1, slot, rfl⟩

/-! ## Transport errors and the session status -/

theorem p9_client_rpc_prepared (depth : Nat) (env : Nat → trans_reply) (s : session)
    (type : Nat) (fmt : List Char) (args : List Val) (c1 : p9_client) (slot : Slot)
    (req : p9_req_t) (tc rc : p9_fcall)
    (hp : p9_client_prepare_req s.clnt type s.clnt._msize fmt args = some (c1, some slot))
    (hg : get_req c1 slot = some req) (htc : req.tc = some tc) (hrc : req.rc = some rc) :
    p9_client_rpc (depth + 1) env s type fmt args
      = rpc_after (p9_client_rpc depth env) env (env s.sent.length).err
          ⟨set_req c1 slot
            { req with status := (env s.sent.length).status, t_err := (env s.sent.length).t_err,
                       rc := some { rc with sdata := (env s.sent.length).rc_data } },
           s.sent ++ [tc]⟩ slot := by
  simp only [p9_client_rpc, hp, Option.some_bind, trans_request, hg, htc, hrc, Option.map_some']

theorem rpc_reterr_some (s : session) (slot : Slot) (req : p9_req_t) (tc : p9_fcall)
    (h : get_req s.clnt slot = some req) (htc : req.tc = some tc) :
    (rpc_reterr s slot).map (fun x => (x.2, x.1.clnt._status)) = some (none, s.clnt._status) := by
  obtain ⟨c2, hc2, hs2⟩ := p9_free_req_some s.clnt slot req tc h htc
  simp only [rpc_reterr, hc2, Option.map_some', hs2]

theorem rpc_request_failed (depth : Nat) (env : Nat → trans_reply) (s : session) (type : Nat)
    (fmt : List Char) (args : List Val) (c1 : p9_client) (slot : Slot)
    (hp : p9_client_prepare_req s.clnt type s.clnt._msize fmt args = some (c1, some slot))
    (he : (env s.sent.length).err < 0) :
    (p9_client_rpc (depth + 1) env s type fmt args).map (fun x => (x.2, x.1.clnt._status))
      = some (none,
          if (env s.sent.length).err ≠ -ERESTART ∧ (env s.sent.length).err ≠ -EFAULT
          then p9_trans_status.Disconnected else s.clnt._status) := by
  obtain ⟨req, tc, rc, hg, htc, hrc⟩ := p9_client_prepare_req_slot _ _ _ _ _ _ _ hp
  have hst := (p9_client_prepare_req_frame _ _ _ _ _ _ _ hp).2
  have hg2 := get_req_set_req c1 slot
    { req with status := (env s.sent.length).status, t_err := (env s.sent.length).t_err,
               rc := some { rc with sdata := (env s.sent.length).rc_data } } req hg
  rw [p9_client_rpc_prepared depth env s type fmt args c1 slot req tc rc hp hg htc hrc]
  unfold rpc_after
  rw [if_pos he]
  by_cases hd : (env s.sent.length).err ≠ -ERESTART ∧ (env s.sent.length).err ≠ -EFAULT
  · rw [if_pos hd, if_pos hd]
    exact rpc_reterr_some _ slot _ tc hg2 htc
  · rw [if_neg hd, if_neg hd, ← hst]
    exact rpc_reterr_some _ slot _ tc hg2 htc

theorem rpc_request_error_status (depth : Nat) (env : Nat → trans_reply) (s : session)
    (type : Nat) (fmt : List Char) (args : List Val) (c1 : p9_client) (slot : Slot)
    (hp : p9_client_prepare_req s.clnt type s.clnt._msize fmt args = some (c1, some slot))
    (he : 0 ≤ (env s.sent.length).err)
    (hs : (env s.sent.length).status = REQ_STATUS_ERROR)
    (ht : (env s.sent.length).t_err < 0) (hr : (env s.sent.length).t_err ≠ -ERESTART) :
    (p9_client_rpc (depth + 1) env s type fmt args).map (fun x => (x.2, x.1.clnt._status))
      = some (none, s.clnt._status) := by
  obtain ⟨req, tc, rc, hg, htc, hrc⟩ := p9_client_prepare_req_slot _ _ _ _ _ _ _ hp
  have hst := (p9_client_prepare_req_frame _ _ _ _ _ _ _ hp).2
  have he2 : ¬ (env s.sent.length).err < 0 := not_lt.mpr he
  have hg2 := get_req_set_req c1 slot
    { req with status := (env s.sent.length).status, t_err := (env s.sent.length).t_err,
               rc := some { rc with sdata := (env s.sent.length).rc_data } } req hg
  rw [p9_client_rpc_prepared depth env s type fmt args c1 slot req tc rc hp hg htc hrc]
  unfold rpc_after
  rw [if_neg he2]
  simp only [hg2, Option.some_bind]
  rw [if_pos hs, if_neg (fun h => hr h.1)]
  simp only [Option.some_bind]
  rw [if_pos ht, ← hst]
  exact rpc_reterr_some _ slot _ tc hg2 htc

/-- C16 (counterexample): the transport accepts the request (its `request`
call returns 0) and records the error `-EIO` in the request (`status` is
`REQ_STATUS_ERROR`, `t_err` is -5).  `p9_client_rpc` fails, and the session is
still `Connected`. -/
theorem C16_counterexample :
    (p9_client_rpc 2 (const_env ⟨0, REQ_STATUS_ERROR, -5, reply_buf [], none⟩)
        ⟨demo_client p9_trans_status.Connected p9_proto_2000L, []⟩
        P9_TSTATFS ['d'] [Val.d 1]).map (fun x => (x.2, x.1.clnt._status))
      = some (none, p9_trans_status.Connected) := by
  decide

/-- C16 (amended): for a request that was prepared and handed to the
transport, when the transport's `request` call returns an error `e < 0`,
`p9_client_rpc` returns the null request and the session status afterwards is
`Disconnected`, unless `e` is `-ERESTART` or `-EFAULT`, in which case it is
unchanged; when the call succeeds and the error is only recorded in the
request (`REQ_STATUS_ERROR` with a negative `t_err` other than `-ERESTART`),
`p9_client_rpc` returns the null request and the status is unchanged. -/
theorem C16_transport_error_status (depth : Nat) (env : Nat → trans_reply) (s : session)
    (type : Nat) (fmt : List Char) (args : List Val)
    (hp : ((p9_client_prepare_req s.clnt type s.clnt._msize fmt args).bind Prod.snd).isSome
      = true) :
    ((env s.sent.length).err < 0 →
      (p9_client_rpc (depth + 1) env s type fmt args).map (fun x => (x.2, x.1.clnt._status))
        = some (none,
            if (env s.sent.length).err ≠ -ERESTART ∧ (env s.sent.length).err ≠ -EFAULT
            then p9_trans_status.Disconnected else s.clnt._status)) ∧
    (0 ≤ (env s.sent.length).err → (env s.sent.length).status = REQ_STATUS_ERROR →
      (env s.sent.length).t_err < 0 → (env s.sent.length).t_err ≠ -ERESTART →
      (p9_client_rpc (depth + 1) env s type fmt args).map (fun x => (x.2, x.1.clnt._status))
        = some (none, s.clnt._status)) := by
  obtain ⟨c1, slot, hp1⟩ := prepared_of_isSome _ _ _ _ _ hp
  exact ⟨fun he => rpc_request_failed depth env s type fmt args c1 slot hp1 he,
    fun he hs ht hr => rpc_request_error_status depth env s type fmt args c1 slot hp1 he hs ht hr⟩

theorem C16_witness :
    (p9_client_rpc 1 (const_env ⟨-5, REQ_STATUS_ALLOC, 0, reply_buf [], none⟩)
        ⟨demo_client p9_trans_status.Connected p9_proto_2000L, []⟩
        P9_TSTATFS ['d'] [Val.d 1]).map (fun x => (x.2, x.1.clnt._status))
      = some (none, p9_trans_status.Disconnected) :=
  (C16_transport_error_status 0 (const_env ⟨-5, REQ_STATUS_ALLOC, 0, reply_buf [], none⟩)
    ⟨demo_client p9_trans_status.Connected p9_proto_2000L, []⟩
    P9_TSTATFS ['d'] [Val.d 1] (by decide)).1 (by decide)

/-! ## The wrappers: what they leave alone -/

theorem cfg_fields (c c1 : p9_client) (h : cfg c1 = cfg c) :
    c1._msize = c._msize ∧ c1._proto_version = c._proto_version ∧
    c1._fidpool = c._fidpool ∧ c1._fidlist = c._fidlist := by
  simp only [cfg, Prod.mk.injEq] at h
  exact h

theorem clunk_try_frame (depth : Nat) (env : Nat → trans_reply) (s s1 : session) (f : p9_fid)
    (e : Int) (h : clunk_try depth env s f = some (e, s1)) : cfg s1.clnt = cfg s.clnt := by
  simp only [clunk_try, Option.bind_eq_some] at h
  obtain ⟨r, hr, h⟩ := h
  have f1 := p9_client_rpc_frame depth env _ _ _ _ r.1 r.2 hr
  cases hr2 : r.2 with
  | none =>
    simp only [hr2, Option.some.injEq, Prod.mk.injEq] at h
    obtain ⟨_, rfl⟩ := h
    exact f1
  | some req =>
    simp only [hr2, Option.map_eq_some', Prod.mk.injEq] at h
    obtain ⟨c, hc, _, rfl⟩ := h
    exact (p9_free_req_frame _ _ _ hc).1.trans f1

theorem p9_client_clunk_effect (depth : Nat) (env : Nat → trans_reply) (s s1 : session)
    (f : p9_fid) (e : Int) (h : p9_client_clunk depth env s (some f) = some (e, s1)) :
    s1.clnt._msize = s.clnt._msize ∧ s1.clnt._proto_version = s.clnt._proto_version ∧
    s1.clnt._fidpool = p9_idpool_put s.clnt._fidpool (to_int32 f.fid) ∧
    s1.clnt._fidlist = s.clnt._fidlist.filter (fun i => i ≠ f.fid) := by
  simp only [p9_client_clunk, Option.bind_eq_some, Option.map_eq_some', Prod.mk.injEq] at h
  obtain ⟨r1, h1, r2, h2, _, rfl⟩ := h
  have f1 := cfg_fields _ _ (clunk_try_frame depth env _ _ _ _
    (show clunk_try depth env s f = some (r1.1, r1.2) from h1))
  have f2 := cfg_fields _ _ (clunk_try_frame depth env _ _ _ _
    (show clunk_try depth env r1.2 f = some (r2.1, r2.2) from h2))
  refine ⟨f2.1.trans f1.1, f2.2.1.trans f1.2.1, ?_, ?_⟩
  · show p9_idpool_put r2.2.clnt._fidpool (to_int32 f.fid) = _
    rw [f2.2.2.1, f1.2.2.1]
  · show r2.2.clnt._fidlist.filter (fun i => i ≠ f.fid) = _
    rw [f2.2.2.2, f1.2.2.2]

theorem to_int32_small (v : Nat) (h : v < 2 ^ 31) : to_int32 v = (v : Int) := by
  have h1 : v % 2 ^ 32 = v := Nat.mod_eq_of_lt (by omega)
  unfold to_int32
  rw [h1, if_pos h]

/-! ## Clunk -/

/-- C22: whenever `p9_client_clunk` returns on a non-null FID, whatever the
outcome of the `Tclunk` exchange and whatever value is returned, the FID is
not in the list of live FIDs and its id is not marked in use in the FID pool
any more, and every other id is in the list, and in the pool, exactly when it
was before. -/
theorem C22_clunk_releases_fid (depth : Nat) (env : Nat → trans_reply) (s s1 : session)
    (f : p9_fid) (e : Int) (hf : f.fid < 2 ^ 31)
    (h : p9_client_clunk depth env s (some f) = some (e, s1)) :
    f.fid ∉ s1.clnt._fidlist ∧ (f.fid : Int) ∉ s1.clnt._fidpool._pool ∧
    (∀ j : Nat, j ≠ f.fid → (j ∈ s1.clnt._fidlist ↔ j ∈ s.clnt._fidlist)) ∧
    (∀ i : Int, i ≠ (f.fid : Int) →
      (i ∈ s1.clnt._fidpool._pool ↔ i ∈ s.clnt._fidpool._pool)) := by
  obtain ⟨_, _, hp, hl⟩ := p9_client_clunk_effect depth env s s1 f e h
  rw [hp, hl, to_int32_small f.fid hf]
  refine ⟨?_, ?_, ?_, ?_⟩
  · simp [List.mem_filter]
  · simp [p9_idpool_put]
  · intro j hj
    simp [List.mem_filter, hj]
  · intro i hi
    simp [p9_idpool_put, hi]

theorem C22_witness :
    (1 : Nat) ∉
      (p9_fid_destroy
        { demo_client p9_trans_status.Disconnected p9_proto_2000L with
          _fidpool := ⟨{1, 2}, 2⟩, _fidlist := [1, 2] }
        ⟨1, -1, ⟨0, 0, 0⟩, 0, 0⟩)._fidlist :=
  (C22_clunk_releases_fid 1 (const_env (rcvd []))
    ⟨{ demo_client p9_trans_status.Disconnected p9_proto_2000L with
        _fidpool := ⟨{1, 2}, 2⟩, _fidlist := [1, 2] }, []⟩
    ⟨p9_fid_destroy
        { demo_client p9_trans_status.Disconnected p9_proto_2000L with
          _fidpool := ⟨{1, 2}, 2⟩, _fidlist := [1, 2] }
        ⟨1, -1, ⟨0, 0, 0⟩, 0, 0⟩, []⟩
    ⟨1, -1, ⟨0, 0, 0⟩, 0, 0⟩ (-1) (by decide) rfl).1

/-- C23: `p9_client_clunk` goes back to `again` after its first pass whatever
that pass gave (`retries++ == 0` holds on the first pass).  With a server that
answers every `Tclunk` with `Rclunk`, one call returns 0 and hands two
requests to the transport, both `Tclunk` (message type 120). -/
theorem C23_clunk_sends_twice :
    (p9_client_clunk 2 (const_env (rcvd [7, 0, 0, 0, 121, 1, 0]))
        ⟨{ demo_client p9_trans_status.Connected p9_proto_2000L with
            _fidpool := ⟨{1}, 1⟩, _fidlist := [1] }, []⟩
        (some ⟨1, -1, ⟨0, 0, 0⟩, 0, 0⟩)).map
      (fun r => (r.1, r.2.sent.map fun tc => tc.id)) = some (0, [120, 120]) := by
  decide

/-! ## Errors seen by the callers of the wrappers -/

theorem msize_proto_of_cfg (c c1 : p9_client) (h : cfg c1 = cfg c) :
    msize_proto c1 = msize_proto c := by
  obtain ⟨h1, h2, _, _⟩ := cfg_fields c c1 h
  simp only [msize_proto, h1, h2]

theorem p9_client_rpc_msize_proto (depth : Nat) (env : Nat → trans_reply) (s s1 : session)
    (type : Nat) (fmt : List Char) (args : List Val) (r : Option Slot)
    (h : p9_client_rpc depth env s type fmt args = some (s1, r)) :
    msize_proto s1.clnt = msize_proto s.clnt :=
  msize_proto_of_cfg _ _ (p9_client_rpc_frame depth env s type fmt args s1 r h)

theorem p9_free_req_msize_proto (c c1 : p9_client) (r : Slot) (h : p9_free_req c r = some c1) :
    msize_proto c1 = msize_proto c :=
  msize_proto_of_cfg _ _ (p9_free_req_frame c c1 r h).1

theorem req_readf_msize_proto (c c1 : p9_client) (req : Slot) (fmt : List Char) (e : Int)
    (vs : List Val) (h : req_readf c req fmt = some (e, c1, vs)) :
    msize_proto c1 = msize_proto c :=
  msize_proto_of_cfg _ _ (req_readf_frame c c1 req fmt e vs h).1

theorem p9_fid_create_msize_proto (c c1 : p9_client) (r : Option p9_fid)
    (h : p9_fid_create c = some (c1, r)) : msize_proto c1 = msize_proto c := by
  simp only [p9_fid_create, Option.map_eq_some'] at h
  obtain ⟨g, _, h⟩ := h
  split_ifs at h <;>
  · simp only [Prod.mk.injEq] at h
    obtain ⟨rfl, _⟩ := h
    rfl

theorem p9_client_clunk_msize_proto (depth : Nat) (env : Nat → trans_reply) (s s1 : session)
    (fid : Option p9_fid) (e : Int) (h : p9_client_clunk depth env s fid = some (e, s1)) :
    msize_proto s1.clnt = msize_proto s.clnt := by
  cases fid with
  | none =>
    simp only [p9_client_clunk, Option.some.injEq, Prod.mk.injEq] at h
    obtain ⟨_, rfl⟩ := h
    rfl
  | some f =>
    obtain ⟨h1, h2, _, _⟩ := p9_client_clunk_effect depth env s s1 f e h
    simp only [msize_proto, h1, h2]

theorem walk_finish_msize_proto (depth : Nat) (env : Nat → trans_reply) (s s1 : session)
    (oldfid fid : p9_fid) (nwname : Nat) (vals : List Val) (r : Option p9_fid)
    (h : walk_finish depth env s oldfid fid nwname vals = some (s1, r)) :
    msize_proto s1.clnt = msize_proto s.clnt := by
  unfold walk_finish at h
  split at h
  · split_ifs at h
    · simp only [Option.map_eq_some', Prod.mk.injEq] at h
      obtain ⟨k, hk, rfl, _⟩ := h
      exact p9_client_clunk_msize_proto depth env s k.2 (some fid) k.1 hk
    · simp only [Option.map_eq_some', Prod.mk.injEq] at h
      obtain ⟨q, _, rfl, _⟩ := h
      rfl
    · simp only [Option.some.injEq, Prod.mk.injEq] at h
      obtain ⟨rfl, _⟩ := h
      rfl
  · exact absurd h (by simp)

theorem p9_client_walk_msize_proto (depth : Nat) (env : Nat → trans_reply) (s s1 : session)
    (oldfid : p9_fid) (nwname : Nat) (wnames : Option (List CStr)) (clone : Bool)
    (r : Option p9_fid)
    (h : p9_client_walk depth env s oldfid nwname wnames clone = some (s1, r)) :
    msize_proto s1.clnt = msize_proto s.clnt := by
  simp only [p9_client_walk, Option.bind_eq_some] at h
  obtain ⟨g, hg, h⟩ := h
  have fg : msize_proto g.1 = msize_proto s.clnt := by
    unfold walk_target at hg
    cases clone with
    | true =>
      simp only [if_true, Option.map_eq_some'] at hg
      obtain ⟨x, hx, rfl⟩ := hg
      exact p9_fid_create_msize_proto _ _ _ (show p9_fid_create s.clnt = some (x.1, x.2) from hx)
    | false =>
      simp only [Bool.false_eq_true, if_false, Option.some.injEq] at hg
      subst hg
      rfl
  cases hg2 : g.2 with
  | none =>
    simp only [hg2, Option.some.injEq, Prod.mk.injEq] at h
    obtain ⟨rfl, _⟩ := h
    exact fg
  | some fid =>
    simp only [hg2, Option.bind_eq_some] at h
    obtain ⟨x, hx, h⟩ := h
    have fx := p9_client_rpc_msize_proto depth env _ x.1 _ _ _ x.2 hx
    cases hx2 : x.2 with
    | none =>
      simp only [hx2, Option.some.injEq, Prod.mk.injEq] at h
      obtain ⟨rfl, _⟩ := h
      refine Eq.trans ?_ (fx.trans fg)
      split_ifs <;> rfl
    | some req =>
      simp only [hx2, Option.bind_eq_some] at h
      obtain ⟨d, hd, c1, hc1, h⟩ := h
      have fd := req_readf_msize_proto _ _ _ _ _ _
        (show req_readf x.1.clnt req ['R'] = some (d.1, d.2.1, d.2.2) from hd)
      have fc := p9_free_req_msize_proto _ _ _ hc1
      have f4 : msize_proto c1 = msize_proto s.clnt := fc.trans (fd.trans (fx.trans fg))
      by_cases hd1 : d.1 ≠ 0
      · rw [if_pos hd1] at h
        simp only [Option.map_eq_some', Prod.mk.injEq] at h
        obtain ⟨k, hk, rfl, _⟩ := h
        exact (p9_client_clunk_msize_proto depth env _ k.2 (some fid) k.1 hk).trans f4
      · rw [if_neg hd1] at h
        exact (walk_finish_msize_proto depth env _ _ _ _ _ _ _ h).trans f4

theorem open_finish_msize_proto (x : session × Option Slot) (fid fid1 : p9_fid) (mode e : Int)
    (s1 : session) (vals : List Val)
    (h : open_finish x fid mode = some (e, s1, fid1, vals)) :
    msize_proto s1.clnt = msize_proto x.1.clnt := by
  unfold open_finish at h
  cases hx2 : x.2 with
  | none =>
    simp only [hx2, Option.some.injEq, Prod.mk.injEq] at h
    obtain ⟨_, rfl, _⟩ := h
    rfl
  | some req =>
    simp only [hx2, Option.bind_eq_some] at h
    obtain ⟨d, hd, c, hc, h⟩ := h
    have fd := req_readf_msize_proto _ _ _ _ _ _
      (show req_readf x.1.clnt req ['Q', 'd'] = some (d.1, d.2.1, d.2.2) from hd)
    have fc := p9_free_req_msize_proto _ _ _ hc
    by_cases hd1 : d.1 ≠ 0
    · rw [if_pos hd1] at h
      simp only [Option.some.injEq, Prod.mk.injEq] at h
      obtain ⟨_, rfl, _⟩ := h
      exact fc.trans fd
    · rw [if_neg hd1] at h
      split at h
      · simp only [Option.some.injEq, Prod.mk.injEq] at h
        obtain ⟨_, rfl, _⟩ := h
        exact fc.trans fd
      · exact absurd h (by simp)

theorem p9_client_open_msize_proto (depth : Nat) (env : Nat → trans_reply) (s s1 : session)
    (fid fid1 : p9_fid) (mode e : Int) (vals : List Val)
    (h : p9_client_open depth env s fid mode = some (e, s1, fid1, vals)) :
    msize_proto s1.clnt = msize_proto s.clnt := by
  unfold p9_client_open at h
  by_cases hm : fid.mode ≠ -1
  · rw [if_pos hm] at h
    simp only [Option.some.injEq, Prod.mk.injEq] at h
    obtain ⟨_, rfl, _⟩ := h
    rfl
  · rw [if_neg hm] at h
    simp only [Option.bind_eq_some] at h
    obtain ⟨x, hx, h⟩ := h
    have fx : msize_proto x.1.clnt = msize_proto s.clnt := by
      split_ifs at hx
      · exact p9_client_rpc_msize_proto depth env _ x.1 _ _ _ x.2 hx
      · exact p9_client_rpc_msize_proto depth env _ x.1 _ _ _ x.2 hx
    exact (open_finish_msize_proto _ _ _ _ _ _ _ h).trans fx

theorem read_loop_msize_proto (depth : Nat) (env : Nat → trans_reply) (fid : p9_fid) :
    ∀ (fuel : Nat) (s : session) (len : Nat) (total : Int) (offset : Nat) (err : Int)
      (uv : Nat × List Nat) (res : Int × Int × session × (Nat × List Nat)),
      read_loop (p9_client_rpc depth env) fid fuel s len total offset err uv = some res →
      msize_proto res.2.2.1.clnt = msize_proto s.clnt := by
  intro fuel
  induction fuel with
  | zero =>
    intro s len total offset err uv res h
    unfold read_loop at h
    exact absurd h (by simp)
  | succ n ih =>
    intro s len total offset err uv res h
    unfold read_loop at h
    by_cases hl : len = 0
    · rw [if_pos hl] at h
      simp only [Option.some.injEq] at h
      subst h
      rfl
    · rw [if_neg hl] at h
      simp only [Option.bind_eq_some] at h
      obtain ⟨x, hx, h⟩ := h
      have fx := p9_client_rpc_msize_proto depth env _ x.1 _ _ _ x.2 hx
      cases hx2 : x.2 with
      | none =>
        simp only [hx2, Option.some.injEq] at h
        subst h
        exact fx
      | some req =>
        simp only [hx2, Option.bind_eq_some] at h
        obtain ⟨d, hd, c, hc, h⟩ := h
        have fd := req_readf_msize_proto _ _ _ _ _ _
          (show req_readf x.1.clnt req ['D'] = some (d.1, d.2.1, d.2.2) from hd)
        have fc := p9_free_req_msize_proto _ _ _ hc
        have f4 : msize_proto c = msize_proto s.clnt := fc.trans (fd.trans fx)
        by_cases hd1 : d.1 ≠ 0
        · rw [if_pos hd1] at h
          simp only [Option.some.injEq] at h
          subst h
          exact f4
        · rw [if_neg hd1] at h
          split at h
          · split_ifs at h
            all_goals first
              | (simp only [Option.some.injEq] at h; subst h; exact f4)
              | exact (ih _ _ _ _ _ _ _ h).trans f4
          · exact absurd h (by simp)

/-! ## Version negotiation -/

theorem decoded_some (x : Option (session × Option Slot)) (fmt : List Char) (e : Int)
    (vs : List Val) (h : decoded x fmt = some (e, vs)) :
    ∃ s0 req c2, x = some (s0, some req) ∧ req_readf s0.clnt req fmt = some (e, c2, vs) := by
  simp only [decoded, Option.bind_eq_some, Option.map_eq_some', Prod.mk.injEq] at h
  obtain ⟨r, hr, req, hreq, d, hd, rfl, rfl⟩ := h
  obtain ⟨s0, r2⟩ := r
  simp only at hreq
  subst hreq
  exact ⟨s0, req, d.2.1, hr, hd⟩

theorem take_append_nul (v lit : List Nat) (n : Nat) (hl : lit.length = n) (h0 : 0 ∉ lit) :
    (v ++ [0]).take n = lit ↔ v.take n = lit := by
  rcases Nat.lt_or_ge v.length n with h | h
  · have h1 : (v ++ [0]).take n = v ++ [0] := by
      apply List.take_of_length_le
      simp only [List.length_append, List.length_singleton]
      omega
    have h2 : v.take n = v := List.take_of_length_le (by omega)
    rw [h1, h2]
    constructor
    · intro e
      exact absurd (e ▸ (by simp : (0 : Nat) ∈ v ++ [0])) h0
    · intro e
      rw [e] at h
      omega
  · rw [List.take_append_of_le_length h]

theorem strncmp_eq_iff (v lit : List Nat) (n : Nat) (hl : lit.length = n) (h0 : 0 ∉ lit) :
    strncmp_eq v lit n = true ↔ v.take n = lit := by
  unfold strncmp_eq
  rw [decide_eq_true_iff]
  have h1 : (lit ++ [0]).take n = lit := by
    rw [List.take_append_of_le_length (by omega), List.take_of_length_le (by omega)]
  rw [h1]
  exact take_append_nul v lit n hl h0

theorem version_adopt_spec (c : p9_client) (msize : Nat) (v : List Nat) :
    version_adopt c msize v =
      if v.take 8 = str_bytes "9P2000.L" then
        (0, { c with _proto_version := p9_proto_2000L,
                     _msize := if msize % 2 ^ 32 < c._msize then msize % 2 ^ 32 else c._msize })
      else if v.take 8 = str_bytes "9P2000.u" then
        (0, { c with _proto_version := p9_proto_2000u,
                     _msize := if msize % 2 ^ 32 < c._msize then msize % 2 ^ 32 else c._msize })
      else if v.take 6 = str_bytes "9P2000" then
        (0, { c with _proto_version := p9_proto_legacy,
                     _msize := if msize % 2 ^ 32 < c._msize then msize % 2 ^ 32 else c._msize })
      else (- EREMOTEIO, c) := by
  unfold version_adopt
  simp only [strncmp_eq_iff v (str_bytes "9P2000.L") 8 (by decide) (by decide),
    strncmp_eq_iff v (str_bytes "9P2000.u") 8 (by decide) (by decide),
    strncmp_eq_iff v (str_bytes "9P2000") 6 (by decide) (by decide)]
  split_ifs <;> rfl

theorem p9_client_version_decoded (depth : Nat) (env : Nat → trans_reply) (s : session)
    (msize : Nat) (version : CStr) (hn : s.clnt._proto_version ≤ 2)
    (hdec : decoded (p9_client_rpc depth env s P9_TVERSION ['d', 's']
        [Val.d s.clnt._msize, Val.s (version_name s.clnt._proto_version)]) ['d', 's']
      = some (0, [Val.d msize, Val.s version])) :
    ∃ (s0 : session) (req : Slot) (c2 : p9_client), msize_proto c2 = msize_proto s.clnt ∧
      p9_client_version depth env s
        = (p9_free_req (version_adopt c2 msize (version.getD [])).2 req).map fun c =>
            ((version_adopt c2 msize (version.getD [])).1, { s0 with clnt := c }) := by
  cases hv : version_name s.clnt._proto_version with
  | none =>
    unfold version_name at hv
    simp only [p9_proto_2000L, p9_proto_2000u, p9_proto_legacy] at hv
    split_ifs at hv
    omega
  | some name =>
    rw [hv] at hdec
    obtain ⟨s0, req, c2, hx, hrd⟩ := decoded_some _ _ _ _ hdec
    refine ⟨s0, req, c2, ?_, ?_⟩
    · exact (req_readf_msize_proto _ _ _ _ _ _ hrd).trans
        (p9_client_rpc_msize_proto depth env _ s0 _ _ _ _ hx)
    · unfold p9_client_version
      simp only [hv, hx, Option.some_bind, hrd, ne_eq, not_true_eq_false, if_false]

theorem map_const_of_forall {α β : Type} (o : Option α) (f : α → β) (k : β)
    (h : ∀ a, o = some a → f a = k) : o.map f = o.map fun _ => k := by
  cases o with
  | none => rfl
  | some a => simp only [Option.map_some', h a rfl]

theorem p9_client_version_result (depth : Nat) (env : Nat → trans_reply) (s : session)
    (msize : Nat) (version : CStr) (hn : s.clnt._proto_version ≤ 2)
    (hdec : decoded (p9_client_rpc depth env s P9_TVERSION ['d', 's']
        [Val.d s.clnt._msize, Val.s (version_name s.clnt._proto_version)]) ['d', 's']
      = some (0, [Val.d msize, Val.s version])) :
    ∃ c2, msize_proto c2 = msize_proto s.clnt ∧
      ∀ r, p9_client_version depth env s = some r →
        r.1 = (version_adopt c2 msize (version.getD [])).1 ∧
        msize_proto r.2.clnt = msize_proto (version_adopt c2 msize (version.getD [])).2 := by
  obtain ⟨s0, req, c2, hc2, hV⟩ := p9_client_version_decoded depth env s msize version hn hdec
  refine ⟨c2, hc2, ?_⟩
  intro r hr
  rw [hV] at hr
  simp only [Option.map_eq_some'] at hr
  obtain ⟨c, hc, rfl⟩ := hr
  exact ⟨rfl, p9_free_req_msize_proto _ _ _ hc⟩

/-- C17 (counterexample): the server echoes `"9P2000.Lx"`, which is none of
the three names; negotiation succeeds (returns 0) and the session is
9P2000.L.  With `"9P2000zz"` echoed it succeeds and the session is legacy. -/
theorem C17_counterexample :
    (p9_client_version 2
        (const_env (rcvd [22, 0, 0, 0, 101, 255, 255, 64, 0, 0, 0, 9, 0,
          57, 80, 50, 48, 48, 48, 46, 76, 120]))
        ⟨demo_client p9_trans_status.Connected p9_proto_2000L, []⟩).map
      (fun r => (r.1, r.2.clnt._proto_version)) = some (0, p9_proto_2000L) ∧
    (p9_client_version 2
        (const_env (rcvd [21, 0, 0, 0, 101, 255, 255, 64, 0, 0, 0, 8, 0,
          57, 80, 50, 48, 48, 48, 122, 122]))
        ⟨demo_client p9_trans_status.Connected p9_proto_2000L, []⟩).map
      (fun r => (r.1, r.2.clnt._proto_version)) = some (0, p9_proto_legacy) := by
  constructor <;> decide

/-- C17 (amended): when `Rversion` decodes to a size and a string, the
outcome of `p9_client_version` is decided by the leading bytes of the echoed
string, whatever version the client offered: if its first 8 bytes are
`"9P2000.L"` it returns 0 and the session is 9P2000.L; otherwise if they are
`"9P2000.u"` it returns 0 and the session is 9P2000.u; otherwise if its first
6 bytes are `"9P2000"` it returns 0 and the session is legacy; otherwise it
returns `-EREMOTEIO` and `_proto_version` and `_msize` are what they were.
Each line says what the call returns whenever it returns. -/
theorem C17_version_by_leading_bytes (depth : Nat) (env : Nat → trans_reply) (s : session)
    (msize : Nat) (version : List Nat) (hn : s.clnt._proto_version ≤ 2)
    (hdec : decoded (p9_client_rpc depth env s P9_TVERSION ['d', 's']
        [Val.d s.clnt._msize, Val.s (version_name s.clnt._proto_version)]) ['d', 's']
      = some (0, [Val.d msize, Val.s (some version)])) :
    (version.take 8 = str_bytes "9P2000.L" →
      (p9_client_version depth env s).map (fun r => (r.1, r.2.clnt._proto_version))
        = (p9_client_version depth env s).map fun _ => (0, p9_proto_2000L)) ∧
    (version.take 8 = str_bytes "9P2000.u" →
      (p9_client_version depth env s).map (fun r => (r.1, r.2.clnt._proto_version))
        = (p9_client_version depth env s).map fun _ => (0, p9_proto_2000u)) ∧
    (version.take 8 ≠ str_bytes "9P2000.L" → version.take 8 ≠ str_bytes "9P2000.u" →
      version.take 6 = str_bytes "9P2000" →
      (p9_client_version depth env s).map (fun r => (r.1, r.2.clnt._proto_version))
        = (p9_client_version depth env s).map fun _ => (0, p9_proto_legacy)) ∧
    (version.take 8 ≠ str_bytes "9P2000.L" → version.take 8 ≠ str_bytes "9P2000.u" →
      version.take 6 ≠ str_bytes "9P2000" →
      (p9_client_version depth env s).map (fun r => (r.1, msize_proto r.2.clnt))
        = (p9_client_version depth env s).map fun _ => (- EREMOTEIO, msize_proto s.clnt)) := by
  obtain ⟨c2, hc2, hr⟩ := p9_client_version_result depth env s msize (some version) hn hdec
  simp only [Option.getD_some, version_adopt_spec] at hr
  refine ⟨?_, ?_, ?_, ?_⟩
  · intro h1
    apply map_const_of_forall
    intro r hrr
    obtain ⟨e1, e2⟩ := hr r hrr
    rw [if_pos h1] at e1 e2
    simp only [msize_proto, Prod.mk.injEq] at e2
    rw [e1, e2.2]
  · intro h2
    have h1 : version.take 8 ≠ str_bytes "9P2000.L" := by
      rw [h2]
      decide
    apply map_const_of_forall
    intro r hrr
    obtain ⟨e1, e2⟩ := hr r hrr
    rw [if_neg h1, if_pos h2] at e1 e2
    simp only [msize_proto, Prod.mk.injEq] at e2
    rw [e1, e2.2]
  · intro h1 h2 h3
    apply map_const_of_forall
    intro r hrr
    obtain ⟨e1, e2⟩ := hr r hrr
    rw [if_neg h1, if_neg h2, if_pos h3] at e1 e2
    simp only [msize_proto, Prod.mk.injEq] at e2
    rw [e1, e2.2]
  · intro h1 h2 h3
    apply map_const_of_forall
    intro r hrr
    obtain ⟨e1, e2⟩ := hr r hrr
    rw [if_neg h1, if_neg h2, if_neg h3] at e1 e2
    rw [e1, e2, hc2]

theorem C17_witness :
    (p9_client_version 2
        (const_env (rcvd [22, 0, 0, 0, 101, 255, 255, 64, 0, 0, 0, 9, 0,
          57, 80, 50, 48, 48, 48, 46, 76, 120]))
        ⟨demo_client p9_trans_status.Connected p9_proto_legacy, []⟩).map
      (fun r => (r.1, r.2.clnt._proto_version))
      = (p9_client_version 2
        (const_env (rcvd [22, 0, 0, 0, 101, 255, 255, 64, 0, 0, 0, 9, 0,
          57, 80, 50, 48, 48, 48, 46, 76, 120]))
        ⟨demo_client p9_trans_status.Connected p9_proto_legacy, []⟩).map
      fun _ => (0, p9_proto_2000L) :=
  (C17_version_by_leading_bytes 2
    (const_env (rcvd [22, 0, 0, 0, 101, 255, 255, 64, 0, 0, 0, 9, 0,
      57, 80, 50, 48, 48, 48, 46, 76, 120]))
    ⟨demo_client p9_trans_status.Connected p9_proto_legacy, []⟩ 64
    [57, 80, 50, 48, 48, 48, 46, 76, 120] (by decide) (by decide)).1 (by decide)

/-- C18: when `p9_client_version` succeeds on an `Rversion` carrying the size
`msize`, the session's `_msize` afterwards is the smaller of the size sent in
`Tversion` (the `_msize` before the call) and `msize`; and `p9_client_rpc`,
`p9_free_req`, `p9_client_clunk`, `p9_client_walk`, `p9_client_open` and
`p9_client_read` leave `_msize` (and `_proto_version`) as they find it. -/
theorem C18_msize_min (depth : Nat) (env : Nat → trans_reply) (s : session)
    (msize : Nat) (version : CStr)
    (hok : (p9_client_version depth env s).map Prod.fst = some 0)
    (hdec : decoded (p9_client_rpc depth env s P9_TVERSION ['d', 's']
        [Val.d s.clnt._msize, Val.s (version_name s.clnt._proto_version)]) ['d', 's']
      = some (0, [Val.d msize, Val.s version])) :
    (p9_client_version depth env s).map (fun r => r.2.clnt._msize)
      = some (min s.clnt._msize (msize % 2 ^ 32)) ∧
    (∀ d e s0 type fmt args s1 r, p9_client_rpc d e s0 type fmt args = some (s1, r) →
      msize_proto s1.clnt = msize_proto s0.clnt) ∧
    (∀ c c1 r, p9_free_req c r = some c1 → msize_proto c1 = msize_proto c) ∧
    (∀ d e s0 fid x s1, p9_client_clunk d e s0 fid = some (x, s1) →
      msize_proto s1.clnt = msize_proto s0.clnt) ∧
    (∀ d e s0 oldfid nwname wnames clone s1 r,
      p9_client_walk d e s0 oldfid nwname wnames clone = some (s1, r) →
      msize_proto s1.clnt = msize_proto s0.clnt) ∧
    (∀ d e s0 fid mode x s1 fid1 vals,
      p9_client_open d e s0 fid mode = some (x, s1, fid1, vals) →
      msize_proto s1.clnt = msize_proto s0.clnt) ∧
    (∀ d e fuel s0 fid uv offset len res,
      p9_client_read d e fuel s0 fid uv offset len = some res →
      msize_proto res.2.2.1.clnt = msize_proto s0.clnt) := by
  refine ⟨?_, ?_, ?_, ?_, ?_, ?_, ?_⟩
  · have hn : s.clnt._proto_version ≤ 2 := by
      by_contra hcon
      have hv : version_name s.clnt._proto_version = none := by
        unfold version_name
        simp only [p9_proto_2000L, p9_proto_2000u, p9_proto_legacy]
        rw [if_neg (by omega), if_neg (by omega), if_neg (by omega)]
      have : p9_client_version depth env s = some (-EINVAL, s) := by
        unfold p9_client_version
        simp only [hv]
      rw [this] at hok
      simp [EINVAL] at hok
    obtain ⟨c2, hc2, hr⟩ := p9_client_version_result depth env s msize version hn hdec
    cases hV : p9_client_version depth env s with
    | none => rw [hV] at hok; exact absurd hok (by simp)
    | some r =>
      rw [hV] at hok
      simp only [Option.map_some', Option.some.injEq] at hok
      obtain ⟨e1, e2⟩ := hr r hV
      rw [hok, version_adopt_spec] at e1
      rw [version_adopt_spec] at e2
      simp only [msize_proto, Prod.mk.injEq] at hc2
      simp only [Option.map_some', Option.some.injEq]
      have key : (if msize % 2 ^ 32 < c2._msize then msize % 2 ^ 32 else c2._msize)
          = min s.clnt._msize (msize % 2 ^ 32) := by
        rw [hc2.1]
        split_ifs with hlt
        · exact (min_eq_right (le_of_lt hlt)).symm
        · exact (min_eq_left (not_lt.mp hlt)).symm
      rw [key] at e1 e2
      split_ifs at e1 e2 with h1 h2 h3
      · simp only [msize_proto, Prod.mk.injEq] at e2
        exact e2.1
      · simp only [msize_proto, Prod.mk.injEq] at e2
        exact e2.1
      · simp only [msize_proto, Prod.mk.injEq] at e2
        exact e2.1
      · simp [ EREMOTEIO] at e1
  · intro d e s0 type fmt args s1 r h
    exact p9_client_rpc_msize_proto d e s0 s1 type fmt args r h
  · intro c c1 r h
    exact p9_free_req_msize_proto c c1 r h
  · intro d e s0 fid x s1 h
    exact p9_client_clunk_msize_proto d e s0 s1 fid x h
  · intro d e s0 oldfid nwname wnames clone s1 r h
    exact p9_client_walk_msize_proto d e s0 s1 oldfid nwname wnames clone r h
  · intro d e s0 fid mode x s1 fid1 vals h
    exact p9_client_open_msize_proto d e s0 s1 fid fid1 mode x vals h
  · intro d e fuel s0 fid uv offset len res h
    exact read_loop_msize_proto d e fid fuel s0 len 0 offset 0 uv res h

theorem C18_witness :
    (p9_client_version 2
        (const_env (rcvd [21, 0, 0, 0, 101, 255, 255, 32, 0, 0, 0, 8, 0,
          57, 80, 50, 48, 48, 48, 46, 76]))
        ⟨demo_client p9_trans_status.Connected p9_proto_2000L, []⟩).map
      (fun r => r.2.clnt._msize) = some (min 64 (32 % 2 ^ 32)) :=
  (C18_msize_min 2
    (const_env (rcvd [21, 0, 0, 0, 101, 255, 255, 32, 0, 0, 0, 8, 0,
      57, 80, 50, 48, 48, 48, 46, 76]))
    ⟨demo_client p9_trans_status.Connected p9_proto_2000L, []⟩ 32
    (some [57, 80, 50, 48, 48, 48, 46, 76]) (by decide) (by decide)).1

/-- C19: the constructor overwrites `_msize` with `_trans_mod->maxsize` after
the options have been parsed and before `Tversion` is sent, so a session made
with the option `msize=N` is the session made without options, for every `N`;
with `msize=32` and a transport whose `maxsize` is 64, the `Tversion` handed
to the transport carries 64 (bytes 7 to 10 of the message), and without the
option it carries 64 as well, not 8192. -/
theorem C19_msize_option_overwritten (depth : Nat) (env : Nat → trans_reply) (N : Int)
    (create_ret : Int) (maxsize : Nat) :
    p9_client_new depth env (some [mount_opt.msize N]) create_ret maxsize
      = p9_client_new depth env none create_ret maxsize ∧
    (p9_client_new 2
        (const_env (rcvd [21, 0, 0, 0, 101, 255, 255, 64, 0, 0, 0, 8, 0,
          57, 80, 50, 48, 48, 48, 46, 76]))
        (some [mount_opt.msize 32]) 0 64).map
      (fun o => o.map fun s => s.sent.map fun tc => (tc.sdata.drop 7).take 4)
      = some (some [[64, 0, 0, 0]]) ∧
    (p9_client_new 2
        (const_env (rcvd [21, 0, 0, 0, 101, 255, 255, 64, 0, 0, 0, 8, 0,
          57, 80, 50, 48, 48, 48, 46, 76]))
        none 0 64).map
      (fun o => o.map fun s => s.sent.map fun tc => (tc.sdata.drop 7).take 4)
      = some (some [[64, 0, 0, 0]]) := by
  refine ⟨rfl, ?_, ?_⟩ <;> decide

/-! ## `p9_client_unlinkat_dotl` -/

/-- C27: the test after the RPC of `p9_client_unlinkat_dotl` is
`if (req) return -1;`.  When the server answers `Tunlinkat` with `Runlinkat`
the call returns -1 and gives the request up without freeing it: its slot
(row 0, column 2) is still in the state `REQ_STATUS_RCVD` and its tag 1 is
still marked in use.  When the RPC fails (here the transport returns `-EIO`)
the call goes on to `p9_free_req(req)` with the null request and has no
defined result. -/
theorem C27_unlinkat_test_inverted :
    (p9_client_unlinkat_dotl 2 (const_env (rcvd [7, 0, 0, 0, 77, 1, 0]))
        ⟨demo_client p9_trans_status.Connected p9_proto_2000L, []⟩ demo_fid (some [97]) 0).map
      (fun r => (r.1, (get_req r.2.clnt (0, 2)).map fun q => q.status,
                 decide ((1 : Int) ∈ r.2.clnt._tagpool._pool)))
      = some (-1, some REQ_STATUS_RCVD, true) ∧
    (p9_client_unlinkat_dotl 2 (const_env ⟨-5, REQ_STATUS_ALLOC, 0, reply_buf [], none⟩)
        ⟨demo_client p9_trans_status.Connected p9_proto_2000L, []⟩ demo_fid (some [97]) 0).isNone
      = true := by
  constructor <;> decide

/-! ## The id pool -/

theorem idpool_loop_sound (pool : Finset Int) (last : Int) :
    ∀ (fuel : Nat) (id r : Int), -1 ≤ id → id ≤ P9_ID_MAX →
      idpool_loop pool last fuel id = some r → 0 ≤ r →
      r ≤ P9_ID_MAX ∧ r ∉ pool ∧
      ((id < r ∧ ∀ j, id < j → j < r → j ∈ pool) ∨
       (r ≤ id ∧ (∀ j, id < j → j ≤ P9_ID_MAX → j ∈ pool) ∧ ∀ j, 0 ≤ j → j < r → j ∈ pool)) := by
  intro fuel
  induction fuel with
  | zero =>
    intro id r _ _ h _
    unfold idpool_loop at h
    exact absurd h (by simp)
  | succ n ih =>
    intro id r h1 h2 h hr
    unfold idpool_loop at h
    simp only [P9_ID_MAX] at *
    by_cases hw : id + 1 > 2147483646
    · have hid : id = 2147483646 := by omega
      rw [if_pos hw] at h
      by_cases h0 : (0 : Int) ∉ pool
      · rw [if_pos h0] at h
        simp only [Option.some.injEq] at h
        subst h
        refine ⟨by omega, h0, Or.inr ⟨by omega, ?_, ?_⟩⟩
        · intro j hj1 hj2; omega
        · intro j hj1 hj2; omega
      · rw [if_neg h0] at h
        have h0' : (0 : Int) ∈ pool := not_not.mp h0
        by_cases hz : (0 : Int) ≠ last
        · rw [if_pos hz] at h
          obtain ⟨r1, r2, r3⟩ := ih 0 r (by omega) (by omega) h hr
          refine ⟨r1, r2, Or.inr ⟨by omega, ?_, ?_⟩⟩
          · intro j hj1 hj2; omega
          · rcases r3 with ⟨_, r4⟩ | ⟨r5, _, _⟩
            · intro j hj1 hj2
              by_cases hj0 : j = 0
              · rw [hj0]; exact h0'
              · exact r4 j (by omega) hj2
            · have : r = 0 := by omega
              rw [this] at r2
              exact absurd h0' r2
        · rw [if_neg hz] at h
          simp only [Option.some.injEq] at h
          omega
    · rw [if_neg hw] at h
      by_cases h0 : id + 1 ∉ pool
      · rw [if_pos h0] at h
        simp only [Option.some.injEq] at h
        subst h
        refine ⟨by omega, h0, Or.inl ⟨by omega, ?_⟩⟩
        intro j hj1 hj2; omega
      · rw [if_neg h0] at h
        have h0' : id + 1 ∈ pool := not_not.mp h0
        by_cases hz : id + 1 ≠ last
        · rw [if_pos hz] at h
          obtain ⟨r1, r2, r3⟩ := ih (id + 1) r (by omega) (by omega) h hr
          refine ⟨r1, r2, ?_⟩
          rcases r3 with ⟨r4, r5⟩ | ⟨r4, r5, r6⟩
          · refine Or.inl ⟨by omega, ?_⟩
            intro j hj1 hj2
            by_cases hj0 : j = id + 1
            · rw [hj0]; exact h0'
            · exact r5 j (by omega) hj2
          · have hne : r ≠ id + 1 := by
              intro e
              rw [e] at r2
              exact absurd h0' r2
            refine Or.inr ⟨by omega, ?_, r6⟩
            intro j hj1 hj2
            by_cases hj0 : j = id + 1
            · rw [hj0]; exact h0'
            · exact r5 j (by omega) hj2
        · rw [if_neg hz] at h
          simp only [Option.some.injEq] at h
          omega

theorem idpool_loop_total (pool : Finset Int) (last : Int) (hl0 : -1 ≤ last)
    (hl1 : last ≤ P9_ID_MAX) :
    ∀ (fuel : Nat) (id : Int),
      ((last ≤ id ∧ id ≤ P9_ID_MAX ∧
          (∃ i, i ∉ pool ∧ ((id < i ∧ i ≤ P9_ID_MAX) ∨ (0 ≤ i ∧ i ≤ last))) ∧
          P9_ID_MAX - id + last + 1 ≤ (fuel : Int)) ∨
       (0 ≤ id ∧ id < last ∧ (∃ i, i ∉ pool ∧ id < i ∧ i ≤ last) ∧
          last - id ≤ (fuel : Int))) →
      ∃ r, idpool_loop pool last fuel id = some r ∧ 0 ≤ r := by
  intro fuel
  induction fuel with
  | zero =>
    intro id h
    simp only [P9_ID_MAX] at *
    rcases h with ⟨a1, a2, ⟨i, _, a4⟩, a5⟩ | ⟨b1, b2, _, b4⟩
    · push_cast at a5
      rcases a4 with a4 | a4 <;> omega
    · push_cast at b4
      omega
  | succ n ih =>
    intro id h
    unfold idpool_loop
    simp only [P9_ID_MAX] at *
    push_cast at h
    rcases h with ⟨a1, a2, ⟨i, a3, a4⟩, a5⟩ | ⟨b1, b2, ⟨i, b3, b4, b5⟩, b6⟩
    · by_cases hw : id + 1 > 2147483646
      · have hid : id = 2147483646 := by omega
        rw [if_pos hw]
        by_cases h0 : (0 : Int) ∉ pool
        · rw [if_pos h0]
          exact ⟨0, rfl, le_refl _⟩
        · rw [if_neg h0]
          have h0' : (0 : Int) ∈ pool := not_not.mp h0
          have hi : 0 ≤ i ∧ i ≤ last := by
            rcases a4 with a4 | a4
            · omega
            · exact a4
          have hi0 : i ≠ 0 := by
            intro e
            rw [e] at a3
            exact absurd h0' a3
          rw [if_pos (by omega : (0 : Int) ≠ last)]
          exact ih 0 (Or.inr ⟨le_refl _, by omega, ⟨i, a3, by omega, hi.2⟩, by omega⟩)
      · rw [if_neg hw]
        by_cases h0 : id + 1 ∉ pool
        · rw [if_pos h0]
          exact ⟨id + 1, rfl, by omega⟩
        · rw [if_neg h0]
          have h0' : id + 1 ∈ pool := not_not.mp h0
          have hi0 : i ≠ id + 1 := by
            intro e
            rw [e] at a3
            exact absurd h0' a3
          rw [if_pos (by omega : id + 1 ≠ last)]
          refine ih (id + 1) (Or.inl ⟨by omega, by omega, ⟨i, a3, ?_⟩, by omega⟩)
          rcases a4 with a4 | a4
          · exact Or.inl ⟨by omega, a4.2⟩
          · exact Or.inr a4
    · rw [if_neg (by omega : ¬ id + 1 > 2147483646)]
      by_cases h0 : id + 1 ∉ pool
      · rw [if_pos h0]
        exact ⟨id + 1, rfl, by omega⟩
      · rw [if_neg h0]
        have h0' : id + 1 ∈ pool := not_not.mp h0
        have hi0 : i ≠ id + 1 := by
          intro e
          rw [e] at b3
          exact absurd h0' b3
        rw [if_pos (by omega : id + 1 ≠ last)]
        exact ih (id + 1) (Or.inr ⟨by omega, by omega, ⟨i, b3, by omega, b5⟩, by omega⟩)

/-- C29 (counterexample): with the ids 0 in use and 1 handed out last and
put back, the smallest id that is not in the pool is 1, and `p9_idpool_get`
returns 2.  With every id of `[0, 2^31 - 2]` in use, `2^31 - 1` is not in the
pool, and `p9_idpool_get` returns -1. -/
theorem C29_counterexample :
    (p9_idpool_get ⟨{0}, 1⟩ = some (2, ⟨insert 2 {0}, 2⟩) ∧ (1 : Int) ∉ ({0} : Finset Int)) ∧
    (p9_idpool_get ⟨Finset.Icc 0 2147483646, 0⟩ = some (-1, ⟨Finset.Icc 0 2147483646, 0⟩) ∧
      (2147483647 : Int) ∉ Finset.Icc (0 : Int) 2147483646) := by
  refine ⟨⟨?_, by decide⟩, ?_, ?_⟩
  · exact p9_idpool_get_next ⟨{0}, 1⟩ (by decide) (by decide) (by decide)
  · exact p9_idpool_get_full ⟨Finset.Icc 0 2147483646, 0⟩
      (fun i h0 h1 => Finset.mem_Icc.mpr ⟨h0, h1⟩) (by decide) (by decide)
  · simp

/-- C29 (amended): for every pool state whose last id is in
`[-1, 2^31 - 2]` and in which some id of `[0, 2^31 - 2]` is not in use,
`p9_idpool_get` returns the first id not in use in the cyclic order that
starts after the last id handed out: the smallest unused id above the last
one if there is one, and the smallest unused id of all otherwise.  The id is
in `[0, 2^31 - 2]`, it is marked in use and becomes the last id. -/
theorem C29_idpool_get_first_after_last (p : p9_idpool) (hl0 : -1 ≤ p._last_id)
    (hl1 : p._last_id ≤ P9_ID_MAX)
    (hfree : ∃ i, 0 ≤ i ∧ i ≤ P9_ID_MAX ∧ i ∉ p._pool) :
    ∃ id, p9_idpool_get p = some (id, ⟨insert id p._pool, id⟩) ∧
      0 ≤ id ∧ id ≤ P9_ID_MAX ∧ id ∉ p._pool ∧
      ((p._last_id < id ∧ ∀ j, p._last_id < j → j < id → j ∈ p._pool) ∨
       (id ≤ p._last_id ∧ (∀ j, p._last_id < j → j ≤ P9_ID_MAX → j ∈ p._pool) ∧
         ∀ j, 0 ≤ j → j < id → j ∈ p._pool)) := by
  obtain ⟨i, hi0, hi1, hi2⟩ := hfree
  have ht := idpool_loop_total p._pool p._last_id hl0 hl1 (2 ^ 31) p._last_id
    (Or.inl ⟨le_refl _, hl1, ⟨i, hi2, by
      by_cases hc : p._last_id < i
      · exact Or.inl ⟨hc, hi1⟩
      · exact Or.inr ⟨hi0, not_lt.mp hc⟩⟩, by
      simp only [P9_ID_MAX]
      push_cast
      omega⟩)
  obtain ⟨r, hr, hr0⟩ := ht
  obtain ⟨s1, s2, s3⟩ := idpool_loop_sound p._pool p._last_id (2 ^ 31) p._last_id r hl0 hl1 hr hr0
  refine ⟨r, ?_, hr0, s1, s2, s3⟩
  unfold p9_idpool_get
  rw [hr]
  simp only [Option.map_some', if_neg (not_lt.mpr hr0)]

theorem C29_witness :
    ∃ id, p9_idpool_get ⟨{0}, 1⟩ = some (id, ⟨insert id {0}, id⟩) ∧
      0 ≤ id ∧ id ≤ P9_ID_MAX ∧ id ∉ ({0} : Finset Int) ∧
      (((1 : Int) < id ∧ ∀ j, (1 : Int) < j → j < id → j ∈ ({0} : Finset Int)) ∨
       (id ≤ (1 : Int) ∧ (∀ j, (1 : Int) < j → j ≤ P9_ID_MAX → j ∈ ({0} : Finset Int)) ∧
         ∀ j, 0 ≤ j → j < id → j ∈ ({0} : Finset Int))) :=
  C29_idpool_get_first_after_last ⟨{0}, 1⟩ (by decide) (by decide)
    ⟨1, by decide, by decide, by decide⟩

/-! ## The request table -/

/-- C30 (counterexample): for the tag 300 `p9_lookup_req` and `p9_alloc_req`
give the slot at row 1, column 46; 300 / 256 is 1 and 300 % 256 is 44. -/
theorem C30_counterexample :
    p9_lookup_req { demo_client p9_trans_status.Connected p9_proto_2000L with _max_tag := 510 }
        300 = some (1, 46) ∧
    (p9_alloc_req (demo_client p9_trans_status.Connected p9_proto_2000L) 300 64).map Prod.snd
      = some (1, 46) ∧
    (300 / 256, 300 % 256) = (1, 44) := by
  refine ⟨by decide, by decide, by decide⟩

/-- C30 (amended): `p9_lookup_req` and `p9_alloc_req` locate the slot of the
tag `t` at row `((t + 1) mod 2^16) / 255` and column `((t + 1) mod 2^16) % 255`,
for every 16-bit tag `t` (the tag is incremented first, so that `P9_NOTAG`
gets row 0, column 0, and a row has `P9_ROW_MAXTAG` = 255 slots). -/
theorem C30_slot_of_tag (c : p9_client) (t : Nat) :
    (∀ slot, p9_lookup_req c t = some slot →
      slot = ((t + 1) % 2 ^ 16 / 255, (t + 1) % 2 ^ 16 % 255)) ∧
    (∀ max_size c1 slot, p9_alloc_req c t max_size = some (c1, slot) →
      slot = ((t + 1) % 2 ^ 16 / 255, (t + 1) % 2 ^ 16 % 255)) := by
  constructor
  · intro slot h
    unfold p9_lookup_req at h
    simp only [P9_ROW_MAXTAG] at h
    split_ifs at h
    simp only [Option.some.injEq] at h
    exact h.symm
  · intro max_size c1 slot h
    simp only [p9_alloc_req, P9_ROW_MAXTAG] at h
    split_ifs at h
    all_goals
      simp only [Option.map_eq_some', Prod.mk.injEq] at h
      obtain ⟨_, _, _, h2⟩ := h
      exact h2.symm

theorem C30_witness :
    ((1, 46) : Slot) = ((300 + 1) % 2 ^ 16 / 255, (300 + 1) % 2 ^ 16 % 255) :=
  (C30_slot_of_tag { demo_client p9_trans_status.Connected p9_proto_2000L with _max_tag := 510 }
    300).1 (1, 46) (by decide)

/-! ## Walk -/

theorem p9_fid_create_spec (c c1 : p9_client) (f : p9_fid)
    (hl0 : -1 ≤ c._fidpool._last_id) (hl1 : c._fidpool._last_id ≤ P9_ID_MAX)
    (h : p9_fid_create c = some (c1, some f)) :
    ∃ id : Int, 0 ≤ id ∧ id ≤ P9_ID_MAX ∧ id ∉ c._fidpool._pool ∧
      f = { fid := id.toNat, mode := -1, qid := ⟨0, 0, 0⟩, iounit := 0, uid := 2 ^ 32 - 1 } ∧
      c1._fidpool._pool = insert id c._fidpool._pool ∧
      c1._fidlist = c._fidlist ++ [id.toNat] := by
  simp only [p9_fid_create, p9_idpool_get, Option.map_eq_some'] at h
  obtain ⟨g, ⟨r, hr, rfl⟩, h⟩ := h
  by_cases hneg : r < 0
  · simp only [hneg, if_true, Prod.mk.injEq] at h
    exact absurd h.2 (by simp)
  · simp only [hneg, if_false, Prod.mk.injEq, Option.some.injEq] at h
    obtain ⟨rfl, rfl⟩ := h
    obtain ⟨s1, s2, _⟩ := idpool_loop_sound _ _ _ _ r hl0 hl1 hr (not_lt.mp hneg)
    exact ⟨r, not_lt.mp hneg, s1, s2, rfl, rfl, rfl⟩

theorem walk_finish_success (depth : Nat) (env : Nat → trans_reply) (s s1 : session)
    (oldfid fid fid1 : p9_fid) (n : Nat) (vals : List Val)
    (h : walk_finish depth env s oldfid fid n vals = some (s1, some fid1)) :
    ∃ wqids, vals = [Val.R n (some wqids)] ∧
      (n ≠ 0 → wqids.get? (n - 1) = some fid1.qid ∧ fid1 = { fid with qid := fid1.qid }) ∧
      (n = 0 → fid1 = { fid with qid := oldfid.qid }) := by
  unfold walk_finish at h
  split at h
  · rename_i nwqids wqids
    by_cases h1 : nwqids ≠ n
    · rw [if_pos h1] at h
      simp only [Option.map_eq_some', Prod.mk.injEq] at h
      obtain ⟨_, _, _, h3⟩ := h
      exact absurd h3 (by simp)
    · rw [if_neg h1] at h
      have h1' : nwqids = n := not_not.mp h1
      subst h1'
      refine ⟨wqids, rfl, ?_, ?_⟩
      · intro hn
        rw [if_pos hn] at h
        simp only [Option.map_eq_some', Prod.mk.injEq, Option.some.injEq] at h
        obtain ⟨q, hq, _, rfl⟩ := h
        exact ⟨hq, rfl⟩
      · intro hn
        rw [if_neg (not_not.mpr hn)] at h
        simp only [Option.some.injEq, Prod.mk.injEq] at h
        exact h.2.symm
  · exact absurd h (by simp)

theorem p9_client_walk_decoded (depth : Nat) (env : Nat → trans_reply) (s : session)
    (oldfid fid : p9_fid) (nwname : Nat) (wnames : Option (List CStr)) (clone : Bool)
    (e : Int) (vals : List Val)
    (hfid : (walk_target s.clnt oldfid clone).bind Prod.snd = some fid)
    (hdec : decoded (p9_client_rpc depth env
        ⟨((walk_target s.clnt oldfid clone).map Prod.fst).getD s.clnt, s.sent⟩ P9_TWALK
        ['d', 'd', 'T'] [Val.d oldfid.fid, Val.d fid.fid, Val.T nwname wnames]) ['R']
      = some (e, vals)) :
    ∃ (g1 : p9_client) (s0 : session) (req : Slot) (c2 : p9_client),
      walk_target s.clnt oldfid clone = some (g1, some fid) ∧ cfg c2 = cfg g1 ∧
      p9_client_walk depth env s oldfid nwname wnames clone
        = (p9_free_req c2 req).bind fun c1 =>
            if e ≠ 0 then
              (p9_client_clunk depth env { s0 with clnt := c1 } (some fid)).map fun k =>
                (k.2, none)
            else walk_finish depth env { s0 with clnt := c1 } oldfid fid (nwname % 2 ^ 16) vals := by
  cases hw : walk_target s.clnt oldfid clone with
  | none => rw [hw] at hfid; exact absurd hfid (by simp)
  | some g =>
    obtain ⟨g1, gf⟩ := g
    rw [hw] at hfid hdec
    simp only [Option.some_bind] at hfid
    subst hfid
    simp only [Option.map_some', Option.getD_some] at hdec
    obtain ⟨s0, req, c2, hx, hrd⟩ := decoded_some _ _ _ _ hdec
    refine ⟨g1, s0, req, c2, rfl, ?_, ?_⟩
    · exact (req_readf_frame _ _ _ _ _ _ hrd).1.trans (p9_client_rpc_frame depth env _ _ _ _ _ _ hx)
    · unfold p9_client_walk
      simp only [hw, Option.some_bind, hx, hrd]

theorem walk_target_spec (c g1 : p9_client) (oldfid fid : p9_fid) (clone : Bool)
    (h : walk_target c oldfid clone = some (g1, some fid)) :
    (clone = false → g1 = c ∧ fid = oldfid) ∧
    (clone = true → -1 ≤ c._fidpool._last_id → c._fidpool._last_id ≤ P9_ID_MAX →
      ∃ id : Int, 0 ≤ id ∧ id ≤ P9_ID_MAX ∧ id ∉ c._fidpool._pool ∧
        fid = { fid := id.toNat, mode := -1, qid := ⟨0, 0, 0⟩, iounit := 0, uid := oldfid.uid } ∧
        g1._fidpool._pool = insert id c._fidpool._pool ∧
        g1._fidlist = c._fidlist ++ [id.toNat]) := by
  unfold walk_target at h
  constructor
  · intro hc
    subst hc
    simp only [Bool.false_eq_true, if_false, Option.some.injEq, Prod.mk.injEq] at h
    exact ⟨h.1.symm, h.2.symm⟩
  · intro hc hl0 hl1
    subst hc
    simp only [if_true, Option.map_eq_some', Prod.mk.injEq] at h
    obtain ⟨x, hx, rfl, f, hf1, rfl⟩ := h
    obtain ⟨id, i1, i2, i3, rfl, i5, i6⟩ := p9_fid_create_spec c x.1 f hl0 hl1
      (by rw [hx, ← hf1])
    exact ⟨id, i1, i2, i3, rfl, i5, i6⟩

/-- C20 (counterexample): a clone walk of one name, answered by an `Rwalk`
that carries no qid.  `p9_client_walk` returns the null FID, and no error
value with it; the FID pool is not exactly what it was, its last-id hint has
moved from 1 to 2 (the ids in use and the list of live FIDs are what they
were); the transport was handed a `Twalk` and two `Tclunk`. -/
theorem C20_counterexample :
    (p9_client_walk 2 (const_env (rcvd [9, 0, 0, 0, 111, 1, 0, 0, 0])) demo_session demo_fid 1
        (some [some [97]]) true).map
      (fun r => (r.2, r.1.clnt._fidpool._last_id, r.1.clnt._fidlist,
                 r.1.sent.map fun tc => tc.id))
      = some (none, 2, [1], [110, 120, 120]) ∧
    (p9_client_walk 2 (const_env (rcvd [9, 0, 0, 0, 111, 1, 0, 0, 0])) demo_session demo_fid 1
        (some [some [97]]) true).map
      (fun r => (decide (r.1.clnt._fidpool = demo_session.clnt._fidpool),
                 decide (r.1.clnt._fidpool._pool = {1})))
      = some (false, true) := by
  constructor <;> decide

/-- C20 (amended): for every `p9_client_walk` with `nwname` names whose
`Rwalk` decodes to `m` qids, whenever the call returns: it returns a FID if
`m == nwname` and the null FID if `m != nwname` (the value `-ENOENT` is
assigned to a local variable and is not returned); when `m != nwname` the FID
that was being walked has been clunked and destroyed, which without `clone`
is `oldfid` itself; in the clone case the ids in use in the FID pool and the
list of live FIDs are then what they were before the call, provided every
live FID's id was marked in use. -/
theorem C20_walk_count_mismatch (depth : Nat) (env : Nat → trans_reply) (s : session)
    (oldfid fid : p9_fid) (nwname : Nat) (wnames : Option (List CStr)) (clone : Bool)
    (m : Nat) (wqids : List p9_qid)
    (hfid : (walk_target s.clnt oldfid clone).bind Prod.snd = some fid)
    (hdec : decoded (p9_client_rpc depth env
        ⟨((walk_target s.clnt oldfid clone).map Prod.fst).getD s.clnt, s.sent⟩ P9_TWALK
        ['d', 'd', 'T'] [Val.d oldfid.fid, Val.d fid.fid, Val.T nwname wnames]) ['R']
      = some (0, [Val.R m (some wqids)])) :
    (m = nwname % 2 ^ 16 →
      (p9_client_walk depth env s oldfid nwname wnames clone).map (fun r => r.2.isSome)
        = (p9_client_walk depth env s oldfid nwname wnames clone).map fun _ => true) ∧
    (m ≠ nwname % 2 ^ 16 →
      (p9_client_walk depth env s oldfid nwname wnames clone).map
          (fun r => (r.2, decide (fid.fid ∈ r.1.clnt._fidlist)))
        = (p9_client_walk depth env s oldfid nwname wnames clone).map fun _ => (none, false)) ∧
    (m ≠ nwname % 2 ^ 16 → clone = true →
      -1 ≤ s.clnt._fidpool._last_id → s.clnt._fidpool._last_id ≤ P9_ID_MAX →
      (∀ j ∈ s.clnt._fidlist, (j : Int) ∈ s.clnt._fidpool._pool) →
      (p9_client_walk depth env s oldfid nwname wnames clone).map
          (fun r => (r.1.clnt._fidpool._pool, r.1.clnt._fidlist))
        = (p9_client_walk depth env s oldfid nwname wnames clone).map
            fun _ => (s.clnt._fidpool._pool, s.clnt._fidlist)) := by
  obtain ⟨g1, s0, req, c2, hw, hc2, hW⟩ :=
    p9_client_walk_decoded depth env s oldfid fid nwname wnames clone 0 _ hfid hdec
  simp only [ne_eq, not_true_eq_false, if_false] at hW
  refine ⟨?_, ?_, ?_⟩
  · intro hm
    apply map_const_of_forall
    intro r hr
    rw [hW] at hr
    simp only [Option.bind_eq_some] at hr
    obtain ⟨c1, _, hr⟩ := hr
    unfold walk_finish at hr
    simp only [hm, ne_eq, not_true_eq_false, if_false] at hr
    split_ifs at hr
    all_goals first
      | (simp only [Option.some.injEq] at hr; subst hr; rfl)
      | (simp only [Option.map_eq_some'] at hr; obtain ⟨q, _, rfl⟩ := hr; rfl)
  · intro hm
    apply map_const_of_forall
    intro r hr
    rw [hW] at hr
    simp only [Option.bind_eq_some] at hr
    obtain ⟨c1, _, hr⟩ := hr
    unfold walk_finish at hr
    simp only [ne_eq, hm, not_false_eq_true, if_true, Option.map_eq_some'] at hr
    obtain ⟨k, hk, rfl⟩ := hr
    obtain ⟨_, _, _, hl⟩ := p9_client_clunk_effect depth env _ k.2 fid k.1 hk
    simp only [Prod.mk.injEq, decide_eq_false_iff_not, true_and]
    rw [hl]
    simp [List.mem_filter]
  · intro hm hc hl0 hl1 hinv
    apply map_const_of_forall
    intro r hr
    rw [hW] at hr
    simp only [Option.bind_eq_some] at hr
    obtain ⟨c1, hc1, hr⟩ := hr
    unfold walk_finish at hr
    simp only [ne_eq, hm, not_false_eq_true, if_true, Option.map_eq_some'] at hr
    obtain ⟨k, hk, rfl⟩ := hr
    obtain ⟨_, _, hp, hl⟩ := p9_client_clunk_effect depth env _ k.2 fid k.1 hk
    obtain ⟨id, i1, i2, i3, rfl, i5, i6⟩ := (walk_target_spec _ _ _ _ _ hw).2 hc hl0 hl1
    obtain ⟨_, _, f3, f4⟩ := cfg_fields _ _ ((p9_free_req_frame _ _ _ hc1).1.trans hc2)
    have hid : to_int32 id.toNat = id := by
      rw [to_int32_small id.toNat (by
        simp only [P9_ID_MAX] at i2
        omega)]
      exact Int.toNat_of_nonneg i1
    have hnl : id.toNat ∉ s.clnt._fidlist := by
      intro hmem
      have := hinv _ hmem
      rw [Int.toNat_of_nonneg i1] at this
      exact i3 this
    simp only [Prod.mk.injEq]
    constructor
    · rw [hp]
      show (p9_idpool_put c1._fidpool (to_int32 id.toNat))._pool = _
      rw [hid, f3]
      simp only [p9_idpool_put, i5]
      exact Finset.erase_insert i3
    · rw [hl]
      show c1._fidlist.filter (fun i => i ≠ id.toNat) = _
      rw [f4, i6, List.filter_append]
      simp only [List.filter_cons, ne_eq, not_true_eq_false, decide_False, List.filter_nil,
        List.append_nil, Bool.false_eq_true, if_false]
      apply List.filter_eq_self.mpr
      intro a ha
      simp only [decide_eq_true_eq]
      intro e
      exact hnl (e ▸ ha)

theorem C20_witness :
    (p9_client_walk 2 (const_env (rcvd [9, 0, 0, 0, 111, 1, 0, 0, 0])) demo_session demo_fid 1
        (some [some [97]]) true).map
        (fun r => (r.1.clnt._fidpool._pool, r.1.clnt._fidlist))
      = (p9_client_walk 2 (const_env (rcvd [9, 0, 0, 0, 111, 1, 0, 0, 0])) demo_session
          demo_fid 1 (some [some [97]]) true).map
        fun _ => (demo_session.clnt._fidpool._pool, demo_session.clnt._fidlist) :=
  (C20_walk_count_mismatch 2 (const_env (rcvd [9, 0, 0, 0, 111, 1, 0, 0, 0])) demo_session
    demo_fid ⟨2, -1, ⟨0, 0, 0⟩, 0, 0⟩ 1 (some [some [97]]) true 0 []
    (by decide) (by decide)).2.2 (by decide) rfl (by decide) (by decide) (by decide)

/-- C21: on a successful `p9_client_walk` the reply decoded to `nwname` qids;
the qid of the FID returned is the qid at index `nwname - 1` of the reply,
its last one, when `nwname >= 1`, and the qid of `oldfid` when `nwname == 0`;
without `clone` the FID returned is `oldfid` with at most its qid changed (so
with `nwname == 0` it is `oldfid` unchanged), and with `clone` it has an id
that was not in use, mode -1 and the uid of `oldfid`. -/
theorem C21_walk_success (depth : Nat) (env : Nat → trans_reply) (s : session)
    (oldfid fid fid1 : p9_fid) (nwname : Nat) (wnames : Option (List CStr)) (clone : Bool)
    (e : Int) (vals : List Val)
    (hl0 : -1 ≤ s.clnt._fidpool._last_id) (hl1 : s.clnt._fidpool._last_id ≤ P9_ID_MAX)
    (hfid : (walk_target s.clnt oldfid clone).bind Prod.snd = some fid)
    (hdec : decoded (p9_client_rpc depth env
        ⟨((walk_target s.clnt oldfid clone).map Prod.fst).getD s.clnt, s.sent⟩ P9_TWALK
        ['d', 'd', 'T'] [Val.d oldfid.fid, Val.d fid.fid, Val.T nwname wnames]) ['R']
      = some (e, vals))
    (h : (p9_client_walk depth env s oldfid nwname wnames clone).map Prod.snd
      = some (some fid1)) :
    ∃ wqids, e = 0 ∧ vals = [Val.R (nwname % 2 ^ 16) (some wqids)] ∧
      (nwname % 2 ^ 16 ≠ 0 → wqids.get? (nwname % 2 ^ 16 - 1) = some fid1.qid) ∧
      (nwname % 2 ^ 16 = 0 → fid1.qid = oldfid.qid) ∧
      (clone = false → fid1 = { oldfid with qid := fid1.qid }) ∧
      (clone = false → nwname % 2 ^ 16 = 0 → fid1 = oldfid) ∧
      (clone = true →
        (fid1.fid : Int) ∉ s.clnt._fidpool._pool ∧ fid1.mode = -1 ∧ fid1.uid = oldfid.uid) := by
  obtain ⟨g1, s0, req, c2, hw, hc2, hW⟩ :=
    p9_client_walk_decoded depth env s oldfid fid nwname wnames clone e vals hfid hdec
  rw [hW] at h
  simp only [Option.map_eq_some', Option.bind_eq_some] at h
  obtain ⟨r, ⟨c1, _, hr⟩, hr2⟩ := h
  obtain ⟨s1, r2⟩ := r
  simp only at hr2
  subst hr2
  by_cases he : e ≠ 0
  · rw [if_pos he] at hr
    simp only [Option.map_eq_some', Prod.mk.injEq] at hr
    obtain ⟨_, _, _, h3⟩ := hr
    exact absurd h3 (by simp)
  · rw [if_neg he] at hr
    obtain ⟨wqids, hv, hn1, hn0⟩ := walk_finish_success depth env _ s1 oldfid fid fid1 _ vals hr
    have hfq : fid1 = { fid with qid := fid1.qid } := by
      by_cases hn : nwname % 2 ^ 16 = 0
      · have := hn0 hn
        rw [this]
      · exact (hn1 hn).2
    refine ⟨wqids, not_not.mp he, hv, fun hn => (hn1 hn).1, ?_, ?_, ?_, ?_⟩
    · intro hn
      rw [hn0 hn]
    · intro hc
      obtain ⟨_, hf⟩ := (walk_target_spec _ _ _ _ _ hw).1 hc
      rw [← hf]
      exact hfq
    · intro hc hn
      obtain ⟨_, hf⟩ := (walk_target_spec _ _ _ _ _ hw).1 hc
      rw [hn0 hn, hf]
    · intro hc
      obtain ⟨id, i1, i2, i3, hf, _, _⟩ := (walk_target_spec _ _ _ _ _ hw).2 hc hl0 hl1
      rw [hfq, hf]
      refine ⟨?_, rfl, rfl⟩
      show ((id.toNat : Nat) : Int) ∉ _
      rw [Int.toNat_of_nonneg i1]
      exact i3

theorem C21_witness : ((2 : Nat) : Int) ∉ demo_session.clnt._fidpool._pool := by
  obtain ⟨_, _, _, _, _, _, _, h7⟩ := C21_walk_success 2
    (const_env (rcvd [22, 0, 0, 0, 111, 1, 0, 1, 0, 0, 1, 0, 0, 0, 200, 0, 0, 0, 0, 0, 0, 0]))
    demo_session demo_fid ⟨2, -1, ⟨0, 0, 0⟩, 0, 0⟩ ⟨2, -1, ⟨0, 1, 200⟩, 0, 0⟩ 1
    (some [some [97]]) true 0 [Val.R 1 (some [⟨0, 1, 200⟩])]
    (by decide) (by decide) (by decide) (by decide) (by decide)
  exact (h7 rfl).1

/-! ## Open -/

theorem vwritef_case_scalar_id (nested : List Char → p9_fcall → List Val → WRes) (c : Char)
    (p : p9_fcall) (args : List Val) (r : Int × p9_fcall × List Val)
    (hc : c ∈ ['b', 'w', 'd', 'q', 'u', 'g']) (h : vwritef_case nested c p args = some r) :
    r.2.1.id = p.id := by
  simp only [List.mem_cons, List.mem_singleton, List.not_mem_nil, or_false] at hc
  unfold vwritef_case at h
  rcases hc with rfl | rfl | rfl | rfl | rfl | rfl
  · rw [if_pos rfl] at h
    split at h
    · simp only [Option.some.injEq] at h; subst h; rfl
    · exact absurd h (by simp)
  · rw [if_neg (by decide), if_pos rfl] at h
    split at h
    · simp only [Option.some.injEq] at h; subst h; rfl
    · exact absurd h (by simp)
  · rw [if_neg (by decide), if_neg (by decide), if_pos rfl] at h
    split at h
    · simp only [Option.some.injEq] at h; subst h; rfl
    · exact absurd h (by simp)
  · rw [if_neg (by decide), if_neg (by decide), if_neg (by decide), if_pos rfl] at h
    split at h
    · simp only [Option.some.injEq] at h; subst h; rfl
    · exact absurd h (by simp)
  · rw [if_neg (by decide), if_neg (by decide), if_neg (by decide), if_neg (by decide),
      if_neg (by decide), if_pos rfl] at h
    split at h
    · simp only [Option.some.injEq] at h; subst h; rfl
    · exact absurd h (by simp)
  · rw [if_neg (by decide), if_neg (by decide), if_neg (by decide), if_neg (by decide),
      if_neg (by decide), if_neg (by decide), if_pos rfl] at h
    split at h
    · simp only [Option.some.injEq] at h; subst h; rfl
    · exact absurd h (by simp)

theorem vwritef_loop_scalar_id (pv : Nat)
    (step : Char → p9_fcall → List Val → Option (Int × p9_fcall × List Val))
    (hstep : ∀ c p args r, c ∈ ['b', 'w', 'd', 'q', 'u', 'g'] → step c p args = some r →
      r.2.1.id = p.id) :
    ∀ (fmt : List Char) (p : p9_fcall) (args : List Val) (r : Int × p9_fcall),
      (∀ c ∈ fmt, c ∈ ['b', 'w', 'd', 'q', 'u', 'g']) →
      vwritef_loop pv step fmt p args = some r → r.2.id = p.id := by
  intro fmt
  induction fmt with
  | nil =>
    intro p args r _ h
    simp only [vwritef_loop, Option.some.injEq] at h
    subst h
    rfl
  | cons c rest ih =>
    intro p args r hf h
    have hc := hf c (List.mem_cons_self _ _)
    have hq : c ≠ '?' := by
      intro e
      rw [e] at hc
      exact absurd hc (by decide)
    unfold vwritef_loop at h
    rw [if_neg hq] at h
    cases hs : step c p args with
    | none => rw [hs] at h; exact absurd h (by simp)
    | some x =>
      obtain ⟨err, p1, args1⟩ := x
      rw [hs] at h
      have h1 : p1.id = p.id := hstep c p args _ hc hs
      simp only at h
      by_cases he : err ≠ 0
      · rw [if_pos he] at h
        simp only [Option.some.injEq] at h
        subst h
        exact h1
      · rw [if_neg he] at h
        exact (ih p1 args1 r (fun c' hc' => hf c' (List.mem_cons_of_mem _ hc')) h).trans h1

theorem vwritef_scalar_id (n pv : Nat) (fmt : List Char) (p : p9_fcall) (args : List Val)
    (r : Int × p9_fcall) (hf : ∀ c ∈ fmt, c ∈ ['b', 'w', 'd', 'q', 'u', 'g'])
    (h : p9pdu_vwritef (n + 1) pv fmt p args = some r) : r.2.id = p.id := by
  unfold p9pdu_vwritef at h
  exact vwritef_loop_scalar_id pv _
    (fun c p args r hc hs => vwritef_case_scalar_id _ c p args r hc hs) fmt p args r hf h

theorem p9pdu_prepare_id (pdu : p9_fcall) (tag type : Nat) (r : Int × p9_fcall)
    (h : p9pdu_prepare pdu tag type = some r) : r.2.id = type % 2 ^ 8 := by
  unfold p9pdu_prepare p9pdu_writef at h
  exact vwritef_scalar_id 2 0 _ _ _ r (by decide) h

theorem p9pdu_finalize_id (pdu : p9_fcall) (r : Int × p9_fcall)
    (h : p9pdu_finalize pdu = some r) : r.2.id = pdu.id := by
  unfold p9pdu_finalize p9pdu_writef at h
  simp only [Option.map_eq_some'] at h
  obtain ⟨r0, h0, rfl⟩ := h
  have hf : ∀ c ∈ ['d'], c ∈ ['b', 'w', 'd', 'q', 'u', 'g'] := by decide
  have h1 : r0.2.id = ({ pdu with size := 0 } : p9_fcall).id :=
    vwritef_scalar_id 2 0 ['d'] { pdu with size := 0 } [Val.d pdu.size] r0 hf h0
  exact h1

theorem p9_client_prepare_req_tc_id (c c1 : p9_client) (type req_size : Nat)
    (fmt : List Char) (args : List Val) (slot : Slot)
    (hf : ∀ ch ∈ fmt, ch ∈ ['b', 'w', 'd', 'q', 'u', 'g'])
    (h : p9_client_prepare_req c type req_size fmt args = some (c1, some slot)) :
    ∃ req tc rc, get_req c1 slot = some req ∧ req.tc = some tc ∧ req.rc = some rc ∧
      tc.id = type % 2 ^ 8 := by
  unfold p9_client_prepare_req at h
  by_cases h1 : c._status = p9_trans_status.Disconnected
  · rw [if_pos h1] at h
    simp only [Option.some.injEq, Prod.mk.injEq] at h
    exact absurd h.2 (by simp)
  rw [if_neg h1] at h
  by_cases h2 : c._status = p9_trans_status.BeginDisconnect ∧ type ≠ P9_TCLUNK
  · rw [if_pos h2] at h
    simp only [Option.some.injEq, Prod.mk.injEq] at h
    exact absurd h.2 (by simp)
  rw [if_neg h2] at h
  simp only [prepare_admitted, Option.bind_eq_some] at h
  obtain ⟨g, _, h⟩ := h
  by_cases h3 : g.1 < 0
  · rw [if_pos h3] at h
    simp only [Option.some.injEq, Prod.mk.injEq] at h
    exact absurd h.2 (by simp)
  rw [if_neg h3] at h
  simp only [Option.bind_eq_some] at h
  obtain ⟨a, ha, h⟩ := h
  obtain ⟨req0, tc0, rc0, hg0, _, hrc0⟩ :=
    p9_alloc_req_slot _ _ _ _ _ (show p9_alloc_req _ _ _ = some (a.1, a.2) from ha)
  simp only [prepare_marshal, Option.bind_eq_some] at h
  obtain ⟨req, hreq, tc, _, p1, hp1, p2, hp2, h⟩ := h
  have hre : req = req0 := Option.some.inj (hreq.symm.trans hg0)
  by_cases hp : p2.1 ≠ 0
  · rw [if_pos hp] at h
    simp only [Option.map_eq_some', Prod.mk.injEq] at h
    obtain ⟨_, _, _, h4⟩ := h
    exact absurd h4 (by simp)
  · rw [if_neg hp] at h
    simp only [Option.map_eq_some', Prod.mk.injEq, Option.some.injEq] at h
    obtain ⟨p3, hp3, rfl, rfl⟩ := h
    refine ⟨_, p3.2, rc0, get_req_set_req _ _ _ _ hreq, rfl, ?_, ?_⟩
    · rw [hre]
      exact hrc0
    · rw [p9pdu_finalize_id _ _ hp3, vwritef_scalar_id 2 _ _ _ _ p2 hf hp2,
        p9pdu_prepare_id _ _ _ _ hp1]

theorem rpc_reterr_sent (s s1 : session) (slot : Slot) (r : Option Slot)
    (h : rpc_reterr s slot = some (s1, r)) : s1.sent = s.sent := by
  simp only [rpc_reterr, Option.map_eq_some', Prod.mk.injEq] at h
  obtain ⟨c, _, rfl, _⟩ := h
  rfl

theorem p9_client_flush_sent
    (rpc : session → Nat → List Char → List Val → Option (session × Option Slot))
    (hrpc : ∀ s type fmt args s1 r, rpc s type fmt args = some (s1, r) →
      ∃ rest, s1.sent = s.sent ++ rest)
    (env : Nat → trans_reply) (s s1 : session) (oldreq : Slot)
    (h : p9_client_flush rpc env s oldreq = some s1) : ∃ rest, s1.sent = s.sent ++ rest := by
  simp only [p9_client_flush, Option.bind_eq_some] at h
  obtain ⟨req, _, tc, _, hd, _, h⟩ := h
  by_cases h1 : hd.1 ≠ 0
  · rw [if_pos h1] at h
    simp only [Option.some.injEq] at h
    subst h
    exact ⟨[], (List.append_nil _).symm⟩
  · rw [if_neg h1] at h
    cases hh : hd.2.2 with
    | none => simp [hh] at h
    | some hdr =>
      simp only [hh, Option.bind_eq_some] at h
      obtain ⟨r, hr, h⟩ := h
      obtain ⟨rest, f1⟩ := hrpc _ _ _ _ r.1 r.2 hr
      cases hr2 : r.2 with
      | none =>
        simp only [hr2, Option.some.injEq] at h
        subst h
        exact ⟨rest, f1⟩
      | some fl =>
        simp only [hr2, Option.map_eq_some'] at h
        obtain ⟨c3, _, rfl⟩ := h
        exact ⟨rest, f1⟩

theorem rpc_after_sent
    (rpc : session → Nat → List Char → List Val → Option (session × Option Slot))
    (hrpc : ∀ s type fmt args s1 r, rpc s type fmt args = some (s1, r) →
      ∃ rest, s1.sent = s.sent ++ rest)
    (env : Nat → trans_reply) (err : Int) (s s1 : session) (slot : Slot) (r : Option Slot)
    (h : rpc_after rpc env err s slot = some (s1, r)) : ∃ rest, s1.sent = s.sent ++ rest := by
  unfold rpc_after at h
  by_cases h0 : err < 0
  · rw [if_pos h0] at h
    have f := rpc_reterr_sent _ _ _ _ h
    refine ⟨[], ?_⟩
    rw [f, List.append_nil]
    split_ifs <;> rfl
  · rw [if_neg h0] at h
    simp only [Option.bind_eq_some] at h
    obtain ⟨req, _, f, hf, h⟩ := h
    have ff : ∃ rest, f.2.sent = s.sent ++ rest := by
      by_cases hc : (if req.status = REQ_STATUS_ERROR then req.t_err else err) = -ERESTART ∧
          s.clnt._status = p9_trans_status.Connected
      · rw [if_pos hc] at hf
        simp only [Option.bind_eq_some, Option.map_eq_some'] at hf
        obtain ⟨s2, hs2, req2, _, rfl⟩ := hf
        exact p9_client_flush_sent rpc hrpc env _ _ _ hs2
      · rw [if_neg hc] at hf
        simp only [Option.some.injEq] at hf
        subst hf
        exact ⟨[], (List.append_nil _).symm⟩
    obtain ⟨rest, ff⟩ := ff
    by_cases h1 : f.1 < 0
    · rw [if_pos h1] at h
      exact ⟨rest, (rpc_reterr_sent _ _ _ _ h).trans ff⟩
    · rw [if_neg h1] at h
      simp only [Option.bind_eq_some] at h
      obtain ⟨e, _, h⟩ := h
      by_cases h2 : e.1 = 0
      · rw [if_pos h2] at h
        simp only [Option.some.injEq, Prod.mk.injEq] at h
        obtain ⟨rfl, _⟩ := h
        exact ⟨rest, ff⟩
      · rw [if_neg h2] at h
        exact ⟨rest, (rpc_reterr_sent _ _ _ _ h).trans ff⟩

theorem p9_client_rpc_sent (depth : Nat) (env : Nat → trans_reply) :
    ∀ (s : session) (type : Nat) (fmt : List Char) (args : List Val) (s1 : session)
      (r : Option Slot),
      p9_client_rpc depth env s type fmt args = some (s1, r) →
      ∃ rest, s1.sent = s.sent ++ rest := by
  induction depth with
  | zero =>
    intro s type fmt args s1 r h
    simp [p9_client_rpc] at h
  | succ n ih =>
    intro s type fmt args s1 r h
    simp only [p9_client_rpc, Option.bind_eq_some] at h
    obtain ⟨p, _, h⟩ := h
    cases hp2 : p.2 with
    | none =>
      simp only [hp2, Option.some.injEq, Prod.mk.injEq] at h
      obtain ⟨rfl, _⟩ := h
      exact ⟨[], (List.append_nil _).symm⟩
    | some slot =>
      simp only [hp2, Option.bind_eq_some] at h
      obtain ⟨t, ht, h⟩ := h
      simp only [trans_request, Option.bind_eq_some, Option.map_eq_some'] at ht
      obtain ⟨req, _, tc, _, rc, _, rfl⟩ := ht
      obtain ⟨rest, f⟩ := rpc_after_sent _ ih env _ _ _ _ _ h
      exact ⟨tc :: rest, by rw [f]; simp⟩

theorem p9_client_rpc_first_sent (depth : Nat) (env : Nat → trans_reply) (s : session)
    (type : Nat) (fmt : List Char) (args : List Val) (s1 : session) (r : Option Slot)
    (hf : ∀ ch ∈ fmt, ch ∈ ['b', 'w', 'd', 'q', 'u', 'g'])
    (h : p9_client_rpc depth env s type fmt args = some (s1, r)) :
    s1.sent = s.sent ∨ ∃ tc rest, s1.sent = s.sent ++ tc :: rest ∧ tc.id = type % 2 ^ 8 := by
  cases depth with
  | zero => simp [p9_client_rpc] at h
  | succ n =>
    cases hp : p9_client_prepare_req s.clnt type s.clnt._msize fmt args with
    | none => simp [p9_client_rpc, hp] at h
    | some p =>
      obtain ⟨c1, p2⟩ := p
      cases p2 with
      | none =>
        simp only [p9_client_rpc, hp, Option.some_bind, Option.some.injEq, Prod.mk.injEq] at h
        obtain ⟨rfl, _⟩ := h
        exact Or.inl rfl
      | some slot =>
        obtain ⟨req, tc, rc, hg, htc, hrc, hid⟩ :=
          p9_client_prepare_req_tc_id _ _ _ _ _ _ _ hf hp
        rw [p9_client_rpc_prepared n env s type fmt args c1 slot req tc rc hp hg htc hrc] at h
        obtain ⟨rest, f⟩ := rpc_after_sent _ (p9_client_rpc_sent n env) env _ _ _ _ _ h
        refine Or.inr ⟨tc, rest, ?_, hid⟩
        rw [f]
        simp

/-- C28 (counterexample): in a legacy 9P2000 session `p9_client_mkdir_dotl`
hands a `Tmkdir` (message type 72) to the transport and
`p9_client_fcreate_dotl` a `Tlcreate` (message type 14); neither returns
before the transport has been called. -/
theorem C28_counterexample :
    (p9_client_mkdir_dotl 2 (const_env (rcvd []))
        ⟨demo_client p9_trans_status.Connected p9_proto_legacy, []⟩ demo_fid (some [97]) 0 0).map
      (fun r => r.2.1.sent.map fun tc => tc.id) = some [72] ∧
    (p9_client_fcreate_dotl 2 (const_env (rcvd []))
        ⟨demo_client p9_trans_status.Connected p9_proto_legacy, []⟩ demo_fid (some [97])
        0 0 0).map
      (fun r => r.2.1.sent.map fun tc => tc.id) = some [14] := by
  constructor <;> decide

/-- C28 (amended): in a session whose version is not 9P2000.L, whenever
`p9_client_open` returns, either nothing was handed to the transport or the
first message of the call handed to it is a `Topen` (message type 112), not a
`Tlopen`.  (The wrappers of the 9P2000.L messages make no test of the version
and hand their message to the transport in every session.) -/
theorem C28_open_issues_topen (depth : Nat) (env : Nat → trans_reply) (s : session)
    (fid : p9_fid) (mode : Int) (l : List p9_fcall)
    (hp : s.clnt._proto_version ≠ p9_proto_2000L)
    (h : (p9_client_open depth env s fid mode).map (fun r => r.2.1.sent) = some l) :
    l = s.sent ∨ ∃ tc rest, l = s.sent ++ tc :: rest ∧ tc.id = P9_TOPEN := by
  simp only [Option.map_eq_some'] at h
  obtain ⟨r, hr, rfl⟩ := h
  unfold p9_client_open at hr
  by_cases hm : fid.mode ≠ -1
  · rw [if_pos hm] at hr
    simp only [Option.some.injEq] at hr
    subst hr
    exact Or.inl rfl
  · rw [if_neg hm, if_neg hp] at hr
    simp only [Option.bind_eq_some] at hr
    obtain ⟨x, hx, hr⟩ := hr
    have hs : r.2.1.sent = x.1.sent := by
      unfold open_finish at hr
      cases hx2 : x.2 with
      | none =>
        simp only [hx2, Option.some.injEq] at hr
        subst hr
        rfl
      | some req =>
        simp only [hx2, Option.bind_eq_some] at hr
        obtain ⟨d, _, c, _, hr⟩ := hr
        split_ifs at hr
        · simp only [Option.some.injEq] at hr
          subst hr
          rfl
        · split at hr
          · simp only [Option.some.injEq] at hr
            subst hr
            rfl
          · exact absurd hr (by simp)
    rw [hs]
    exact p9_client_rpc_first_sent depth env s P9_TOPEN _ _ x.1 x.2 (by decide) hx

theorem C28_witness :
    [(⟨12, 112, 1, 0, 64,
        [12, 0, 0, 0, 112, 1, 0, 1, 0, 0, 0, 0] ++ List.replicate 52 0⟩ : p9_fcall)]
        = ([] : List p9_fcall) ∨
      ∃ tc rest,
        [(⟨12, 112, 1, 0, 64,
          [12, 0, 0, 0, 112, 1, 0, 1, 0, 0, 0, 0] ++ List.replicate 52 0⟩ : p9_fcall)]
          = ([] : List p9_fcall) ++ tc :: rest ∧ tc.id = P9_TOPEN :=
  C28_open_issues_topen 2 (const_env (rcvd []))
    ⟨demo_client p9_trans_status.Connected p9_proto_legacy, []⟩ demo_fid 0 _ (by decide)
    (by decide)

/-! ## The connection status once `Disconnected` -/

theorem rpc_disconnected (depth : Nat) (env : Nat → trans_reply) (s s1 : session) (type : Nat)
    (fmt : List Char) (args : List Val) (r : Option Slot)
    (hd : s.clnt._status = p9_trans_status.Disconnected)
    (h : p9_client_rpc depth env s type fmt args = some (s1, r)) : s1 = s ∧ r = none := by
  cases depth with
  | zero => simp [p9_client_rpc] at h
  | succ n =>
    have h1 : p9_client_rpc (n + 1) env s type fmt args = some (s, none) := by
      simp [p9_client_rpc, p9_client_prepare_req, hd]
    rw [h1] at h
    simp only [Option.some.injEq, Prod.mk.injEq] at h
    exact ⟨h.1.symm, h.2.symm⟩

theorem clunk_try_disconnected (depth : Nat) (env : Nat → trans_reply) (s s1 : session)
    (fid : p9_fid) (x : Int) (hd : s.clnt._status = p9_trans_status.Disconnected)
    (h : clunk_try depth env s fid = some (x, s1)) : s1 = s := by
  simp only [clunk_try, Option.bind_eq_some] at h
  obtain ⟨r, hr, h⟩ := h
  obtain ⟨h1, h2⟩ := rpc_disconnected depth env s r.1 _ _ _ r.2 hd hr
  rw [h2] at h
  simp only [Option.some.injEq, Prod.mk.injEq] at h
  rw [← h.2, h1]

theorem clunk_disconnected (depth : Nat) (env : Nat → trans_reply) (s s1 : session)
    (fid : Option p9_fid) (x : Int) (hd : s.clnt._status = p9_trans_status.Disconnected)
    (h : p9_client_clunk depth env s fid = some (x, s1)) :
    s1.clnt._status = p9_trans_status.Disconnected := by
  cases fid with
  | none =>
    simp only [p9_client_clunk, Option.some.injEq, Prod.mk.injEq] at h
    rw [← h.2]
    exact hd
  | some f =>
    simp only [p9_client_clunk, Option.bind_eq_some, Option.map_eq_some', Prod.mk.injEq] at h
    obtain ⟨r1, h1, r2, h2, _, rfl⟩ := h
    have e1 := clunk_try_disconnected depth env s r1.2 f r1.1 hd h1
    rw [e1] at h2
    have e2 := clunk_try_disconnected depth env s r2.2 f r2.1 hd h2
    show (p9_fid_destroy r2.2.clnt f)._status = p9_trans_status.Disconnected
    rw [e2]
    exact hd

theorem walk_disconnected (depth : Nat) (env : Nat → trans_reply) (s s1 : session)
    (oldfid : p9_fid) (nwname : Nat) (wnames : Option (List CStr)) (clone : Bool)
    (r : Option p9_fid) (hd : s.clnt._status = p9_trans_status.Disconnected)
    (h : p9_client_walk depth env s oldfid nwname wnames clone = some (s1, r)) :
    s1.clnt._status = p9_trans_status.Disconnected := by
  simp only [p9_client_walk, Option.bind_eq_some] at h
  obtain ⟨g, hg, h⟩ := h
  have hg1 : g.1._status = p9_trans_status.Disconnected := by
    unfold walk_target at hg
    cases clone with
    | false =>
      simp only [Bool.false_eq_true, if_false, Option.some.injEq] at hg
      rw [← hg]
      exact hd
    | true =>
      simp only [if_true, p9_fid_create, Option.map_eq_some'] at hg
      obtain ⟨a, ⟨b, _, rfl⟩, rfl⟩ := hg
      show (if b.1 < 0 then _ else _ : p9_client × Option p9_fid).1._status = _
      split_ifs <;> exact hd
  cases hg2 : g.2 with
  | none =>
    rw [hg2] at h
    simp only [Option.some.injEq, Prod.mk.injEq] at h
    rw [← h.1]
    exact hg1
  | some fid =>
    rw [hg2] at h
    simp only [Option.bind_eq_some] at h
    obtain ⟨q, hq, h⟩ := h
    obtain ⟨e1, e2⟩ := rpc_disconnected depth env _ q.1 _ _ _ q.2 hg1 hq
    rw [e2] at h
    simp only [Option.some.injEq, Prod.mk.injEq] at h
    rw [← h.1, e1]
    split_ifs <;> exact hg1

theorem open_finish_none (s s1 : session) (fid fid1 : p9_fid) (mode x : Int)
    (vals : List Val) (h : open_finish (s, none) fid mode = some (x, s1, fid1, vals)) :
    s1 = s := by
  simp only [open_finish, Option.some.injEq, Prod.mk.injEq] at h
  exact h.2.1.symm

theorem open_disconnected (depth : Nat) (env : Nat → trans_reply) (s s1 : session)
    (fid fid1 : p9_fid) (mode x : Int) (vals : List Val)
    (hd : s.clnt._status = p9_trans_status.Disconnected)
    (h : p9_client_open depth env s fid mode = some (x, s1, fid1, vals)) :
    s1.clnt._status = p9_trans_status.Disconnected := by
  unfold p9_client_open at h
  by_cases hm : fid.mode ≠ -1
  · rw [if_pos hm] at h
    simp only [Option.some.injEq, Prod.mk.injEq] at h
    rw [← h.2.1]
    exact hd
  · rw [if_neg hm] at h
    simp only [Option.bind_eq_some] at h
    obtain ⟨q, hq, h⟩ := h
    have e : q.1 = s ∧ q.2 = none := by
      split_ifs at hq
      · exact rpc_disconnected depth env s q.1 _ _ _ q.2 hd hq
      · exact rpc_disconnected depth env s q.1 _ _ _ q.2 hd hq
    have e3 : q = (s, none) := Prod.ext e.1 e.2
    rw [e3] at h
    rw [open_finish_none s s1 fid fid1 mode x vals h]
    exact hd

theorem read_disconnected (depth : Nat) (env : Nat → trans_reply) (fuel : Nat)
    (s : session) (fid : p9_fid) (uv : Nat × List Nat) (offset len : Nat)
    (res : Int × Int × session × (Nat × List Nat))
    (hd : s.clnt._status = p9_trans_status.Disconnected)
    (h : p9_client_read depth env fuel s fid uv offset len = some res) :
    res.2.2.1.clnt._status = p9_trans_status.Disconnected := by
  unfold p9_client_read at h
  cases fuel with
  | zero => simp [read_loop] at h
  | succ n =>
    unfold read_loop at h
    by_cases hl : len = 0
    · rw [if_pos hl] at h
      simp only [Option.some.injEq] at h
      rw [← h]
      exact hd
    · rw [if_neg hl] at h
      simp only [Option.bind_eq_some] at h
      obtain ⟨q, hq, h⟩ := h
      obtain ⟨e1, e2⟩ := rpc_disconnected depth env s q.1 _ _ _ q.2 hd hq
      rw [e2] at h
      simp only [Option.some.injEq] at h
      rw [← h]
      show q.1.clnt._status = _
      rw [e1]
      exact hd

theorem version_disconnected (depth : Nat) (env : Nat → trans_reply) (s s1 : session)
    (x : Int) (hd : s.clnt._status = p9_trans_status.Disconnected)
    (h : p9_client_version depth env s = some (x, s1)) :
    s1.clnt._status = p9_trans_status.Disconnected := by
  unfold p9_client_version at h
  cases hv : version_name s.clnt._proto_version with
  | none =>
    rw [hv] at h
    simp only [Option.some.injEq, Prod.mk.injEq] at h
    rw [← h.2]
    exact hd
  | some name =>
    rw [hv] at h
    simp only [Option.bind_eq_some] at h
    obtain ⟨q, hq, h⟩ := h
    obtain ⟨e1, e2⟩ := rpc_disconnected depth env s q.1 _ _ _ q.2 hd hq
    rw [e2] at h
    simp only [Option.some.injEq, Prod.mk.injEq] at h
    rw [← h.2, e1]
    exact hd

/-- C33 (counterexample): `p9_client_begin_disconnect` stores
`BeginDisconnect` whatever the status is, so it takes a `Disconnected`
session to `BeginDisconnect`, in which `Tclunk` requests are admitted
again. -/
theorem C33_counterexample :
    (demo_client p9_trans_status.Disconnected p9_proto_2000L)._status
        = p9_trans_status.Disconnected ∧
      (p9_client_begin_disconnect
        (demo_client p9_trans_status.Disconnected p9_proto_2000L))._status
        = p9_trans_status.BeginDisconnect := by
  decide

/-- C33 (amended): once the session status is `Disconnected`,
`p9_client_disconnect` leaves it `Disconnected`, and so do `p9_client_rpc`
and the wrappers `p9_client_clunk`, `p9_client_walk`, `p9_client_open`,
`p9_client_read` and `p9_client_version`, whatever they are called with and
whatever the transport would answer. -/
theorem C33_disconnected_is_kept (depth : Nat) (env : Nat → trans_reply) (s : session)
    (hd : s.clnt._status = p9_trans_status.Disconnected) :
    (p9_client_disconnect s.clnt)._status = p9_trans_status.Disconnected ∧
    (∀ type fmt args s1 r, p9_client_rpc depth env s type fmt args = some (s1, r) →
      s1.clnt._status = p9_trans_status.Disconnected) ∧
    (∀ fid x s1, p9_client_clunk depth env s fid = some (x, s1) →
      s1.clnt._status = p9_trans_status.Disconnected) ∧
    (∀ oldfid nwname wnames clone s1 r,
      p9_client_walk depth env s oldfid nwname wnames clone = some (s1, r) →
      s1.clnt._status = p9_trans_status.Disconnected) ∧
    (∀ fid mode x s1 fid1 vals, p9_client_open depth env s fid mode = some (x, s1, fid1, vals) →
      s1.clnt._status = p9_trans_status.Disconnected) ∧
    (∀ fuel fid uv offset len res,
      p9_client_read depth env fuel s fid uv offset len = some res →
      res.2.2.1.clnt._status = p9_trans_status.Disconnected) ∧
    (∀ x s1, p9_client_version depth env s = some (x, s1) →
      s1.clnt._status = p9_trans_status.Disconnected) := by
  refine ⟨rfl, ?_, ?_, ?_, ?_, ?_, ?_⟩
  · intro type fmt args s1 r h
    rw [(rpc_disconnected depth env s s1 type fmt args r hd h).1]
    exact hd
  · intro fid x s1 h
    exact clunk_disconnected depth env s s1 fid x hd h
  · intro oldfid nwname wnames clone s1 r h
    exact walk_disconnected depth env s s1 oldfid nwname wnames clone r hd h
  · intro fid mode x s1 fid1 vals h
    exact open_disconnected depth env s s1 fid fid1 mode x vals hd h
  · intro fuel fid uv offset len res h
    exact read_disconnected depth env fuel s fid uv offset len res hd h
  · intro x s1 h
    exact version_disconnected depth env s s1 x hd h

theorem C33_witness :
    (demo_client p9_trans_status.Disconnected p9_proto_2000L)._status
        = p9_trans_status.Disconnected ∧
      (p9_client_disconnect
        (demo_client p9_trans_status.Disconnected p9_proto_2000L))._status
        = p9_trans_status.Disconnected :=
  ⟨rfl, (C33_disconnected_is_kept 1 (const_env (rcvd []))
    ⟨demo_client p9_trans_status.Disconnected p9_proto_2000L, []⟩ rfl).1⟩

/-! ## A request whose reply has not arrived -/

/-- C34: `p9_client_rpc` does not wait between `_trans_mod->request` and
`p9_check_errors`.  `vt9p::make_request` returns 0 as soon as the request is
queued, with the status `SENT`; when the caller finds the request in that
state, with the reply buffer as it was allocated, `p9_client_rpc` parses that
buffer and returns the request, still `SENT`, as a success, and
`p9_client_statfs` returns 0 with every field decoded from bytes that no
server has written. -/
theorem C34_reply_not_awaited :
    ((p9_client_rpc 1 (const_env ⟨0, REQ_STATUS_SENT, 0, reply_buf [], none⟩) demo_session
        P9_TSTATFS ['d'] [Val.d 1]).bind fun r =>
      r.2.bind fun slot => (get_req r.1.clnt slot).map fun q => q.status)
      = some REQ_STATUS_SENT ∧
    (p9_client_statfs 1 (const_env ⟨0, REQ_STATUS_SENT, 0, reply_buf [], none⟩) demo_session
        demo_fid).map (fun r => (r.1, r.2.2))
      = some (0, [Val.d 0, Val.d 0, Val.q 0, Val.q 0, Val.q 0, Val.q 0, Val.q 0, Val.q 0,
                  Val.d 0]) := by
  refine ⟨?_, ?_⟩ <;> decide

/-! ## Rows of the request table -/

/-- C35: the column index computed from a 16-bit tag is always below the row
length 255, but the row index is below the 255 rows of `_reqs` only for the
tags below 65024 and for `P9_NOTAG`: for every tag in `[65024, 65534]` the
row index is 255 or 256, `p9_alloc_req` indexes `_reqs` out of bounds (`none`),
and `p9_lookup_req` hands out the address of a slot in such a row once
`_max_tag` is large enough. -/
theorem C35_row_index_out_of_bounds (t : Nat) (ht : t < 2 ^ 16) :
    (t + 1) % 2 ^ 16 % P9_ROW_MAXTAG < P9_ROW_MAXTAG ∧
    ((t + 1) % 2 ^ 16 / P9_ROW_MAXTAG < P9_ROW_MAXTAG ↔ (t < 65024 ∨ t = 65535)) ∧
    (65024 ≤ t → t ≤ 65534 →
      (∀ (c : p9_client) (m : Nat), p9_alloc_req c t m = none) ∧
      ∀ c : p9_client, c._max_tag = 65536 →
        ∃ slot, p9_lookup_req c t = some slot ∧ P9_ROW_MAXTAG ≤ slot.1) := by
  refine ⟨?_, ?_, ?_⟩
  · exact Nat.mod_lt _ (by decide)
  · simp only [P9_ROW_MAXTAG]
    omega
  · intro h1 h2
    have hrow : (t + 1) % 2 ^ 16 / P9_ROW_MAXTAG ≥ P9_ROW_MAXTAG := by
      simp only [P9_ROW_MAXTAG]
      omega
    refine ⟨fun c m => p9_alloc_req_row_bound c t m hrow, ?_⟩
    intro c hc
    have hlt : ¬ (((t + 1) % 2 ^ 16 : Nat) : Int) ≥ c._max_tag := by
      rw [hc]
      push_cast
      omega
    refine ⟨((t + 1) % 2 ^ 16 / P9_ROW_MAXTAG, (t + 1) % 2 ^ 16 % P9_ROW_MAXTAG), ?_, hrow⟩
    simp only [p9_lookup_req]
    rw [if_neg hlt]

theorem C35_witness :
    (65024 : Nat) < 2 ^ 16 ∧
      (65024 + 1) % 2 ^ 16 % P9_ROW_MAXTAG < P9_ROW_MAXTAG ∧
      ¬ ((65024 + 1) % 2 ^ 16 / P9_ROW_MAXTAG < P9_ROW_MAXTAG) :=
  ⟨by decide, (C35_row_index_out_of_bounds 65024 (by decide)).1,
    fun h => absurd ((C35_row_index_out_of_bounds 65024 (by decide)).2.1.mp h) (by decide)⟩

/-! ## The `version=` mount option -/

theorem cstr_head_ne (bs : List Nat) (b : Nat) (n : Nat) (xs : List Nat)
    (h : cstr (bs.take n) = b :: xs) : bs.head? = some b := by
  cases bs with
  | nil => simp [cstr] at h
  | cons y ys =>
    cases n with
    | zero => simp [cstr] at h
    | succ m =>
      simp only [List.take_succ_cons, cstr] at h
      by_cases hy : y ≠ 0
      · rw [List.takeWhile_cons_of_pos (by simpa using hy)] at h
        simp only [List.cons.injEq] at h
        simp [h.1]
      · rw [List.takeWhile_cons_of_neg (by simpa using hy)] at h
        simp at h

theorem p9_get_protocol_version_head (s : List Nat) (h : p9_get_protocol_version s ≠ -EINVAL) :
    s.head? = some 57 := by
  unfold p9_get_protocol_version at h
  split_ifs at h with h1 h2 h3
  · rw [h1]; rfl
  · rw [h2]; rfl
  · rw [h3]; rfl
  · exact absurd rfl h

/-- C32: `match_strdup` copies the bytes of the `substring_t` object, which
begin with the address `from`, instead of the text between `from` and `to`.
The string handed to `p9_get_protocol_version` therefore never depends on the
text of the option value, and unless the lowest byte of the address is the
character `9` (57) the option `version=...` makes `p9_parse_options` return
`-EINVAL`, for the three version names as for any other value of at most 16
bytes.  The option `noextend` selects the legacy protocol and no option
leaves 9P2000.L. -/
theorem C32_version_option_copies_pointer (value : List Nat) (sfrom : Nat)
    (rest : List mount_opt) (hlen : value.length ≤ 16) (hb : sfrom % 256 ≠ 57) :
    p9_parse_options (some (mount_opt.version value sfrom :: rest))
      = some (-EINVAL, p9_proto_2000L, 8192) ∧
    p9_parse_options (some [mount_opt.legacy]) = some (0, p9_proto_legacy, 8192) ∧
    p9_parse_options (some []) = some (0, p9_proto_2000L, 8192) := by
  refine ⟨?_, rfl, rfl⟩
  have hle : sfrom + value.length - sfrom ≤ 16 := by omega
  have hs : match_strdup sfrom (sfrom + value.length)
      = some (cstr ((le_bytes 8 sfrom ++ le_bytes 8 (sfrom + value.length)).take
          (sfrom + value.length - sfrom))) := by
    unfold match_strdup
    simp only [if_pos (Or.inl hle)]
  have hv : p9_get_protocol_version
      (cstr ((le_bytes 8 sfrom ++ le_bytes 8 (sfrom + value.length)).take
          (sfrom + value.length - sfrom))) = -EINVAL := by
    by_contra hne
    have h1 := p9_get_protocol_version_head _ hne
    cases hc : cstr ((le_bytes 8 sfrom ++ le_bytes 8 (sfrom + value.length)).take
        (sfrom + value.length - sfrom)) with
    | nil => rw [hc] at h1; simp at h1
    | cons b xs =>
      rw [hc] at h1
      simp only [List.head?_cons, Option.some.injEq] at h1
      have h2 := cstr_head_ne _ b _ xs hc
      rw [h1] at h2
      simp only [le_bytes, List.cons_append, List.head?_cons, Option.some.injEq] at h2
      exact hb h2
  simp only [p9_parse_options, parse_options_loop, hs, hv, if_true]

theorem C32_witness :
    p9_parse_options (some [mount_opt.version (str_bytes "9p2000.u") 18446603336231821320])
      = some (-EINVAL, p9_proto_2000L, 8192) :=
  (C32_version_option_copies_pointer (str_bytes "9p2000.u") 18446603336231821320 []
    (by decide) (by decide)).1

/-! ## Binding a client to a device -/

theorem strncmp_zero_tag (devname : List Nat) (hz : ∀ b ∈ devname, b ≠ 0) :
    ∀ tag : List Nat,
      (strncmp_zero (devname ++ [0]) tag tag.length = true ∧ devname.length = tag.length)
        ↔ tag = devname := by
  induction devname with
  | nil =>
    intro tag
    cases tag with
    | nil => simp [strncmp_zero]
    | cons y ys => simp
  | cons x xs ih =>
    intro tag
    cases tag with
    | nil => simp
    | cons y ys =>
      have hx : x ≠ 0 := hz x (List.mem_cons_self _ _)
      have ih1 := ih (fun b hb => hz b (List.mem_cons_of_mem _ hb)) ys
      simp only [List.cons_append, List.length_cons, strncmp_zero, Nat.add_right_cancel_iff,
        List.cons.injEq]
      by_cases hxy : x = y
      · subst hxy
        simp only [ne_eq, not_true_eq_false, if_false, hx, true_and]
        exact ih1
      · have hyx : ¬ y = x := fun e => hxy e.symm
        simp [hxy, hyx]

theorem bind_loop_spec (who : Nat) (devname : List Nat) (hz : ∀ b ∈ devname, b ≠ 0) :
    ∀ drivers : List vt9p,
      (∀ l, bind_loop who devname drivers = some l →
        ∃ pre d post, drivers = pre ++ d :: post ∧
          (∀ e ∈ pre, ¬ (e.tag = devname ∧ e._client = none)) ∧
          d.tag = devname ∧ d._client = none ∧
          l = pre ++ { d with _client := some who } :: post) ∧
      (bind_loop who devname drivers = none →
        ∀ e ∈ drivers, ¬ (e.tag = devname ∧ e._client = none)) := by
  intro drivers
  induction drivers with
  | nil =>
    refine ⟨?_, ?_⟩
    · intro l h
      simp [bind_loop] at h
    · intro _ e he
      simp at he
  | cons d ds ih =>
    have key := strncmp_zero_tag devname hz d.tag
    by_cases hm : d.tag = devname ∧ d._client = none
    · have h1 : bind_loop who devname (d :: ds) = some ({ d with _client := some who } :: ds) := by
        simp only [bind_loop]
        rw [if_pos (key.mpr hm.1), if_pos hm.2]
      refine ⟨?_, ?_⟩
      · intro l h
        rw [h1] at h
        simp only [Option.some.injEq] at h
        exact ⟨[], d, ds, rfl, by simp, hm.1, hm.2, h.symm⟩
      · intro h
        rw [h1] at h
        simp at h
    · have h1 : bind_loop who devname (d :: ds)
          = (bind_loop who devname ds).map fun l => d :: l := by
        simp only [bind_loop]
        by_cases ht : d.tag = devname
        · rw [if_pos (key.mpr ht), if_neg (fun hc => hm ⟨ht, hc⟩)]
        · rw [if_neg (fun hc => ht (key.mp hc))]
      refine ⟨?_, ?_⟩
      · intro l h
        rw [h1] at h
        simp only [Option.map_eq_some'] at h
        obtain ⟨l1, hl1, rfl⟩ := h
        obtain ⟨pre, d1, post, e1, e2, e3, e4, e5⟩ := ih.1 l1 hl1
        refine ⟨d :: pre, d1, post, by simp [e1], ?_, e3, e4, by simp [e5]⟩
        intro e he
        rcases List.mem_cons.mp he with rfl | he1
        · exact hm
        · exact e2 e he1
      · intro h
        rw [h1] at h
        simp only [Option.map_eq_none'] at h
        intro e he
        rcases List.mem_cons.mp he with rfl | he1
        · exact hm
        · exact ih.2 h e he1

/-- C31: for a device name that is a C string, `vt9p::bind_client` returns
0 if and only if the registry holds a device without owner whose mount tag
is the name byte for byte.  It then makes the client the owner of the first
such device in registry order, changes nothing else in the registry and sets
the client's status to `Connected`; otherwise it returns `-EBUSY` and leaves
registry and client as they were.  In both cases every device that has an
owner keeps it. -/
theorem C31_bind_client (drivers : List vt9p) (client : p9_client) (who : Nat)
    (devname : List Nat) (hz : ∀ b ∈ devname, b ≠ 0) :
    ((bind_client drivers client who devname).1 = 0
      ↔ ∃ d ∈ drivers, d.tag = devname ∧ d._client = none) ∧
    ((bind_client drivers client who devname).1 = 0 →
      ∃ pre d post, drivers = pre ++ d :: post ∧
        (∀ e ∈ pre, ¬ (e.tag = devname ∧ e._client = none)) ∧
        d.tag = devname ∧ d._client = none ∧
        (bind_client drivers client who devname).2.1
          = pre ++ { d with _client := some who } :: post ∧
        (bind_client drivers client who devname).2.2
          = { client with _status := p9_trans_status.Connected }) ∧
    ((bind_client drivers client who devname).1 ≠ 0 →
      bind_client drivers client who devname = (-EBUSY, drivers, client)) ∧
    (∀ i d, drivers.get? i = some d → d._client ≠ none →
      (bind_client drivers client who devname).2.1.get? i = some d) := by
  have spec := bind_loop_spec who devname hz drivers
  cases hb : bind_loop who devname drivers with
  | none =>
    have hr : bind_client drivers client who devname = (-EBUSY, drivers, client) := by
      simp only [bind_client, hb]
    have hno := spec.2 hb
    have hne : (-EBUSY : Int) ≠ 0 := by decide
    rw [hr]
    refine ⟨⟨?_, ?_⟩, ?_, ?_, ?_⟩
    · intro h
      exact absurd h hne
    · rintro ⟨d, hd, h1, h2⟩
      exact absurd ⟨h1, h2⟩ (hno d hd)
    · intro h
      exact absurd h hne
    · intro _
      rfl
    · intro i d h _
      exact h
  | some l =>
    have hr : bind_client drivers client who devname = (0, l, p9_client_connect client) := by
      simp only [bind_client, hb]
    obtain ⟨pre, d, post, e1, e2, e3, e4, e5⟩ := spec.1 l hb
    rw [hr]
    refine ⟨⟨?_, ?_⟩, ?_, ?_, ?_⟩
    · intro _
      exact ⟨d, by simp [e1], e3, e4⟩
    · intro _
      rfl
    · intro _
      exact ⟨pre, d, post, e1, e2, e3, e4, e5, rfl⟩
    · intro h
      exact absurd rfl h
    · intro i x hx hown
      show l.get? i = some x
      rw [e5]
      rw [e1] at hx
      rcases Nat.lt_trichotomy i pre.length with hlt | heq | hgt
      · rw [List.get?_eq_getElem?, List.getElem?_append_left hlt] at hx ⊢
        exact hx
      · subst heq
        rw [List.get?_eq_getElem?, List.getElem?_append_right (le_refl _)] at hx
        simp only [Nat.sub_self, List.getElem?_cons_zero, Option.some.injEq] at hx
        rw [← hx] at hown
        exact absurd e4 hown
      · rw [List.get?_eq_getElem?, List.getElem?_append_right (le_of_lt hgt)] at hx ⊢
        obtain ⟨k, hk⟩ : ∃ k, i - pre.length = k + 1 := ⟨i - pre.length - 1, by omega⟩
        rw [hk] at hx ⊢
        simpa using hx

theorem C31_witness :
    (∀ b ∈ str_bytes "hostshare", b ≠ 0) ∧
      (bind_client [⟨str_bytes "hostshare", some 7⟩, ⟨str_bytes "hostshare", none⟩,
          ⟨str_bytes "hostshare", none⟩]
        (demo_client p9_trans_status.Disconnected p9_proto_2000L) 9
        (str_bytes "hostshare")).1 = 0 :=
  ⟨by decide,
    (C31_bind_client [⟨str_bytes "hostshare", some 7⟩, ⟨str_bytes "hostshare", none⟩,
        ⟨str_bytes "hostshare", none⟩]
      (demo_client p9_trans_status.Disconnected p9_proto_2000L) 9 (str_bytes "hostshare")
      (by decide)).1.mpr ⟨⟨str_bytes "hostshare", none⟩, by decide, rfl, rfl⟩⟩

/-! ## `p9_statsize` and the `S` directive -/

theorem enc_str_length (p : CStr) (h : (p.getD []).length ≤ USHRT_MAX) :
    (enc_str p).length = 2 + (p.getD []).length := by
  simp only [enc_str, List.length_append, le_bytes_length, List.length_take]
  rw [Nat.min_eq_left h, Nat.min_self]

theorem p9_statsize_eq (st : p9_wstat) (proto_version : Nat) :
    p9_statsize st proto_version
      = 47 + ((st.name.getD []).length : Int) + (st.uid.getD []).length
          + (st.gid.getD []).length + (st.muid.getD []).length
          + (if proto_version = p9_proto_2000u ∨ proto_version = p9_proto_2000L
             then 14 + ((st.extension.getD []).length : Int) else 0) := by
  rcases st with ⟨size, type, dev, qid, mode, atime, mtime, length, name, uid, gid, muid,
    extension, n_uid, n_gid, n_muid⟩
  by_cases hp : proto_version = p9_proto_2000u ∨ proto_version = p9_proto_2000L
  · cases name <;> cases uid <;> cases gid <;> cases muid <;> cases extension <;>
      simp only [p9_statsize, if_pos hp, Option.getD_none, Option.getD_some, List.length_nil] <;>
      omega
  · cases name <;> cases uid <;> cases gid <;> cases muid <;>
      simp only [p9_statsize, if_neg hp, Option.getD_none, Option.getD_some, List.length_nil] <;>
      omega

theorem enc_stat_length (proto_version : Nat) (st : p9_wstat)
    (h1 : (st.name.getD []).length ≤ USHRT_MAX) (h2 : (st.uid.getD []).length ≤ USHRT_MAX)
    (h3 : (st.gid.getD []).length ≤ USHRT_MAX) (h4 : (st.muid.getD []).length ≤ USHRT_MAX)
    (h5 : (st.extension.getD []).length ≤ USHRT_MAX) :
    ((enc_stat proto_version st).length : Int) = p9_statsize st proto_version + 2 := by
  have e1 := enc_str_length st.name h1
  have e2 := enc_str_length st.uid h2
  have e3 := enc_str_length st.gid h3
  have e4 := enc_str_length st.muid h4
  have e5 := enc_str_length st.extension h5
  rw [p9_statsize_eq]
  simp only [enc_stat, enc_qid, List.length_append, le_bytes_length, e1, e2, e3, e4]
  by_cases hp : proto_version = p9_proto_2000u ∨ proto_version = p9_proto_2000L
  · simp only [if_pos hp, List.length_append, le_bytes_length, e5]
    omega
  · simp only [if_neg hp, List.length_nil]
    omega

theorem statsize_encoder (wst : p9_wstat) (proto_version : Nat) (pdu : p9_fcall)
    (h1 : (wst.name.getD []).length ≤ USHRT_MAX) (h2 : (wst.uid.getD []).length ≤ USHRT_MAX)
    (h3 : (wst.gid.getD []).length ≤ USHRT_MAX) (h4 : (wst.muid.getD []).length ≤ USHRT_MAX)
    (h5 : (wst.extension.getD []).length ≤ USHRT_MAX) (hw : WWF pdu) :
    ((enc_stat proto_version wst).length : Int) = p9_statsize wst proto_version + 2 ∧
    (((enc_stat proto_version wst).drop 2).length : Int) = p9_statsize wst proto_version ∧
    p9pdu_writef pdu proto_version ['S'] [Val.S wst]
      = some (wr pdu (enc_stat proto_version wst)) ∧
    ((pdu.size : Int) + (p9_statsize wst proto_version + 2) ≤ pdu.capacity →
      p9pdu_writef pdu proto_version ['S'] [Val.S wst]
        = some (0, pdu.append (enc_stat proto_version wst)) ∧
      ((pdu.append (enc_stat proto_version wst)).size : Int)
        = pdu.size + (p9_statsize wst proto_version + 2)) := by
  have hl := enc_stat_length proto_version wst h1 h2 h3 h4 h5
  have hspec : p9pdu_writef pdu proto_version ['S'] [Val.S wst]
      = some (wr pdu (enc_stat proto_version wst)) := by
    have h := p9pdu_vwritef_spec3 proto_version 0 ['S'] [Val.S wst] [] pdu (by simp [args_ok, arg_ok]) hw
    simpa [p9pdu_writef, enc_vals] using h
  refine ⟨hl, ?_, hspec, ?_⟩
  · rw [List.length_drop]
    have h0 : (0 : Int) ≤ p9_statsize wst proto_version := by
      rw [p9_statsize_eq]
      split_ifs <;> omega
    omega
  · intro hfit
    have hfit2 : pdu.size + (enc_stat proto_version wst).length ≤ pdu.capacity := by
      have : ((pdu.size + (enc_stat proto_version wst).length : Nat) : Int)
          ≤ (pdu.capacity : Int) := by
        push_cast
        rw [hl]
        exact hfit
      exact_mod_cast this
    refine ⟨?_, ?_⟩
    · rw [hspec]
      simp only [wr, if_pos hfit2]
    · simp only [p9_fcall.append]
      push_cast
      rw [hl]

theorem setattr_store_enc (wst : p9_wstat) (proto_version p : Nat)
    (h1 : (wst.name.getD []).length ≤ USHRT_MAX) (h2 : (wst.uid.getD []).length ≤ USHRT_MAX)
    (h3 : (wst.gid.getD []).length ≤ USHRT_MAX) (h4 : (wst.muid.getD []).length ≤ USHRT_MAX)
    (h5 : (wst.extension.getD []).length ≤ USHRT_MAX) :
    ((enc_stat proto_version (setattr_store wst p)).length : Int)
      = p9_statsize wst proto_version + 2 := by
  have h := enc_stat_length proto_version (setattr_store wst p) h1 h2 h3 h4 h5
  rw [h, p9_statsize_eq, p9_statsize_eq]
  rfl

theorem statsize_name_uid (a b : List Nat) :
    p9_statsize ⟨0, 0, 0, ⟨0, 0, 0⟩, 0, 0, 0, 0, some a, some b, none, none, none, 0, 0, 0⟩
      p9_proto_legacy = 47 + (a.length : Int) + b.length := by
  rw [p9_statsize_eq]
  simp [p9_proto_legacy, p9_proto_2000u, p9_proto_2000L]

/-- C36 (counterexample): a stat whose `name` has 65535 bytes and whose `uid`
has one byte, in a legacy session.  Each string is within 65535 bytes,
`p9_statsize` is 65583 and the stat is encoded in 65585 bytes, but the field
`size` that `p9_client_setattr` stores, a `uint16_t`, is 47: it does not
cover the 65583 bytes that follow it. -/
theorem C36_counterexample :
    p9_statsize
        ⟨0, 0, 0, ⟨0, 0, 0⟩, 0, 0, 0, 0, some (List.replicate 65535 97), some [97], none,
          none, none, 0, 0, 0⟩ p9_proto_legacy = 65583 ∧
      (setattr_store
        ⟨0, 0, 0, ⟨0, 0, 0⟩, 0, 0, 0, 0, some (List.replicate 65535 97), some [97], none,
          none, none, 0, 0, 0⟩ p9_proto_legacy).size = 47 ∧
      ((enc_stat p9_proto_legacy
        (setattr_store
          ⟨0, 0, 0, ⟨0, 0, 0⟩, 0, 0, 0, 0, some (List.replicate 65535 97), some [97], none,
            none, none, 0, 0, 0⟩ p9_proto_legacy)).length : Int) = 65585 := by
  have hs : p9_statsize
      ⟨0, 0, 0, ⟨0, 0, 0⟩, 0, 0, 0, 0, some (List.replicate 65535 97), some [97], none,
        none, none, 0, 0, 0⟩ p9_proto_legacy = 65583 := by
    rw [statsize_name_uid, List.length_replicate]
    rfl
  have hn : (List.replicate 65535 97).length ≤ USHRT_MAX := by
    rw [List.length_replicate]
    exact le_refl _
  refine ⟨hs, ?_, ?_⟩
  · simp only [setattr_store, hs]
    rfl
  · have key := setattr_store_enc
      ⟨0, 0, 0, ⟨0, 0, 0⟩, 0, 0, 0, 0, some (List.replicate 65535 97), some [97], none,
        none, none, 0, 0, 0⟩ p9_proto_legacy p9_proto_legacy hn (by decide) (by decide)
      (by decide) (by decide)
    rw [key, hs]
    rfl

/-- C36 (amended): for every `p9_wstat` whose strings are each at most 65535
bytes long (a null pointer counting as the empty string) and every protocol
version, the `S` directive of `p9pdu_writef` emits the wire bytes of the stat,
which are `p9_statsize(wst, proto_version) + 2` bytes (all of them are written
when they fit between `size` and `capacity`, and then `size` grows by
`p9_statsize + 2`), and what follows the two bytes of the size field is
`p9_statsize` bytes long.  `p9_client_setattr` stores `p9_statsize` into the
16-bit field `wst->size`, which keeps it modulo `2^16`, and encodes the stat
with that field; so when `p9_statsize` is at most 65535 the size field it
sends, the first two bytes of the encoded stat, does not include its own two
bytes and is exactly the number of bytes of the encoded stat that follow
it. -/
theorem C36_statsize_matches_encoder (wst : p9_wstat) (proto_version : Nat) (pdu : p9_fcall)
    (h1 : (wst.name.getD []).length ≤ USHRT_MAX) (h2 : (wst.uid.getD []).length ≤ USHRT_MAX)
    (h3 : (wst.gid.getD []).length ≤ USHRT_MAX) (h4 : (wst.muid.getD []).length ≤ USHRT_MAX)
    (h5 : (wst.extension.getD []).length ≤ USHRT_MAX) (hw : WWF pdu) :
    ((enc_stat proto_version wst).length : Int) = p9_statsize wst proto_version + 2 ∧
    (((enc_stat proto_version wst).drop 2).length : Int) = p9_statsize wst proto_version ∧
    p9pdu_writef pdu proto_version ['S'] [Val.S wst]
      = some (wr pdu (enc_stat proto_version wst)) ∧
    ((pdu.size : Int) + (p9_statsize wst proto_version + 2) ≤ pdu.capacity →
      p9pdu_writef pdu proto_version ['S'] [Val.S wst]
        = some (0, pdu.append (enc_stat proto_version wst)) ∧
      ((pdu.append (enc_stat proto_version wst)).size : Int)
        = pdu.size + (p9_statsize wst proto_version + 2)) ∧
    (∀ depth env s fid r, p9_client_setattr depth env s fid wst = some r →
      r.2.2 = setattr_store wst s.clnt._proto_version) ∧
    ((setattr_store wst proto_version).size : Int) = p9_statsize wst proto_version % 2 ^ 16 ∧
    p9pdu_writef pdu proto_version ['S'] [Val.S (setattr_store wst proto_version)]
      = some (wr pdu (enc_stat proto_version (setattr_store wst proto_version))) ∧
    (enc_stat proto_version (setattr_store wst proto_version)).take 2
      = le_bytes 2 (setattr_store wst proto_version).size ∧
    (p9_statsize wst proto_version ≤ 65535 →
      ((setattr_store wst proto_version).size : Int) = p9_statsize wst proto_version ∧
      (((enc_stat proto_version (setattr_store wst proto_version)).drop 2).length : Int)
        = (setattr_store wst proto_version).size) := by
  have old := statsize_encoder wst proto_version pdu h1 h2 h3 h4 h5 hw
  have h0 : (0 : Int) ≤ p9_statsize wst proto_version := by
    rw [p9_statsize_eq]
    split_ifs <;> omega
  have hsz : ((setattr_store wst proto_version).size : Int)
      = p9_statsize wst proto_version % 2 ^ 16 := by
    simp only [setattr_store]
    exact Int.toNat_of_nonneg (Int.emod_nonneg _ (by decide))
  have hlt : (setattr_store wst proto_version).size < 2 ^ 16 := by
    have : p9_statsize wst proto_version % 2 ^ 16 < 2 ^ 16 := Int.emod_lt_of_pos _ (by decide)
    have h2 : ((setattr_store wst proto_version).size : Int) < 2 ^ 16 := by rw [hsz]; exact this
    exact_mod_cast h2
  have hlen := setattr_store_enc wst proto_version proto_version h1 h2 h3 h4 h5
  refine ⟨old.1, old.2.1, old.2.2.1, old.2.2.2, ?_, hsz, ?_, ?_, ?_⟩
  · intro depth env s fid r h
    simp only [p9_client_setattr, Option.bind_eq_some] at h
    obtain ⟨q, _, h⟩ := h
    cases hq : q.2 with
    | none =>
      rw [hq] at h
      simp only [Option.some.injEq] at h
      rw [← h]
    | some req =>
      rw [hq] at h
      simp only [Option.map_eq_some'] at h
      obtain ⟨c, _, h⟩ := h
      rw [← h]
  · exact (statsize_encoder (setattr_store wst proto_version) proto_version pdu h1 h2 h3 h4 h5
      hw).2.2.1
  · simp only [enc_stat, List.take_left' (le_bytes_length 2 _)]
    rw [Nat.mod_eq_of_lt hlt]
  · intro hle
    have e1 : p9_statsize wst proto_version % 2 ^ 16 = p9_statsize wst proto_version :=
      Int.emod_eq_of_lt h0 (by omega)
    refine ⟨by rw [hsz, e1], ?_⟩
    rw [List.length_drop, hsz, e1]
    omega

theorem C36_witness :
    WWF ⟨0, 0, 0, 0, 64, List.replicate 64 0⟩ ∧
      ((enc_stat p9_proto_2000L
        ⟨0, 0, 0, ⟨0, 0, 0⟩, 0, 0, 0, 0, some [102], none, none, none, none, 0, 0, 0⟩).length
          : Int)
        = p9_statsize
            ⟨0, 0, 0, ⟨0, 0, 0⟩, 0, 0, 0, 0, some [102], none, none, none, none, 0, 0, 0⟩
            p9_proto_2000L + 2 ∧
      (p9_client_setattr 1 (const_env (rcvd [7, 0, 0, 0, 127, 1, 0]))
          ⟨demo_client p9_trans_status.Connected p9_proto_legacy, []⟩ demo_fid
          ⟨0, 0, 0, ⟨0, 0, 0⟩, 0, 0, 0, 0, none, none, none, none, none, 0, 0, 0⟩).map
        (fun r => (r.1, r.2.2.size, r.2.1.sent.map fun tc => (tc.sdata.drop 11).take 4))
        = some (0, 47, [[49, 0, 47, 0]]) :=
  ⟨by decide,
    (C36_statsize_matches_encoder
      ⟨0, 0, 0, ⟨0, 0, 0⟩, 0, 0, 0, 0, some [102], none, none, none, none, 0, 0, 0⟩
      p9_proto_2000L ⟨0, 0, 0, 0, 64, List.replicate 64 0⟩
      (by decide) (by decide) (by decide) (by decide) (by decide) (by decide)).1,
    by decide⟩

/-! ## The id pool: frame and rotation -/

theorem p9_idpool_get_free (p : p9_idpool) (hl0 : -1 ≤ p._last_id)
    (hl1 : p._last_id ≤ P9_ID_MAX)
    (hfree : ∃ i, 0 ≤ i ∧ i ≤ P9_ID_MAX ∧ i ∉ p._pool) :
    ∃ id, p9_idpool_get p = some (id, ⟨insert id p._pool, id⟩) ∧
      0 ≤ id ∧ id ≤ P9_ID_MAX ∧ id ∉ p._pool ∧
      ((p._last_id < id ∧ ∀ j, p._last_id < j → j < id → j ∈ p._pool) ∨
       (id ≤ p._last_id ∧ (∀ j, p._last_id < j → j ≤ P9_ID_MAX → j ∈ p._pool) ∧
         ∀ j, 0 ≤ j → j < id → j ∈ p._pool)) := by
  obtain ⟨i, hi0, hi1, hi2⟩ := hfree
  have ht := idpool_loop_total p._pool p._last_id hl0 hl1 (2 ^ 31) p._last_id
    (Or.inl ⟨le_refl _, hl1, ⟨i, hi2, by
      by_cases hc : p._last_id < i
      · exact Or.inl ⟨hc, hi1⟩
      · exact Or.inr ⟨hi0, not_lt.mp hc⟩⟩, by
      simp only [P9_ID_MAX]
      push_cast
      omega⟩)
  obtain ⟨r, hr, hr0⟩ := ht
  obtain ⟨s1, s2, s3⟩ := idpool_loop_sound p._pool p._last_id (2 ^ 31) p._last_id r hl0 hl1 hr hr0
  refine ⟨r, ?_, hr0, s1, s2, s3⟩
  unfold p9_idpool_get
  rw [hr]
  simp only [Option.map_some', if_neg (not_lt.mpr hr0)]

theorem idpool_inv_full (p : p9_idpool) (hinv : idpool_inv p)
    (hfull : ∀ i : Int, 0 ≤ i → i ≤ P9_ID_MAX → i ∈ p._pool) : 0 ≤ p._last_id := by
  obtain ⟨h1, _, h3⟩ := hinv
  by_contra hc
  have he : p._last_id = -1 := by omega
  have h0 := hfull 0 (le_refl _) (by decide)
  rw [h3 he] at h0
  simp at h0

/-- C38: in every state that the constructor, `p9_idpool_get` and
`p9_idpool_put` produce, `p9_idpool_get` returns: either an id of
`[0, P9_ID_MAX]` that was not in the pool and is in it afterwards, with the
membership of every other id unchanged, or -1 with the pool unchanged, and -1
exactly when every id of `[0, P9_ID_MAX]` is in the pool already.
`p9_idpool_put(id)` removes `id` and nothing else, keeps the last id, and
changes nothing when `id` is absent.  The fresh pool is such a state and both
operations lead to such states again. -/
theorem C38_idpool_get_put_frame (p : p9_idpool) (hinv : idpool_inv p) :
    (∃ id p1, p9_idpool_get p = some (id, p1) ∧ idpool_inv p1 ∧
      ((0 ≤ id ∧ id ≤ P9_ID_MAX ∧ id ∉ p._pool ∧ id ∈ p1._pool ∧
          ∀ j, j ≠ id → (j ∈ p1._pool ↔ j ∈ p._pool)) ∨
        (id = -1 ∧ p1 = p)) ∧
      (id = -1 ↔ ∀ i : Int, 0 ≤ i → i ≤ P9_ID_MAX → i ∈ p._pool)) ∧
    (∀ id, (∀ j, j ∈ (p9_idpool_put p id)._pool ↔ j ∈ p._pool ∧ j ≠ id) ∧
      (p9_idpool_put p id)._last_id = p._last_id ∧
      (id ∉ p._pool → p9_idpool_put p id = p) ∧ idpool_inv (p9_idpool_put p id)) ∧
    idpool_inv ⟨∅, -1⟩ := by
  refine ⟨?_, ?_, ?_⟩
  · by_cases hfull : ∀ i : Int, 0 ≤ i → i ≤ P9_ID_MAX → i ∈ p._pool
    · have h0 := idpool_inv_full p hinv hfull
      refine ⟨-1, p, p9_idpool_get_full p hfull h0 hinv.2.1, hinv, Or.inr ⟨rfl, rfl⟩, ?_⟩
      exact ⟨fun _ => hfull, fun _ => rfl⟩
    · have hfree : ∃ i, 0 ≤ i ∧ i ≤ P9_ID_MAX ∧ i ∉ p._pool := by
        push_neg at hfull
        exact hfull
      obtain ⟨id, hg, g0, g1, g2, _⟩ := p9_idpool_get_free p hinv.1 hinv.2.1 hfree
      refine ⟨id, ⟨insert id p._pool, id⟩, hg, ?_, Or.inl ⟨g0, g1, g2, ?_, ?_⟩, ?_⟩
      · refine ⟨by show -1 ≤ id; omega, g1, ?_⟩
        intro h
        change id = -1 at h
        omega
      · exact Finset.mem_insert_self _ _
      · intro j hj
        simp [Finset.mem_insert, hj]
      · refine ⟨fun h => ?_, fun h => absurd h hfull⟩
        omega
  · intro id
    refine ⟨?_, rfl, ?_, ?_⟩
    · intro j
      simp only [p9_idpool_put, Finset.mem_erase]
      tauto
    · intro h
      simp only [p9_idpool_put, Finset.erase_eq_of_not_mem h]
    · refine ⟨hinv.1, hinv.2.1, ?_⟩
      intro h
      change p._last_id = -1 at h
      show p._pool.erase id = ∅
      rw [hinv.2.2 h]
      simp
  · exact ⟨le_refl _, by decide, fun _ => rfl⟩

theorem C38_witness :
    idpool_inv ⟨{0}, 0⟩ ∧
      ∃ id p1, p9_idpool_get ⟨{0}, 0⟩ = some (id, p1) ∧ idpool_inv p1 ∧
        ((0 ≤ id ∧ id ≤ P9_ID_MAX ∧ id ∉ ({0} : Finset Int) ∧ id ∈ p1._pool ∧
            ∀ j, j ≠ id → (j ∈ p1._pool ↔ j ∈ ({0} : Finset Int))) ∨
          (id = -1 ∧ p1 = ⟨{0}, 0⟩)) ∧
        (id = -1 ↔ ∀ i : Int, 0 ≤ i → i ≤ P9_ID_MAX → i ∈ ({0} : Finset Int)) :=
  ⟨⟨by decide, by decide, fun h => absurd h (by decide)⟩,
    (C38_idpool_get_put_frame ⟨{0}, 0⟩
      ⟨by decide, by decide, fun h => absurd h (by decide)⟩).1⟩

/-- C37: in every state that the pool operations produce, an id returned by
`p9_idpool_get` is the first id not in the pool in the cyclic order
`last + 1, ..., P9_ID_MAX, 0, ..., last`, where `last` is the id handed out by
the previous successful call (-1 for a fresh pool), and it becomes the new
`last`.  Hence when that id is released at once, the next `p9_idpool_get`
returns a different id as long as some other id of `[0, P9_ID_MAX]` is
free. -/
theorem C37_rotating_hint (p p1 : p9_idpool) (id : Int) (hinv : idpool_inv p)
    (hg : p9_idpool_get p = some (id, p1)) (h0 : 0 ≤ id) :
    id ∉ p._pool ∧ p1._last_id = id ∧
    ((p._last_id < id ∧ ∀ j, p._last_id < j → j < id → j ∈ p._pool) ∨
      (id ≤ p._last_id ∧ (∀ j, p._last_id < j → j ≤ P9_ID_MAX → j ∈ p._pool) ∧
        ∀ j, 0 ≤ j → j < id → j ∈ p._pool)) ∧
    ((∃ j, 0 ≤ j ∧ j ≤ P9_ID_MAX ∧ j ≠ id ∧ j ∉ p._pool) →
      ∃ r p2, p9_idpool_get (p9_idpool_put p1 id) = some (r, p2) ∧ 0 ≤ r ∧ r ≠ id ∧
        r ∉ p._pool) := by
  have hfree : ∃ i, 0 ≤ i ∧ i ≤ P9_ID_MAX ∧ i ∉ p._pool := by
    by_contra hc
    push_neg at hc
    have hl := idpool_inv_full p hinv hc
    rw [p9_idpool_get_full p hc hl hinv.2.1] at hg
    simp only [Option.some.injEq, Prod.mk.injEq] at hg
    omega
  obtain ⟨id1, hg1, g0, g1, g2, g3⟩ := p9_idpool_get_free p hinv.1 hinv.2.1 hfree
  rw [hg1] at hg
  simp only [Option.some.injEq, Prod.mk.injEq] at hg
  obtain ⟨rfl, rfl⟩ := hg
  refine ⟨g2, rfl, g3, ?_⟩
  rintro ⟨j, j0, j1, j2, j3⟩
  have hput : p9_idpool_put ⟨insert id1 p._pool, id1⟩ id1 = ⟨p._pool, id1⟩ := by
    simp only [p9_idpool_put, Finset.erase_insert g2]
  rw [hput]
  obtain ⟨r, hr, r0, r1, r2, r3⟩ := p9_idpool_get_free ⟨p._pool, id1⟩
    (by show -1 ≤ id1; omega) g1 ⟨j, j0, j1, j3⟩
  refine ⟨r, _, hr, r0, ?_, r2⟩
  intro hrid
  subst hrid
  rcases r3 with ⟨h, _⟩ | ⟨_, ha, hb⟩
  · exact absurd h (lt_irrefl _)
  · rcases lt_or_gt_of_ne j2 with hlt | hgt
    · exact j3 (hb j j0 hlt)
    · exact j3 (ha j hgt j1)

theorem C37_witness :
    p9_idpool_get ⟨{0}, 0⟩ = some (1, ⟨insert 1 {0}, 1⟩) ∧
      (1 : Int) ∉ ({0} : Finset Int) ∧
      ∃ r p2, p9_idpool_get (p9_idpool_put ⟨insert 1 {0}, 1⟩ 1) = some (r, p2) ∧ 0 ≤ r ∧
        r ≠ 1 ∧ r ∉ ({0} : Finset Int) :=
  ⟨p9_idpool_get_next ⟨{0}, 0⟩ (by decide) (by decide) (by decide),
    (C37_rotating_hint ⟨{0}, 0⟩ ⟨insert 1 {0}, 1⟩ 1
      ⟨by decide, by decide, fun h => absurd h (by decide)⟩
      (p9_idpool_get_next ⟨{0}, 0⟩ (by decide) (by decide) (by decide)) (by decide)).1,
    (C37_rotating_hint ⟨{0}, 0⟩ ⟨insert 1 {0}, 1⟩ 1
      ⟨by decide, by decide, fun h => absurd h (by decide)⟩
      (p9_idpool_get_next ⟨{0}, 0⟩ (by decide) (by decide) (by decide)) (by decide)).2.2.2
      ⟨2, by decide, by decide, by decide, by decide⟩⟩

/-! ## Tags and slots -/

theorem grow_reqs_max_tag (tag : Nat) :
    ∀ (fuel : Nat) (reqs : Nat → Option (List p9_req_t)) (mt : Int),
      (tag : Int) < mt + 255 * fuel → (tag : Int) < (grow_reqs tag fuel (reqs, mt)).2 := by
  intro fuel
  induction fuel with
  | zero =>
    intro reqs mt h
    simp only [grow_reqs]
    simpa using h
  | succ n ih =>
    intro reqs mt h
    simp only [grow_reqs]
    by_cases hc : (tag : Int) ≥ mt
    · rw [if_pos hc]
      apply ih
      simp only [P9_ROW_MAXTAG]
      push_cast at h ⊢
      omega
    · rw [if_neg hc]
      exact not_le.mp hc

theorem slot_of_tag_inj (t1 t2 : Nat) (h1 : t1 < 2 ^ 16) (h2 : t2 < 2 ^ 16)
    (hr : (t1 + 1) % 2 ^ 16 / P9_ROW_MAXTAG = (t2 + 1) % 2 ^ 16 / P9_ROW_MAXTAG)
    (hc : (t1 + 1) % 2 ^ 16 % P9_ROW_MAXTAG = (t2 + 1) % 2 ^ 16 % P9_ROW_MAXTAG) : t1 = t2 := by
  simp only [P9_ROW_MAXTAG] at hr hc
  omega

theorem p9_lookup_req_slot (c : p9_client) (t : Nat) (s : Slot)
    (h : p9_lookup_req c t = some s) :
    s = ((t + 1) % 2 ^ 16 / P9_ROW_MAXTAG, (t + 1) % 2 ^ 16 % P9_ROW_MAXTAG) := by
  simp only [p9_lookup_req] at h
  split_ifs at h
  simp only [Option.some.injEq] at h
  exact h.symm

/-- C39: two 16-bit tags (0xFFFF included) that `p9_lookup_req` or
`p9_alloc_req` resolve to the same (row, column) are the same tag; and when
`p9_alloc_req(t, m)` succeeds in a session whose `_max_tag` is not negative,
`p9_lookup_req(t)` on the session it leaves returns the very slot that
`p9_alloc_req` returned, whose status is `ALLOC`, whose `tc->tag` is `t` and
whose two PDUs have size 0 and offset 0. -/
theorem C39_tag_slot_injective (c c1 : p9_client) (t m : Nat) (slot : Slot)
    (ht : t < 2 ^ 16) (hm : 0 ≤ c._max_tag) (h : p9_alloc_req c t m = some (c1, slot)) :
    p9_lookup_req c1 t = some slot ∧
    (∃ req tc rc, get_req c1 slot = some req ∧ req.status = REQ_STATUS_ALLOC ∧
      req.tc = some tc ∧ req.rc = some rc ∧ tc.tag = t ∧ tc.size = 0 ∧ tc.offset = 0 ∧
      rc.size = 0 ∧ rc.offset = 0) ∧
    (∀ (c2 : p9_client) (t1 t2 : Nat) (s : Slot), t1 < 2 ^ 16 → t2 < 2 ^ 16 →
      p9_lookup_req c2 t1 = some s → p9_lookup_req c2 t2 = some s → t1 = t2) ∧
    (∀ (c2 c3 c4 c5 : p9_client) (t1 t2 m1 m2 : Nat) (s : Slot), t1 < 2 ^ 16 → t2 < 2 ^ 16 →
      p9_alloc_req c2 t1 m1 = some (c3, s) → p9_alloc_req c4 t2 m2 = some (c5, s) →
      t1 = t2) := by
  have alloc_slot : ∀ (a b : p9_client) (x y : Nat) (s : Slot),
      p9_alloc_req a x y = some (b, s) →
      s = ((x + 1) % 2 ^ 16 / P9_ROW_MAXTAG, (x + 1) % 2 ^ 16 % P9_ROW_MAXTAG) := by
    intro a b x y s hx
    simp only [p9_alloc_req] at hx
    split_ifs at hx <;>
      (simp only [Option.map_eq_some', Prod.mk.injEq] at hx
       obtain ⟨_, _, _, hs⟩ := hx
       exact hs.symm)
  refine ⟨?_, ?_, ?_, ?_⟩
  · have hs := alloc_slot c c1 t m slot h
    have hmax : (((t + 1) % 2 ^ 16 : Nat) : Int) < c1._max_tag := by
      simp only [p9_alloc_req] at h
      by_cases hb : (t + 1) % 2 ^ 16 / P9_ROW_MAXTAG ≥ P9_ROW_MAXTAG
      · rw [if_pos hb] at h
        simp at h
      · rw [if_neg hb] at h
        simp only [Option.map_eq_some', Prod.mk.injEq] at h
        obtain ⟨req, _, hc1, _⟩ := h
        rw [← hc1]
        show (((t + 1) % 2 ^ 16 : Nat) : Int)
          < (if (((t + 1) % 2 ^ 16 : Nat) : Int) ≥ c._max_tag
              then grow_reqs ((t + 1) % 2 ^ 16) 65536 (c._reqs, c._max_tag)
              else (c._reqs, c._max_tag)).2
        by_cases hg : (((t + 1) % 2 ^ 16 : Nat) : Int) ≥ c._max_tag
        · rw [if_pos hg]
          apply grow_reqs_max_tag
          have : (t + 1) % 2 ^ 16 < 2 ^ 16 := Nat.mod_lt _ (by decide)
          push_cast
          omega
        · rw [if_neg hg]
          exact not_le.mp hg
    simp only [p9_lookup_req]
    rw [if_neg (not_le.mpr hmax), hs]
  · simp only [p9_alloc_req] at h
    by_cases hb : (t + 1) % 2 ^ 16 / P9_ROW_MAXTAG ≥ P9_ROW_MAXTAG
    · rw [if_pos hb] at h
      simp at h
    · rw [if_neg hb] at h
      simp only [Option.map_eq_some', Prod.mk.injEq] at h
      obtain ⟨req, hreq, hc1, hs⟩ := h
      rw [← hc1, ← hs]
      refine ⟨_, _, _, get_req_set_req _ _ _ req hreq, rfl, rfl, rfl, ?_, rfl, rfl, rfl, rfl⟩
      show ((t + 1) % 2 ^ 16 + 65535) % 2 ^ 16 = t
      omega
  · intro c2 t1 t2 s h1 h2 e1 e2
    have a1 := p9_lookup_req_slot c2 t1 s e1
    have a2 := p9_lookup_req_slot c2 t2 s e2
    rw [a1] at a2
    simp only [Prod.mk.injEq] at a2
    exact slot_of_tag_inj t1 t2 h1 h2 a2.1 a2.2
  · intro c2 c3 c4 c5 t1 t2 m1 m2 s h1 h2 e1 e2
    have a1 := alloc_slot c2 c3 t1 m1 s e1
    have a2 := alloc_slot c4 c5 t2 m2 s e2
    rw [a1] at a2
    simp only [Prod.mk.injEq] at a2
    exact slot_of_tag_inj t1 t2 h1 h2 a2.1 a2.2

theorem C39_witness :
    (p9_lookup_req
      (((p9_alloc_req (demo_client p9_trans_status.Connected p9_proto_2000L) 3 64).map
        Prod.fst).getD (demo_client p9_trans_status.Connected p9_proto_2000L)) 3)
      = some (0, 4) := by
  have h : p9_alloc_req (demo_client p9_trans_status.Connected p9_proto_2000L) 3 64
      = some ((((p9_alloc_req (demo_client p9_trans_status.Connected p9_proto_2000L) 3 64).map
          Prod.fst).getD (demo_client p9_trans_status.Connected p9_proto_2000L)), (0, 4)) := by
    rfl
  exact (C39_tag_slot_injective (demo_client p9_trans_status.Connected p9_proto_2000L) _ 3 64
    (0, 4) (by decide) (by decide) h).1

/-! ## The cursor invariant of a PDU -/

theorem poke_drop (mem : List Nat) (pos : Nat) (bytes : List Nat) (cap : Nat)
    (h : pos + bytes.length ≤ cap) : (poke mem pos bytes).drop cap = mem.drop cap := by
  unfold poke
  rw [List.drop_append_eq_append_drop, List.drop_append_eq_append_drop]
  have hl : (List.take pos mem).length ≤ pos := by
    rw [List.length_take]
    exact Nat.min_le_left _ _
  rw [List.drop_eq_nil_of_le (by omega : (List.take pos mem).length ≤ cap),
    List.drop_eq_nil_of_le (by omega : bytes.length ≤ cap - (List.take pos mem).length)]
  simp only [List.nil_append, List.length_append, List.drop_drop]
  by_cases hp : pos ≤ mem.length
  · rw [List.length_take, Nat.min_eq_left hp]
    congr 1
    omega
  · rw [List.drop_eq_nil_of_le (by rw [List.length_take]; omega),
      List.drop_eq_nil_of_le (by omega)]

theorem write_keeps_refl (p : p9_fcall) (h : p.size ≤ p.capacity) : write_keeps p p :=
  ⟨rfl, rfl, le_refl _, h, rfl⟩

theorem write_keeps_trans (p q r : p9_fcall) (h1 : write_keeps p q) (h2 : write_keeps q r) :
    write_keeps p r := by
  obtain ⟨a1, a2, a3, a4, a5⟩ := h1
  obtain ⟨b1, b2, b3, b4, b5⟩ := h2
  refine ⟨b1.trans a1, b2.trans a2, le_trans a3 b3, b4, ?_⟩
  rw [a1] at b5
  exact b5.trans a5

theorem write_keeps_cap (p q : p9_fcall) (h : write_keeps p q) (hc : p.capacity < 2 ^ 32) :
    q.size ≤ q.capacity ∧ q.capacity < 2 ^ 32 :=
  ⟨h.2.2.2.1, by rw [h.1]; exact hc⟩

theorem read_keeps_refl (p : p9_fcall) (h : p.offset ≤ p.size) : read_keeps p p :=
  ⟨rfl, rfl, rfl, le_refl _, h⟩

theorem read_keeps_trans (p q r : p9_fcall) (h1 : read_keeps p q) (h2 : read_keeps q r) :
    read_keeps p r := by
  obtain ⟨a1, a2, a3, a4, a5⟩ := h1
  obtain ⟨b1, b2, b3, b4, b5⟩ := h2
  exact ⟨b1.trans a1, b2.trans a2, b3.trans a3, le_trans a4 b4, b5⟩

theorem read_keeps_inv (p q : p9_fcall) (h : read_keeps p q) (hi : cursor_inv p)
    (hc : p.capacity < 2 ^ 32) : cursor_inv q ∧ q.capacity < 2 ^ 32 := by
  obtain ⟨a1, a2, a3, a4, a5⟩ := h
  refine ⟨⟨a5, ?_⟩, ?_⟩
  · rw [a2, a3]
    exact hi.2
  · rw [a3]
    exact hc

theorem p9pdu_write_keeps (pdu : p9_fcall) (data : List Nat) (n : Nat)
    (hs : pdu.size ≤ pdu.capacity) (hc : pdu.capacity < 2 ^ 32) :
    write_keeps pdu (p9pdu_write pdu data n).2 ∧
      (p9pdu_write pdu data n).1 + ((p9pdu_write pdu data n).2.size - pdu.size) = n := by
  have e1 : (pdu.capacity + 2 ^ 64 - pdu.size) % 2 ^ 64 = pdu.capacity - pdu.size := by omega
  have hlen : min (pdu.capacity - pdu.size) n ≤ pdu.capacity - pdu.size := Nat.min_le_left _ _
  have hlen2 : min (pdu.capacity - pdu.size) n ≤ n := Nat.min_le_right _ _
  have e2 : (pdu.size + min (pdu.capacity - pdu.size) n) % 2 ^ 32
      = pdu.size + min (pdu.capacity - pdu.size) n := by
    apply Nat.mod_eq_of_lt
    omega
  simp only [p9pdu_write, e1, e2]
  refine ⟨⟨rfl, rfl, ?_, ?_, ?_⟩, ?_⟩
  · dsimp only; omega
  · dsimp only; omega
  swap
  · dsimp only; omega
  dsimp only
  apply poke_drop
  rw [List.length_take]
  have := Nat.min_le_left (min (pdu.capacity - pdu.size) n) data.length
  omega

theorem p9pdu_write_u_keeps (pdu : p9_fcall) (src : List Nat) (n : Nat)
    (hs : pdu.size ≤ pdu.capacity) (hc : pdu.capacity < 2 ^ 32) :
    write_keeps pdu (p9pdu_write_u pdu src n).2 := by
  have e1 : (pdu.capacity + 2 ^ 64 - pdu.size) % 2 ^ 64 = pdu.capacity - pdu.size := by omega
  have hlen : min (pdu.capacity - pdu.size) n ≤ pdu.capacity - pdu.size := Nat.min_le_left _ _
  have hmv : min (min (pdu.capacity - pdu.size) n) src.length
      ≤ min (pdu.capacity - pdu.size) n := Nat.min_le_left _ _
  have e2 : (pdu.size + min (min (pdu.capacity - pdu.size) n) src.length) % 2 ^ 32
      = pdu.size + min (min (pdu.capacity - pdu.size) n) src.length := by
    apply Nat.mod_eq_of_lt
    omega
  simp only [p9pdu_write_u, uiomove, e1, e2]
  refine ⟨rfl, rfl, ?_, ?_, ?_⟩
  · dsimp only; omega
  · dsimp only; omega
  dsimp only
  apply poke_drop
  rw [List.length_take]
  omega

theorem p9pdu_read_keeps (pdu : p9_fcall) (n : Nat) (hi : cursor_inv pdu)
    (hc : pdu.capacity < 2 ^ 32) :
    read_keeps pdu (p9pdu_read pdu n).2.1 ∧
      (p9pdu_read pdu n).1 + ((p9pdu_read pdu n).2.1.offset - pdu.offset) = n ∧
      (p9pdu_read pdu n).2.2 = (pdu.sdata.drop pdu.offset).take (n - (p9pdu_read pdu n).1) := by
  obtain ⟨h1, h2⟩ := hi
  have e1 : (pdu.size + 2 ^ 64 - pdu.offset) % 2 ^ 64 = pdu.size - pdu.offset := by omega
  have hlen : min (pdu.size - pdu.offset) n ≤ pdu.size - pdu.offset := Nat.min_le_left _ _
  have hlen2 : min (pdu.size - pdu.offset) n ≤ n := Nat.min_le_right _ _
  have e2 : (pdu.offset + min (pdu.size - pdu.offset) n) % 2 ^ 64
      = pdu.offset + min (pdu.size - pdu.offset) n := by
    apply Nat.mod_eq_of_lt
    omega
  simp only [p9pdu_read, e1, e2]
  refine ⟨⟨rfl, rfl, rfl, ?_, ?_⟩, ?_, ?_⟩
  · dsimp only; omega
  · dsimp only; omega
  · dsimp only; omega
  · congr 1
    omega

theorem write_scalar_keeps (pdu : p9_fcall) (n v : Nat) (hs : pdu.size ≤ pdu.capacity)
    (hc : pdu.capacity < 2 ^ 32) : write_keeps pdu (write_scalar pdu n v).2 :=
  (p9pdu_write_keeps pdu _ n hs hc).1

theorem read_scalar_keeps (pdu : p9_fcall) (n : Nat) (mk : Nat → Val) (hi : cursor_inv pdu)
    (hc : pdu.capacity < 2 ^ 32) : read_keeps pdu (read_scalar pdu n mk).2.1 := by
  have h := (p9pdu_read_keeps pdu n hi hc).1
  unfold read_scalar
  by_cases hz : (p9pdu_read pdu n).1 ≠ 0
  · simp only [if_pos hz]
    exact h
  · simp only [if_neg hz]
    exact h

theorem vwritef_each_keeps (f : p9_fcall → Val → WRes)
    (Hf : ∀ p x r, p.size ≤ p.capacity → p.capacity < 2 ^ 32 → f p x = some r →
      write_keeps p r.2) :
    ∀ (xs : List Val) (pdu : p9_fcall) (r : Int × p9_fcall), pdu.size ≤ pdu.capacity →
      pdu.capacity < 2 ^ 32 → vwritef_each f xs pdu = some r → write_keeps pdu r.2 := by
  intro xs
  induction xs with
  | nil =>
    intro pdu r hs _ h
    simp only [vwritef_each, Option.some.injEq] at h
    subst h
    exact write_keeps_refl pdu hs
  | cons x xs ih =>
    intro pdu r hs hc h
    unfold vwritef_each at h
    cases hf : f pdu x with
    | none => rw [hf] at h; exact absurd h (by simp)
    | some y =>
      obtain ⟨err, pdu1⟩ := y
      rw [hf] at h
      have k1 : write_keeps pdu pdu1 := Hf pdu x _ hs hc hf
      simp only at h
      by_cases he : err ≠ 0
      · rw [if_pos he] at h
        simp only [Option.some.injEq] at h
        subst h
        exact k1
      · rw [if_neg he] at h
        have k2 := write_keeps_cap pdu pdu1 k1 hc
        exact write_keeps_trans _ _ _ k1 (ih pdu1 r k2.1 k2.2 h)

theorem vwritef_case_keeps (nested : List Char → p9_fcall → List Val → WRes)
    (Hn : ∀ fmt p args r, p.size ≤ p.capacity → p.capacity < 2 ^ 32 →
      nested fmt p args = some r → write_keeps p r.2)
    (c : Char) (pdu : p9_fcall) (args : List Val) (r : Int × p9_fcall × List Val)
    (hs : pdu.size ≤ pdu.capacity) (hc : pdu.capacity < 2 ^ 32)
    (h : vwritef_case nested c pdu args = some r) : write_keeps pdu r.2.1 := by
  have scal : ∀ (n v : Nat) (rest : List Val),
      some ((write_scalar pdu n v).1, (write_scalar pdu n v).2, rest) = some r →
      write_keeps pdu r.2.1 := by
    intro n v rest e
    simp only [Option.some.injEq] at e
    subst e
    exact write_scalar_keeps pdu n v hs hc
  have nest : ∀ (fmt : List Char) (a rest : List Val),
      (match nested fmt pdu a with
        | none => none
        | some (err, pdu1) => some (err, pdu1, rest)) = some r → write_keeps pdu r.2.1 := by
    intro fmt a rest e
    cases hn : nested fmt pdu a with
    | none => rw [hn] at e; exact absurd e (by simp)
    | some y =>
      rw [hn] at e
      simp only [Option.some.injEq] at e
      subst e
      exact Hn fmt pdu a y hs hc hn
  have arr : ∀ (n : Nat) (xs : List Val) (f : p9_fcall → Val → WRes) (len : Nat)
      (rest : List Val),
      (∀ p x r, p.size ≤ p.capacity → p.capacity < 2 ^ 32 → f p x = some r →
        write_keeps p r.2) →
      (match nested ['w'] pdu [Val.w n] with
        | none => none
        | some (err, pdu1) =>
          if err ≠ 0 then some (err, pdu1, rest)
          else if len < n then none
          else
            match vwritef_each f xs pdu1 with
            | none => none
            | some (err2, pdu2) => some (err2, pdu2, rest)) = some r →
      write_keeps pdu r.2.1 := by
    intro n xs f len rest Hf e
    cases hn : nested ['w'] pdu [Val.w n] with
    | none => rw [hn] at e; exact absurd e (by simp)
    | some y =>
      obtain ⟨err, pdu1⟩ := y
      rw [hn] at e
      have k1 : write_keeps pdu pdu1 := Hn _ pdu _ _ hs hc hn
      have k2 := write_keeps_cap pdu pdu1 k1 hc
      simp only at e
      by_cases he : err ≠ 0
      · rw [if_pos he] at e
        simp only [Option.some.injEq] at e
        subst e
        exact k1
      · rw [if_neg he] at e
        by_cases hl : len < n
        · rw [if_pos hl] at e
          exact absurd e (by simp)
        · rw [if_neg hl] at e
          cases hv : vwritef_each f xs pdu1 with
          | none => rw [hv] at e; exact absurd e (by simp)
          | some z =>
            rw [hv] at e
            simp only [Option.some.injEq] at e
            subst e
            exact write_keeps_trans _ _ _ k1 (vwritef_each_keeps f Hf xs pdu1 z k2.1 k2.2 hv)
  have strw : ∀ (len : Nat) (data : List Nat) (rest : List Val),
      (match nested ['w'] pdu [Val.w len] with
        | none => none
        | some (err, pdu1) =>
          if err ≠ 0 then some (err, pdu1, rest)
          else
            some (if (p9pdu_write pdu1 data len).1 ≠ 0 then -EFAULT else 0,
                  (p9pdu_write pdu1 data len).2, rest)) = some r →
      write_keeps pdu r.2.1 := by
    intro len data rest e
    cases hn : nested ['w'] pdu [Val.w len] with
    | none => rw [hn] at e; exact absurd e (by simp)
    | some y =>
      obtain ⟨err, pdu1⟩ := y
      rw [hn] at e
      have k1 : write_keeps pdu pdu1 := Hn _ pdu _ _ hs hc hn
      have k2 := write_keeps_cap pdu pdu1 k1 hc
      simp only at e
      by_cases he : err ≠ 0
      · rw [if_pos he] at e
        simp only [Option.some.injEq] at e
        subst e
        exact k1
      · rw [if_neg he] at e
        simp only [Option.some.injEq] at e
        subst e
        exact write_keeps_trans _ _ _ k1 (p9pdu_write_keeps pdu1 _ _ k2.1 k2.2).1
  have uw : ∀ (count : Nat) (src : List Nat) (rest : List Val),
      (match nested ['d'] pdu [Val.d count] with
        | none => none
        | some (err, pdu1) =>
          if err ≠ 0 then some (err, pdu1, rest)
          else
            some (if (p9pdu_write_u pdu1 src (count % 2 ^ 32)).1 ≠ 0 then -EFAULT else 0,
                  (p9pdu_write_u pdu1 src (count % 2 ^ 32)).2, rest)) = some r →
      write_keeps pdu r.2.1 := by
    intro count src rest e
    cases hn : nested ['d'] pdu [Val.d count] with
    | none => rw [hn] at e; exact absurd e (by simp)
    | some y =>
      obtain ⟨err, pdu1⟩ := y
      rw [hn] at e
      have k1 : write_keeps pdu pdu1 := Hn _ pdu _ _ hs hc hn
      have k2 := write_keeps_cap pdu pdu1 k1 hc
      simp only at e
      by_cases he : err ≠ 0
      · rw [if_pos he] at e
        simp only [Option.some.injEq] at e
        subst e
        exact k1
      · rw [if_neg he] at e
        simp only [Option.some.injEq] at e
        subst e
        exact write_keeps_trans _ _ _ k1 (p9pdu_write_u_keeps pdu1 _ _ k2.1 k2.2)
  unfold vwritef_case at h
  by_cases c1 : c = 'b'
  · rw [if_pos c1] at h
    split at h
    · exact scal _ _ _ h
    · exact absurd h (by simp)
  rw [if_neg c1] at h
  by_cases c2 : c = 'w'
  · rw [if_pos c2] at h
    split at h
    · exact scal _ _ _ h
    · exact absurd h (by simp)
  rw [if_neg c2] at h
  by_cases c3 : c = 'd'
  · rw [if_pos c3] at h
    split at h
    · exact scal _ _ _ h
    · exact absurd h (by simp)
  rw [if_neg c3] at h
  by_cases c4 : c = 'q'
  · rw [if_pos c4] at h
    split at h
    · exact scal _ _ _ h
    · exact absurd h (by simp)
  rw [if_neg c4] at h
  by_cases c5 : c = 's'
  · rw [if_pos c5] at h
    split at h
    · exact strw _ _ _ h
    · exact absurd h (by simp)
  rw [if_neg c5] at h
  by_cases c6 : c = 'u'
  · rw [if_pos c6] at h
    split at h
    · exact scal _ _ _ h
    · exact absurd h (by simp)
  rw [if_neg c6] at h
  by_cases c7 : c = 'g'
  · rw [if_pos c7] at h
    split at h
    · exact scal _ _ _ h
    · exact absurd h (by simp)
  rw [if_neg c7] at h
  by_cases c8 : c = 'Q'
  · rw [if_pos c8] at h
    split at h
    · exact nest _ _ _ h
    · exact absurd h (by simp)
  rw [if_neg c8] at h
  by_cases c9 : c = 'S'
  · rw [if_pos c9] at h
    split at h
    · exact nest _ _ _ h
    · exact absurd h (by simp)
  rw [if_neg c9] at h
  by_cases c10 : c = 'U'
  · rw [if_pos c10] at h
    split at h
    · exact uw _ _ _ h
    · exact absurd h (by simp)
  rw [if_neg c10] at h
  by_cases c11 : c = 'T'
  · rw [if_pos c11] at h
    split at h
    · exact arr _ _ _ _ _ (fun p x r a b e => Hn _ p _ r a b e) h
    · exact absurd h (by simp)
  rw [if_neg c11] at h
  by_cases c12 : c = 'R'
  · rw [if_pos c12] at h
    split at h
    · exact arr _ _ _ _ _ (fun p x r a b e => Hn _ p _ r a b e) h
    · exact absurd h (by simp)
  rw [if_neg c12] at h
  by_cases c13 : c = 'I'
  · rw [if_pos c13] at h
    split at h
    · exact nest _ _ _ h
    · exact absurd h (by simp)
  rw [if_neg c13] at h
  simp only [Option.some.injEq] at h
  subst h
  exact write_keeps_refl pdu hs

theorem vwritef_loop_keeps (pv : Nat)
    (step : Char → p9_fcall → List Val → Option (Int × p9_fcall × List Val))
    (Hs : ∀ c p args r, p.size ≤ p.capacity → p.capacity < 2 ^ 32 → step c p args = some r →
      write_keeps p r.2.1) :
    ∀ (fmt : List Char) (p : p9_fcall) (args : List Val) (r : Int × p9_fcall),
      p.size ≤ p.capacity → p.capacity < 2 ^ 32 →
      vwritef_loop pv step fmt p args = some r → write_keeps p r.2 := by
  intro fmt
  induction fmt with
  | nil =>
    intro p args r hs _ h
    simp only [vwritef_loop, Option.some.injEq] at h
    subst h
    exact write_keeps_refl p hs
  | cons c rest ih =>
    intro p args r hs hc h
    unfold vwritef_loop at h
    by_cases hq : c = '?'
    · rw [if_pos hq] at h
      by_cases hp : pv ≠ p9_proto_2000u ∧ pv ≠ p9_proto_2000L
      · rw [if_pos hp] at h
        simp only [Option.some.injEq] at h
        subst h
        exact write_keeps_refl p hs
      · rw [if_neg hp] at h
        exact ih p args r hs hc h
    · rw [if_neg hq] at h
      cases hst : step c p args with
      | none => rw [hst] at h; exact absurd h (by simp)
      | some x =>
        obtain ⟨err, p1, args1⟩ := x
        rw [hst] at h
        have k1 : write_keeps p p1 := Hs c p args _ hs hc hst
        have k2 := write_keeps_cap p p1 k1 hc
        simp only at h
        by_cases he : err ≠ 0
        · rw [if_pos he] at h
          simp only [Option.some.injEq] at h
          subst h
          exact k1
        · rw [if_neg he] at h
          exact write_keeps_trans _ _ _ k1 (ih p1 args1 r k2.1 k2.2 h)

theorem p9pdu_vwritef_keeps (pv : Nat) :
    ∀ (depth : Nat) (fmt : List Char) (p : p9_fcall) (args : List Val) (r : Int × p9_fcall),
      p.size ≤ p.capacity → p.capacity < 2 ^ 32 →
      p9pdu_vwritef depth pv fmt p args = some r → write_keeps p r.2 := by
  intro depth
  induction depth with
  | zero =>
    intro fmt p args r _ _ h
    simp [p9pdu_vwritef] at h
  | succ n ih =>
    intro fmt p args r hs hc h
    unfold p9pdu_vwritef at h
    exact vwritef_loop_keeps pv _
      (fun c q a x h1 h2 h3 => vwritef_case_keeps _ ih c q a x h1 h2 h3) fmt p args r hs hc h

theorem vreadf_each_keeps (f : p9_fcall → RRes)
    (Hf : ∀ p r, cursor_inv p → p.capacity < 2 ^ 32 → f p = some r → read_keeps p r.2.1) :
    ∀ (n : Nat) (pdu : p9_fcall) (r : Int × p9_fcall × List Val), cursor_inv pdu →
      pdu.capacity < 2 ^ 32 → vreadf_each f n pdu = some r → read_keeps pdu r.2.1 := by
  intro n
  induction n with
  | zero =>
    intro pdu r hi _ h
    simp only [vreadf_each, Option.some.injEq] at h
    subst h
    exact read_keeps_refl pdu hi.1
  | succ n ih =>
    intro pdu r hi hc h
    unfold vreadf_each at h
    cases hf : f pdu with
    | none => rw [hf] at h; exact absurd h (by simp)
    | some y =>
      obtain ⟨err, pdu1, vs⟩ := y
      rw [hf] at h
      have k1 : read_keeps pdu pdu1 := Hf pdu _ hi hc hf
      have k2 := read_keeps_inv pdu pdu1 k1 hi hc
      simp only at h
      by_cases he : err ≠ 0
      · rw [if_pos he] at h
        simp only [Option.some.injEq] at h
        subst h
        exact k1
      · rw [if_neg he] at h
        cases hv : vreadf_each f n pdu1 with
        | none => rw [hv] at h; exact absurd h (by simp)
        | some z =>
          obtain ⟨err2, pdu2, ws⟩ := z
          rw [hv] at h
          simp only [Option.some.injEq] at h
          subst h
          exact read_keeps_trans _ _ _ k1 (ih pdu1 (err2, pdu2, ws) k2.1 k2.2 hv)

theorem vreadf_case_keeps (nested : List Char → p9_fcall → RRes)
    (Hn : ∀ fmt p r, cursor_inv p → p.capacity < 2 ^ 32 → nested fmt p = some r →
      read_keeps p r.2.1)
    (c : Char) (pdu : p9_fcall) (r : Int × p9_fcall × List Val)
    (hi : cursor_inv pdu) (hc : pdu.capacity < 2 ^ 32)
    (h : vreadf_case nested c pdu = some r) : read_keeps pdu r.2.1 := by
  have scal : ∀ (n : Nat) (mk : Nat → Val), some (read_scalar pdu n mk) = some r →
      read_keeps pdu r.2.1 := by
    intro n mk e
    simp only [Option.some.injEq] at e
    subst e
    exact read_scalar_keeps pdu n mk hi hc
  unfold vreadf_case at h
  by_cases c1 : c = 'b'
  · rw [if_pos c1] at h
    exact scal _ _ h
  rw [if_neg c1] at h
  by_cases c2 : c = 'w'
  · rw [if_pos c2] at h
    exact scal _ _ h
  rw [if_neg c2] at h
  by_cases c3 : c = 'd'
  · rw [if_pos c3] at h
    exact scal _ _ h
  rw [if_neg c3] at h
  by_cases c4 : c = 'q'
  · rw [if_pos c4] at h
    exact scal _ _ h
  rw [if_neg c4] at h
  by_cases c5 : c = 's'
  · rw [if_pos c5] at h
    cases hn : nested ['w'] pdu with
    | none => rw [hn] at h; exact absurd h (by simp)
    | some y =>
      obtain ⟨err, pdu1, vs⟩ := y
      rw [hn] at h
      have k1 : read_keeps pdu pdu1 := Hn _ pdu _ hi hc hn
      have k2 := read_keeps_inv pdu pdu1 k1 hi hc
      simp only at h
      by_cases he : err ≠ 0
      · rw [if_pos he] at h
        simp only [Option.some.injEq] at h
        subst h
        exact k1
      · rw [if_neg he] at h
        split at h
        · rename_i len
          have k3 := (p9pdu_read_keeps pdu1 len k2.1 k2.2).1
          by_cases hz : (p9pdu_read pdu1 len).1 ≠ 0
          · rw [if_pos hz] at h
            simp only [Option.some.injEq] at h
            subst h
            exact read_keeps_trans _ _ _ k1 k3
          · rw [if_neg hz] at h
            simp only [Option.some.injEq] at h
            subst h
            exact read_keeps_trans _ _ _ k1 k3
        · exact absurd h (by simp)
  rw [if_neg c5] at h
  by_cases c6 : c = 'u'
  · rw [if_pos c6] at h
    exact scal _ _ h
  rw [if_neg c6] at h
  by_cases c7 : c = 'g'
  · rw [if_pos c7] at h
    exact scal _ _ h
  rw [if_neg c7] at h
  by_cases c8 : c = 'Q'
  · rw [if_pos c8] at h
    cases hn : nested ['b', 'd', 'q'] pdu with
    | none => rw [hn] at h; exact absurd h (by simp)
    | some y =>
      obtain ⟨err, pdu1, vs⟩ := y
      rw [hn] at h
      have k1 : read_keeps pdu pdu1 := Hn _ pdu _ hi hc hn
      simp only at h
      by_cases he : err ≠ 0
      · rw [if_pos he] at h
        simp only [Option.some.injEq] at h
        subst h
        exact k1
      · rw [if_neg he] at h
        split at h
        · simp only [Option.some.injEq] at h
          subst h
          exact k1
        · exact absurd h (by simp)
  rw [if_neg c8] at h
  by_cases c9 : c = 'S'
  · rw [if_pos c9] at h
    cases hn : nested fmt_S pdu with
    | none => rw [hn] at h; exact absurd h (by simp)
    | some y =>
      obtain ⟨err, pdu1, vs⟩ := y
      rw [hn] at h
      have k1 : read_keeps pdu pdu1 := Hn _ pdu _ hi hc hn
      simp only at h
      by_cases he : err ≠ 0
      · rw [if_pos he] at h
        simp only [Option.some.injEq] at h
        subst h
        exact k1
      · rw [if_neg he] at h
        split at h
        · simp only [Option.some.injEq] at h
          subst h
          exact k1
        · exact absurd h (by simp)
  rw [if_neg c9] at h
  by_cases c10 : c = 'D'
  · rw [if_pos c10] at h
    cases hn : nested ['d'] pdu with
    | none => rw [hn] at h; exact absurd h (by simp)
    | some y =>
      obtain ⟨err, pdu1, vs⟩ := y
      rw [hn] at h
      have k1 : read_keeps pdu pdu1 := Hn _ pdu _ hi hc hn
      simp only at h
      by_cases he : err ≠ 0
      · rw [if_pos he] at h
        simp only [Option.some.injEq] at h
        subst h
        exact k1
      · rw [if_neg he] at h
        split at h
        · simp only [Option.some.injEq] at h
          subst h
          exact k1
        · exact absurd h (by simp)
  rw [if_neg c10] at h
  by_cases c11 : c = 'T'
  · rw [if_pos c11] at h
    cases hn : nested ['w'] pdu with
    | none => rw [hn] at h; exact absurd h (by simp)
    | some y =>
      obtain ⟨err, pdu1, vs⟩ := y
      rw [hn] at h
      have k1 : read_keeps pdu pdu1 := Hn _ pdu _ hi hc hn
      have k2 := read_keeps_inv pdu pdu1 k1 hi hc
      simp only at h
      by_cases he : err ≠ 0
      · rw [if_pos he] at h
        simp only [Option.some.injEq] at h
        subst h
        exact k1
      · rw [if_neg he] at h
        split at h
        · rename_i nwname
          cases hv : vreadf_each (nested ['s']) nwname pdu1 with
          | none => rw [hv] at h; exact absurd h (by simp)
          | some z =>
            obtain ⟨err2, pdu2, ws⟩ := z
            rw [hv] at h
            have k3 := vreadf_each_keeps (nested ['s']) (fun p x a b e => Hn _ p x a b e)
              nwname pdu1 _ k2.1 k2.2 hv
            simp only at h
            by_cases he2 : err2 ≠ 0
            · rw [if_pos he2] at h
              simp only [Option.some.injEq] at h
              subst h
              exact read_keeps_trans _ _ _ k1 k3
            · rw [if_neg he2] at h
              simp only [Option.some.injEq] at h
              subst h
              exact read_keeps_trans _ _ _ k1 k3
        · exact absurd h (by simp)
  rw [if_neg c11] at h
  by_cases c12 : c = 'R'
  · rw [if_pos c12] at h
    cases hn : nested ['w'] pdu with
    | none => rw [hn] at h; exact absurd h (by simp)
    | some y =>
      obtain ⟨err, pdu1, vs⟩ := y
      rw [hn] at h
      have k1 : read_keeps pdu pdu1 := Hn _ pdu _ hi hc hn
      have k2 := read_keeps_inv pdu pdu1 k1 hi hc
      simp only at h
      by_cases he : err ≠ 0
      · rw [if_pos he] at h
        simp only [Option.some.injEq] at h
        subst h
        exact k1
      · rw [if_neg he] at h
        split at h
        · rename_i nwqid
          cases hv : vreadf_each (nested ['Q']) nwqid pdu1 with
          | none => rw [hv] at h; exact absurd h (by simp)
          | some z =>
            obtain ⟨err2, pdu2, ws⟩ := z
            rw [hv] at h
            have k3 := vreadf_each_keeps (nested ['Q']) (fun p x a b e => Hn _ p x a b e)
              nwqid pdu1 _ k2.1 k2.2 hv
            simp only at h
            by_cases he2 : err2 ≠ 0
            · rw [if_pos he2] at h
              simp only [Option.some.injEq] at h
              subst h
              exact read_keeps_trans _ _ _ k1 k3
            · rw [if_neg he2] at h
              simp only [Option.some.injEq] at h
              subst h
              exact read_keeps_trans _ _ _ k1 k3
        · exact absurd h (by simp)
  rw [if_neg c12] at h
  by_cases c13 : c = 'A'
  · rw [if_pos c13] at h
    cases hn : nested fmt_A pdu with
    | none => rw [hn] at h; exact absurd h (by simp)
    | some y =>
      obtain ⟨err, pdu1, vs⟩ := y
      rw [hn] at h
      have k1 : read_keeps pdu pdu1 := Hn _ pdu _ hi hc hn
      simp only at h
      by_cases he : err ≠ 0
      · rw [if_pos he] at h
        simp only [Option.some.injEq] at h
        subst h
        exact k1
      · rw [if_neg he] at h
        split at h
        · simp only [Option.some.injEq] at h
          subst h
          exact k1
        · exact absurd h (by simp)
  rw [if_neg c13] at h
  simp only [Option.some.injEq] at h
  subst h
  exact read_keeps_refl pdu hi.1

theorem vreadf_loop_keeps (pv : Nat) (step : Char → p9_fcall → RRes)
    (Hs : ∀ c p r, cursor_inv p → p.capacity < 2 ^ 32 → step c p = some r →
      read_keeps p r.2.1) :
    ∀ (fmt : List Char) (p : p9_fcall) (r : Int × p9_fcall × List Val),
      cursor_inv p → p.capacity < 2 ^ 32 →
      vreadf_loop pv step fmt p = some r → read_keeps p r.2.1 := by
  intro fmt
  induction fmt with
  | nil =>
    intro p r hi _ h
    simp only [vreadf_loop, Option.some.injEq] at h
    subst h
    exact read_keeps_refl p hi.1
  | cons c rest ih =>
    intro p r hi hc h
    unfold vreadf_loop at h
    by_cases hq : c = '?'
    · rw [if_pos hq] at h
      by_cases hp : pv ≠ p9_proto_2000u ∧ pv ≠ p9_proto_2000L
      · rw [if_pos hp] at h
        simp only [Option.some.injEq] at h
        subst h
        exact read_keeps_refl p hi.1
      · rw [if_neg hp] at h
        exact ih p r hi hc h
    · rw [if_neg hq] at h
      cases hst : step c p with
      | none => rw [hst] at h; exact absurd h (by simp)
      | some x =>
        obtain ⟨err, p1, vs⟩ := x
        rw [hst] at h
        have k1 : read_keeps p p1 := Hs c p _ hi hc hst
        have k2 := read_keeps_inv p p1 k1 hi hc
        simp only at h
        by_cases he : err ≠ 0
        · rw [if_pos he] at h
          simp only [Option.some.injEq] at h
          subst h
          exact k1
        · rw [if_neg he] at h
          cases hv : vreadf_loop pv step rest p1 with
          | none => rw [hv] at h; exact absurd h (by simp)
          | some z =>
            obtain ⟨err2, p2, ws⟩ := z
            rw [hv] at h
            simp only [Option.some.injEq] at h
            subst h
            exact read_keeps_trans _ _ _ k1 (ih p1 (err2, p2, ws) k2.1 k2.2 hv)

theorem p9pdu_vreadf_keeps (pv : Nat) :
    ∀ (depth : Nat) (fmt : List Char) (p : p9_fcall) (r : Int × p9_fcall × List Val),
      cursor_inv p → p.capacity < 2 ^ 32 →
      p9pdu_vreadf depth pv fmt p = some r → read_keeps p r.2.1 := by
  intro depth
  induction depth with
  | zero =>
    intro fmt p r _ _ h
    simp [p9pdu_vreadf] at h
  | succ n ih =>
    intro fmt p r hi hc h
    unfold p9pdu_vreadf at h
    exact vreadf_loop_keeps pv _
      (fun c q x h1 h2 h3 => vreadf_case_keeps _ ih c q x h1 h2 h3) fmt p r hi hc h

/-- C40: for every PDU with `offset <= size <= capacity` (the capacity
being a 32-bit quantity, as every capacity set by `p9_fcall_alloc` is),
`p9pdu_read`, `p9pdu_write`, `p9pdu_readf` and `p9pdu_writef`, whether they
succeed or fail, leave a PDU with `offset <= size <= capacity`.  The decoding
functions change nothing but the cursor, which moves forward and stays within
`size`, so every byte they hand out lies below `size`; the encoding functions
leave the cursor, the capacity and every byte at or beyond the capacity as
they were, and `size` does not shrink.  `p9pdu_read` and `p9pdu_write` return
the number of requested bytes minus the number of bytes the cursor,
respectively `size`, has advanced by. -/
theorem C40_cursor_invariant (pdu : p9_fcall) (hi : cursor_inv pdu)
    (hc : pdu.capacity < 2 ^ 32) :
    (∀ n, cursor_inv (p9pdu_read pdu n).2.1 ∧ read_keeps pdu (p9pdu_read pdu n).2.1 ∧
      (p9pdu_read pdu n).1 + ((p9pdu_read pdu n).2.1.offset - pdu.offset) = n ∧
      (p9pdu_read pdu n).2.2
        = (pdu.sdata.drop pdu.offset).take ((p9pdu_read pdu n).2.1.offset - pdu.offset)) ∧
    (∀ data n, cursor_inv (p9pdu_write pdu data n).2 ∧
      write_keeps pdu (p9pdu_write pdu data n).2 ∧
      (p9pdu_write pdu data n).1 + ((p9pdu_write pdu data n).2.size - pdu.size) = n) ∧
    (∀ proto_version fmt r, p9pdu_readf pdu proto_version fmt = some r →
      cursor_inv r.2.1 ∧ read_keeps pdu r.2.1) ∧
    (∀ proto_version fmt args r, p9pdu_writef pdu proto_version fmt args = some r →
      cursor_inv r.2 ∧ write_keeps pdu r.2) := by
  have winv : ∀ q, write_keeps pdu q → cursor_inv q := by
    intro q k
    obtain ⟨a1, a2, a3, a4, _⟩ := k
    exact ⟨by rw [a2]; exact le_trans hi.1 a3, a4⟩
  refine ⟨?_, ?_, ?_, ?_⟩
  · intro n
    have k := p9pdu_read_keeps pdu n hi hc
    refine ⟨(read_keeps_inv pdu _ k.1 hi hc).1, k.1, k.2.1, ?_⟩
    rw [k.2.2]
    congr 1
    omega
  · intro data n
    have k := p9pdu_write_keeps pdu data n hi.2 hc
    exact ⟨winv _ k.1, k.1, k.2⟩
  · intro proto_version fmt r h
    have k := p9pdu_vreadf_keeps proto_version 3 fmt pdu r hi hc h
    exact ⟨(read_keeps_inv pdu _ k hi hc).1, k⟩
  · intro proto_version fmt args r h
    have k := p9pdu_vwritef_keeps proto_version 3 fmt pdu args r hi.2 hc h
    exact ⟨winv _ k, k⟩

theorem C40_witness :
    cursor_inv ⟨7, 0, 0, 7, 16, List.replicate 16 0⟩ ∧
      cursor_inv (p9pdu_write ⟨7, 0, 0, 7, 16, List.replicate 16 0⟩
        [1, 2, 3, 4, 5, 6, 7, 8, 9, 10, 11, 12] 12).2 ∧
      (p9pdu_write ⟨7, 0, 0, 7, 16, List.replicate 16 0⟩
        [1, 2, 3, 4, 5, 6, 7, 8, 9, 10, 11, 12] 12).1 = 3 :=
  ⟨by decide,
    ((C40_cursor_invariant ⟨7, 0, 0, 7, 16, List.replicate 16 0⟩ (by decide) (by decide)).2.1
      [1, 2, 3, 4, 5, 6, 7, 8, 9, 10, 11, 12] 12).1, by decide⟩

/-! ## The sizes of a read -/

theorem read_rsize_le (iounit msize : Nat) (count : Int) :
    read_rsize iounit msize count ≤ count := by
  unfold read_rsize
  dsimp only
  split_ifs <;> omega

theorem read_count_le (rsize : Int) (cnt : Nat) : read_count rsize cnt ≤ rsize := by
  unfold read_count
  split_ifs <;> omega

theorem read_loop_total_le
    (rpc : session → Nat → List Char → List Val → Option (session × Option Slot))
    (fid : p9_fid) :
    ∀ (fuel : Nat) (s : session) (len : Nat) (total : Int) (offset : Nat) (err : Int)
      (uv : Nat × List Nat) (res : Int × Int × session × (Nat × List Nat)),
      len < 2 ^ 31 → read_loop rpc fid fuel s len total offset err uv = some res →
      total ≤ res.1 ∧ res.1 ≤ total + len := by
  intro fuel
  induction fuel with
  | zero =>
    intro s len total offset err uv res _ h
    simp [read_loop] at h
  | succ n ih =>
    intro s len total offset err uv res hlen h
    unfold read_loop at h
    by_cases hl0 : len = 0
    · rw [if_pos hl0] at h
      simp only [Option.some.injEq] at h
      subst h
      exact ⟨le_refl _, by omega⟩
    · rw [if_neg hl0] at h
      simp only [Option.bind_eq_some] at h
      obtain ⟨r, _, h⟩ := h
      cases hr2 : r.2 with
      | none =>
        rw [hr2] at h
        simp only [Option.some.injEq] at h
        subst h
        exact ⟨le_refl _, by omega⟩
      | some req =>
        rw [hr2] at h
        simp only [Option.bind_eq_some] at h
        obtain ⟨d, _, c, _, h⟩ := h
        by_cases hd1 : d.1 ≠ 0
        · rw [if_pos hd1] at h
          simp only [Option.some.injEq] at h
          subst h
          exact ⟨le_refl _, by omega⟩
        · rw [if_neg hd1] at h
          split at h
          · rename_i cnt dataptr _
            have b1 := read_count_le
              (read_rsize fid.iounit s.clnt._msize (to_int32 len)) cnt
            have b2 := read_rsize_le fid.iounit s.clnt._msize (to_int32 len)
            rw [to_int32_small len hlen] at b1 b2
            rw [to_int32_small len hlen] at h
            by_cases hz : read_count (read_rsize fid.iounit s.clnt._msize (len : Int)) cnt = 0
            · rw [if_pos hz] at h
              simp only [Option.some.injEq] at h
              subst h
              exact ⟨le_refl _, by omega⟩
            · rw [if_neg hz] at h
              by_cases hneg :
                  read_count (read_rsize fid.iounit s.clnt._msize (len : Int)) cnt < 0
              · rw [if_pos hneg] at h
                exact absurd h (by simp)
              · rw [if_neg hneg] at h
                have hmv : min (read_count (read_rsize fid.iounit s.clnt._msize
                    (len : Int)) cnt).toNat uv.1 ≤ len := by
                  have := Nat.min_le_left (read_count (read_rsize fid.iounit s.clnt._msize
                    (len : Int)) cnt).toNat uv.1
                  omega
                simp only [uiomove_to] at h
                split_ifs at h
                · simp only [Option.some.injEq] at h
                  subst h
                  refine ⟨?_, ?_⟩
                  · show total ≤ total + _
                    omega
                  · show total + _ ≤ total + (len : Int)
                    omega
                · have e := ih _ _ _ _ _ _ res (by omega) h
                  omega
          · exact absurd h (by simp)

/-- C25 (counterexample): with `len = 2^31 + 5`, `int count = len` is
negative, so `rsize` becomes that negative number and the `Tread` handed to
the transport asks for 0x80000005 bytes (bytes 19 to 22 of the message), not
for `min(len, msize - 24) = 40`. -/
theorem C25_counterexample :
    read_rsize demo_open_fid.iounit demo_session.clnt._msize (to_int32 2147483653)
        = -2147483643 ∧
      (p9_client_read 1 (const_env ⟨-5, REQ_STATUS_SENT, 0, reply_buf [], none⟩) 1 demo_session
          demo_open_fid (0, []) 0 2147483653).map
        (fun r => r.2.2.1.sent.map fun tc => (tc.sdata.drop 19).take 4)
        = some [[5, 0, 0, 128]] ∧
      min 2147483653 (demo_session.clnt._msize - 24) = 40 := by
  refine ⟨?_, ?_, ?_⟩ <;> decide

/-- C25 (amended): for `len` below `2^31` and `24 <= msize` with
`msize - 24` below `2^31`, the `rsize` that the loop of `p9_client_read`
computes for a `Tread` is `min(remaining, u)`, where `u` is the FID's
`iounit` when that is non-zero and at most `msize - 24`, and `msize - 24`
otherwise; the count taken from a reply never exceeds `rsize`; and, taking
`uiomove` to report the number of bytes it moved, the total returned by the
loop is between the total it started with and that total plus `len`, whatever
the session, the FID and the answers to the requests are. -/
theorem C25_read_sizes (iounit msize len : Nat) (hlen : len < 2 ^ 31) (hm : 24 ≤ msize)
    (hm2 : msize - 24 < 2 ^ 31) (hi : iounit < 2 ^ 32) :
    read_rsize iounit msize (to_int32 len)
      = ((min len (if iounit ≠ 0 ∧ iounit ≤ msize - 24 then iounit else msize - 24) : Nat)
          : Int) ∧
    int_bits (read_rsize iounit msize (to_int32 len))
      = min len (if iounit ≠ 0 ∧ iounit ≤ msize - 24 then iounit else msize - 24) ∧
    (∀ rsize cnt, read_count rsize cnt ≤ rsize) ∧
    (∀ rpc fid fuel s total offset err uv res,
      read_loop rpc fid fuel s len total offset err uv = some res →
      total ≤ res.1 ∧ res.1 ≤ total + len) := by
  have key : read_rsize iounit msize (to_int32 len)
      = ((min len (if iounit ≠ 0 ∧ iounit ≤ msize - 24 then iounit else msize - 24) : Nat)
          : Int) := by
    have e1 : (msize + 2 ^ 32 - P9_IOHDRSZ) % 2 ^ 32 = msize - 24 := by
      simp only [P9_IOHDRSZ]
      omega
    have e2 : iounit % 2 ^ 32 = iounit := Nat.mod_eq_of_lt hi
    have e3 : to_int32 (msize - 24) = ((msize - 24 : Nat) : Int) := to_int32_small _ hm2
    have e4 : to_int32 len = (len : Int) := to_int32_small _ hlen
    unfold read_rsize
    simp only [e1, e2, e3, e4]
    by_cases hbig : iounit ≤ msize - 24
    · have e5 : to_int32 iounit = (iounit : Int) := to_int32_small _ (by omega)
      rw [e5]
      by_cases h0 : iounit = 0
      · subst h0
        simp only [Nat.cast_zero, true_or, if_true, ne_eq, not_true_eq_false, false_and,
          if_false]
        split_ifs <;> omega
      · have hc1 : ¬ ((iounit : Int) = 0 ∨ iounit > msize - 24) := by omega
        have hc2 : iounit ≠ 0 ∧ iounit ≤ msize - 24 := ⟨h0, hbig⟩
        rw [if_neg hc1, if_pos hc2]
        split_ifs <;> omega
    · have hc1 : to_int32 iounit = 0 ∨ iounit > msize - 24 := Or.inr (by omega)
      have hc2 : ¬ (iounit ≠ 0 ∧ iounit ≤ msize - 24) := fun h => hbig h.2
      rw [if_pos hc1, if_neg hc2]
      split_ifs <;> omega
  refine ⟨key, ?_, read_count_le, ?_⟩
  · rw [key]
    unfold int_bits
    have hb : min len (if iounit ≠ 0 ∧ iounit ≤ msize - 24 then iounit else msize - 24)
        < 2 ^ 31 := lt_of_le_of_lt (Nat.min_le_left _ _) hlen
    omega
  · intro rpc fid fuel s total offset err uv res h
    exact read_loop_total_le rpc fid fuel s len total offset err uv res hlen h

theorem C25_witness :
    read_rsize 0 64 (to_int32 100) = ((min 100 (if (0 : Nat) ≠ 0 ∧ 0 ≤ 64 - 24 then 0
        else 64 - 24) : Nat) : Int) ∧
      int_bits (read_rsize 0 64 (to_int32 100)) = 40 :=
  ⟨(C25_read_sizes 0 64 100 (by decide) (by decide) (by decide) (by decide)).1,
    (C25_read_sizes 0 64 100 (by decide) (by decide) (by decide) (by decide)).2.1⟩

/-! ## Short reads -/

theorem read_round_some
    (rpc : session → Nat → List Char → List Val → Option (session × Option Slot))
    (fid : p9_fid) (s s1 : session) (len offset : Nat) (k : Int)
    (h : read_round rpc fid s len offset = some (k, s1)) :
    ∃ (s2 : session) (req : Slot) (d : Int × p9_client × List Val) (c : p9_client)
      (cnt dataptr : Nat),
      rpc s P9_TREAD ['d', 'q', 'd']
        [Val.d fid.fid, Val.q offset,
         Val.d (int_bits (read_rsize fid.iounit s.clnt._msize (to_int32 len)))]
        = some (s2, some req) ∧
      req_readf s2.clnt req ['D'] = some d ∧ p9_free_req d.2.1 req = some c ∧ d.1 = 0 ∧
      d.2.2 = [Val.D cnt dataptr] ∧
      k = read_count (read_rsize fid.iounit s.clnt._msize (to_int32 len)) cnt ∧
      s1 = { s2 with clnt := c } := by
  unfold read_round at h
  simp only [Option.bind_eq_some] at h
  obtain ⟨r, hr, h⟩ := h
  obtain ⟨s2, o⟩ := r
  cases o with
  | none => simp at h
  | some req =>
    simp only [Option.bind_eq_some] at h
    obtain ⟨d, hd, c, hc, h⟩ := h
    by_cases hd1 : d.1 ≠ 0
    · rw [if_pos hd1] at h
      exact absurd h (by simp)
    · rw [if_neg hd1] at h
      split at h
      · rename_i cnt dataptr heq
        simp only [Option.some.injEq, Prod.mk.injEq] at h
        exact ⟨s2, req, d, c, cnt, dataptr, hr, hd, hc, not_not.mp hd1, heq, h.1.symm,
          h.2.symm⟩
      · exact absurd h (by simp)

theorem read_loop_round
    (rpc : session → Nat → List Char → List Val → Option (session × Option Slot))
    (fid : p9_fid) (fuel : Nat) (s s1 : session) (len offset : Nat) (total err : Int)
    (uv : Nat × List Nat) (k : Int) (hl : len ≠ 0)
    (h : read_round rpc fid s len offset = some (k, s1)) :
    ∃ data : List Nat,
      read_loop rpc fid (fuel + 1) s len total offset err uv
        = if k = 0 then some (total, 0, s1, uv)
          else if k < 0 then none
          else if ((uiomove_to data k.toNat uv).1 : Int) ≠ k then
            some (total + (uiomove_to data k.toNat uv).1, -EFAULT, s1,
                  (uiomove_to data k.toNat uv).2)
          else
            read_loop rpc fid fuel s1 ((len + 2 ^ 64 - (uiomove_to data k.toNat uv).1) % 2 ^ 64)
              (total + (uiomove_to data k.toNat uv).1)
              ((offset + (uiomove_to data k.toNat uv).1) % 2 ^ 64) 0
              (uiomove_to data k.toNat uv).2 := by
  obtain ⟨s2, req, d, c, cnt, dataptr, hr, hd, hc, hd1, hv, hk, hs1⟩ :=
    read_round_some rpc fid s s1 len offset k h
  refine ⟨req_data d.2.1 req dataptr k.toNat, ?_⟩
  have hd0 : ¬ d.1 ≠ 0 := by simp [hd1]
  rw [read_loop, if_neg hl]
  simp only [hr, Option.some_bind, hd, hc, if_neg hd0, hv, ← hk, ← hs1]

theorem read_loop_replies
    (rpc : session → Nat → List Char → List Val → Option (session × Option Slot))
    (fid : p9_fid) :
    ∀ (counts : List Nat) (s : session) (len : Nat) (total : Int) (offset : Nat)
      (uv : Nat × List Nat) (extra : Nat),
      len < 2 ^ 64 → counts.sum ≤ len →
      read_replies rpc fid counts s len offset uv.1 = true →
      (read_loop rpc fid (counts.length + 1 + extra) s len total offset 0 uv).map
          (fun r => (r.1, r.2.1, r.2.2.2.1))
        = some (total + (counts.sum : Nat), 0, uv.1 - counts.sum) := by
  intro counts
  induction counts with
  | nil =>
    intro s len total offset uv extra _ _ h
    simp only [read_replies, Bool.or_eq_true, decide_eq_true_eq] at h
    simp only [List.length_nil, List.sum_nil, Nat.cast_zero, add_zero, Nat.sub_zero, Nat.zero_add]
    rw [Nat.add_comm 1 extra]
    by_cases hl : len = 0
    · rw [read_loop, if_pos hl]
      rfl
    · rcases h with h | h
      · exact absurd h hl
      · cases hr : read_round rpc fid s len offset with
        | none => rw [hr] at h; exact absurd h (by simp)
        | some x =>
          obtain ⟨k, s1⟩ := x
          rw [hr] at h
          simp only [decide_eq_true_eq] at h
          obtain ⟨data, e⟩ := read_loop_round rpc fid extra s s1 len offset total 0 uv k hl hr
          rw [e, if_pos h]
          rfl
  | cons k ks ih =>
    intro s len total offset uv extra hlen hsum h
    simp only [read_replies, Bool.and_eq_true, decide_eq_true_eq] at h
    obtain ⟨hl, h⟩ := h
    cases hr : read_round rpc fid s len offset with
    | none => rw [hr] at h; exact absurd h (by simp)
    | some x =>
      obtain ⟨k1, s1⟩ := x
      rw [hr] at h
      simp only [Bool.and_eq_true, decide_eq_true_eq] at h
      obtain ⟨⟨hk1, hkpos, hkres⟩, hrest⟩ := h
      simp only [List.sum_cons] at hsum ⊢
      obtain ⟨data, e⟩ := read_loop_round rpc fid (ks.length + 1 + extra) s s1 len offset
        total 0 uv k1 hl hr
      have hfuel : (k :: ks).length + 1 + extra = (ks.length + 1 + extra) + 1 := by
        simp only [List.length_cons]
        omega
      rw [hfuel, e]
      have hk0 : ¬ k1 = 0 := by omega
      have hkn : ¬ k1 < 0 := by omega
      have hto : k1.toNat = k := by omega
      have hmv : (uiomove_to data k uv).1 = k := by
        simp only [uiomove_to]
        exact Nat.min_eq_left hkres
      have hmv2 : (uiomove_to data k uv).2.1 = uv.1 - k := by
        simp only [uiomove_to]
        rw [Nat.min_eq_left hkres]
      have hne : ¬ (((uiomove_to data k uv).1 : Nat) : Int) ≠ k1 := by
        rw [hmv, hk1]
        simp
      rw [if_neg hk0, if_neg hkn, hto, if_neg hne, hmv]
      have hlen2 : (len + 2 ^ 64 - k) % 2 ^ 64 < 2 ^ 64 := Nat.mod_lt _ (by decide)
      have hlen3 : (len + 2 ^ 64 - k) % 2 ^ 64 = len - k := by omega
      have hrest2 : read_replies rpc fid ks s1 ((len + 2 ^ 64 - k) % 2 ^ 64)
          ((offset + k) % 2 ^ 64) (uiomove_to data k uv).2.1 = true := by
        rw [hmv2]
        exact hrest
      have := ih s1 ((len + 2 ^ 64 - k) % 2 ^ 64) (total + (k : Int)) ((offset + k) % 2 ^ 64)
        (uiomove_to data k uv).2 extra hlen2 (by omega) hrest2
      rw [this, hmv2]
      simp only [Option.some.injEq, Prod.mk.injEq]
      refine ⟨?_, trivial, ?_⟩
      · push_cast
        ring
      · omega

/-- C26: taking `uiomove` to report the number of bytes it moved, when the
successive `Tread`s of a `p9_client_read`, each issued at the offset advanced
by the bytes delivered so far, are answered with the counts `c1, ..., ck`
(each positive after the clamp and within what the user vector takes, their
sum at most `len`), and then either `len` bytes have been delivered or
the next reply carries the count 0, `p9_client_read` returns
`c1 + ... + ck` with `*err == 0` and the user vector has taken that many
bytes; a reply shorter than requested does not end the loop and is not an
error. -/
theorem C26_short_reads_are_summed (depth : Nat) (env : Nat → trans_reply) (s : session)
    (fid : p9_fid) (uv : Nat × List Nat) (offset len : Nat) (counts : List Nat) (extra : Nat)
    (hlen : len < 2 ^ 64) (hsum : counts.sum ≤ len)
    (hrep : read_replies (p9_client_rpc depth env) fid counts s len offset uv.1 = true) :
    (p9_client_read depth env (counts.length + 1 + extra) s fid uv offset len).map
        (fun r => (r.1, r.2.1, r.2.2.2.1))
      = some (((counts.sum : Nat) : Int), 0, uv.1 - counts.sum) := by
  have h := read_loop_replies (p9_client_rpc depth env) fid counts s len 0 offset uv extra
    hlen hsum hrep
  rw [zero_add] at h
  exact h

theorem C26_witness :
    read_replies (p9_client_rpc 1 demo_read_env) demo_open_fid [64] demo_read_session 128 0
        (128, ([] : List Nat)).1 = true ∧
      (p9_client_read 1 demo_read_env ([64].length + 1 + 0) demo_read_session demo_open_fid
          (128, []) 0 128).map (fun r => (r.1, r.2.1, r.2.2.2.1))
        = some (((([64] : List Nat).sum : Nat) : Int), 0, 128 - ([64] : List Nat).sum) ∧
      (p9_client_read 1 demo_read_env 2 demo_read_session demo_open_fid (128, []) 0 128).map
          (fun r => r.2.2.1.sent.map fun tc => ((tc.sdata.drop 11).take 8, (tc.sdata.drop 19).take 4))
        = some [([0, 0, 0, 0, 0, 0, 0, 0], [104, 0, 0, 0]),
                ([64, 0, 0, 0, 0, 0, 0, 0], [64, 0, 0, 0])] :=
  ⟨by decide,
    C26_short_reads_are_summed 1 demo_read_env demo_read_session demo_open_fid (128, []) 0 128
      [64] 0 (by decide) (by decide) (by decide),
    by decide⟩

end P9
